import Mathlib

/-!
# Aqsis surface tessellation: knot-vector algebra and bilinear patches

A shallow embedding of `src/render/nurbs.cpp` (class `CqSurfaceNURBS`) and of
`src/prototypes/newcore/surfaces.h` (class `Patch`), followed by theorems about them.

Conventions of the embedding.

* `TqFloat` values are exact rationals (`ℚ`).  Division is the field division of `ℚ`; a zero
  denominator (an infinity or NaN in the source) gives `0` here.
* `std::vector` objects are lists.  Subscripts are integers (`TqInt` and `TqUint` expressions are
  evaluated in `ℤ`).  `rd` and `wr` are the subscript read and write: a write whose subscript is
  outside the vector leaves the vector as it is, a read outside the vector gives the zero value.
* `for` loops with a counter are `forUp` / `forDown`; loops whose trip count is not manifest
  (`while` in `FindSpanU`) take a fuel argument and return `none` when the fuel runs out.
* The bilinear patch of surfaces.h, whose numbers are of the type `float`, has a second
  reading: the definitions whose names end in `32` round every operation on `float` values to
  binary32 (section "The type `float`").
* The square root of the C library has irrational values; functions that call it (`Diceable`,
  `Patch::tessellate`) take it as a parameter `sqrt : ℚ → ℚ`, and so they take the matrix
  products whose code is outside the sources.  `Diceable` has no result (`none`) where it
  divides by a square root that is zero or taken of a number that is not positive.
-/

namespace Aqsis

/-! ## Vectors and loops -/

/-- Subscript read `a[i]`; zero outside the vector. -/
def rd {α : Type} [Zero α] (a : List α) (i : Int) : α :=
  if 0 ≤ i then a.getD i.toNat 0 else 0

/-- Subscript write `a[i] = v`; no effect outside the vector. -/
def wr {α : Type} (a : List α) (i : Int) (v : α) : List α :=
  if 0 ≤ i then a.set i.toNat v else a

/-- The call `a.resize(n)` (also `SetSize`): keeps the first `n` elements, pads with zero. -/
def resize {α : Type} [Zero α] (a : List α) (n : Nat) : List α :=
  a.take n ++ List.replicate (n - a.length) 0

/-- Loop `for (i = lo; i < hi; i++) st = body i st`. -/
def forUp {σ : Type} (lo hi : Int) (body : Int → σ → σ) (st : σ) : σ :=
  (List.range (hi - lo).toNat).foldl (fun s (t : Nat) => body (lo + (t : Int)) s) st

/-- Loop `for (i = hi; i >= lo; i--) st = body i st`. -/
def forDown {σ : Type} (hi lo : Int) (body : Int → σ → σ) (st : σ) : σ :=
  (List.range (hi + 1 - lo).toNat).foldl (fun s (t : Nat) => body (hi - (t : Int)) s) st

/-! ## Value types

`CqVector3D`, `CqVector4D` and `CqColor` are declared in headers that are not part of the
sources at hand. -/

/-- Modelled from the spec: `CqVector4D` (vector4d.h is missing).  The spec's control net is an
array of `hpoint (x,y,z,w)` and "weighted rational evaluation uses homogeneous coordinates
throughout and projects only when reporting final positions": sums and scalar multiples act on
the four homogeneous coordinates. -/
structure CqVector4D where
  x : ℚ
  y : ℚ
  z : ℚ
  h : ℚ
  deriving DecidableEq, Repr

namespace CqVector4D

instance : Zero CqVector4D := ⟨⟨0, 0, 0, 0⟩⟩
instance : Add CqVector4D := ⟨fun a b => ⟨a.x + b.x, a.y + b.y, a.z + b.z, a.h + b.h⟩⟩
instance : SMul ℚ CqVector4D := ⟨fun c a => ⟨c * a.x, c * a.y, c * a.z, c * a.h⟩⟩

end CqVector4D

/-- Modelled from the spec: `CqVector3D` / `CqColor` (vector3d.h, color.h are missing): three
floats with componentwise sum and scalar multiple. -/
structure CqVector3D where
  x : ℚ
  y : ℚ
  z : ℚ
  deriving DecidableEq, Repr

namespace CqVector3D

instance : Zero CqVector3D := ⟨⟨0, 0, 0⟩⟩
instance : Add CqVector3D := ⟨fun a b => ⟨a.x + b.x, a.y + b.y, a.z + b.z⟩⟩
instance : SMul ℚ CqVector3D := ⟨fun c a => ⟨c * a.x, c * a.y, c * a.z⟩⟩

end CqVector3D

/-- Conversion of a `TqFloat` to `TqInt` (truncation towards zero). -/
def truncToInt (q : ℚ) : ℤ := if 0 ≤ q then ⌊q⌋ else ⌈q⌉

/-- The expression `alpha * a + (1 - alpha) * b` on a value type with sum and scalar multiple. -/
def blend {α : Type} [Add α] [SMul ℚ α] (alpha : ℚ) (a b : α) : α :=
  alpha • a + (1 - alpha) • b

/-- The same expression stored into a `TqInt`. -/
def blendInt (alpha : ℚ) (a b : ℤ) : ℤ :=
  truncToInt (alpha * (a : ℚ) + (1 - alpha) * (b : ℚ))

/-! ## Primitive variables -/

/-- Modelled from the spec: `EqVariableClass` (the header that declares it is missing): the
closed set of interpolation classes of a primitive variable. -/
inductive EqVariableClass
  | class_constant
  | class_uniform
  | class_varying
  | class_vertex
  | class_facevarying
  | class_facevertex
  deriving DecidableEq, Repr

/-- The typed values of a `CqParameter`; the constructor is what `Type()` reports.  Strings and
matrices are opaque slots (their arithmetic is declared outside the sources): only their number
is kept. -/
inductive ParamValues
  | type_float (v : List ℚ)
  | type_integer (v : List ℤ)
  | type_point (v : List CqVector3D)
  | type_normal (v : List CqVector3D)
  | type_vector (v : List CqVector3D)
  | type_hpoint (v : List CqVector4D)
  | type_color (v : List CqVector3D)
  | type_string (size : Nat)
  | type_matrix (size : Nat)
  deriving DecidableEq, Repr

/-- A user parameter: `Class()` and the typed value array. -/
structure CqParameter where
  Class : EqVariableClass
  values : ParamValues
  deriving DecidableEq, Repr

/-- Number of elements of a parameter (`Size()`). -/
def ParamValues.Size : ParamValues → Nat
  | .type_float v => v.length
  | .type_integer v => v.length
  | .type_point v => v.length
  | .type_normal v => v.length
  | .type_vector v => v.length
  | .type_hpoint v => v.length
  | .type_color v => v.length
  | .type_string n => n
  | .type_matrix n => n

/-! ## The NURBS surface -/

/-- Modelled from the spec: `EqSplitDir` (surface.h is missing), the axis that a split halves. -/
inductive EqSplitDir
  | SplitDir_U
  | SplitDir_V
  deriving DecidableEq, Repr

/-- State of a `CqSurfaceNURBS` that the knot operations, the dicing decision and the splitting
read and write.  The members from `m_fDiceable` to `m_vDiceSize` and `m_EyeSplitCount` belong to
the base class (surface.h is missing); the defaults are the values of a fresh surface. -/
structure CqSurfaceNURBS where
  m_cuVerts : Nat
  m_cvVerts : Nat
  m_uOrder : Nat
  m_vOrder : Nat
  m_auKnots : List ℚ
  m_avKnots : List ℚ
  P : List CqVector4D
  m_aUserParams : List CqParameter
  m_fDiceable : Bool := true
  m_fDiscard : Bool := false
  m_SplitDir : EqSplitDir := EqSplitDir.SplitDir_U
  m_uDiceSize : Nat := 0
  m_vDiceSize : Nat := 0
  m_fPatchMesh : Bool := false
  m_EyeSplitCount : Int := 0
  deriving DecidableEq, Repr

namespace CqSurfaceNURBS

/-- Accessor `uDegree()`, that is `m_uOrder - 1` (orders are at least 1). -/
def uDegree (S : CqSurfaceNURBS) : Nat := S.m_uOrder - 1

/-- Accessor `vDegree()`, that is `m_vOrder - 1`. -/
def vDegree (S : CqSurfaceNURBS) : Nat := S.m_vOrder - 1

/-! ### Span lookup (nurbs.cpp 132-179) -/

/-- The `while` loop of `FindSpanU` / `FindSpanV`, entered with `low`, `high`;
`mid = (low + high) / 2` is recomputed at the head of every round. -/
def findSpanLoop (knots : List ℚ) (u : ℚ) : Nat → Nat → Nat → Option Nat
  | 0, _, _ => none
  | fuel + 1, low, high =>
    let mid := (low + high) / 2
    if u < rd knots mid ∨ u ≥ rd knots ((mid : Int) + 1) then
      if u < rd knots mid then findSpanLoop knots u fuel low mid
      else findSpanLoop knots u fuel mid high
    else some mid

/-- Body shared by `FindSpanU` and `FindSpanV` (the two differ only in the members they read). -/
def findSpan (fuel : Nat) (knots : List ℚ) (cVerts order : Nat) (u : ℚ) : Option Nat :=
  if u ≥ rd knots cVerts then some (cVerts - 1)
  else if u ≤ rd knots ((order - 1 : Nat) : Int) then some (order - 1)
  else findSpanLoop knots u fuel 0 (cVerts + 1)

/-- `CqSurfaceNURBS::FindSpanU`. -/
def FindSpanU (fuel : Nat) (S : CqSurfaceNURBS) (u : ℚ) : Option Nat :=
  findSpan fuel S.m_auKnots S.m_cuVerts S.m_uOrder u

/-- `CqSurfaceNURBS::FindSpanV`. -/
def FindSpanV (fuel : Nat) (S : CqSurfaceNURBS) (v : ℚ) : Option Nat :=
  findSpan fuel S.m_avKnots S.m_cvVerts S.m_vOrder v

/-! ### Basis functions (nurbs.cpp 186-206) -/

/-- Working state of `BasisFunctions`: the output `N` and the locals `left`, `right`, `saved`. -/
structure BasisState where
  N : List ℚ
  left : List ℚ
  right : List ℚ
  saved : ℚ

/-- Inner loop body of `BasisFunctions` (index `r`, for the outer index `j`). -/
def basisInner (j : Int) (r : Int) (st : BasisState) : BasisState :=
  let temp := rd st.N r / (rd st.right (r + 1) + rd st.left (j - r))
  { st with N := wr st.N r (st.saved + rd st.right (r + 1) * temp),
            saved := rd st.left (j - r) * temp }

/-- Outer loop body of `BasisFunctions` (index `j`). -/
def basisOuter (u : ℚ) (i : Int) (U : List ℚ) (j : Int) (st : BasisState) : BasisState :=
  let st1 : BasisState :=
    { st with left := wr st.left j (u - rd U (i + 1 - j)),
              right := wr st.right j (rd U (i + j) - u),
              saved := 0 }
  let st2 := forUp 0 j (basisInner j) st1
  { st2 with N := wr st2.N j st2.saved }

/-- `CqSurfaceNURBS::BasisFunctions(u, i, U, k, N)`; the result is the final content of `N`. -/
def BasisFunctions (u : ℚ) (i : Nat) (U : List ℚ) (k : Nat) (N : List ℚ) : List ℚ :=
  let st0 : BasisState :=
    { N := wr N 0 1, left := List.replicate k 0, right := List.replicate k 0, saved := 0 }
  (forUp 1 k (basisOuter u i U) st0).N

/-- Modelled from the spec: `CqSurfaceNURBS::Evaluate` (template in nurbs.h, which is missing):
the surface point is the sum over the span's control points of the products of the U and V basis
functions, the spans coming from `FindSpanU` / `FindSpanV` and the weights from `BasisFunctions`
("compute the position as the weighted bilinear combination of control points"). -/
def Evaluate (fuel : Nat) (S : CqSurfaceNURBS) (u v : ℚ) : Option CqVector4D :=
  match FindSpanU fuel S u, FindSpanV fuel S v with
  | some uspan, some vspan =>
    let Nu := BasisFunctions u uspan S.m_auKnots S.m_uOrder (List.replicate S.m_uOrder 0)
    let Nv := BasisFunctions v vspan S.m_avKnots S.m_vOrder (List.replicate S.m_vOrder 0)
    let uind : Int := (uspan : Int) - S.uDegree
    some (forUp 0 ((S.vDegree : Int) + 1) (fun l acc =>
      let vind : Int := (vspan : Int) - S.vDegree + l
      let temp := forUp 0 ((S.uDegree : Int) + 1) (fun k t =>
        t + rd Nu k • rd S.P (vind * S.m_cuVerts + uind + k)) (0 : CqVector4D)
      acc + rd Nv l • temp) (0 : CqVector4D))
  | _, _ => none

/-! ### Single knot insertion (nurbs.cpp 370-578) -/

/-- Lines 381-389 (and 494-501): `k` is the index of the last knot `<=` the value; it starts at
`size - 1` and is set to `i - 1` at the first `i` whose knot is greater. -/
def lastKnotLE (knots : List ℚ) (u : ℚ) : Int :=
  match knots.findIdx? (fun x => decide (x > u)) with
  | some i => (i : Int) - 1
  | none => (knots.length : Int) - 1

/-- Lines 396-402: `s` after the loop `for (i = k; i > 0; i--)` that starts from `s = 1` and
counts up while `knots[i] <= knots[i-1]`; the argument is the start index `k`. -/
def runLength (knots : List ℚ) : Nat → Int
  | 0 => 1
  | i + 1 => if rd knots ((i : Int) + 1) ≤ rd knots i then runLength knots i + 1 else 1

/-- Lines 392-405: the number `s` of knots at the insertion point equal to the value. -/
def knotMultiplicity (knots : List ℚ) (k : Int) (u : ℚ) : Int :=
  if u ≤ rd knots k then runLength knots k.toNat else 0

/-- Lines 407-409: the number of insertions after the adjustment for the multiplicity. -/
def adjustInsertions (r s p : Int) : Int :=
  if r + s > p + 1 then p + 1 - s else r

/-- Lines 427-436: load the new knot vector.  `knots` is the vector after `resize`, of which
`auHold` is a copy. -/
def loadKnots (knots : List ℚ) (k r : Int) (u : ℚ) : List ℚ :=
  let auHold := knots
  let k1 := forUp 0 (k + 1) (fun i U => wr U i (rd auHold i)) knots
  let k2 := forUp 1 (r + 1) (fun i U => wr U (k + i) u) k1
  forUp (k + 1) (knots.length : Int) (fun i U => wr U (i + r) (rd auHold i)) k2

/-- Lines 459-463 (and 563-567): one round of the blend loop over `R` for the insertion `j`;
`knots` is the member knot vector at that point of the program, hence the NEW one. -/
def insertBlend (knots : List ℚ) (u : ℚ) (k L : Int) (i : Int) (R : List CqVector4D) :
    List CqVector4D :=
  let alpha := (u - rd knots (L + i)) / (rd knots (i + k + 1) - rd knots (L + i))
  wr R i (alpha • rd R (i + 1) + (1 - alpha) • rd R i)

/-- Lines 443-472: the body of the loop over the rows in `InsertKnotU`.
`n` is the old and `cu` the new `m_cuVerts`; the state is `P()` and the local `R`. -/
def insertRowU (knots : List ℚ) (aCPHold : List CqVector4D) (u : ℚ) (n cu k s r p : Int)
    (row : Int) (st : List CqVector4D × List CqVector4D) : List CqVector4D × List CqVector4D :=
  let P0 := st.1
  let R0 := st.2
  let P1 := forUp 0 (k - p + 1) (fun i P => wr P (row * cu + i) (rd aCPHold (row * n + i))) P0
  let P2 := forUp (k - s) cu (fun i P => wr P (row * cu + i + r) (rd aCPHold (row * n + i))) P1
  let R1 := forUp 0 (p - s + 1) (fun i R => wr R i (rd aCPHold (row * n + k - p + i))) R0
  let st3 := forUp 1 (r + 1) (fun j (acc : List CqVector4D × List CqVector4D × Int) =>
      let L := k - p + j
      let R := forUp 0 (p - j - s + 1) (insertBlend knots u k L) acc.2.1
      let Pa := wr acc.1 (row * cu + L) (rd R 0)
      let Pb := if p - j - s > 0 then wr Pa (row * cu + k + r - j - s) (rd R (p - j - s)) else Pa
      (Pb, R, L)) (P2, R1, (0 : Int))
  let L := st3.2.2
  let R := st3.2.1
  let P4 := forUp (L + 1) (k - s) (fun i P => wr P (row * cu + i) (rd R (i - L))) st3.1
  (P4, R)

/-- `CqSurfaceNURBS::InsertKnotU(u, r)`: the surface after the call and the returned count. -/
def InsertKnotU (S : CqSurfaceNURBS) (u : ℚ) (r : Int) : CqSurfaceNURBS × Nat :=
  let n : Int := S.m_cuVerts
  let p : Int := S.uDegree
  if u < rd S.m_auKnots S.uDegree ∨ u > rd S.m_auKnots S.m_cuVerts then (S, 0)
  else
    let k := lastKnotLE S.m_auKnots u
    let s := knotMultiplicity S.m_auKnots k u
    let r := adjustInsertions r s p
    if r ≤ 0 then (S, 0)
    else
      let cu : Nat := S.m_cuVerts + r.toNat
      let knots := loadKnots (resize S.m_auKnots (cu + S.m_uOrder)) k r u
      let aCPHold := S.P
      let P0 := resize S.P (cu * S.m_cvVerts)
      let R0 : List CqVector4D := List.replicate (p + 1).toNat 0
      let st := forUp 0 S.m_cvVerts (insertRowU knots aCPHold u n cu k s r p) (P0, R0)
      ({ S with m_cuVerts := cu, m_auKnots := knots, P := st.1 }, r.toNat)

/-- Lines 548-576: the body of the loop over the columns in `InsertKnotV`.
`m` is the old `m_cvVerts`, `cu` is `m_cuVerts`. -/
def insertColV (knots : List ℚ) (aCPHold : List CqVector4D) (v : ℚ) (m cu k s r p : Int)
    (col : Int) (st : List CqVector4D × List CqVector4D) : List CqVector4D × List CqVector4D :=
  let P0 := st.1
  let R0 := st.2
  let P1 := forUp 0 (k - p + 1) (fun i P => wr P (i * cu + col) (rd aCPHold (i * cu + col))) P0
  let P2 := forUp (k - s) m (fun i P => wr P ((i + r) * cu + col) (rd aCPHold (i * cu + col))) P1
  let R1 := forUp 0 (p - s + 1) (fun i R => wr R i (rd aCPHold ((k - p + i) * cu + col))) R0
  let st3 := forUp 1 (r + 1) (fun j (acc : List CqVector4D × List CqVector4D × Int) =>
      let L := k - p + j
      let R := forUp 0 (p - j - s + 1) (insertBlend knots v k L) acc.2.1
      let Pa := wr acc.1 (L * cu + col) (rd R 0)
      let Pb := if p - j - s > 0 then wr Pa ((k + r - j - s) * cu + col) (rd R (p - j - s)) else Pa
      (Pb, R, L)) (P2, R1, (0 : Int))
  let L := st3.2.2
  let R := st3.2.1
  let P4 := forUp (L + 1) (k - s) (fun i P => wr P (i * cu + col) (rd R (i - L))) st3.1
  (P4, R)

/-- `CqSurfaceNURBS::InsertKnotV(v, r)`: the surface after the call and the returned count. -/
def InsertKnotV (S : CqSurfaceNURBS) (v : ℚ) (r : Int) : CqSurfaceNURBS × Nat :=
  let m : Int := S.m_cvVerts
  let p : Int := S.vDegree
  if v < rd S.m_avKnots S.vDegree ∨ v > rd S.m_avKnots S.m_cvVerts then (S, 0)
  else
    let k := lastKnotLE S.m_avKnots v
    let s := knotMultiplicity S.m_avKnots k v
    let r := adjustInsertions r s p
    if r ≤ 0 then (S, 0)
    else
      let cv : Nat := S.m_cvVerts + r.toNat
      let knots := loadKnots (resize S.m_avKnots (cv + S.m_vOrder)) k r v
      let aCPHold := S.P
      let P0 := resize S.P (S.m_cuVerts * cv)
      let R0 : List CqVector4D := List.replicate (p + 1).toNat 0
      let st := forUp 0 S.m_cuVerts (insertColV knots aCPHold v m S.m_cuVerts k s r p) (P0, R0)
      ({ S with m_cvVerts := cv, m_avKnots := knots, P := st.1 }, r.toNat)

/-! ### Clamping (nurbs.cpp 1000-1066) -/

/-- `CqSurfaceNURBS::ClampU`. -/
def ClampU (S : CqSurfaceNURBS) : CqSurfaceNURBS :=
  let c1 := InsertKnotU S (rd S.m_auKnots S.uDegree) S.uDegree
  let S1 := c1.1
  let n1 := c1.2
  let c2 := InsertKnotU S1 (rd S1.m_auKnots S1.m_cuVerts) S1.uDegree
  let S2 := c2.1
  let n2 := c2.2
  if n1 ≠ 0 ∨ n2 ≠ 0 then
    let pPHold := S2.P
    let auHold := S2.m_auKnots
    let knots0 := resize S2.m_auKnots (S2.m_auKnots.length - n1 - n2)
    let P0 := resize S2.P ((S2.m_cuVerts - n1 - n2) * S2.m_cvVerts)
    let n : Int := S2.m_cuVerts
    let cu : Nat := S2.m_cuVerts - (n1 + n2)
    let knots := forUp n1 ((auHold.length : Int) - n2)
      (fun i U => wr U (i - n1) (rd auHold i)) knots0
    let P1 := forUp 0 S2.m_cvVerts (fun row P =>
      forUp n1 (n - n2) (fun i Q => wr Q (row * cu + i - n1) (rd pPHold (row * n + i))) P) P0
    { S2 with m_cuVerts := cu, m_auKnots := knots, P := P1 }
  else S2

/-- `CqSurfaceNURBS::ClampV`.  The row loop runs to `m_cvVerts - n2` with `m_cvVerts` already
reduced (an unsigned difference, hence taken modulo 2^32). -/
def ClampV (S : CqSurfaceNURBS) : CqSurfaceNURBS :=
  let c1 := InsertKnotV S (rd S.m_avKnots S.vDegree) S.vDegree
  let S1 := c1.1
  let n1 := c1.2
  let c2 := InsertKnotV S1 (rd S1.m_avKnots S1.m_cvVerts) S1.vDegree
  let S2 := c2.1
  let n2 := c2.2
  if n1 ≠ 0 ∨ n2 ≠ 0 then
    let pPHold := S2.P
    let avHold := S2.m_avKnots
    let knots0 := resize S2.m_avKnots (S2.m_avKnots.length - n1 - n2)
    let P0 := resize S2.P ((S2.m_cvVerts - n1 - n2) * S2.m_cuVerts)
    let cv : Nat := S2.m_cvVerts - (n1 + n2)
    let cu : Int := S2.m_cuVerts
    let knots := forUp n1 ((avHold.length : Int) - n2)
      (fun i V => wr V (i - n1) (rd avHold i)) knots0
    let P1 := forUp 0 S2.m_cuVerts (fun col P =>
      forUp n1 (((cv : Int) - n2) % 4294967296)
        (fun i Q => wr Q ((i - n1) * cu + col) (rd pPHold (i * cu + col))) P) P0
    { S2 with m_cvVerts := cv, m_avKnots := knots, P := P1 }
  else S2

/-! ### Batch refinement (nurbs.cpp 586-792) -/

/-- Lines 618-619: `while (X[j] <= m_auKnots[i] && i > a) m_auKnots[k--] = auHold[i--];`.
The state is `(m_auKnots, i, k)`; the first argument bounds the number of rounds and is
`i - a` at the call, which the test `i > a` never lets the loop exceed. -/
def refineKnotsWhile (Xj : ℚ) (auHold : List ℚ) (a : Int) :
    Nat → List ℚ × Int × Int → List ℚ × Int × Int
  | 0, st => st
  | d + 1, st =>
    if Xj ≤ rd st.1 st.2.1 ∧ st.2.1 > a then
      refineKnotsWhile Xj auHold a d (wr st.1 st.2.2 (rd auHold st.2.1), st.2.1 - 1, st.2.2 - 1)
    else st

/-- Lines 607-621: the new knot vector of `RefineKnotU` (`size` is the new
`m_cuVerts + m_uOrder`). -/
def refineKnots (auHold X : List ℚ) (a b p m r : Int) (size : Nat) : List ℚ :=
  let U0 := resize auHold size
  let U1 := forUp 0 (a + 1) (fun j U => wr U j (rd auHold j)) U0
  let U2 := forUp (b + p) (m + 1) (fun j U => wr U (j + r + 1) (rd auHold j)) U1
  let st := forDown r 0 (fun j (st : List ℚ × Int × Int) =>
      let st1 := refineKnotsWhile (rd X j) auHold a (st.2.1 - a).toNat st
      (wr st1.1 st1.2.2 (rd X j), st1.2.1, st1.2.2 - 1)) (U2, b + p - 1, b + p + r)
  st.1

/-- Lines 645-651 (and 701-707): the `while` loop of the value pass.  Its test reads the member
`m_auKnots`, which by now is the NEW knot vector `knots`.  The state is `(values, i, k)`. -/
def refineValuesWhile {α : Type} [Zero α] (Xj : ℚ) (knots : List ℚ) (pHold : List α)
    (a p n : Int) (cu cv : Nat) : Nat → List α × Int × Int → List α × Int × Int
  | 0, st => st
  | d + 1, st =>
    if Xj ≤ rd knots st.2.1 ∧ st.2.1 > a then
      refineValuesWhile Xj knots pHold a p n cu cv d
        (forUp 0 cv (fun row V =>
            wr V (row * cu + st.2.2 - p - 1) (rd pHold (row * (n + 1) + st.2.1 - p - 1))) st.1,
          st.2.1 - 1, st.2.2 - 1)
    else st

/-- Lines 630-674 for `P()` and 683-788 for a vertex-class user parameter: the two blocks are
the same text up to the value type, whose expression `alpha * x + (1 - alpha) * y` is `bl`.
`pHold` is the clone of the old values, `cu` the new `m_cuVerts`, `n` the old `m_cuVerts - 1`. -/
def refineValuesU {α : Type} [Zero α] (bl : ℚ → α → α → α) (knots auHold X : List ℚ)
    (a b p n r : Int) (cu cv : Nat) (pHold : List α) : List α :=
  let V0 := resize pHold (cu * cv)
  let V1 := forUp 0 cv (fun row V =>
      let rowoff := row * cu
      let Va := forUp 0 (a - p + 1) (fun j W => wr W (rowoff + j) (rd pHold (row * (n + 1) + j))) V
      forUp (b - 1) (n + 1)
        (fun j W => wr W (rowoff + j + r + 1) (rd pHold (row * (n + 1) + j))) Va) V0
  let st := forDown r 0 (fun j (st : List α × Int × Int) =>
      let st1 := refineValuesWhile (rd X j) knots pHold a p n cu cv (st.2.1 - a).toNat st
      let i := st1.2.1
      let k := st1.2.2
      let V2 := forUp 0 cv (fun row V =>
          wr V (row * cu + k - p - 1) (rd V (row * cu + k - p))) st1.1
      let V3 := forUp 1 (p + 1) (fun l V =>
          let ind := k - p + l
          let alpha := rd knots (k + l) - rd X j
          if alpha = 0 then
            forUp 0 cv (fun row W => wr W (row * cu + ind - 1) (rd W (row * cu + ind))) V
          else
            let alpha := alpha / (rd knots (k + l) - rd auHold (i - p + l))
            forUp 0 cv (fun row W =>
              wr W (row * cu + ind - 1)
                (bl alpha (rd W (row * cu + ind - 1)) (rd W (row * cu + ind)))) V) V2
      (V3, i, k - 1)) (V1, b + p - 1, b + p + r)
  st.1

/-- Lines 679-791: what `RefineKnotU` does to one user parameter; the `switch` on `Type()`
selects the value type of the blend. -/
def refineParamU (knots auHold X : List ℚ) (a b p n r : Int) (cu cv : Nat)
    (q : CqParameter) : CqParameter :=
  if q.Class = EqVariableClass.class_vertex then
    { q with values :=
        match q.values with
        | .type_float v => .type_float (refineValuesU blend knots auHold X a b p n r cu cv v)
        | .type_integer v =>
          .type_integer (refineValuesU blendInt knots auHold X a b p n r cu cv v)
        | .type_point v => .type_point (refineValuesU blend knots auHold X a b p n r cu cv v)
        | .type_normal v => .type_normal (refineValuesU blend knots auHold X a b p n r cu cv v)
        | .type_vector v => .type_vector (refineValuesU blend knots auHold X a b p n r cu cv v)
        | .type_hpoint v => .type_hpoint (refineValuesU blend knots auHold X a b p n r cu cv v)
        | .type_color v => .type_color (refineValuesU blend knots auHold X a b p n r cu cv v)
        | .type_string _ => .type_string (cu * cv)
        | .type_matrix _ => .type_matrix (cu * cv) }
  else q

/-- `CqSurfaceNURBS::RefineKnotU(X)`; `none` only when a span lookup runs out of fuel. -/
def RefineKnotU (fuel : Nat) (S : CqSurfaceNURBS) (X : List ℚ) : Option CqSurfaceNURBS :=
  if X.length ≤ 0 then some S
  else
    let n : Int := (S.m_cuVerts : Int) - 1
    let p : Int := S.uDegree
    let m : Int := n + p + 1
    let r : Int := (X.length : Int) - 1
    match FindSpanU fuel S (rd X 0), FindSpanU fuel S (rd X r) with
    | some a, some b0 =>
      let b : Int := (b0 : Int) + 1
      let cu : Nat := (r + 1 + n + 1).toNat
      let auHold := S.m_auKnots
      let knots := refineKnots auHold X a b p m r (cu + S.m_uOrder)
      some { S with
        m_cuVerts := cu
        m_auKnots := knots
        P := refineValuesU blend knots auHold X a b p n r cu S.m_cvVerts S.P
        m_aUserParams :=
          S.m_aUserParams.map (refineParamU knots auHold X a b p n r cu S.m_cvVerts) }
    | _, _ => none

end CqSurfaceNURBS

/-! ## The bilinear patch (surfaces.h) -/

/-- Modelled from the spec: `Vec3` (the vector type of util.h, which is missing): three floats. -/
structure Vec3 where
  x : ℚ
  y : ℚ
  z : ℚ
  deriving DecidableEq, Repr

namespace Vec3

instance : Add Vec3 := ⟨fun a b => ⟨a.x + b.x, a.y + b.y, a.z + b.z⟩⟩
instance : SMul ℚ Vec3 := ⟨fun c a => ⟨c * a.x, c * a.y, c * a.z⟩⟩
instance : Zero Vec3 := ⟨⟨0, 0, 0⟩⟩

end Vec3

/-- Modelled from the spec: `bilerp(a, b, c, d, u, v)` (util.h is missing), the bilinear
interpolation of four corner values; `a`, `b` are the `v = 0` corners at `u = 0`, `u = 1` and
`c`, `d` the `v = 1` corners, the corner order `Patch::dice` uses. -/
def bilerp (a b c d : Vec3) (u v : ℚ) : Vec3 :=
  ((1 - v) * (1 - u)) • a + ((1 - v) * u) • b + (v * (1 - u)) • c + (v * u) • d

/-- Modelled from the spec: `Box` (util.h is missing), an axis-aligned box given by its least and
greatest corner. -/
structure Box where
  min : Vec3
  max : Vec3
  deriving DecidableEq, Repr

/-- Modelled from the spec: the constructor `Box(a)`, the box holding the single point `a`. -/
def Box.ofPoint (a : Vec3) : Box := ⟨a, a⟩

/-- Modelled from the spec: `Box::extendBy(p)`, the least box holding the box and `p`. -/
def Box.extendBy (bnd : Box) (p : Vec3) : Box :=
  ⟨⟨Min.min bnd.min.x p.x, Min.min bnd.min.y p.y, Min.min bnd.min.z p.z⟩,
   ⟨Max.max bnd.max.x p.x, Max.max bnd.max.y p.y, Max.max bnd.max.z p.z⟩⟩

/-- Box `a` lies inside box `b`. -/
def Box.inside (a b : Box) : Prop :=
  b.min.x ≤ a.min.x ∧ b.min.y ≤ a.min.y ∧ b.min.z ≤ a.min.z ∧
  a.max.x ≤ b.max.x ∧ a.max.y ≤ b.max.y ∧ a.max.z ≤ b.max.z

/-- Modelled from the spec: `lerp(a, b, t)` (util.h is missing), the linear interpolation that
is `a` at `t = 0` and `b` at `t = 1`. -/
def lerp (a b t : ℚ) : ℚ := (1 - t) * a + t * b

/-- Modelled from the spec: `ifloor` (util.h is missing), the floor as an `int`. -/
def ifloor (x : ℚ) : Int := ⌊x⌋

/-- Modelled from the spec: the variable spec (primvar.h is missing) as far as `Patch::dice`
reads it: the interpolation class and `elSize`, the number of floats of one element (the width
of the type times the array length). -/
structure VariableSpec where
  iclass : EqVariableClass
  elSize : Nat
  deriving DecidableEq, Repr

/-- Modelled from the spec: `FvecView::uniform()`: the variable holds a single element, which is
so for the classes `constant` and `uniform`. -/
def VariableSpec.uniform (spec : VariableSpec) : Bool :=
  decide (spec.iclass = EqVariableClass.class_constant ∨
    spec.iclass = EqVariableClass.class_uniform)

/-- Modelled from the spec: `PrimvarStorage` (primvar.h is missing), as far as `Patch` reads it:
the four corner positions `P[0..3]` (the view `P()`), the ordered specs `varSet()`, and for
each variable the flat float buffer behind `get(i)`, whose element `k` starts at `k * elSize`. -/
structure PrimvarStorage where
  P : List Vec3
  varSet : List VariableSpec := []
  data : List (List ℚ) := []
  deriving DecidableEq, Repr

/-- Modelled from the spec: `GridStorage` (gridstorage.h is missing): the specs, the number of
micro-vertices and one flat float buffer per variable. -/
structure GridStorage where
  varSet : List VariableSpec
  nverts : Nat
  buffers : List (List ℚ)
  deriving DecidableEq, Repr

namespace GridStorage

/-- Modelled from the spec: `GridStorageBuilder::add(varSet)` followed by `build(nverts)`: a
buffer per variable, of one element for a uniform variable and of `nverts` elements otherwise. -/
def build (varSet : List VariableSpec) (nverts : Int) : GridStorage :=
  { varSet := varSet, nverts := nverts.toNat,
    buffers := varSet.map (fun spec =>
      List.replicate ((if spec.uniform then 1 else nverts.toNat) * spec.elSize) (0 : ℚ)) }

/-- Modelled from the spec: `maxAggregateSize()`, the largest `elSize` among the variables. -/
def maxAggregateSize (g : GridStorage) : Nat :=
  (g.varSet.map (fun spec => spec.elSize)).foldl Max.max 0

/-- Modelled from the spec: the read of float `i` of variable `ivar` at the micro-vertex
`vertex`, through the view of the variable, whose stride is 0 for a uniform variable (every
micro-vertex reads the single element) and `elSize` otherwise. -/
def value (g : GridStorage) (ivar : Nat) (vertex i : Int) : ℚ :=
  let spec := g.varSet.getD ivar ⟨EqVariableClass.class_constant, 0⟩
  rd (g.buffers.getD ivar []) ((if spec.uniform then 0 else vertex) * spec.elSize + i)

end GridStorage

/-- Modelled from the spec: `QuadGrid(nu, nv, storage)` (grid.h is missing). -/
structure QuadGrid where
  nu : Int
  nv : Int
  storage : GridStorage
  deriving DecidableEq, Repr

/-- Modelled from the spec: `Mat4` (util.h is missing), a 4 x 4 matrix given by its rows. -/
structure Mat4 where
  rows : List (List ℚ)
  deriving DecidableEq, Repr

/-- Modelled from the spec: `Options` (options.h is missing) as far as `Patch::tessellate` reads
it: `gridSize`, 256 unless set. -/
structure Options where
  gridSize : Int := 256
  deriving DecidableEq, Repr

/-- The two tessellators of surfaces.h (their classes are declared in a missing header):
`SurfaceDicer(nu, nv)` and `SurfaceSplitter(splitInU)`. -/
inductive Tessellator
  | SurfaceDicer (nu nv : Int)
  | SurfaceSplitter (splitInU : Bool)
  deriving DecidableEq, Repr

/-- Class `Patch`: the shared primvar storage and the parameter range. -/
structure Patch where
  m_vars : PrimvarStorage
  m_uMin : ℚ
  m_uMax : ℚ
  m_vMin : ℚ
  m_vMax : ℚ
  deriving DecidableEq, Repr

/-- Modelled from the spec: `TessellationContext` (missing), as far as `Patch` uses it:
`push(geometry)` enqueues and `push(grid)` delivers; the lists hold the pushed geometry and the
pushed grids in the order of the calls, `invoked` the tessellators handed to
`invokeTessellator`, and `options` is what `options()` returns. -/
structure TessellationContext where
  pushed : List Patch
  grids : List QuadGrid := []
  invoked : List Tessellator := []
  options : Options := {}
  deriving DecidableEq, Repr

/-- Modelled from the spec: `TessellationContext::push(GeometryPtr)`. -/
def TessellationContext.push (tessCtx : TessellationContext) (g : Patch) : TessellationContext :=
  { tessCtx with pushed := tessCtx.pushed ++ [g] }

/-- Modelled from the spec: `TessellationContext::push(grid)`. -/
def TessellationContext.pushGrid (tessCtx : TessellationContext) (grid : QuadGrid) :
    TessellationContext :=
  { tessCtx with grids := tessCtx.grids ++ [grid] }

namespace Patch

/-- Public constructor `Patch(vars)`: the full range. -/
def ofVars (vars : PrimvarStorage) : Patch := ⟨vars, 0, 1, 0, 1⟩

/-- `Patch::split(splitInU, tessCtx)`, its arithmetic read as exact; `split32` below is the
reading on `float` values. -/
def split (self : Patch) (splitInU : Bool) (tessCtx : TessellationContext) :
    TessellationContext :=
  if splitInU then
    let uMid := (1 / 2 : ℚ) * (self.m_uMin + self.m_uMax)
    (tessCtx.push ⟨self.m_vars, self.m_uMin, uMid, self.m_vMin, self.m_vMax⟩).push
      ⟨self.m_vars, uMid, self.m_uMax, self.m_vMin, self.m_vMax⟩
  else
    let vMid := (1 / 2 : ℚ) * (self.m_vMin + self.m_vMax)
    (tessCtx.push ⟨self.m_vars, self.m_uMin, self.m_uMax, self.m_vMin, vMid⟩).push
      ⟨self.m_vars, self.m_uMin, self.m_uMax, vMid, self.m_vMax⟩

/-- `Patch::getCorners(a, b, c, d)`: the four output arguments. -/
def getCorners (self : Patch) : Vec3 × Vec3 × Vec3 × Vec3 :=
  let P := self.m_vars.P
  (bilerp (rd P 0) (rd P 1) (rd P 2) (rd P 3) self.m_uMin self.m_vMin,
   bilerp (rd P 0) (rd P 1) (rd P 2) (rd P 3) self.m_uMax self.m_vMin,
   bilerp (rd P 0) (rd P 1) (rd P 2) (rd P 3) self.m_uMin self.m_vMax,
   bilerp (rd P 0) (rd P 1) (rd P 2) (rd P 3) self.m_uMax self.m_vMax)

/-- `Patch::bound()`. -/
def bound (self : Patch) : Box :=
  let c := self.getCorners
  (((Box.ofPoint c.1).extendBy c.2.1).extendBy c.2.2.1).extendBy c.2.2.2

/-- Lines 88-111 of `Patch::dice`: the branch for a variable that is not uniform.  `pvar` is
the buffer of the variable in the primvar storage (`a1 = pvar[0]`, ..., `a4 = pvar[3]`), `size`
its `elSize`, and the state is the buffer of the grid variable with the scratch arrays `aMin`
and `aMax`.  `gvar += nu` at the end of a row makes `gvar[u]` in row `v` the element
`v * nu + u`. -/
def diceInterpolate (self : Patch) (nu nv : Int) (du dv : ℚ) (size : Int) (pvar : List ℚ)
    (st : List ℚ × List ℚ × List ℚ) : List ℚ × List ℚ × List ℚ :=
  forUp 0 nv (fun v (st : List ℚ × List ℚ × List ℚ) =>
    let fv := self.m_vMin + dv * (v : ℚ)
    let sc := forUp 0 size (fun i (sc : List ℚ × List ℚ) =>
      (wr sc.1 i (lerp (rd pvar i) (rd pvar (2 * size + i)) fv),
       wr sc.2 i (lerp (rd pvar (size + i)) (rd pvar (3 * size + i)) fv))) (st.2.1, st.2.2)
    let gvar := forUp 0 nu (fun u (g : List ℚ) =>
      let fu := self.m_uMin + du * (u : ℚ)
      forUp 0 size (fun i (out : List ℚ) =>
        wr out ((v * nu + u) * size + i) (lerp (rd sc.1 i) (rd sc.2 i) fu)) g) st.1
    (gvar, sc.1, sc.2)) st

/-- `Patch::dice(nu, nv, tessCtx)`, its arithmetic read as exact (`dice32` below is the reading
on `float` values).  The state of the loop over the variables is the list of the grid buffers
with the scratch arrays `aMin` and `aMax`. -/
def dice (self : Patch) (nu nv : Int) (tessCtx : TessellationContext) : TessellationContext :=
  let storage := GridStorage.build self.m_vars.varSet (nu * nv)
  let maxAgg := storage.maxAggregateSize
  let aMin : List ℚ := List.replicate maxAgg 0
  let aMax : List ℚ := List.replicate maxAgg 0
  let du := (self.m_uMax - self.m_uMin) / ((nu - 1 : Int) : ℚ)
  let dv := (self.m_vMax - self.m_vMin) / ((nv - 1 : Int) : ℚ)
  let st := forUp 0 self.m_vars.varSet.length
    (fun ivar (st : List (List ℚ) × List ℚ × List ℚ) =>
      let pvar := self.m_vars.data.getD ivar.toNat []
      let spec := self.m_vars.varSet.getD ivar.toNat ⟨EqVariableClass.class_constant, 0⟩
      let gvar := st.1.getD ivar.toNat []
      let size : Int := spec.elSize
      if spec.uniform then
        (st.1.set ivar.toNat (forUp 0 size (fun i g => wr g i (rd pvar i)) gvar), st.2.1, st.2.2)
      else
        let r := diceInterpolate self nu nv du dv size pvar (gvar, st.2.1, st.2.2)
        (st.1.set ivar.toNat r.1, r.2.1, r.2.2))
    (storage.buffers, aMin, aMax)
  tessCtx.pushGrid ⟨nu, nv, { storage with buffers := st.1 }⟩

end Patch

/-- Modelled from the spec: `TessellationContext::invokeTessellator(tessellator)` for the
geometry `g` being tessellated: the context notes the tessellator, and the tessellator calls
back `g.dice(nu, nv, ctx)` or `g.split(splitInU, ctx)`. -/
def TessellationContext.invokeTessellator (tessCtx : TessellationContext) (t : Tessellator)
    (g : Patch) : TessellationContext :=
  let ctx1 := { tessCtx with invoked := tessCtx.invoked ++ [t] }
  match t with
  | Tessellator.SurfaceDicer nu nv => g.dice nu nv ctx1
  | Tessellator.SurfaceSplitter splitInU => g.split splitInU ctx1

namespace Vec3

instance : Sub Vec3 := ⟨fun a b => ⟨a.x - b.x, a.y - b.y, a.z - b.z⟩⟩

/-- Modelled from the spec: `Vec3::length()`, the Euclidean length; `sqrt` is the square root
of the C library, a parameter as its values are irrational in general. -/
def length (sqrt : ℚ → ℚ) (a : Vec3) : ℚ := sqrt (a.x * a.x + a.y * a.y + a.z * a.z)

end Vec3

namespace Patch

/-- The local `lu` of `Patch::tessellate`: the length estimate in the a-b, c-d direction.
`xform` is the product `Vec3 * Mat4` (util.h is missing), a parameter. -/
def lu (sqrt : ℚ → ℚ) (xform : Vec3 → Mat4 → Vec3) (self : Patch) (splitTrans : Mat4) : ℚ :=
  let c := self.getCorners
  let aSpl := xform c.1 splitTrans
  let bSpl := xform c.2.1 splitTrans
  let cSpl := xform c.2.2.1 splitTrans
  let dSpl := xform c.2.2.2 splitTrans
  (1 / 2 : ℚ) * (Vec3.length sqrt (bSpl - aSpl) + Vec3.length sqrt (dSpl - cSpl))

/-- The local `lv` of `Patch::tessellate`: the length estimate in the a-c, b-d direction. -/
def lv (sqrt : ℚ → ℚ) (xform : Vec3 → Mat4 → Vec3) (self : Patch) (splitTrans : Mat4) : ℚ :=
  let c := self.getCorners
  let aSpl := xform c.1 splitTrans
  let bSpl := xform c.2.1 splitTrans
  let cSpl := xform c.2.2.1 splitTrans
  let dSpl := xform c.2.2.2 splitTrans
  (1 / 2 : ℚ) * (Vec3.length sqrt (cSpl - aSpl) + Vec3.length sqrt (dSpl - bSpl))

/-- `Patch::tessellate(splitTrans, tessCtx)`, its arithmetic read as exact; `tessellate32`
below is the reading on `float` values. -/
def tessellate (sqrt : ℚ → ℚ) (xform : Vec3 → Mat4 → Vec3) (self : Patch) (splitTrans : Mat4)
    (tessCtx : TessellationContext) : TessellationContext :=
  let lu := self.lu sqrt xform splitTrans
  let lv := self.lv sqrt xform splitTrans
  let opts := tessCtx.options
  if lu * lv ≤ ((opts.gridSize * opts.gridSize : Int) : ℚ) then
    let nu := 1 + ifloor lu
    let nv := 1 + ifloor lv
    tessCtx.invokeTessellator (Tessellator.SurfaceDicer nu nv) self
  else
    let splitDirectionU := decide (lu > lv)
    tessCtx.invokeTessellator (Tessellator.SurfaceSplitter splitDirectionU) self

end Patch

/-- The parameter range of a patch as a set of `(u, v)` pairs. -/
def Patch.range (self : Patch) : Set (ℚ × ℚ) :=
  Set.Icc self.m_uMin self.m_uMax ×ˢ Set.Icc self.m_vMin self.m_vMax

/-- The box that `Patch::bound` builds from four corner points. -/
def box4 (a b c d : Vec3) : Box :=
  (((Box.ofPoint a).extendBy b).extendBy c).extendBy d

/-- `c` copies of `v` put into `L` in front of position `pos`. -/
def insAt (L : List ℚ) (pos c : Nat) (v : ℚ) : List ℚ :=
  L.take pos ++ List.replicate c v ++ L.drop pos

/-- The count that `InsertKnotU` / `InsertKnotV` return, as a function of the knot vector, the
vertex count and the degree of that direction. -/
def insertCount (knots : List ℚ) (cVerts degree : Nat) (u : ℚ) (r : Int) : Nat :=
  if u < rd knots degree ∨ u > rd knots cVerts then 0
  else (CqSurfaceNURBS.adjustInsertions r
    (CqSurfaceNURBS.knotMultiplicity knots (CqSurfaceNURBS.lastKnotLE knots u) u) degree).toNat

/-- Invariant of the merge loop of `RefineKnotU` (lines 616-621) when `m` values of `X` are
still to be placed: the loop state `(knots, i, k)` has `k = i + m`, the entries up to `i` are
those of the old vector `U`, and the part above `k` is a sorted arrangement of the old knots
above `i` and the values of `X` already placed, all of them at least `U[i]` and at least every
value still to be placed. -/
def MergeInv (U X : List ℚ) (a L m : Nat) (st : List ℚ × Int × Int) : Prop :=
  ∃ i k : Nat, st.2.1 = (i : Int) ∧ st.2.2 = (k : Int) ∧ a ≤ i ∧ i < U.length ∧ k = i + m ∧
    st.1.length = L ∧ k < L ∧
    (∀ t : Nat, t ≤ i → rd st.1 (t : Int) = rd U (t : Int)) ∧
    (st.1.drop (k + 1)).Sorted (· ≤ ·) ∧
    (st.1.drop (k + 1)).Perm (U.drop (i + 1) ++ X.drop m) ∧
    (∀ y ∈ st.1.drop (k + 1), rd U (i : Int) ≤ y) ∧
    (∀ y ∈ st.1.drop (k + 1), ∀ x ∈ X.take m, x ≤ y)

/-! ## The dicing decision (nurbs.cpp 1490-1587) -/

/-- Modelled from the spec: `CqVector2D` (vector2d.h is missing), a point of raster space. -/
structure CqVector2D where
  x : ℚ
  y : ℚ
  deriving DecidableEq, Repr

namespace CqVector2D

instance : Zero CqVector2D := ⟨⟨0, 0⟩⟩
instance : Sub CqVector2D := ⟨fun a b => ⟨a.x - b.x, a.y - b.y⟩⟩

/-- Modelled from the spec: `CqVector2D::Magnitude()`, the chord length; `sqrt` is the square
root of the C library, a parameter as its values are irrational in general. -/
def Magnitude (sqrt : ℚ → ℚ) (a : CqVector2D) : ℚ := sqrt (a.x * a.x + a.y * a.y)

end CqVector2D

/-- What `Diceable` reads from outside the surface: the C library `sqrt`, the options
`"limits" "gridsize"` and `"limits" "bucketsize"` of the render context (absent when the
pointer is null), the attribute `"System" "ShadingRate"`, and `toRaster`, the product of a
control point with the matrix `matSpaceToSpace("camera", "raster", ...)`.  All of them are
declared outside the sources at hand. -/
structure RenderEnv where
  sqrt : ℚ → ℚ
  optGridSize : Option Int
  optBucketSize : Option (Int × Int)
  ShadingRate : ℚ
  toRaster : CqVector4D → CqVector2D

/-- The constant `FLT_EPSILON` of `<cfloat>`, `2^-23`. -/
def FLT_EPSILON : ℚ := 1 / 8388608

/-- Modelled from the spec: the macro `ROUND` (aqsis.h is missing), the nearest integer, halves
upwards; the spec only says that the lengths are rounded. -/
def ROUND (x : ℚ) : Int := ⌊x + 1 / 2⌋

/-- Modelled from the spec: the macro `MAX` (aqsis.h is missing). -/
def MAX (a b : Int) : Int := if a > b then a else b

/-- Doubling loop behind `CEIL_POW2`: the first of `p, 2p, 4p, ...` that is at least `x`. -/
def ceilPow2Loop : Nat → Nat → Nat → Nat
  | 0, p, _ => p
  | fuel + 1, p, x => if x ≤ p then p else ceilPow2Loop fuel (2 * p) x

/-- Modelled from the spec: the macro `CEIL_POW2` (aqsis.h is missing), "round up to the next
power of two": the least power of two that is at least `x`. -/
def CEIL_POW2 (x : Nat) : Nat := ceilPow2Loop x 1 x

/-- Lines 1561-1566 for one direction: the dice size from the scaled length,
`CEIL_POW2(static_cast<TqUint>(MAX(ROUND(len), 1)))`. -/
def diceSize (len : ℚ) : Nat := CEIL_POW2 (MAX (ROUND len) 1).toNat

/-- Conversion to `TqInt`: the value modulo `2^32`, taken between `-2^31` and `2^31 - 1`. -/
def i32 (x : Int) : Int := (x + 2147483648) % 4294967296 - 2147483648

namespace CqSurfaceNURBS

/-- Lines 1526-1527: the control hull in raster space. -/
def rasterHull (env : RenderEnv) (S : CqSurfaceNURBS) : List CqVector2D :=
  forUp 0 ((S.m_cuVerts * S.m_cvVerts : Nat) : Int)
    (fun i H => wr H i (env.toRaster (rd S.P i)))
    (List.replicate (S.m_cuVerts * S.m_cvVerts) 0)

/-- Lines 1535-1542: `MaxuLen`, the longest row of the hull; the state of the loop over the
rows is `(uLen, MaxuLen)`.  The inner bound `m_cuVerts - 1` is an unsigned difference. -/
def MaxuLen (env : RenderEnv) (S : CqSurfaceNURBS) : ℚ :=
  let avecHull := rasterHull env S
  (forUp 0 S.m_cvVerts (fun v (st : ℚ × ℚ) =>
    let uLen := forUp 0 (((S.m_cuVerts : Int) - 1) % 4294967296) (fun u l =>
      l + CqVector2D.Magnitude env.sqrt
        (rd avecHull (v * S.m_cuVerts + u + 1) - rd avecHull (v * S.m_cuVerts + u))) st.1
    ((0 : ℚ), if uLen > st.2 then uLen else st.2)) ((0 : ℚ), (0 : ℚ))).2

/-- Lines 1544-1551: `MaxvLen`, the longest column of the hull; the state of the loop over the
columns is `(vLen, MaxvLen)`.  The inner bound `m_cvVerts - 1` is an unsigned difference. -/
def MaxvLen (env : RenderEnv) (S : CqSurfaceNURBS) : ℚ :=
  let avecHull := rasterHull env S
  (forUp 0 S.m_cuVerts (fun u (st : ℚ × ℚ) =>
    let vLen := forUp 0 (((S.m_cvVerts : Int) - 1) % 4294967296) (fun v l =>
      l + CqVector2D.Magnitude env.sqrt
        (rd avecHull ((v + 1) * S.m_cuVerts + u) - rd avecHull (v * S.m_cuVerts + u))) st.1
    ((0 : ℚ), if vLen > st.2 then vLen else st.2)) ((0 : ℚ), (0 : ℚ))).2

/-- Lines 1510-1524: the local `gridsize`: the option when it is set, else
`m_XBucketSize * m_XBucketSize / ShadingRate` converted to `TqInt`.  With `ShadingRate = 0` and
no option the quotient has no value in `ℚ`; `Diceable` below gives no result for such a
shading rate before `gridsize` is read. -/
def gridsize (env : RenderEnv) : Int :=
  let m_XBucketSize : Int := match env.optBucketSize with
    | some b => b.1
    | none => 16
  match env.optGridSize with
  | some g => g
  | none => truncToInt (((m_XBucketSize * m_XBucketSize : Int) : ℚ) / env.ShadingRate)

/-- `CqSurfaceNURBS::Diceable()`: the returned value and the surface after the call.  There is
no result (`none`) when the division by `sqrt(ShadingRate)` is not a division of numbers: for a
shading rate that is not positive, or a square root that is zero.  The conversions to `TqUint`
of lines 1561-1562 are taken in `ℕ`.  The product `m_uDiceSize * m_vDiceSize` of line 1568 is a
product of 32-bit integers (the members are declared in surface.h, which is missing; lines 1352
and 1638 hand them on as `TqInt`): it is reduced modulo `2^32` before it becomes the `TqFloat`
`Area`.  The dice sizes are powers of two, so the reduced product is `0` or a power of two up
to sign, and its conversion to `TqFloat` is exact. -/
def Diceable (env : RenderEnv) (S : CqSurfaceNURBS) : Option (Bool × CqSurfaceNURBS) :=
  if S.m_fDiceable = false then some (false, S)
  else
    let MaxuLen0 := MaxuLen env S
    let MaxvLen0 := MaxvLen env S
    if MaxvLen0 > 255 ∨ MaxuLen0 > 255 then
      some (false, { S with m_SplitDir :=
        if MaxuLen0 > MaxvLen0 then EqSplitDir.SplitDir_U else EqSplitDir.SplitDir_V })
    else
      let ShadingRate := env.sqrt env.ShadingRate
      if env.ShadingRate ≤ 0 ∨ ShadingRate = 0 then none
      else
        let MaxuLen1 := MaxuLen0 / ShadingRate
        let MaxvLen1 := MaxvLen0 / ShadingRate
        let uDiceSize := diceSize MaxuLen1
        let vDiceSize := diceSize MaxvLen1
        let S1 := { S with m_uDiceSize := uDiceSize, m_vDiceSize := vDiceSize }
        let Area : ℚ := ((i32 ((uDiceSize * vDiceSize : Nat) : Int) : Int) : ℚ)
        if MaxuLen1 < FLT_EPSILON ∨ MaxvLen1 < FLT_EPSILON then
          some (false, { S1 with m_fDiscard := true })
        else if |Area| > (gridsize env : ℚ) then
          some (false, { S1 with m_SplitDir :=
            if MaxuLen1 > MaxvLen1 then EqSplitDir.SplitDir_U else EqSplitDir.SplitDir_V })
        else some (true, S1)

end CqSurfaceNURBS

/-- What the spec asks the grid buffer of a variable that is not uniform to hold at the flat
index `t`: with `cell = t / size` the micro-vertex, `c = t % size` the float of the element,
`j = cell / nu` the row and `i = cell % nu` the column, the bilinear interpolation
`lerp(lerp(a1, a3, fv), lerp(a2, a4, fv), fu)` of the corner floats `a1..a4` at
`fu = uMin + du * i`, `fv = vMin + dv * j`. -/
def Patch.diceFlat (self : Patch) (nu : Int) (du dv : ℚ) (size : Int) (pvar : List ℚ)
    (t : Int) : ℚ :=
  let cell := t / size
  let c := t % size
  let j := cell / nu
  let i := cell % nu
  lerp (lerp (rd pvar c) (rd pvar (2 * size + c)) (self.m_vMin + dv * (j : ℚ)))
    (lerp (rd pvar (size + c)) (rd pvar (3 * size + c)) (self.m_vMin + dv * (j : ℚ)))
    (self.m_uMin + du * (i : ℚ))

/-- What the grid buffer `b` of variable `k` has to hold after `Patch::dice(nu, nv)`: for a
uniform variable the one element of the primvar buffer; otherwise `nu * nv` elements, which for
`nu > 0` are the bilinear interpolation `diceFlat` at every flat index. -/
def Patch.diceGood (self : Patch) (nu nv : Int) (k : Nat) (b : List ℚ) : Prop :=
  let spec := self.m_vars.varSet.getD k ⟨EqVariableClass.class_constant, 0⟩
  let pvar := self.m_vars.data.getD k []
  let du := (self.m_uMax - self.m_uMin) / ((nu - 1 : Int) : ℚ)
  let dv := (self.m_vMax - self.m_vMin) / ((nv - 1 : Int) : ℚ)
  (spec.uniform = true → b.length = spec.elSize ∧
    ∀ c : Int, 0 ≤ c → c < spec.elSize → rd b c = rd pvar c) ∧
  (spec.uniform = false → b.length = (nu * nv).toNat * spec.elSize ∧
    (0 < nu → 0 ≤ nv → ∀ t : Int, 0 ≤ t → t < nv * nu * (spec.elSize : Int) →
      rd b t = self.diceFlat nu du dv spec.elSize pvar t))

namespace CqSurfaceNURBS

/-! ### The divisions of `BasisFunctions` (nurbs.cpp 186-206) -/

/-- The state of `BasisFunctions(u, i, U, k, N)` on entry to round `r` of the inner loop within
round `j` of the outer loop: the rounds `1 .. j - 1` of the outer loop are done, `left[j]`,
`right[j]` and `saved` are set, and the rounds `0 .. r - 1` of the inner loop are done. -/
def basisStateAt (u : ℚ) (i : Nat) (U : List ℚ) (k : Nat) (N : List ℚ) (j r : Nat) :
    BasisState :=
  let st0 : BasisState :=
    { N := wr N 0 1, left := List.replicate k 0, right := List.replicate k 0, saved := 0 }
  let st := forUp 1 j (basisOuter u i U) st0
  let st1 : BasisState :=
    { st with left := wr st.left j (u - rd U (i + 1 - j)),
              right := wr st.right j (rd U (i + j) - u),
              saved := 0 }
  forUp 0 r (basisInner j) st1

/-- The denominator `right[r + 1] + left[j - r]` of the division done in that round. -/
def basisDenominator (u : ℚ) (i : Nat) (U : List ℚ) (k : Nat) (N : List ℚ) (j r : Nat) : ℚ :=
  let st := basisStateAt u i U k N j r
  rd st.right ((r : Int) + 1) + rd st.left ((j : Int) - r)

end CqSurfaceNURBS

/-! ## Derivatives of the basis functions and dicing of points and normals
(nurbs.cpp 212-366, 1352-1378) -/

/-- Subscript read `m[i][j]` of a vector of vectors; zero outside. -/
def rd2 (m : List (List ℚ)) (i j : Int) : ℚ :=
  if 0 ≤ i then rd (m.getD i.toNat []) j else 0

/-- Subscript write `m[i][j] = v` of a vector of vectors; no effect outside. -/
def wr2 (m : List (List ℚ)) (i j : Int) (v : ℚ) : List (List ℚ) :=
  if 0 ≤ i then m.set i.toNat (wr (m.getD i.toNat []) j v) else m

/-- Modelled from the spec: the macro `MIN` (aqsis.h is missing). -/
def MIN (a b : Int) : Int := if a < b then a else b

/-- Modelled from the spec: the values of the attribute `"System" "Orientation"` (the header
that declares `OrientationLH` is missing): the two handednesses that the spec names. -/
inductive EqOrientation
  | OrientationLH
  | OrientationRH
  deriving DecidableEq, Repr

instance : Neg CqVector3D := ⟨fun a => ⟨-a.x, -a.y, -a.z⟩⟩

/-- The operations of `CqVector4D` that `EvaluateWithNormal` and `DicePointsAndNormals` call and
whose code is outside the sources: the sum and the product with a `TqFloat` (the sums of
`EvaluateWithNormal` start from `(0, 0, 0, 1)`), the cross product `%`, `Unit()` (which calls
`sqrt`), and the conversion to `CqVector3D`. -/
structure VectorOps where
  add : CqVector4D → CqVector4D → CqVector4D
  smul : ℚ → CqVector4D → CqVector4D
  cross : CqVector4D → CqVector4D → CqVector4D
  Unit : CqVector4D → CqVector4D
  toVector3D : CqVector4D → CqVector3D

namespace CqSurfaceNURBS

/-- Working state of `DersBasisFunctions`. -/
structure DersState where
  ndu : List (List ℚ)
  left : List ℚ
  right : List ℚ
  saved : ℚ
  a : List (List ℚ)
  ders : List (List ℚ)
  s1 : Int
  s2 : Int
  d : ℚ
  r : Int

/-- First inner loop body of `DersBasisFunctions` (index `r`, outer index `j`). -/
def dersInner (j : Int) (r : Int) (st : DersState) : DersState :=
  let ndu1 := wr2 st.ndu j r (rd st.right (r + 1) + rd st.left (j - r))
  let temp := rd2 ndu1 r (j - 1) / rd2 ndu1 j r
  { st with ndu := wr2 ndu1 r j (st.saved + rd st.right (r + 1) * temp),
            saved := rd st.left (j - r) * temp }

/-- First outer loop body of `DersBasisFunctions` (index `j`). -/
def dersOuter (u : ℚ) (i : Int) (U : List ℚ) (j : Int) (st : DersState) : DersState :=
  let st1 : DersState :=
    { st with left := wr st.left j (u - rd U (i + 1 - j)),
              right := wr st.right j (rd U (i + j) - u),
              saved := 0 }
  let st2 := forUp 0 j (dersInner j) st1
  { st2 with ndu := wr2 st2.ndu j j st2.saved }

/-- The loop over `j` from `j1` to `j2` inside the derivative loop. -/
def dersMiddle (rk pk : Int) (j : Int) (st : DersState) : DersState :=
  let a1 := wr2 st.a st.s2 j
    ((rd2 st.a st.s1 j - rd2 st.a st.s1 (j - 1)) / rd2 st.ndu (pk + 1) (rk + j))
  { st with a := a1, d := st.d + rd2 a1 st.s2 j * rd2 st.ndu (rk + j) pk }

/-- Body of the loop that computes the `k`-th derivative (for the basis function `r`). -/
def dersDeriv (p : Int) (r : Int) (k : Int) (st : DersState) : DersState :=
  let rk := r - k
  let pk := p - k
  let st1 : DersState := { st with d := 0 }
  let st2 : DersState :=
    if r ≥ k then
      let a1 := wr2 st1.a st1.s2 0 (rd2 st1.a st1.s1 0 / rd2 st1.ndu (pk + 1) rk)
      { st1 with a := a1, d := rd2 a1 st1.s2 0 * rd2 st1.ndu rk pk }
    else st1
  let j1 : Int := if rk ≥ -1 then 1 else -rk
  let j2 : Int := if r - 1 ≤ pk then k - 1 else p - r
  let st3 := forUp j1 (j2 + 1) (dersMiddle rk pk) st2
  let st4 : DersState :=
    if r ≤ pk then
      let a1 := wr2 st3.a st3.s2 k (-rd2 st3.a st3.s1 (k - 1) / rd2 st3.ndu (pk + 1) r)
      { st3 with a := a1, d := st3.d + rd2 a1 st3.s2 k * rd2 st3.ndu r pk }
    else st3
  { st4 with ders := wr2 st4.ders k r st4.d, s1 := st4.s2, s2 := st4.s1 }

/-- Body of the loop over the basis functions `r` that computes the derivatives. -/
def dersRow (p n : Int) (r : Int) (st : DersState) : DersState :=
  let st1 : DersState := { st with s1 := 0, s2 := 1, a := wr2 st.a 0 0 1 }
  forUp 1 (n + 1) (dersDeriv p r) st1

/-- Body of the last loop: the `k`-th derivatives are multiplied by `r`, then `r *= p - k`. -/
def dersScale (p : Int) (k : Int) (st : DersState) : DersState :=
  let ders1 := forUp 0 (p + 1) (fun j ders => wr2 ders k j (rd2 ders k j * (st.r : ℚ))) st.ders
  { st with ders := ders1, r := st.r * (p - k) }

/-- `CqSurfaceNURBS::DersBasisFunctions(u, i, U, k, n, ders)` on an empty `ders`; the result is
the final `ders`, with `n + 1` rows of `k` entries. -/
def DersBasisFunctions (u : ℚ) (i : Nat) (U : List ℚ) (k : Nat) (n : Nat) : List (List ℚ) :=
  let p : Int := (k : Int) - 1
  let st0 : DersState :=
    { ndu := wr2 (List.replicate k (List.replicate k 0)) 0 0 1,
      left := List.replicate k 0, right := List.replicate k 0, saved := 0,
      a := List.replicate 2 (List.replicate k 0),
      ders := List.replicate (n + 1) (List.replicate k 0),
      s1 := 0, s2 := 1, d := 0, r := 0 }
  let st1 := forUp 1 (p + 1) (dersOuter u i U) st0
  let st2 : DersState :=
    { st1 with ders := forUp 0 (p + 1) (fun j ders => wr2 ders 0 j (rd2 st1.ndu j p)) st1.ders }
  let st3 := forUp 0 (p + 1) (dersRow p n) st2
  let st4 := forUp 1 ((n : Int) + 1) (dersScale p) { st3 with r := p }
  st4.ders

/-- The accessor `CP(col, row)` of the control net (declared in nurbs.h): the control points are
stored row by row, `m_cuVerts` to a row. -/
def CP (S : CqSurfaceNURBS) (col row : Int) : CqVector4D :=
  rd S.P (row * S.m_cuVerts + col)

/-- `CqSurfaceNURBS::EvaluateWithNormal(u, v, P)`: the pair of the returned normal and of the
point stored in `P`; `none` when a span lookup runs out of fuel.  The entries of `SKL` are
`s00`, `s01`, `s10`. -/
def EvaluateWithNormal (ops : VectorOps) (fuel : Nat) (S : CqSurfaceNURBS) (u v : ℚ) :
    Option (CqVector4D × CqVector4D) :=
  let d : Int := 1
  let p : Int := S.uDegree
  let q : Int := S.vDegree
  let du := MIN d p
  let dv := MIN d q
  match FindSpanU fuel S u, FindSpanV fuel S v with
  | some uspan, some vspan =>
    let Nu := DersBasisFunctions u uspan S.m_auKnots S.m_uOrder du.toNat
    let Nv := DersBasisFunctions v vspan S.m_avKnots S.m_vOrder dv.toNat
    let start : CqVector4D := ⟨0, 0, 0, 1⟩
    let SKL0 : Int → Int → CqVector4D := fun _ _ => 0
    let SKL1 := forUp (p + 1) (d + 1) (fun k skl =>
      forUp 0 (d - k + 1) (fun l skl1 =>
        fun a b => if a = k ∧ b = l then start else skl1 a b) skl) SKL0
    let SKL2 := forUp (q + 1) (d + 1) (fun l skl =>
      forUp 0 (d - l + 1) (fun k skl1 =>
        fun a b => if a = k ∧ b = l then start else skl1 a b) skl) SKL1
    let SKL3 := forUp 0 (du + 1) (fun k skl =>
      let temp : Int → CqVector4D := fun s =>
        forUp 0 (p + 1) (fun r t =>
          ops.add t (ops.smul (rd2 Nu k r) (S.CP ((uspan : Int) - p + r) ((vspan : Int) - q + s))))
          start
      let dd := MIN (d - k) dv
      forUp 0 (dd + 1) (fun l skl1 =>
        let v := forUp 0 (q + 1) (fun s acc => ops.add acc (ops.smul (rd2 Nv l s) (temp s))) start
        fun a b => if a = k ∧ b = l then v else skl1 a b) skl) SKL2
    let N := ops.Unit (ops.cross (SKL3 1 0) (SKL3 0 1))
    some (N, SKL3 0 0)
  | _, _ => none

/-- The parameter value of the dicing sample `i` of `n` on the active range of the knot vector
`U`: `(i / n) * (U[c] - U[o - 1]) + U[o - 1]`. -/
def sample (U : List ℚ) (c o : Nat) (i n : Int) : ℚ :=
  ((i : ℚ) / (n : ℚ)) * (rd U c - rd U ((o : Int) - 1)) + rd U ((o : Int) - 1)

/-- Body of the inner loop of `DicePointsAndNormals`; the state is the pair of `pP` and
`pNormals`, `none` once a span lookup has run out of fuel. -/
def diceOne (ops : VectorOps) (fuel : Nat) (S : CqSurfaceNURBS) (O : EqOrientation)
    (uDiceSize vDiceSize : Int) (iv iu : Int)
    (st : Option (List CqVector3D × List CqVector3D)) :
    Option (List CqVector3D × List CqVector3D) :=
  match st with
  | none => none
  | some (pP, pNormals) =>
    let sv := sample S.m_avKnots S.m_cvVerts S.m_vOrder iv vDiceSize
    let su := sample S.m_auKnots S.m_cuVerts S.m_uOrder iu uDiceSize
    let igrid := iv * (uDiceSize + 1) + iu
    match EvaluateWithNormal ops fuel S su sv with
    | none => none
    | some (N4, P) =>
      let N : CqVector3D := ops.toVector3D N4
      let N1 : CqVector3D := if O = EqOrientation.OrientationLH then N else -N
      some (wr pP igrid (ops.toVector3D P), wr pNormals igrid N1)

/-- `CqSurfaceNURBS::DicePointsAndNormals(uDiceSize, vDiceSize, pP, pNormals)` with the value
`O` of the attribute `"System" "Orientation"`: the final `pP` and `pNormals`. -/
def DicePointsAndNormals (ops : VectorOps) (fuel : Nat) (S : CqSurfaceNURBS)
    (O : EqOrientation) (uDiceSize vDiceSize : Int) (pP pNormals : List CqVector3D) :
    Option (List CqVector3D × List CqVector3D) :=
  forUp 0 (vDiceSize + 1) (fun iv st =>
    forUp 0 (uDiceSize + 1) (diceOne ops fuel S O uDiceSize vDiceSize iv) st)
    (some (pP, pNormals))

end CqSurfaceNURBS

namespace CqSurfaceNURBS

/-- The relation between the run of `DicePointsAndNormals` with `OrientationLH` and the run
with `OrientationRH` after the grid indices below `n`: both have failed, or the points agree,
the normals below `n` are opposite and the normals from `n` on, not yet written, agree. -/
def OppositeBelow (n : Int) (a b : Option (List CqVector3D × List CqVector3D)) : Prop :=
  (a = none ∧ b = none) ∨
    ∃ pP nL nR, a = some (pP, nL) ∧ b = some (pP, nR) ∧ nL.length = nR.length ∧
      (∀ t : Int, t < n → rd nL t = -rd nR t) ∧ (∀ t : Int, n ≤ t → rd nL t = rd nR t)

end CqSurfaceNURBS

/-! ## Splitting (nurbs.cpp 796-998, 1073-1238, 1385-1487, 1918-2148) -/

/-- Conversion to `TqUint`: the value modulo `2^32`. -/
def u32 (x : Int) : Nat := (x % 4294967296).toNat

/-- The call `SetSize(n)` of a parameter. -/
def ParamValues.SetSize (v : ParamValues) (n : Nat) : ParamValues :=
  match v with
  | .type_float l => .type_float (resize l n)
  | .type_integer l => .type_integer (resize l n)
  | .type_point l => .type_point (resize l n)
  | .type_normal l => .type_normal (resize l n)
  | .type_vector l => .type_vector (resize l n)
  | .type_hpoint l => .type_hpoint (resize l n)
  | .type_color l => .type_color (resize l n)
  | .type_string _ => .type_string n
  | .type_matrix _ => .type_matrix n

/-- The call `SetValue(pFrom, idxTarget, idxSource)` of a parameter, `pFrom` being of the same
type (the target is a clone of it): element `idxSource` of `pFrom` is stored at `idxTarget`. -/
def ParamValues.SetValue (v src : ParamValues) (idxTarget idxSource : Int) : ParamValues :=
  match v, src with
  | .type_float l, .type_float m => .type_float (wr l idxTarget (rd m idxSource))
  | .type_integer l, .type_integer m => .type_integer (wr l idxTarget (rd m idxSource))
  | .type_point l, .type_point m => .type_point (wr l idxTarget (rd m idxSource))
  | .type_normal l, .type_normal m => .type_normal (wr l idxTarget (rd m idxSource))
  | .type_vector l, .type_vector m => .type_vector (wr l idxTarget (rd m idxSource))
  | .type_hpoint l, .type_hpoint m => .type_hpoint (wr l idxTarget (rd m idxSource))
  | .type_color l, .type_color m => .type_color (wr l idxTarget (rd m idxSource))
  | w, _ => w

namespace CqSurfaceNURBS

/-! ### Batch refinement in `v` (nurbs.cpp 799-998) -/

/-- The `while` loop of the value pass of `RefineKnotV`; the state is `(values, i, k)`.  Its
test reads the member `m_avKnots`, by now the new knot vector `knots`. -/
def refineValuesWhileV {α : Type} [Zero α] (Xj : ℚ) (knots : List ℚ) (pHold : List α)
    (a p : Int) (cu : Nat) : Nat → List α × Int × Int → List α × Int × Int
  | 0, st => st
  | d + 1, st =>
    if Xj ≤ rd knots st.2.1 ∧ st.2.1 > a then
      refineValuesWhileV Xj knots pHold a p cu d
        (forUp 0 cu (fun col V =>
            wr V ((st.2.2 - p - 1) * cu + col) (rd pHold ((st.2.1 - p - 1) * cu + col))) st.1,
          st.2.1 - 1, st.2.2 - 1)
    else st

/-- The value pass of `RefineKnotV` for `P()` and for a vertex-class user parameter (the blocks
are the same text up to the value type, whose expression `alpha * x + (1 - alpha) * y` is `bl`).
`pHold` is the clone of the old values, `cv` the new `m_cvVerts`, `n` the old `m_cvVerts - 1`. -/
def refineValuesV {α : Type} [Zero α] (bl : ℚ → α → α → α) (knots avHold X : List ℚ)
    (a b p n r : Int) (cu cv : Nat) (pHold : List α) : List α :=
  let V0 := resize pHold (cu * cv)
  let V1 := forUp 0 cu (fun col V =>
      let Va := forUp 0 (a - p + 1) (fun j W => wr W (j * cu + col) (rd pHold (j * cu + col))) V
      forUp (b - 1) (n + 1)
        (fun j W => wr W ((j + r + 1) * cu + col) (rd pHold (j * cu + col))) Va) V0
  let st := forDown r 0 (fun j (st : List α × Int × Int) =>
      let st1 := refineValuesWhileV (rd X j) knots pHold a p cu (st.2.1 - a).toNat st
      let i := st1.2.1
      let k := st1.2.2
      let V2 := forUp 0 cu (fun col V =>
          wr V ((k - p - 1) * cu + col) (rd V ((k - p) * cu + col))) st1.1
      let V3 := forUp 1 (p + 1) (fun l V =>
          let ind := k - p + l
          let alpha := rd knots (k + l) - rd X j
          if alpha = 0 then
            forUp 0 cu (fun col W => wr W ((ind - 1) * cu + col) (rd W (ind * cu + col))) V
          else
            let alpha := alpha / (rd knots (k + l) - rd avHold (i - p + l))
            forUp 0 cu (fun col W =>
              wr W ((ind - 1) * cu + col)
                (bl alpha (rd W ((ind - 1) * cu + col)) (rd W (ind * cu + col)))) V) V2
      (V3, i, k - 1)) (V1, b + p - 1, b + p + r)
  st.1

/-- What `RefineKnotV` does to one user parameter. -/
def refineParamV (knots avHold X : List ℚ) (a b p n r : Int) (cu cv : Nat)
    (q : CqParameter) : CqParameter :=
  if q.Class = EqVariableClass.class_vertex then
    { q with values :=
        match q.values with
        | .type_float v => .type_float (refineValuesV blend knots avHold X a b p n r cu cv v)
        | .type_integer v =>
          .type_integer (refineValuesV blendInt knots avHold X a b p n r cu cv v)
        | .type_point v => .type_point (refineValuesV blend knots avHold X a b p n r cu cv v)
        | .type_normal v => .type_normal (refineValuesV blend knots avHold X a b p n r cu cv v)
        | .type_vector v => .type_vector (refineValuesV blend knots avHold X a b p n r cu cv v)
        | .type_hpoint v => .type_hpoint (refineValuesV blend knots avHold X a b p n r cu cv v)
        | .type_color v => .type_color (refineValuesV blend knots avHold X a b p n r cu cv v)
        | .type_string _ => .type_string (cu * cv)
        | .type_matrix _ => .type_matrix (cu * cv) }
  else q

/-- `CqSurfaceNURBS::RefineKnotV(X)`; `none` only when a span lookup runs out of fuel.  The knot
pass is the text of `RefineKnotU` on the members of the `v` direction. -/
def RefineKnotV (fuel : Nat) (S : CqSurfaceNURBS) (X : List ℚ) : Option CqSurfaceNURBS :=
  if X.length ≤ 0 then some S
  else
    let n : Int := (S.m_cvVerts : Int) - 1
    let p : Int := S.vDegree
    let m : Int := n + p + 1
    let r : Int := (X.length : Int) - 1
    match FindSpanV fuel S (rd X 0), FindSpanV fuel S (rd X r) with
    | some a, some b0 =>
      let b : Int := (b0 : Int) + 1
      let cv : Nat := (r + 1 + n + 1).toNat
      let avHold := S.m_avKnots
      let knots := refineKnots avHold X a b p m r (cv + S.m_vOrder)
      some { S with
        m_cvVerts := cv
        m_avKnots := knots
        P := refineValuesV blend knots avHold X a b p n r S.m_cuVerts cv S.P
        m_aUserParams :=
          S.m_aUserParams.map (refineParamV knots avHold X a b p n r S.m_cuVerts cv) }
    | _, _ => none

/-! ### The multiple knot at a split value (nurbs.cpp 1081-1128, 1939-1980, 1988-2028) -/

/-- Forward search `while ((i < last) && (aKnots[i] == midVal)) { i++; same++; }`; the state is
`(i, same)`. -/
def searchForward (aKnots : List ℚ) (midVal : ℚ) (last : Nat) : Nat → Nat × Nat → Nat × Nat
  | 0, st => st
  | d + 1, st =>
    if st.1 < last ∧ rd aKnots st.1 = midVal then
      searchForward aKnots midVal last d (st.1 + 1, st.2 + 1)
    else st

/-- Backward search `while ((i > 0) && (aKnots[i] == midVal)) { i--; middex--; same++; }`; the
state is `(i, middex, same)`. -/
def searchBackward (aKnots : List ℚ) (midVal : ℚ) :
    Nat → Nat × Nat × Nat → Nat × Nat × Nat
  | 0, st => st
  | d + 1, st =>
    if st.1 > 0 ∧ rd aKnots st.1 = midVal then
      searchBackward aKnots midVal d (st.1 - 1, u32 ((st.2.1 : Int) - 1), st.2.2 + 1)
    else st

/-- The loop `while (aKnots[middex + 1] < midVal) middex++;`, `none` when the fuel runs out. -/
def searchCreate (aKnots : List ℚ) (midVal : ℚ) : Nat → Nat → Option Nat
  | 0, _ => none
  | d + 1, middex =>
    if rd aKnots ((middex : Int) + 1) < midVal then searchCreate aKnots midVal d (middex + 1)
    else some middex

/-- What the search for the multiple knot leaves behind: `same`, the vector `anewKnots` of the
knots to insert, and the value `(extra < Order) ? middex - 1L : middex` of the split point, which
`SplitNURBS` stores in a `TqUint` and `SubdivideSegments` in a `TqInt`. -/
structure SplitSearch where
  middex : Nat
  same : Nat
  extra : Nat
  anewKnots : List ℚ
  SplitPoint : Int
  deriving DecidableEq, Repr

/-- Lines 1117-1128 of `SplitNURBS` (and 1969-1979, 2017-2027): from `middex` and `same` to the
knots to insert and the split point. -/
def splitKnots (Order : Nat) (midVal : ℚ) (middex same : Nat) : SplitSearch :=
  let extra := u32 ((Order : Int) - same)
  { middex := middex, same := same, extra := extra,
    anewKnots := List.replicate extra (if same < Order then midVal else 0),
    SplitPoint := if extra < Order then (middex : Int) - 1 else middex }

/-- The text that `SplitNURBS` and the two loops of `SubdivideSegments` share, from the search
for a multiple knot at `midVal` (`middex` comes from the span lookup) to the split point.  The
variables are `TqUint`.  `SplitNURBS` computes `midVal` once more in the branch "No knot in
middle", from the same knots. -/
def splitSearch (fuel : Nat) (aKnots : List ℚ) (Order last : Nat) (midVal : ℚ) (middex0 : Nat) :
    Option SplitSearch :=
  let found : Nat × Nat × Nat :=
    if rd aKnots middex0 = midVal then
      let fw := searchForward aKnots midVal last last (middex0 + 1, 1)
      searchBackward aKnots midVal (u32 ((middex0 : Int) - 1))
        (u32 ((middex0 : Int) - 1), middex0, fw.2)
    else (0, middex0, 0)
  if found.1 ≤ 0 then
    (searchCreate aKnots midVal fuel 0).map (fun m => splitKnots Order midVal m 0)
  else some (splitKnots Order midVal found.2.1 found.2.2)

/-- Modelled from the spec: `CqSurfaceNURBS::Init(uOrder, vOrder, cuVerts, cvVerts)` (nurbs.h is
missing): the state of a surface is "orders, control-net dimensions, two knot vectors" and the
control net; `Init` sets the four numbers and gives the knot vectors and the net their sizes. -/
def Init (S : CqSurfaceNURBS) (uOrder vOrder cuVerts cvVerts : Nat) : CqSurfaceNURBS :=
  { S with m_uOrder := uOrder, m_vOrder := vOrder, m_cuVerts := cuVerts, m_cvVerts := cvVerts,
           m_auKnots := resize S.m_auKnots (cuVerts + uOrder),
           m_avKnots := resize S.m_avKnots (cvVerts + vOrder),
           P := resize S.P (cuVerts * cvVerts) }

/-- The surface that `new CqSurfaceNURBS()` makes (nurbs.cpp 48-51). -/
def fresh : CqSurfaceNURBS :=
  { m_cuVerts := 0, m_cvVerts := 0, m_uOrder := 0, m_vOrder := 0, m_auKnots := [],
    m_avKnots := [], P := [], m_aUserParams := [], m_fPatchMesh := false }

/-- Copy of a block of `rows` x `cols` values into `dst` (stride `cols`), the value of row `i`,
column `j` coming from the subscript `src i j` of `from`. -/
def copyBlock {α : Type} [Zero α] (rows cols : Nat) (src : Int → Int → Int) (pFrom : List α)
    (dst : List α) : List α :=
  forUp 0 rows (fun i D =>
    forUp 0 cols (fun j D1 => wr D1 (i * cols + j) (rd pFrom (src i j))) D) dst

/-- The same copy for a user parameter, by `SetValue`. -/
def copyBlockParam (rows cols : Nat) (src : Int → Int → Int) (pFrom : ParamValues)
    (dst : ParamValues) : ParamValues :=
  forUp 0 rows (fun i D =>
    forUp 0 cols (fun j D1 => D1.SetValue pFrom (i * cols + j) (src i j)) D) dst

/-- The clones of the vertex-class user parameters for a child with `rows` x `cols` control
points: `Clone`, `SetSize`, the loop of `SetValue`; `AddPrimitiveVariable` (surface.h) appends
them to the user parameters of the child in this order. -/
def vertexParams (rows cols : Nat) (src : Int → Int → Int) (params : List CqParameter) :
    List CqParameter :=
  (params.filter (fun q => q.Class = EqVariableClass.class_vertex)).map (fun q =>
    { q with values := copyBlockParam rows cols src q.values (q.values.SetSize (cols * rows)) })

/-- Copy of the first `n` knots from the subscript `off` on. -/
def copyKnots (n : Nat) (off : Int) (pFrom dst : List ℚ) : List ℚ :=
  forUp 0 n (fun i D => wr D i (rd pFrom (off + i))) dst

end CqSurfaceNURBS

namespace CqSurfaceNURBS
/-- The first child of `SplitNURBS`, from the refined surface `T` (nurbs.cpp 1135-1158). -/
def splitChildA (T : CqSurfaceNURBS) (dirflag : Bool) (SplitPoint : Nat) : CqSurfaceNURBS :=
  let A0 := fresh.Init T.m_uOrder T.m_vOrder
    (if dirflag then u32 ((SplitPoint : Int) + 1) else T.m_cuVerts)
    (if dirflag then T.m_cvVerts else u32 ((SplitPoint : Int) + 1))
  let srcA : Int → Int → Int := fun i j => i * T.m_cuVerts + j
  { A0 with
    P := copyBlock A0.m_cvVerts A0.m_cuVerts srcA T.P A0.P
    m_aUserParams :=
      A0.m_aUserParams ++ vertexParams A0.m_cvVerts A0.m_cuVerts srcA T.m_aUserParams
    m_auKnots := copyKnots (A0.m_uOrder + A0.m_cuVerts) 0 T.m_auKnots A0.m_auKnots
    m_avKnots := copyKnots (A0.m_vOrder + A0.m_cvVerts) 0 T.m_avKnots A0.m_avKnots }

/-- The second child of `SplitNURBS` (nurbs.cpp 1160-1194); `SplitPoint` is the value after
`SplitPoint++`. -/
def splitChildB (T : CqSurfaceNURBS) (dirflag : Bool) (SplitPoint : Nat) : CqSurfaceNURBS :=
  let B0 := fresh.Init T.m_uOrder T.m_vOrder
    (if dirflag then u32 ((T.m_cuVerts : Int) - SplitPoint) else T.m_cuVerts)
    (if dirflag then T.m_cvVerts else u32 ((T.m_cvVerts : Int) - SplitPoint))
  let srcB : Int → Int → Int := fun i j =>
    (if dirflag then i else i + SplitPoint) * T.m_cuVerts
      + (if dirflag then j + SplitPoint else j)
  { B0 with
    P := copyBlock B0.m_cvVerts B0.m_cuVerts srcB T.P B0.P
    m_aUserParams :=
      B0.m_aUserParams ++ vertexParams B0.m_cvVerts B0.m_cuVerts srcB T.m_aUserParams
    m_auKnots := copyKnots (B0.m_uOrder + B0.m_cuVerts)
      (if dirflag then SplitPoint else 0) T.m_auKnots B0.m_auKnots
    m_avKnots := copyKnots (B0.m_vOrder + B0.m_cvVerts)
      (if dirflag then 0 else SplitPoint) T.m_avKnots B0.m_avKnots }

/-- Lines 1075-1128 of `SplitNURBS`: the value `midVal`, the span lookup and the search, up to
the knots to insert and the split point. -/
def splitPlan (fuel : Nat) (S : CqSurfaceNURBS) (dirflag : Bool) : Option SplitSearch :=
  let aKnots := if dirflag then S.m_auKnots else S.m_avKnots
  let Order := if dirflag then S.m_uOrder else S.m_vOrder
  let last : Nat :=
    if dirflag then u32 ((S.m_cuVerts : Int) + S.m_uOrder - 1)
    else u32 ((S.m_cvVerts : Int) + S.m_vOrder - 1)
  let midVal := (rd aKnots 0 + rd aKnots last) / 2
  (if dirflag then FindSpanU fuel S midVal else FindSpanV fuel S midVal).bind
    (fun middex0 => splitSearch fuel aKnots Order last midVal middex0)

/-- `CqSurfaceNURBS::SplitNURBS(nrbA, nrbB, dirflag)` on fresh `nrbA`, `nrbB`: the surface itself
after the call (it is refined), `nrbA` and `nrbB`; `none` when a loop runs out of fuel. -/
def SplitNURBS (fuel : Nat) (S : CqSurfaceNURBS) (dirflag : Bool) :
    Option (CqSurfaceNURBS × CqSurfaceNURBS × CqSurfaceNURBS) :=
  (splitPlan fuel S dirflag).bind (fun plan =>
    (if dirflag then RefineKnotU fuel S plan.anewKnots
      else RefineKnotV fuel S plan.anewKnots).map (fun T =>
        (T, splitChildA T dirflag (u32 plan.SplitPoint),
          splitChildB T dirflag (u32 ((u32 plan.SplitPoint : Int) + 1)))))

/-- What the splitting calls and whose code is outside the sources: the accessors `cuSegments()`
and `cvSegments()` (nurbs.h), and the parts of `uSubdivide` and `vSubdivide` that give the two
children their remaining user parameters, namely the subdivision of the normals
(`N().uSubdivide`, when the shaders use `N`) and `uSubdivideUserParameters`,
`vSubdivideUserParameters`: from the surface and from the user parameters that the children
have, those that they get. -/
structure SurfaceEnv where
  cuSegments : CqSurfaceNURBS → Int
  cvSegments : CqSurfaceNURBS → Int
  uSubdivideUserParameters :
    CqSurfaceNURBS → List CqParameter → List CqParameter → List CqParameter × List CqParameter
  vSubdivideUserParameters :
    CqSurfaceNURBS → List CqParameter → List CqParameter → List CqParameter × List CqParameter

/-- `CqSurfaceNURBS::uSubdivide(pnrbA, pnrbB)`: the surface after the call and the two children. -/
def uSubdivide (env : SurfaceEnv) (fuel : Nat) (S : CqSurfaceNURBS) :
    Option (CqSurfaceNURBS × CqSurfaceNURBS × CqSurfaceNURBS) :=
  (SplitNURBS fuel S true).map (fun r =>
    let up := env.uSubdivideUserParameters r.1 r.2.1.m_aUserParams r.2.2.m_aUserParams
    (r.1, { r.2.1 with m_aUserParams := up.1 }, { r.2.2 with m_aUserParams := up.2 }))

/-- `CqSurfaceNURBS::vSubdivide(pnrbA, pnrbB)`. -/
def vSubdivide (env : SurfaceEnv) (fuel : Nat) (S : CqSurfaceNURBS) :
    Option (CqSurfaceNURBS × CqSurfaceNURBS × CqSurfaceNURBS) :=
  (SplitNURBS fuel S false).map (fun r =>
    let up := env.vSubdivideUserParameters r.1 r.2.1.m_aUserParams r.2.2.m_aUserParams
    (r.1, { r.2.1 with m_aUserParams := up.1 }, { r.2.2 with m_aUserParams := up.2 }))


/-! ### Patch meshes (nurbs.cpp 1918-2148) -/

/-- One round of the first loop of `SubdivideSegments` (index `iu`): the split value `su`, the
search, the split point and the refinement.  The state is the surface and `uSplitPoint`. -/
def segmentSplitU (fuel : Nat) (uSplits : Int) (iu : Int)
    (st : Option (CqSurfaceNURBS × List Int)) : Option (CqSurfaceNURBS × List Int) :=
  st.bind (fun st1 =>
    let T := st1.1
    let su := sample T.m_auKnots T.m_cuVerts T.m_uOrder iu uSplits
    let last := u32 ((T.m_cuVerts : Int) + T.m_uOrder - 1)
    (FindSpanU fuel T su).bind (fun middex0 =>
      (splitSearch fuel T.m_auKnots T.m_uOrder last su middex0).bind (fun plan =>
        (RefineKnotU fuel T plan.anewKnots).map (fun T1 =>
          (T1, wr st1.2 iu plan.SplitPoint)))))

/-- One round of the second loop of `SubdivideSegments` (index `iv`). -/
def segmentSplitV (fuel : Nat) (vSplits : Int) (iv : Int)
    (st : Option (CqSurfaceNURBS × List Int)) : Option (CqSurfaceNURBS × List Int) :=
  st.bind (fun st1 =>
    let T := st1.1
    let sv := sample T.m_avKnots T.m_cvVerts T.m_vOrder iv vSplits
    let last := u32 ((T.m_cvVerts : Int) + T.m_vOrder - 1)
    (FindSpanV fuel T sv).bind (fun middex0 =>
      (splitSearch fuel T.m_avKnots T.m_vOrder last sv middex0).bind (fun plan =>
        (RefineKnotV fuel T plan.anewKnots).map (fun T1 =>
          (T1, wr st1.2 iv plan.SplitPoint)))))

/-- The patch that `SubdivideSegments` builds from the refined surface `T` for the segment with
the offsets `uOffset`, `vOffset` and the ends `uEnd`, `vEnd` (nurbs.cpp 2057-2104).
`cVertex()` is the number of control points. -/
def segmentPatch (T : CqSurfaceNURBS) (uOffset vOffset uEnd vEnd : Int) : CqSurfaceNURBS :=
  let S0 := ({ fresh with m_fPatchMesh := false }).Init T.m_uOrder T.m_vOrder
    (u32 (uEnd + 1 - uOffset)) (u32 (vEnd + 1 - vOffset))
  let copy : {α : Type} → [Zero α] → List α → List α → List α := fun pFrom dst =>
    forUp 0 (vEnd - vOffset + 1) (fun iPv D =>
      forUp 0 (uEnd - uOffset + 1) (fun iPu D1 =>
        wr D1 (iPv * S0.m_cuVerts + iPu)
          (rd pFrom ((vOffset + iPv) * T.m_cuVerts + uOffset + iPu))) D) dst
  let copyParam : ParamValues → ParamValues → ParamValues := fun pFrom dst =>
    forUp 0 (vEnd - vOffset + 1) (fun iPv D =>
      forUp 0 (uEnd - uOffset + 1) (fun iPu D1 =>
        D1.SetValue pFrom (iPv * S0.m_cuVerts + iPu)
          ((vOffset + iPv) * T.m_cuVerts + uOffset + iPu)) D) dst
  { S0 with
    P := copy T.P S0.P
    m_aUserParams := S0.m_aUserParams ++
      (T.m_aUserParams.filter (fun q => q.Class = EqVariableClass.class_vertex)).map (fun q =>
        { q with values :=
            copyParam q.values (q.values.SetSize (S0.m_cuVerts * S0.m_cvVerts)) })
    m_auKnots := copyKnots (S0.m_uOrder + S0.m_cuVerts) uOffset T.m_auKnots S0.m_auKnots
    m_avKnots := copyKnots (S0.m_vOrder + S0.m_cvVerts) vOffset T.m_avKnots S0.m_avKnots }

/-- The four corner values that the patch of the segment `(irow, icol)` gets from a
varying-class user parameter (nurbs.cpp 2125-2142). -/
def cornerParam (nuSegs irow icol : Int) (q : CqParameter) : CqParameter :=
  let iA := icol * (nuSegs + 1) + irow
  let iB := icol * (nuSegs + 1) + irow + 1
  let iC := (icol + 1) * (nuSegs + 1) + irow
  let iD := (icol + 1) * (nuSegs + 1) + irow + 1
  { q with values :=
      ((((q.values.SetSize 4).SetValue q.values 0 iA).SetValue q.values 1 iB).SetValue
        q.values 2 iC).SetValue q.values 3 iD }

/-- Element `i` of the vector `S` of patches; the fresh surface outside. -/
def patchAt (S : List CqSurfaceNURBS) (i : Int) : CqSurfaceNURBS :=
  if 0 ≤ i then S.getD i.toNat fresh else fresh

/-- Assignment to element `i` of the vector `S` of patches. -/
def setPatch (S : List CqSurfaceNURBS) (i : Int) (v : CqSurfaceNURBS) : List CqSurfaceNURBS :=
  if 0 ≤ i then S.set i.toNat v else S

/-- The loop across `u` of `SubdivideSegments` for the row `vPatch` of patches (nurbs.cpp
2044-2103); the state is `S` and `uOffset`. -/
def segmentRow (T : CqSurfaceNURBS) (uSplitPoint : List Int) (uSplits vPatch vOffset vEnd : Int)
    (S : List CqSurfaceNURBS) : List CqSurfaceNURBS × Int :=
  forUp 0 uSplits (fun uPatch (st1 : List CqSurfaceNURBS × Int) =>
    let uOffset := st1.2
    let uEnd := rd uSplitPoint (uPatch + 1)
    let iS := vPatch * uSplits + uPatch
    (setPatch st1.1 iS (segmentPatch T uOffset vOffset uEnd vEnd), uEnd + 1)) (S, 0)

/-- The loop over the rows of patches of `SubdivideSegments` (nurbs.cpp 2037-2106); the state
is `S` and `vOffset`. -/
def segmentPatches (T : CqSurfaceNURBS) (uSplitPoint vSplitPoint : List Int)
    (uSplits vSplits : Int) (S : List CqSurfaceNURBS) : List CqSurfaceNURBS :=
  (forUp 0 vSplits (fun vPatch (st : List CqSurfaceNURBS × Int) =>
    let vOffset := st.2
    let vEnd := rd vSplitPoint (vPatch + 1)
    let row := segmentRow T uSplitPoint uSplits vPatch vOffset vEnd st.1
    (row.1, vEnd + 1)) (S, 0)).1

/-- The loops of `SubdivideSegments` that give the patches the user parameters of class
varying (nurbs.cpp 2108-2146). -/
def segmentCorners (T : CqSurfaceNURBS) (nuSegs nvSegs : Int) (S : List CqSurfaceNURBS) :
    List CqSurfaceNURBS :=
  forUp 0 nvSegs (fun icol S1 =>
    forUp 0 nuSegs (fun irow S2 =>
      let iPatch := icol * nuSegs + irow
      setPatch S2 iPatch
        { patchAt S2 iPatch with
          m_aUserParams := (patchAt S2 iPatch).m_aUserParams ++
            (T.m_aUserParams.filter
              (fun q => q.Class = EqVariableClass.class_varying)).map
              (cornerParam nuSegs irow icol) }) S1) S

/-- `CqSurfaceNURBS::SubdivideSegments(S)` on an empty `S`, with the values `uSplits`, `vSplits`
of `cuSegments()` and `cvSegments()`: the surface after the call (it is refined) and `S`; `none`
when a loop runs out of fuel. -/
def SubdivideSegments (fuel : Nat) (T0 : CqSurfaceNURBS) (uSplits vSplits : Int) :
    Option (CqSurfaceNURBS × List CqSurfaceNURBS) :=
  let S0 : List CqSurfaceNURBS := List.replicate (uSplits * vSplits).toNat fresh
  let uSplitPoint0 : List Int := List.replicate (uSplits + 1).toNat 0
  let vSplitPoint0 : List Int := List.replicate (vSplits + 1).toNat 0
  (forUp 1 uSplits (segmentSplitU fuel uSplits) (some (T0, uSplitPoint0))).bind (fun ru =>
    (forUp 1 vSplits (segmentSplitV fuel vSplits) (some (ru.1, vSplitPoint0))).map (fun rv =>
      let T := rv.1
      let uSplitPoint := wr ru.2 uSplits ((T.m_cuVerts : Int) - 1)
      let vSplitPoint := wr rv.2 vSplits ((T.m_cvVerts : Int) - 1)
      (T, segmentCorners T uSplits vSplits
        (segmentPatches T uSplitPoint vSplitPoint uSplits vSplits S0))))

/-! ### `Split` (nurbs.cpp 1385-1487)

`SetSurfaceParameters`, `TrimLoops`, `AddRef` and `Release` act on members of the base class
(attributes, transformation, trim loops, reference count) that the embedding does not carry. -/

/-- The statements `p->m_fDiceable = TqTrue; p->m_SplitDir = m_SplitDir;
p->m_EyeSplitCount = m_EyeSplitCount;` for a child of the first level. -/
def adopt (T p : CqSurfaceNURBS) : CqSurfaceNURBS :=
  { p with m_fDiceable := true, m_SplitDir := T.m_SplitDir,
           m_EyeSplitCount := T.m_EyeSplitCount }

/-- The statements `p->m_fDiceable = TqTrue; p->m_EyeSplitCount = m_EyeSplitCount;` for a child
of the second level. -/
def adopt2 (T p : CqSurfaceNURBS) : CqSurfaceNURBS :=
  { p with m_fDiceable := true, m_EyeSplitCount := T.m_EyeSplitCount }

/-- `CqSurfaceNURBS::Split(aSplits)`: the returned count, `aSplits` after the call and the
surface itself after the call; `none` when a loop runs out of fuel. -/
def Split (env : SurfaceEnv) (fuel : Nat) (S : CqSurfaceNURBS)
    (aSplits : List CqSurfaceNURBS) : Option (Int × List CqSurfaceNURBS × CqSurfaceNURBS) :=
  if S.m_fPatchMesh then
    (SubdivideSegments fuel S (env.cuSegments S) (env.cvSegments S)).map (fun r =>
      ((r.2.length : Int), aSplits ++ r.2.map (adopt r.1), r.1))
  else
    (if S.m_SplitDir = EqSplitDir.SplitDir_U ∨ S.m_fDiceable = false then uSubdivide env fuel S
      else vSubdivide env fuel S).bind (fun r =>
      let T := r.1
      let pNew1 := adopt T r.2.1
      let pNew2 := adopt T r.2.2
      if T.m_fDiceable = false then
        (if T.m_SplitDir = EqSplitDir.SplitDir_U then vSubdivide env fuel pNew1
          else uSubdivide env fuel pNew1).bind (fun r1 =>
          (if T.m_SplitDir = EqSplitDir.SplitDir_U then vSubdivide env fuel pNew2
            else uSubdivide env fuel pNew2).map (fun r2 =>
            (0 + 2 + 2,
              aSplits ++ [adopt2 T r1.2.1, adopt2 T r1.2.2] ++
                [adopt2 T r2.2.1, adopt2 T r2.2.2], T)))
      else
        some (0 + 2, aSplits ++ [pNew1, pNew2], T))

end CqSurfaceNURBS

/-! ### The state of the refinement loops of `SubdivideSegments` -/

/-- The state of one direction of `SubdivideSegments` before round `k` of its refinement loop,
for the original knot vector `K0` with `n0` control points, the order `o` and `segs` segments:
the knot vector `K` (`n` control points) is non-decreasing and has the active range of `K0`, no
later split value occurs more than `o` times in it, and every split point `sp j` found so far
(stored in `L[j]`) is followed by `o` knots equal to the split value, the places `sp j + 1` to
`sp j + o`; the split points are at least `o` apart. -/
def MeshInv (K0 : List ℚ) (n0 o segs : Nat) (k : Nat) (K : List ℚ) (n : Nat) (L : List Int)
    (sp : Nat → Nat) : Prop :=
  K.Sorted (· ≤ ·) ∧ K.length = n + o ∧ n ≤ n0 + (k - 1) * o ∧
  rd K ((o - 1 : Nat) : Int) = rd K0 ((o - 1 : Nat) : Int) ∧ rd K (n : Int) = rd K0 (n0 : Int) ∧
  L.length = segs + 1 ∧
  (∀ j : Nat, k ≤ j → j < segs → ∀ a b : Nat, a ≤ b → b < K.length →
    rd K (a : Int) = CqSurfaceNURBS.sample K0 n0 o j segs → rd K (b : Int) = CqSurfaceNURBS.sample K0 n0 o j segs →
    b - a + 1 ≤ o) ∧
  (∀ j : Nat, 1 ≤ j → j < k →
    rd L (j : Int) = (sp j : Int) ∧ rd K ((sp j + 1 : Nat) : Int) = CqSurfaceNURBS.sample K0 n0 o j segs ∧
    rd K ((sp j + o : Nat) : Int) = CqSurfaceNURBS.sample K0 n0 o j segs ∧ o - 1 ≤ sp j ∧ sp j + o < n ∧
    (∀ j2 : Nat, j < j2 → j2 < k → sp j + o ≤ sp j2))

/-- Subscript read with the value `d` outside the vector; `rd` and `patchAt` are instances. -/
def getAt {α : Type} (d : α) (a : List α) (i : Int) : α :=
  if 0 ≤ i then a.getD i.toNat d else d

/-- A knot vector that `SubdivideSegments` can cut into `segs` segments: it is non-decreasing,
has `n + o` knots for the order `o ≥ 1`, its active range from knot `o - 1` to knot `n` is not
empty, none of the inner split values occurs more than `o` times in it, and the numbers stay
inside `TqUint`. -/
def Splittable (K : List ℚ) (n o segs : Nat) : Prop :=
  K.Sorted (· ≤ ·) ∧ K.length = n + o ∧ 1 ≤ o ∧ 1 ≤ segs ∧
  rd K ((o : Int) - 1) < rd K (n : Int) ∧
  (∀ j : Nat, j < segs → 1 ≤ j → K.count (CqSurfaceNURBS.sample K n o j segs) ≤ o) ∧
  n + segs * o + o < 4294967296

/-! ### The corner values of the parameters of class varying, as the claim states them -/

/-- Entry `(i, j)` of a lattice of `nuSegs + 1` values per row stored row after row, as the
claim on the parameters of class varying reads it: `i` counts along `u` inside a row, `j`
counts the rows along `v`. -/
def latticeAt {α : Type} [Zero α] (nuSegs : Int) (l : List α) (i j : Int) : α :=
  rd l (j * (nuSegs + 1) + i)

/-- The four values that the claim gives the patch of the segment `(irow, icol)`: the lattice
entries `(irow, icol)`, `(irow + 1, icol)`, `(irow, icol + 1)`, `(irow + 1, icol + 1)`, in that
order. -/
def fourCorners {α : Type} [Zero α] (nuSegs irow icol : Int) (l : List α) : List α :=
  [latticeAt nuSegs l irow icol, latticeAt nuSegs l (irow + 1) icol,
    latticeAt nuSegs l irow (icol + 1), latticeAt nuSegs l (irow + 1) (icol + 1)]

/-- The four corner values of a typed value array (four slots for strings and matrices). -/
def ParamValues.fourCorners (nuSegs irow icol : Int) : ParamValues → ParamValues
  | .type_float l => .type_float (Aqsis.fourCorners nuSegs irow icol l)
  | .type_integer l => .type_integer (Aqsis.fourCorners nuSegs irow icol l)
  | .type_point l => .type_point (Aqsis.fourCorners nuSegs irow icol l)
  | .type_normal l => .type_normal (Aqsis.fourCorners nuSegs irow icol l)
  | .type_vector l => .type_vector (Aqsis.fourCorners nuSegs irow icol l)
  | .type_hpoint l => .type_hpoint (Aqsis.fourCorners nuSegs irow icol l)
  | .type_color l => .type_color (Aqsis.fourCorners nuSegs irow icol l)
  | .type_string _ => .type_string 4
  | .type_matrix _ => .type_matrix 4

/-- Element `i` of the value array `a` and element `j` of the value array `b` are values of the
same type and equal (strings and matrices are slots without content). -/
def ParamValues.sameAt (a : ParamValues) (i : Int) (b : ParamValues) (j : Int) : Prop :=
  match a, b with
  | .type_float l, .type_float m => rd l i = rd m j
  | .type_integer l, .type_integer m => rd l i = rd m j
  | .type_point l, .type_point m => rd l i = rd m j
  | .type_normal l, .type_normal m => rd l i = rd m j
  | .type_vector l, .type_vector m => rd l i = rd m j
  | .type_hpoint l, .type_hpoint m => rd l i = rd m j
  | .type_color l, .type_color m => rd l i = rd m j
  | .type_string _, .type_string _ => True
  | .type_matrix _, .type_matrix _ => True
  | _, _ => False

/-! ### The work loop of the tessellation context -/

/-- Modelled from the spec: `TessellationContext::run()`, "pop and tessellate until the queue is
empty", the queue being a LIFO of geometry: the piece pushed last is popped and its
`tessellate` is invoked with the split transform.  One unit of fuel pays for one pop; `none`
when the fuel runs out before the queue is empty. -/
def TessellationContext.run (sqrt : ℚ → ℚ) (xform : Vec3 → Mat4 → Vec3) (splitTrans : Mat4) :
    Nat → TessellationContext → Option TessellationContext
  | 0, tessCtx => if tessCtx.pushed = [] then some tessCtx else none
  | fuel + 1, tessCtx =>
    match tessCtx.pushed.getLast? with
    | none => some tessCtx
    | some g =>
      TessellationContext.run sqrt xform splitTrans fuel
        (g.tessellate sqrt xform splitTrans { tessCtx with pushed := tessCtx.pushed.dropLast })

/-- The sum of the squares of the components, the argument of `sqrt` in `Vec3::length()`. -/
def Vec3.normSq (a : Vec3) : ℚ := a.x * a.x + a.y * a.y + a.z * a.z

/-- The measure of a patch that the work loop decreases: with the corners `a`, `b`, `c`, `d`
in splitting coordinates, the greater of `|b - a|²`, `|d - c|²` times the greater of
`|c - a|²`, `|d - b|²`. -/
def Patch.sizeBound (xform : Vec3 → Mat4 → Vec3) (self : Patch) (splitTrans : Mat4) : ℚ :=
  let c := self.getCorners
  let aSpl := xform c.1 splitTrans
  let bSpl := xform c.2.1 splitTrans
  let cSpl := xform c.2.2.1 splitTrans
  let dSpl := xform c.2.2.2 splitTrans
  Max.max (bSpl - aSpl).normSq (dSpl - cSpl).normSq
    * Max.max (cSpl - aSpl).normSq (dSpl - bSpl).normSq

/-! ## Primitive variable tokens (primvartoken.cpp)

A `const char*` string is the list of its characters; the end of the list is the terminating
NUL, and a NUL character inside the list ends the string as well.  The exception `XqParseError`
is the error of `Except`; its message is kept as the place that raises it.  `enumCast<EnumT>`
and the name tables it looks up are declared outside the sources: the parser takes the two
instances it calls as parameters, with `none` for `class_invalid` / `type_invalid`. -/

/-- Modelled from the spec: `EqVariableType` (the header that declares it is missing): the closed
set of storage shapes of a primitive variable. -/
inductive EqVariableType
  | type_float
  | type_integer
  | type_point
  | type_vector
  | type_normal
  | type_color
  | type_hpoint
  | type_matrix
  | type_string
  deriving DecidableEq, Repr

/-- The places of primvartoken.cpp that throw `XqParseError`, one for each message. -/
inductive XqParseError
  | invalidCharacter (c : Char)
  | expectedArraySize
  | arraySizeNotPositive
  | expectedCloseBracket
  | closeBracketAsName
  | tooManyTokens
  | expectedName
  | unexpectedName
  deriving DecidableEq, Repr

/-- The largest `int`.  `m_arraySize` is declared in primvartoken.h, which is not among the
sources; it is taken to be a `TqInt`, a 32-bit `int`. -/
def INT_MAX : Int := 2147483647

/-- The smallest `int`. -/
def INT_MIN : Int := -2147483648

/-- The characters that `CqPrimvarTokenizer::get` skips between tokens. -/
def isSpace (c : Char) : Bool := c == ' ' || c == Char.ofNat 9 || c == Char.ofNat 10

/-- The characters that `CqPrimvarTokenizer::get` refuses: the hash and the double quote. -/
def isInvalid (c : Char) : Bool := c == Char.ofNat 35 || c == Char.ofNat 34

/-- The kept delimiters of `CqPrimvarTokenizer::get`. -/
def isBracket (c : Char) : Bool := c == '[' || c == ']'

namespace CqPrimvarTokenizer

/-- The loop of `CqPrimvarTokenizer::get`: `word` is the text between `m_wordBegin` and
`m_currPos`, the list is the text from `m_currPos` on.  The result is the token and the new
`m_currPos`. -/
def getLoop : List Char → List Char → Except XqParseError (List Char × List Char)
  | word, [] => .ok (word, [])
  | word, c :: cs =>
    if isSpace c then
      if word ≠ [] then .ok (word, c :: cs) else getLoop [] cs
    else if c = Char.ofNat 0 then .ok (word, c :: cs)
    else if isInvalid c then .error (.invalidCharacter c)
    else if isBracket c then
      if word ≠ [] then .ok (word, c :: cs) else .ok ([c], cs)
    else getLoop (word ++ [c]) cs

/-- `CqPrimvarTokenizer::get` with `m_currPos` at the head of the list. -/
def get (currPos : List Char) : Except XqParseError (List Char × List Char) :=
  getLoop [] currPos

end CqPrimvarTokenizer

/-- `lowercaseEnumCast<EnumT>(tok)`: `boost::to_lower`, then `enumCast`. -/
def lowercaseEnumCast {α : Type} (enumCast : List Char → Option α) (tok : List Char) :
    Option α :=
  enumCast (tok.map Char.toLower)

/-- Value of a run of decimal digits. -/
def digitsValue (ds : List Char) : Nat :=
  ds.foldl (fun acc c => 10 * acc + (c.toNat - 48)) 0

/-- The statements `std::istringstream in(tok); in >> m_arraySize;` on a token without
whitespace: the value stored in the `int`, and whether a following `in.get()` gives `EOF`.
An optional sign and the longest run of digits are read.  Without a digit the extraction fails
and stores zero; a value outside the `int` range fails and stores the nearest bound; a stream
that has failed, or whose digits ran to its end, gives `EOF`, otherwise `get` gives the next
character. -/
def extractInt (tok : List Char) : Int × Bool :=
  let neg : Bool := tok.head? == some '-'
  let body : List Char := if tok.head? == some '-' || tok.head? == some '+' then tok.tail else tok
  let ds := body.takeWhile Char.isDigit
  let rest := body.dropWhile Char.isDigit
  if ds = [] then (0, true)
  else
    let v : Int := if neg then -(digitsValue ds : Int) else (digitsValue ds : Int)
    if INT_MAX < v then (INT_MAX, true)
    else if v < INT_MIN then (INT_MIN, true)
    else (v, rest.isEmpty)

/-- The members of a `CqPrimvarToken`; `none` is `class_invalid`, respectively `type_invalid`. -/
structure CqPrimvarToken where
  m_class : Option EqVariableClass
  m_type : Option EqVariableType
  m_arraySize : Int
  m_name : List Char
  deriving DecidableEq, Repr

namespace CqPrimvarToken

/-- The macro `NEXT_OR_END`, that is `if((tok = tokenizer.get()) == "") return`, followed by
the rest `k` of `parse`, which gets the token and the new position of the tokenizer. -/
def NEXT_OR_END (self : CqPrimvarToken) (pos : List Char)
    (k : List Char → List Char → Except XqParseError CqPrimvarToken) :
    Except XqParseError CqPrimvarToken :=
  match CqPrimvarTokenizer.get pos with
  | .error e => .error e
  | .ok (tok, pos1) => if tok = [] then .ok self else k tok pos1

/-- Step (4) of `CqPrimvarToken::parse` and the final check: the current token is the name and
no token may follow it. -/
def parseName (self : CqPrimvarToken) (tok pos : List Char) :
    Except XqParseError CqPrimvarToken :=
  if tok = [']'] then .error .closeBracketAsName
  else
    match CqPrimvarTokenizer.get pos with
    | .error e => .error e
    | .ok (t, _) =>
      if t ≠ [] then .error .tooManyTokens else .ok { self with m_name := tok }

/-- Step (3) of `CqPrimvarToken::parse`: the array size between brackets, then the name. -/
def parseArraySize (self : CqPrimvarToken) (tok pos : List Char) :
    Except XqParseError CqPrimvarToken :=
  if tok = ['['] then
    match CqPrimvarTokenizer.get pos with
    | .error e => .error e
    | .ok (tok1, pos1) =>
      if tok1 = [] then .error .expectedArraySize
      else if (extractInt tok1).1 ≤ 0 ∨ (extractInt tok1).2 = false then
        .error .arraySizeNotPositive
      else
        match CqPrimvarTokenizer.get pos1 with
        | .error e => .error e
        | .ok (tok2, pos2) =>
          if tok2 ≠ [']'] then .error .expectedCloseBracket
          else
            NEXT_OR_END { self with m_arraySize := (extractInt tok1).1 } pos2
              (parseName { self with m_arraySize := (extractInt tok1).1 })
  else parseName self tok pos

/-- Step (2) of `CqPrimvarToken::parse`: the type, then the rest. -/
def parseType (enumCastType : List Char → Option EqVariableType) (self : CqPrimvarToken)
    (tok pos : List Char) : Except XqParseError CqPrimvarToken :=
  if lowercaseEnumCast enumCastType tok ≠ none then
    NEXT_OR_END { self with m_type := lowercaseEnumCast enumCastType tok } pos
      (parseArraySize { self with m_type := lowercaseEnumCast enumCastType tok })
  else parseArraySize { self with m_type := none } tok pos

/-- `CqPrimvarToken::parse(tokenStr)`: step (1), the class, then the rest. -/
def parse (enumCastClass : List Char → Option EqVariableClass)
    (enumCastType : List Char → Option EqVariableType) (self : CqPrimvarToken)
    (tokenStr : List Char) : Except XqParseError CqPrimvarToken :=
  NEXT_OR_END self tokenStr (fun tok pos =>
    if lowercaseEnumCast enumCastClass tok ≠ none then
      NEXT_OR_END { self with m_class := lowercaseEnumCast enumCastClass tok } pos
        (parseType enumCastType { self with m_class := lowercaseEnumCast enumCastClass tok })
    else parseType enumCastType { self with m_class := none } tok pos)

/-- The members after the initialiser list of both constructors. -/
def init : CqPrimvarToken :=
  { m_class := none, m_type := none, m_arraySize := 1, m_name := [] }

/-- The constructor `CqPrimvarToken(const char* token)`; a null pointer is `none`. -/
def ofToken (enumCastClass : List Char → Option EqVariableClass)
    (enumCastType : List Char → Option EqVariableType) (token : Option (List Char)) :
    Except XqParseError CqPrimvarToken :=
  match (match token with
    | some s => parse enumCastClass enumCastType init s
    | none => .ok init) with
  | .error e => .error e
  | .ok self =>
    let self1 : CqPrimvarToken :=
      if self.m_class = none then { self with m_class := some .class_uniform } else self
    if self1.m_name = [] then .error .expectedName else .ok self1

/-- The constructor `CqPrimvarToken(const char* typeToken, const std::string& name)`. -/
def ofTypeToken (enumCastClass : List Char → Option EqVariableClass)
    (enumCastType : List Char → Option EqVariableType) (typeToken : Option (List Char))
    (name : List Char) : Except XqParseError CqPrimvarToken :=
  match (match typeToken with
    | some s => parse enumCastClass enumCastType init s
    | none => .ok init) with
  | .error e => .error e
  | .ok self =>
    if self.m_name ≠ [] then .error .unexpectedName
    else
      let self1 : CqPrimvarToken := { self with m_name := name }
      .ok (if self1.m_class = none then { self1 with m_class := some .class_uniform } else self1)

end CqPrimvarToken

/-! ### Declarations as the grammar writes them

The comment in `CqPrimvarToken::parse` gives the form `class type '[' array_size ']' name`.  The
definitions below build such a text from its parts; they are what the theorems about the parser
quantify over. -/

/-- A character that may stand inside a word: no whitespace, NUL, hash, quote or bracket. -/
def isPlain (c : Char) : Bool :=
  !isSpace c && !(c == Char.ofNat 0) && !isInvalid c && !isBracket c

/-- A run of whitespace. -/
def Blank (ws : List Char) : Prop := ∀ c ∈ ws, isSpace c = true

/-- A word: one or more plain characters. -/
def Word (w : List Char) : Prop := w ≠ [] ∧ ∀ c ∈ w, isPlain c = true

/-- A text before which a word ends: the end of the string, whitespace, NUL or a bracket. -/
def endsWord : List Char → Bool
  | [] => true
  | d :: _ => isSpace d || d == Char.ofNat 0 || isBracket d

/-- An optional word with the whitespace after it, in front of `rest`. -/
def optWord (p : Option (List Char × List Char)) (rest : List Char) : List Char :=
  match p with
  | none => rest
  | some (w, ws) => w ++ (ws ++ rest)

/-- The text `[ digits ]` with whitespace `w3`, `w4`, `w5` after its three tokens, in front of
`rest`. -/
def bracketed (w3 ds w4 w5 rest : List Char) : List Char :=
  '[' :: (w3 ++ (ds ++ (w4 ++ (']' :: (w5 ++ rest)))))

/-- An optional array size in front of `rest`. -/
def optArray (p : Option (List Char × List Char × List Char × List Char)) (rest : List Char) :
    List Char :=
  match p with
  | none => rest
  | some (w3, ds, w4, w5) => bracketed w3 ds w4 w5 rest

/-- What the class part of a declaration means: the cast of the class word, `none` without. -/
def classOfPart (enumCastClass : List Char → Option EqVariableClass)
    (p : Option (List Char × List Char)) : Option EqVariableClass :=
  match p with
  | none => none
  | some (w, _) => lowercaseEnumCast enumCastClass w

/-- What the type part of a declaration means. -/
def typeOfPart (enumCastType : List Char → Option EqVariableType)
    (p : Option (List Char × List Char)) : Option EqVariableType :=
  match p with
  | none => none
  | some (w, _) => lowercaseEnumCast enumCastType w

/-- What the array part of a declaration means: the value of the digits, 1 without. -/
def sizeOfPart (p : Option (List Char × List Char × List Char × List Char)) : Int :=
  match p with
  | none => 1
  | some (_, ds, _, _) => (digitsValue ds : Int)

/-- A well-formed optional word: a word that the cast knows, whitespace after it, and a text
after that at which the word ends. -/
def ValidWord {α : Type} (enumCast : List Char → Option α)
    (p : Option (List Char × List Char)) (rest : List Char) : Prop :=
  match p with
  | none => True
  | some (w, ws) =>
    Word w ∧ lowercaseEnumCast enumCast w ≠ none ∧ Blank ws ∧ endsWord (ws ++ rest) = true

/-- A well-formed optional array size: digits of a positive value that an `int` holds. -/
def ValidArray (p : Option (List Char × List Char × List Char × List Char)) : Prop :=
  match p with
  | none => True
  | some (w3, ds, w4, w5) =>
    Blank w3 ∧ ds ≠ [] ∧ (∀ c ∈ ds, c.isDigit = true) ∧ 0 < digitsValue ds ∧
      (digitsValue ds : Int) ≤ INT_MAX ∧ Blank w4 ∧ Blank w5

/-- The name tables keep the parts of a declaration apart: no type word is a class word, and the
opening bracket is neither. -/
def SeparateNames (enumCastClass : List Char → Option EqVariableClass)
    (enumCastType : List Char → Option EqVariableType) : Prop :=
  (∀ w, lowercaseEnumCast enumCastType w ≠ none → lowercaseEnumCast enumCastClass w = none) ∧
    lowercaseEnumCast enumCastClass ['['] = none ∧ lowercaseEnumCast enumCastType ['['] = none

/-- The name `x` is not taken for one of the parts that the declaration leaves out: it is not a
type word when type and array size are left out, nor a class word when the class is left out
as well. -/
def NameNotReserved (enumCastClass : List Char → Option EqVariableClass)
    (enumCastType : List Char → Option EqVariableType)
    (cls typ : Option (List Char × List Char))
    (arr : Option (List Char × List Char × List Char × List Char)) (x : List Char) : Prop :=
  (typ = none → arr = none → lowercaseEnumCast enumCastType x = none) ∧
    (cls = none → typ = none → arr = none → lowercaseEnumCast enumCastClass x = none)

namespace CqSurfaceNURBS

/-- The transpose of a surface, as the claims on the mirror operations describe it: the knot
vectors, the orders and the numbers of control points of the two directions are swapped and the
control net is transposed, so that the point in column `c` and row `r` of the transpose is the
point in column `r` and row `c` of the surface.  The other members stay. -/
def transpose (S : CqSurfaceNURBS) : CqSurfaceNURBS :=
  { S with
    m_cuVerts := S.m_cvVerts, m_cvVerts := S.m_cuVerts
    m_uOrder := S.m_vOrder, m_vOrder := S.m_uOrder
    m_auKnots := S.m_avKnots, m_avKnots := S.m_auKnots
    P := (List.range (S.m_cvVerts * S.m_cuVerts)).map (fun i =>
      rd S.P (((i % S.m_cvVerts : Nat) : Int) * S.m_cuVerts + ((i / S.m_cvVerts : Nat) : Int))) }

end CqSurfaceNURBS

/-- The arrays that `InsertKnotU` subscripts between the lines 427 and 471: the member knot
vector (by then of the new size), its copy `auHold` (of the same size), the control points `P()`
(of the new size) and their copy `aCPHold` (of the old size). -/
inductive KnotArray
  | m_auKnots
  | auHold
  | P
  | aCPHold
  deriving DecidableEq, Repr

/-- One subscript expression evaluated by `InsertKnotU`: the array and the index. -/
structure Access where
  array : KnotArray
  index : Int
  deriving DecidableEq, Repr

/-- The accesses of a loop `for (i = lo; i < hi; i++)` whose round `i` makes the accesses
`f i`, in the order of the rounds. -/
def collect (lo hi : Int) (f : Int → List Access) : List Access :=
  forUp lo hi (fun i acc => acc ++ f i) []

namespace CqSurfaceNURBS

/-- The subscripts of `m_auKnots`, `auHold`, `P()` and `aCPHold` that `InsertKnotU(u, r)`
evaluates from the line 427 on (nurbs.cpp 427-471), in program order; none when the call returns
0 before. -/
def InsertKnotU_accesses (S : CqSurfaceNURBS) (u : ℚ) (r : Int) : List Access :=
  let n : Int := S.m_cuVerts
  let p : Int := S.uDegree
  if u < rd S.m_auKnots S.uDegree ∨ u > rd S.m_auKnots S.m_cuVerts then []
  else
    let k := lastKnotLE S.m_auKnots u
    let s := knotMultiplicity S.m_auKnots k u
    let r := adjustInsertions r s p
    if r ≤ 0 then []
    else
      let cu : Int := S.m_cuVerts + r
      let size : Int := cu + S.m_uOrder
      collect 0 (k + 1) (fun i => [⟨.m_auKnots, i⟩, ⟨.auHold, i⟩])
      ++ collect 1 (r + 1) (fun i => [⟨.m_auKnots, k + i⟩])
      ++ collect (k + 1) size (fun i => [⟨.m_auKnots, i + r⟩, ⟨.auHold, i⟩])
      ++ collect 0 S.m_cvVerts (fun row =>
          collect 0 (k - p + 1) (fun i => [⟨.P, row * cu + i⟩, ⟨.aCPHold, row * n + i⟩])
          ++ collect (k - s) cu (fun i => [⟨.P, row * cu + i + r⟩, ⟨.aCPHold, row * n + i⟩])
          ++ collect 0 (p - s + 1) (fun i => [⟨.aCPHold, row * n + k - p + i⟩])
          ++ collect 1 (r + 1) (fun j =>
              collect 0 (p - j - s + 1) (fun i =>
                [⟨.m_auKnots, k - p + j + i⟩, ⟨.m_auKnots, i + k + 1⟩,
                  ⟨.m_auKnots, k - p + j + i⟩])
              ++ [⟨.P, row * cu + (k - p + j)⟩]
              ++ (if p - j - s > 0 then [⟨.P, row * cu + k + r - j - s⟩] else []))
          ++ collect (k - p + r + 1) (k - s) (fun i => [⟨.P, row * cu + i⟩]))

/-- The length of an array at the place of the accesses, for the surface after the call and the
number of control points before it. -/
def arrayLength (S1 : CqSurfaceNURBS) (oldSize : Nat) : KnotArray → Nat
  | .m_auKnots => S1.m_cuVerts + S1.m_uOrder
  | .auHold => S1.m_cuVerts + S1.m_uOrder
  | .P => S1.m_cuVerts * S1.m_cvVerts
  | .aCPHold => oldSize

end CqSurfaceNURBS

namespace CqSurfaceNURBS

/-- What `SetDefaultPrimitiveVariables` reads and whose code is outside the sources: the bits of
`Uses()` for `u`, `v`, `s`, `t`, the tests `bHass()` and `bHast()`, the accessors
`cuSegments()`, `cvSegments()` and `cVarying()` (nurbs.h), the members `m_umin`, `m_umax`,
`m_vmin`, `m_vmax`, the eight floats of the attribute `"System" "TextureCoordinates"`, and the
function `BilinearEvaluate(A, B, C, D, s, t)`. -/
structure DefaultsEnv where
  usesU : Bool
  usesV : Bool
  usesS : Bool
  usesT : Bool
  bHass : Bool
  bHast : Bool
  cuSegments : Int
  cvSegments : Int
  cVarying : Nat
  m_umin : ℚ
  m_umax : ℚ
  m_vmin : ℚ
  m_vmax : ℚ
  pTC : List ℚ
  BilinearEvaluate : ℚ → ℚ → ℚ → ℚ → ℚ → ℚ → ℚ

/-- The values of the four parameters that `SetDefaultPrimitiveVariables` may create; `none`
for a parameter that it does not create. -/
structure DefaultVars where
  u : Option (List ℚ)
  v : Option (List ℚ)
  s : Option (List ℚ)
  t : Option (List ℚ)
  deriving DecidableEq, Repr

/-- The block for `u` of `SetDefaultPrimitiveVariables` (nurbs.cpp 1832-1850): the values after
`SetSize(cVarying())` and the loops; the state of the loops is `(pValue, i, uval)`. -/
def defaultU (env : DefaultsEnv) : List ℚ :=
  let uinc := (env.m_umax - env.m_umin) / (env.cuSegments : ℚ)
  (forUp 0 (env.cvSegments + 1) (fun _ (st : List ℚ × Int) =>
    let row := forUp 0 (env.cuSegments + 1) (fun _ (st1 : List ℚ × Int × ℚ) =>
      (wr st1.1 st1.2.1 st1.2.2, st1.2.1 + 1, st1.2.2 + uinc)) (st.1, st.2, env.m_umin)
    (row.1, row.2.1)) (resize ([] : List ℚ) env.cVarying, 0)).1

/-- The block for `v` (nurbs.cpp 1852-1869); the state of the loops is `(pValue, i, vval)`. -/
def defaultV (env : DefaultsEnv) : List ℚ :=
  let vinc := (env.m_vmax - env.m_vmin) / (env.cvSegments : ℚ)
  (forUp 0 (env.cvSegments + 1) (fun _ (st : List ℚ × Int × ℚ) =>
    let row := forUp 0 (env.cuSegments + 1) (fun _ (st1 : List ℚ × Int) =>
      (wr st1.1 st1.2 st.2.2, st1.2 + 1)) (st.1, st.2.1)
    (row.1, row.2, st.2.2 + vinc)) (resize ([] : List ℚ) env.cVarying, 0, env.m_vmin)).1

/-- The block for `s` (nurbs.cpp 1876-1892): the values after `SetSize(cVarying())` and the
loops; the state of the loops is `(pValue, i)`.  `1.0f / cvSegments()+1` is the quotient plus
one. -/
def defaultS (env : DefaultsEnv) : List ℚ :=
  (forUp 0 env.cvSegments (fun c (st : List ℚ × Int) =>
    let v := (1 / (env.cvSegments : ℚ) + 1) * (c : ℚ)
    forUp 0 (env.cuSegments + 1) (fun r (st1 : List ℚ × Int) =>
      let u := (1 / (env.cuSegments : ℚ)) * (r : ℚ)
      (wr st1.1 st1.2
        (env.BilinearEvaluate (rd env.pTC 0) (rd env.pTC 2) (rd env.pTC 4) (rd env.pTC 6) u v),
        st1.2 + 1)) st) (resize ([] : List ℚ) env.cVarying, 0)).1

/-- The block for `t` (nurbs.cpp 1894-1910). -/
def defaultT (env : DefaultsEnv) : List ℚ :=
  (forUp 0 env.cvSegments (fun c (st : List ℚ × Int) =>
    let v := (1 / (env.cvSegments : ℚ)) * (c : ℚ)
    forUp 0 (env.cuSegments + 1) (fun r (st1 : List ℚ × Int) =>
      let u := (1 / (env.cuSegments : ℚ) + 1) * (r : ℚ)
      (wr st1.1 st1.2
        (env.BilinearEvaluate (rd env.pTC 1) (rd env.pTC 3) (rd env.pTC 5) (rd env.pTC 7) u v),
        st1.2 + 1)) st) (resize ([] : List ℚ) env.cVarying, 0)).1

/-- `CqSurfaceNURBS::SetDefaultPrimitiveVariables(bUseDef_st)`: the values of the parameters
`u`, `v`, `s`, `t` that the call creates. -/
def SetDefaultPrimitiveVariables (env : DefaultsEnv) (bUseDef_st : Bool) : DefaultVars :=
  { u := if env.usesU then some (defaultU env) else none
    v := if env.usesV then some (defaultV env) else none
    s := if env.usesS ∧ ¬ env.bHass ∧ bUseDef_st then some (defaultS env) else none
    t := if env.usesT ∧ ¬ env.bHast ∧ bUseDef_st then some (defaultT env) else none }

end CqSurfaceNURBS

/-- The Cox-de Boor recursion on the span `i`: `basisN u i U d r` is the value at `u` of the
basis function of degree `d` that starts at the knot `U[i - d + r]`; for `0 ≤ r ≤ d` these are
the `d + 1` functions of degree `d` that do not vanish on the span, and outside this range the
value is 0.  A quotient is taken as the product with the value of the function of lower degree
divided by the knot difference, as `BasisFunctions` computes it. -/
def basisN (u : ℚ) (i : Nat) (U : List ℚ) : Nat → Int → ℚ
  | 0, r => if r = 0 then 1 else 0
  | d + 1, r =>
    if 0 ≤ r ∧ r ≤ (d : Int) + 1 then
      (u - rd U ((i : Int) - ((d : Int) + 1) + r))
          * (basisN u i U d (r - 1) / (rd U ((i : Int) + r) - rd U ((i : Int) - ((d : Int) + 1) + r)))
        + (rd U ((i : Int) + r + 1) - u)
          * (basisN u i U d r / (rd U ((i : Int) + r + 1) - rd U ((i : Int) - (d : Int) + r)))
    else 0

/-- The derivative formula of the B-spline basis on the span `i`: for the degree `d + 1` and the
local index `r` (the function that starts at the knot `U[i - (d + 1) + r]`),
`(d + 1) * (N_d[r - 1] / (U[i + r] - U[i - (d + 1) + r]) - N_d[r] / (U[i + r + 1] - U[i - d + r]))`
with the functions `N_d` of degree `d` at `u`; 0 for the degree 0. -/
def basisDeriv (u : ℚ) (i : Nat) (U : List ℚ) : Nat → Int → ℚ
  | 0, _ => 0
  | d + 1, r =>
    ((d : ℚ) + 1)
      * (basisN u i U d (r - 1) / (rd U ((i : Int) + r) - rd U ((i : Int) - ((d : Int) + 1) + r))
        - basisN u i U d r / (rd U ((i : Int) + r + 1) - rd U ((i : Int) - (d : Int) + r)))

/-- A vector of `rows` vectors of `cols` entries each. -/
def IsGrid (m : List (List ℚ)) (rows cols : Nat) : Prop :=
  m.length = rows ∧ ∀ t : Nat, t < rows → (m.getD t []).length = cols

/-- The state of the control points during `InsertKnotV` (`Pv`, a net of `N` rows of `A`
points) and during `InsertKnotU` on the transposed surface (`Pu`, a net of `A` rows of `N`
points) while both work on the line `c`: the places `x` of the line in the set `W` hold the
same point in both, `Pv` is as at the start `Pv0` outside the column `c`, and `Pu` is as at
the start `Pu0` on the rows before `c`. -/
def Mirrored (A N : Nat) (c : Int) (Pv0 Pu0 : List CqVector4D) (W : Int → Prop)
    (Pv Pu : List CqVector4D) : Prop :=
  Pv.length = A * N ∧ Pu.length = N * A ∧
  (∀ x : Int, 0 ≤ x → x < N → W x → rd Pv (x * A + c) = rd Pu (c * N + x)) ∧
  (∀ t : Int, (∀ x : Int, t ≠ x * A + c) → rd Pv t = rd Pv0 t) ∧
  (∀ t : Int, t < c * N → rd Pu t = rd Pu0 t)

/-! ## The type `float`: binary32 arithmetic (surfaces.h)

The members `m_uMin`, ..., `m_vMax` of `Patch` and the locals of its methods have the type
`float`.  The section on the bilinear patch above reads their arithmetic as exact; this
section reads it as it runs: every operation on `float` values gives the binary32 number
nearest to the exact result, the one with the even significand when two are equally near.
Infinities and NaN are not modelled: a result of magnitude `2^128` or more has no meaning
here, and a quotient by zero is `0`. -/

namespace Binary32

/-- The power `2^e` for an integer exponent. -/
def pow2 (e : Int) : ℚ :=
  if 0 ≤ e then ((2 ^ e.toNat : Nat) : ℚ) else 1 / ((2 ^ (-e).toNat : Nat) : ℚ)

/-- The comparison `2^e <= x` for a positive `x`, made on its numerator and denominator:
`2^e * den <= num` for `e >= 0`, and `den <= num * 2^(-e)` for `e < 0`. -/
def pow2Le (e : Int) (x : ℚ) : Bool :=
  if 0 ≤ e then decide (2 ^ e.toNat * x.den ≤ x.num.toNat)
  else decide (x.den ≤ x.num.toNat * 2 ^ (-e).toNat)

/-- The exponent of the binade of a positive `x`: the greatest `e` from `-126` to `129` with
`2^e <= x`, and `-126` when there is none (the subnormal numbers, below `2^-126`, have the
spacing of the binade of `2^-126`).  The eight bits of `e + 126` are found from the top. -/
def exponent (x : ℚ) : Int :=
  (([128, 64, 32, 16, 8, 4, 2, 1].foldl
    (fun (k : Nat) (b : Nat) => if pow2Le (((k + b : Nat) : Int) - 126) x then k + b else k)
    0 : Nat) : Int) - 126

/-- The integer nearest to `y`, the even one of the two when `y` lies half way.  The part of
`y` above its floor is `(num % den) / den`, and it is compared with `1/2`. -/
def roundHalfEven (y : ℚ) : Int :=
  if 2 * (y.num % (y.den : Int)) < (y.den : Int) then ⌊y⌋
  else if 2 * (y.num % (y.den : Int)) > (y.den : Int) then ⌊y⌋ + 1
  else if ⌊y⌋ % 2 = 0 then ⌊y⌋ else ⌊y⌋ + 1

/-- Rounding to binary32, to nearest with ties to even: in the binade with exponent `e` the
binary32 numbers are the multiples of `2^(e - 23)`. -/
def round (x : ℚ) : ℚ :=
  if x = 0 then 0
  else (roundHalfEven (x / pow2 (exponent |x| - 23)) : ℚ) * pow2 (exponent |x| - 23)

/-- The finite binary32 numbers. -/
def IsFloat (x : ℚ) : Prop := Binary32.round x = x ∧ |x| < pow2 128

instance (x : ℚ) : Decidable (IsFloat x) := by
  unfold IsFloat
  infer_instance

/-- The sum of two `float` values. -/
def add (a b : ℚ) : ℚ := Binary32.round (a + b)

/-- The difference of two `float` values. -/
def sub (a b : ℚ) : ℚ := Binary32.round (a - b)

/-- The product of two `float` values. -/
def mul (a b : ℚ) : ℚ := Binary32.round (a * b)

/-- The quotient of two `float` values. -/
def div (a b : ℚ) : ℚ := Binary32.round (a / b)

/-- The conversion of an `int` to `float`. -/
def ofInt (n : Int) : ℚ := Binary32.round (n : ℚ)

/-- Modelled from the spec: `lerp(a, b, t)` (util.h is missing) on `float` values: the
expression `(1 - t) * a + t * b` of the exact reading, each operation rounded. -/
def lerp (a b t : ℚ) : ℚ := add (mul (sub 1 t) a) (mul t b)

/-- The difference of two `Vec3`, component by component. -/
def vsub (a b : Vec3) : Vec3 := ⟨sub a.x b.x, sub a.y b.y, sub a.z b.z⟩

/-- Modelled from the spec: `Vec3::length()` on `float` values; `sqrt` is the square root of
the C library, a parameter, and its result is rounded. -/
def length (sqrt : ℚ → ℚ) (a : Vec3) : ℚ :=
  Binary32.round (sqrt (add (add (mul a.x a.x) (mul a.y a.y)) (mul a.z a.z)))

/-- One component of `bilerp` on `float` values: the weighted sum of four corner floats. -/
def bilerp1 (a b c d u v : ℚ) : ℚ :=
  add (add (add (mul (mul (sub 1 v) (sub 1 u)) a) (mul (mul (sub 1 v) u) b))
    (mul (mul v (sub 1 u)) c)) (mul (mul v u) d)

/-- Modelled from the spec: `bilerp(a, b, c, d, u, v)` (util.h is missing) on `float` values:
the weighted sum of the exact reading, each operation rounded. -/
def bilerp (a b c d : Vec3) (u v : ℚ) : Vec3 :=
  ⟨bilerp1 a.x b.x c.x d.x u v, bilerp1 a.y b.y c.y d.y u v, bilerp1 a.z b.z c.z d.z u v⟩

end Binary32

namespace Patch

/-- `Patch::split(splitInU, tessCtx)` on `float` values.  In `0.5*(m_uMin + m_uMax)` the sum is
a sum of two `float`s, the product with the `double` constant `0.5` is exact, and the
initialisation of the `float` `uMid` rounds it. -/
def split32 (self : Patch) (splitInU : Bool) (tessCtx : TessellationContext) :
    TessellationContext :=
  if splitInU then
    let uMid := Binary32.round ((1 / 2 : ℚ) * Binary32.add self.m_uMin self.m_uMax)
    (tessCtx.push ⟨self.m_vars, self.m_uMin, uMid, self.m_vMin, self.m_vMax⟩).push
      ⟨self.m_vars, uMid, self.m_uMax, self.m_vMin, self.m_vMax⟩
  else
    let vMid := Binary32.round ((1 / 2 : ℚ) * Binary32.add self.m_vMin self.m_vMax)
    (tessCtx.push ⟨self.m_vars, self.m_uMin, self.m_uMax, self.m_vMin, vMid⟩).push
      ⟨self.m_vars, self.m_uMin, self.m_uMax, vMid, self.m_vMax⟩

/-- `Patch::getCorners(a, b, c, d)` on `float` values. -/
def getCorners32 (self : Patch) : Vec3 × Vec3 × Vec3 × Vec3 :=
  let P := self.m_vars.P
  (Binary32.bilerp (rd P 0) (rd P 1) (rd P 2) (rd P 3) self.m_uMin self.m_vMin,
   Binary32.bilerp (rd P 0) (rd P 1) (rd P 2) (rd P 3) self.m_uMax self.m_vMin,
   Binary32.bilerp (rd P 0) (rd P 1) (rd P 2) (rd P 3) self.m_uMin self.m_vMax,
   Binary32.bilerp (rd P 0) (rd P 1) (rd P 2) (rd P 3) self.m_uMax self.m_vMax)

/-- Lines 88-111 of `Patch::dice` on `float` values: the loops of `diceInterpolate` with
`fv = m_vMin + dv*v`, `fu = m_uMin + du*u` and `lerp` computed in binary32; `v` and `u` are
`int` counters that the products convert to `float`. -/
def diceInterpolate32 (self : Patch) (nu nv : Int) (du dv : ℚ) (size : Int) (pvar : List ℚ)
    (st : List ℚ × List ℚ × List ℚ) : List ℚ × List ℚ × List ℚ :=
  forUp 0 nv (fun v (st : List ℚ × List ℚ × List ℚ) =>
    let fv := Binary32.add self.m_vMin (Binary32.mul dv (Binary32.ofInt v))
    let sc := forUp 0 size (fun i (sc : List ℚ × List ℚ) =>
      (wr sc.1 i (Binary32.lerp (rd pvar i) (rd pvar (2 * size + i)) fv),
       wr sc.2 i (Binary32.lerp (rd pvar (size + i)) (rd pvar (3 * size + i)) fv)))
      (st.2.1, st.2.2)
    let gvar := forUp 0 nu (fun u (g : List ℚ) =>
      let fu := Binary32.add self.m_uMin (Binary32.mul du (Binary32.ofInt u))
      forUp 0 size (fun i (out : List ℚ) =>
        wr out ((v * nu + u) * size + i) (Binary32.lerp (rd sc.1 i) (rd sc.2 i) fu)) g) st.1
    (gvar, sc.1, sc.2)) st

/-- `Patch::dice(nu, nv, tessCtx)` on `float` values: `du = (m_uMax-m_uMin)/(nu-1)` and `dv`
are quotients of a `float` by an `int` converted to `float`. -/
def dice32 (self : Patch) (nu nv : Int) (tessCtx : TessellationContext) : TessellationContext :=
  let storage := GridStorage.build self.m_vars.varSet (nu * nv)
  let maxAgg := storage.maxAggregateSize
  let aMin : List ℚ := List.replicate maxAgg 0
  let aMax : List ℚ := List.replicate maxAgg 0
  let du := Binary32.div (Binary32.sub self.m_uMax self.m_uMin) (Binary32.ofInt (nu - 1))
  let dv := Binary32.div (Binary32.sub self.m_vMax self.m_vMin) (Binary32.ofInt (nv - 1))
  let st := forUp 0 self.m_vars.varSet.length
    (fun ivar (st : List (List ℚ) × List ℚ × List ℚ) =>
      let pvar := self.m_vars.data.getD ivar.toNat []
      let spec := self.m_vars.varSet.getD ivar.toNat ⟨EqVariableClass.class_constant, 0⟩
      let gvar := st.1.getD ivar.toNat []
      let size : Int := spec.elSize
      if spec.uniform then
        (st.1.set ivar.toNat (forUp 0 size (fun i g => wr g i (rd pvar i)) gvar), st.2.1, st.2.2)
      else
        let r := diceInterpolate32 self nu nv du dv size pvar (gvar, st.2.1, st.2.2)
        (st.1.set ivar.toNat r.1, r.2.1, r.2.2))
    (storage.buffers, aMin, aMax)
  tessCtx.pushGrid ⟨nu, nv, { storage with buffers := st.1 }⟩

end Patch

/-- Modelled from the spec: `TessellationContext::invokeTessellator(tessellator)` where the
tessellator calls back the methods of `Patch` as they run on `float` values. -/
def TessellationContext.invokeTessellator32 (tessCtx : TessellationContext) (t : Tessellator)
    (g : Patch) : TessellationContext :=
  let ctx1 := { tessCtx with invoked := tessCtx.invoked ++ [t] }
  match t with
  | Tessellator.SurfaceDicer nu nv => g.dice32 nu nv ctx1
  | Tessellator.SurfaceSplitter splitInU => g.split32 splitInU ctx1

namespace Patch

/-- The local `lu` of `Patch::tessellate` on `float` values: the differences, the lengths and
their sum are `float` operations, the product with the `double` constant `0.5` is exact, and
the initialisation of the `float` `lu` rounds it. -/
def lu32 (sqrt : ℚ → ℚ) (xform : Vec3 → Mat4 → Vec3) (self : Patch) (splitTrans : Mat4) : ℚ :=
  let c := self.getCorners32
  let aSpl := xform c.1 splitTrans
  let bSpl := xform c.2.1 splitTrans
  let cSpl := xform c.2.2.1 splitTrans
  let dSpl := xform c.2.2.2 splitTrans
  Binary32.round ((1 / 2 : ℚ) * Binary32.add (Binary32.length sqrt (Binary32.vsub bSpl aSpl))
    (Binary32.length sqrt (Binary32.vsub dSpl cSpl)))

/-- The local `lv` of `Patch::tessellate` on `float` values. -/
def lv32 (sqrt : ℚ → ℚ) (xform : Vec3 → Mat4 → Vec3) (self : Patch) (splitTrans : Mat4) : ℚ :=
  let c := self.getCorners32
  let aSpl := xform c.1 splitTrans
  let bSpl := xform c.2.1 splitTrans
  let cSpl := xform c.2.2.1 splitTrans
  let dSpl := xform c.2.2.2 splitTrans
  Binary32.round ((1 / 2 : ℚ) * Binary32.add (Binary32.length sqrt (Binary32.vsub cSpl aSpl))
    (Binary32.length sqrt (Binary32.vsub dSpl bSpl)))

/-- `Patch::tessellate(splitTrans, tessCtx)` on `float` values: the product `lu*lv` is a
`float` product, and it is compared with the `int` product `gridSize*gridSize` converted to
`float`. -/
def tessellate32 (sqrt : ℚ → ℚ) (xform : Vec3 → Mat4 → Vec3) (self : Patch) (splitTrans : Mat4)
    (tessCtx : TessellationContext) : TessellationContext :=
  let lu := self.lu32 sqrt xform splitTrans
  let lv := self.lv32 sqrt xform splitTrans
  let opts := tessCtx.options
  if Binary32.mul lu lv ≤ Binary32.ofInt (opts.gridSize * opts.gridSize) then
    let nu := 1 + ifloor lu
    let nv := 1 + ifloor lv
    tessCtx.invokeTessellator32 (Tessellator.SurfaceDicer nu nv) self
  else
    let splitDirectionU := decide (lu > lv)
    tessCtx.invokeTessellator32 (Tessellator.SurfaceSplitter splitDirectionU) self

/-- The parameter that `Patch::dice` computes on `float` values for the column (or row) `k` of
`n`, over the range from `min` to `max`: `min + d*k` with `d = (max - min)/(n - 1)`. -/
def param32 (min max : ℚ) (n k : Int) : ℚ :=
  Binary32.add min (Binary32.mul (Binary32.div (Binary32.sub max min) (Binary32.ofInt (n - 1)))
    (Binary32.ofInt k))

/-- What `Patch::dice` on `float` values puts at the flat index `t` of the grid buffer of a
variable that is not uniform: the reading on `float` values of `diceFlat`. -/
def diceFlat32 (self : Patch) (nu : Int) (du dv : ℚ) (size : Int) (pvar : List ℚ)
    (t : Int) : ℚ :=
  let cell := t / size
  let c := t % size
  let j := cell / nu
  let i := cell % nu
  Binary32.lerp
    (Binary32.lerp (rd pvar c) (rd pvar (2 * size + c))
      (Binary32.add self.m_vMin (Binary32.mul dv (Binary32.ofInt j))))
    (Binary32.lerp (rd pvar (size + c)) (rd pvar (3 * size + c))
      (Binary32.add self.m_vMin (Binary32.mul dv (Binary32.ofInt j))))
    (Binary32.add self.m_uMin (Binary32.mul du (Binary32.ofInt i)))

/-- What the grid buffer `b` of variable `k` holds after `Patch::dice(nu, nv)` on `float`
values: the reading on `float` values of `diceGood`. -/
def diceGood32 (self : Patch) (nu nv : Int) (k : Nat) (b : List ℚ) : Prop :=
  let spec := self.m_vars.varSet.getD k ⟨EqVariableClass.class_constant, 0⟩
  let pvar := self.m_vars.data.getD k []
  let du := Binary32.div (Binary32.sub self.m_uMax self.m_uMin) (Binary32.ofInt (nu - 1))
  let dv := Binary32.div (Binary32.sub self.m_vMax self.m_vMin) (Binary32.ofInt (nv - 1))
  (spec.uniform = true → b.length = spec.elSize ∧
    ∀ c : Int, 0 ≤ c → c < spec.elSize → rd b c = rd pvar c) ∧
  (spec.uniform = false → b.length = (nu * nv).toNat * spec.elSize ∧
    (0 < nu → 0 ≤ nv → ∀ t : Int, 0 ≤ t → t < nv * nu * (spec.elSize : Int) →
      rd b t = self.diceFlat32 nu du dv spec.elSize pvar t))

end Patch

/-- Modelled from the spec: `TessellationContext::run()`, the loop of `run` above, with the
methods of `Patch` as they run on `float` values.  One unit of fuel pays for one pop; `none`
when the fuel runs out before the queue is empty. -/
def TessellationContext.run32 (sqrt : ℚ → ℚ) (xform : Vec3 → Mat4 → Vec3) (splitTrans : Mat4) :
    Nat → TessellationContext → Option TessellationContext
  | 0, tessCtx => if tessCtx.pushed = [] then some tessCtx else none
  | fuel + 1, tessCtx =>
    match tessCtx.pushed.getLast? with
    | none => some tessCtx
    | some g =>
      TessellationContext.run32 sqrt xform splitTrans fuel
        (g.tessellate32 sqrt xform splitTrans { tessCtx with pushed := tessCtx.pushed.dropLast })

/-! ## Example data -/

namespace Examples

/-- The degree-(3,3) patch with clamped knot vectors `[0,0,0,0,1,1,1,1]` on a 4x4 net whose
control point in column `c` and row `r` is `(c, r, 0, 1)`. -/
def bicubic : CqSurfaceNURBS :=
  { m_cuVerts := 4, m_cvVerts := 4, m_uOrder := 4, m_vOrder := 4,
    m_auKnots := [0, 0, 0, 0, 1, 1, 1, 1], m_avKnots := [0, 0, 0, 0, 1, 1, 1, 1],
    P := (List.range 16).map (fun i => ⟨((i % 4 : Nat) : ℚ), ((i / 4 : Nat) : ℚ), 0, 1⟩),
    m_aUserParams := [] }

/-- The bilinear unit square over the full range. -/
def unitSquare : Patch :=
  Patch.ofVars { P := [⟨0, 0, 0⟩, ⟨1, 0, 0⟩, ⟨0, 1, 0⟩, ⟨1, 1, 0⟩] }

/-- A cubic curve (one row) on the non-decreasing knot vector `[0,0,0,0,0,1,1,1,1]`, whose knot
at index `uDegree = 3` equals the knot after it. -/
def doubledLeft : CqSurfaceNURBS :=
  { m_cuVerts := 5, m_cvVerts := 1, m_uOrder := 4, m_vOrder := 1,
    m_auKnots := [0, 0, 0, 0, 0, 1, 1, 1, 1], m_avKnots := [0, 1],
    P := (List.range 5).map (fun i => ⟨(i : ℚ), 0, 0, 1⟩),
    m_aUserParams := [] }

/-- A degree-1 curve (one row) with knots `[0,0,2,3,4]` and control values 2, 0, 3 in `x`. -/
def polyline : CqSurfaceNURBS :=
  { m_cuVerts := 3, m_cvVerts := 1, m_uOrder := 2, m_vOrder := 1,
    m_auKnots := [0, 0, 2, 3, 4], m_avKnots := [0, 1],
    P := [⟨2, 0, 0, 1⟩, ⟨0, 0, 0, 1⟩, ⟨3, 0, 0, 1⟩],
    m_aUserParams := [] }

/-- A cubic-by-linear patch on uniform, unclamped knot vectors: 4 x 3 control points,
U = `[0,1,2,3,4,5,6,7]`, V = `[0,1,2,3,4]`. -/
def unclamped : CqSurfaceNURBS :=
  { m_cuVerts := 4, m_cvVerts := 3, m_uOrder := 4, m_vOrder := 2,
    m_auKnots := [0, 1, 2, 3, 4, 5, 6, 7], m_avKnots := [0, 1, 2, 3, 4],
    P := (List.range 12).map (fun i => ⟨((i % 4 : Nat) : ℚ), ((i / 4 : Nat) : ℚ), 0, 1⟩),
    m_aUserParams := [] }

/-- A degree-1 curve with two control points on the knots `[0,0,1,1]`, carrying a vertex float
equal to the `x` coordinate of `P`, a vertex colour and a varying float. -/
def shaded : CqSurfaceNURBS :=
  { m_cuVerts := 2, m_cvVerts := 1, m_uOrder := 2, m_vOrder := 1,
    m_auKnots := [0, 0, 1, 1], m_avKnots := [0, 1],
    P := [⟨0, 0, 0, 1⟩, ⟨2, 1, 0, 1⟩],
    m_aUserParams :=
      [⟨EqVariableClass.class_vertex, ParamValues.type_float [0, 2]⟩,
       ⟨EqVariableClass.class_vertex, ParamValues.type_color [⟨1, 0, 0⟩, ⟨0, 0, 1⟩]⟩,
       ⟨EqVariableClass.class_varying, ParamValues.type_float [5, 7]⟩] }

/-- A cubic curve (one row of five control points) on the non-decreasing knot vector
`[0,1,2,3,3,4,5,6,7]`: the knot `U[uDegree] = 3` at the left end of the active range `[3, 4]`
occurs twice, at the indices 3 and 4. -/
def repeatedLeft : CqSurfaceNURBS :=
  { m_cuVerts := 5, m_cvVerts := 1, m_uOrder := 4, m_vOrder := 1,
    m_auKnots := [0, 1, 2, 3, 3, 4, 5, 6, 7], m_avKnots := [0, 1],
    P := [⟨0, 0, 0, 1⟩, ⟨1, 0, 0, 1⟩, ⟨2, 0, 0, 1⟩, ⟨3, 0, 0, 1⟩, ⟨4, 0, 0, 1⟩],
    m_aUserParams := [] }

/-- A square root for the examples: exact on the squares that occur in them. -/
def sqrtOnSquares (q : ℚ) : ℚ :=
  if q = 90000 then 300 else if q = 1600 then 40 else if q = 64 then 8
  else if q = 81 / 16 then 9 / 4 else if q = 1 then 1 else 0

/-- An environment with shading rate 1 and grid size 256 in which raster space is the
`(x, y)` plane of the control points. -/
def flatEnv : RenderEnv :=
  { sqrt := sqrtOnSquares, optGridSize := some 256, optBucketSize := none, ShadingRate := 1,
    toRaster := fun p => ⟨p.x, p.y⟩ }

/-- A square root for `fineEnv`: exact on the two squares that occur there. -/
def sqrtFine (q : ℚ) : ℚ :=
  if q = 65025 then 255 else if q = 1 / 16641 then 1 / 129 else 0

/-- The environment `flatEnv` with the shading rate `1/16641`, the square of `1/129`. -/
def fineEnv : RenderEnv :=
  { sqrt := sqrtFine, optGridSize := some 256, optBucketSize := none, ShadingRate := 1 / 16641,
    toRaster := fun p => ⟨p.x, p.y⟩ }

/-- A bilinear NURBS patch (2 x 2 control points) over the rectangle `[0, w] x [0, h]`: its
raster extents in `flatEnv` are `(w, h)`. -/
def rect (w h : ℚ) : CqSurfaceNURBS :=
  { m_cuVerts := 2, m_cvVerts := 2, m_uOrder := 2, m_vOrder := 2,
    m_auKnots := [0, 0, 1, 1], m_avKnots := [0, 0, 1, 1],
    P := [⟨0, 0, 0, 1⟩, ⟨w, 0, 0, 1⟩, ⟨0, h, 0, 1⟩, ⟨w, h, 0, 1⟩],
    m_aUserParams := [] }

/-- The unit square over the full range with three variables: a varying float with the corner
values 10, 20, 30, 40, a uniform colour `(1, 2, 3)`, and the vertex positions. -/
def shadedSquare : Patch :=
  Patch.ofVars
    { P := [⟨0, 0, 0⟩, ⟨1, 0, 0⟩, ⟨0, 1, 0⟩, ⟨1, 1, 0⟩],
      varSet := [⟨EqVariableClass.class_varying, 1⟩, ⟨EqVariableClass.class_uniform, 3⟩,
        ⟨EqVariableClass.class_vertex, 3⟩],
      data := [[10, 20, 30, 40], [1, 2, 3], [0, 0, 0, 1, 0, 0, 0, 1, 0, 1, 1, 0]] }

/-- Modelled from the spec: the class names that `enumCast<EqVariableClass>` knows ("constant,
uniform, varying, vertex, facevarying, facevertex"); the table is outside the sources. -/
def enumCastClass (w : List Char) : Option EqVariableClass :=
  if w = "constant".toList then some .class_constant
  else if w = "uniform".toList then some .class_uniform
  else if w = "varying".toList then some .class_varying
  else if w = "vertex".toList then some .class_vertex
  else if w = "facevarying".toList then some .class_facevarying
  else if w = "facevertex".toList then some .class_facevertex
  else none

/-- Modelled from the spec: the type names that `enumCast<EqVariableType>` knows ("float,
integer, point, vector, normal, color, hpoint, matrix, string"). -/
def enumCastType (w : List Char) : Option EqVariableType :=
  if w = "float".toList then some .type_float
  else if w = "integer".toList then some .type_integer
  else if w = "point".toList then some .type_point
  else if w = "vector".toList then some .type_vector
  else if w = "normal".toList then some .type_normal
  else if w = "color".toList then some .type_color
  else if w = "hpoint".toList then some .type_hpoint
  else if w = "matrix".toList then some .type_matrix
  else if w = "string".toList then some .type_string
  else none

/-- Vector operations for the examples: the sum and the scalar multiple of the `(x, y, z)` parts
(the summand scaled to the homogeneous coordinate of the sum), their cross product, the division
by the length (with `sqrtOnSquares` for the square root), and the conversion that divides by the
homogeneous coordinate. -/
def planarOps : VectorOps :=
  { add := fun a b =>
      ⟨a.x + b.x * (a.h / b.h), a.y + b.y * (a.h / b.h), a.z + b.z * (a.h / b.h), a.h⟩,
    smul := fun c a => ⟨c * a.x, c * a.y, c * a.z, a.h⟩,
    cross := fun a b =>
      ⟨a.y * b.z - a.z * b.y, a.z * b.x - a.x * b.z, a.x * b.y - a.y * b.x, 1⟩,
    Unit := fun v =>
      ⟨v.x / sqrtOnSquares (v.x * v.x + v.y * v.y + v.z * v.z),
       v.y / sqrtOnSquares (v.x * v.x + v.y * v.y + v.z * v.z),
       v.z / sqrtOnSquares (v.x * v.x + v.y * v.y + v.z * v.z), v.h⟩,
    toVector3D := fun v => ⟨v.x / v.h, v.y / v.h, v.z / v.h⟩ }

/-- The splitting environment of the examples: the number of segments of a direction is
`1 + cVerts - order`, and the children get no further user parameters. -/
def plainEnv : CqSurfaceNURBS.SurfaceEnv :=
  { cuSegments := fun S => 1 + (S.m_cuVerts : Int) - S.m_uOrder,
    cvSegments := fun S => 1 + (S.m_cvVerts : Int) - S.m_vOrder,
    uSubdivideUserParameters := fun _ a b => (a, b),
    vSubdivideUserParameters := fun _ a b => (a, b) }

/-- The unit square as a bilinear NURBS patch, marked not diceable, with the split direction
`SplitDir_V` and the eye split count 3. -/
def crossing : CqSurfaceNURBS :=
  { rect 1 1 with m_fDiceable := false, m_SplitDir := EqSplitDir.SplitDir_V,
                  m_EyeSplitCount := 3 }

/-- A cubic curve (one row of four control points) on the non-decreasing, unclamped knot vector
`[0,1,2,3,4,10,11,12]`: its active range is `[3, 4]`. -/
def lopsided : CqSurfaceNURBS :=
  { m_cuVerts := 4, m_cvVerts := 1, m_uOrder := 4, m_vOrder := 1,
    m_auKnots := [0, 1, 2, 3, 4, 10, 11, 12], m_avKnots := [0, 1],
    P := (List.range 4).map (fun i => ⟨(i : ℚ), 0, 0, 1⟩),
    m_aUserParams := [] }

/-- A bilinear patch mesh with 2 segments in `u` and 3 in `v`: 3 x 4 control points on the knot
vectors `[0,0,1,2,2]` and `[0,0,1,2,3,3]`, with a float parameter of class varying that holds
the 3 x 4 values `0, 1, ..., 11` of the corners of the segments. -/
def mesh23 : CqSurfaceNURBS :=
  { m_cuVerts := 3, m_cvVerts := 4, m_uOrder := 2, m_vOrder := 2,
    m_auKnots := [0, 0, 1, 2, 2], m_avKnots := [0, 0, 1, 2, 3, 3],
    P := [⟨0, 0, 0, 1⟩, ⟨1, 0, 0, 1⟩, ⟨2, 0, 0, 1⟩,
          ⟨0, 1, 0, 1⟩, ⟨1, 1, 0, 1⟩, ⟨2, 1, 0, 1⟩,
          ⟨0, 2, 0, 1⟩, ⟨1, 2, 0, 1⟩, ⟨2, 2, 0, 1⟩,
          ⟨0, 3, 0, 1⟩, ⟨1, 3, 0, 1⟩, ⟨2, 3, 0, 1⟩],
    m_aUserParams := [⟨EqVariableClass.class_varying,
      .type_float [0, 1, 2, 3, 4, 5, 6, 7, 8, 9, 10, 11]⟩],
    m_fPatchMesh := true }

/-- The greatest `k ≤ bound` with `k * k ≤ n`, and 0 when there is none. -/
def sqrtUpTo : Nat → Nat → Nat
  | 0, _ => 0
  | k + 1, n => if (k + 1) * (k + 1) ≤ n then k + 1 else sqrtUpTo k n

/-- A square root in whole numbers: the integer part of the square root of the integer part. -/
def sqrtFloor (q : ℚ) : ℚ := (sqrtUpTo ⌊q⌋.toNat ⌊q⌋.toNat : ℚ)

/-- The square `[0, 2] x [0, 2]` in the plane `z = 0`, over the full parameter range. -/
def square2 : Patch :=
  Patch.ofVars { P := [⟨0, 0, 0⟩, ⟨2, 0, 0⟩, ⟨0, 2, 0⟩, ⟨2, 2, 0⟩] }

/-- A context with the grid size 1 whose queue holds `square2`. -/
def queue2 : TessellationContext :=
  { pushed := [square2], options := { gridSize := 1 } }

/-- Bilinear interpolation of four corner values, `A`, `B` at `t = 0` and `C`, `D` at `t = 1`. -/
def bilinear (A B C D s t : ℚ) : ℚ :=
  (1 - t) * ((1 - s) * A + s * B) + t * ((1 - s) * C + s * D)

/-- A patch of one segment in each direction whose shaders use `s` and `t`, with the texture
coordinates `(0,0)`, `(1,0)`, `(0,1)`, `(1,1)`. -/
def unitDefaults : CqSurfaceNURBS.DefaultsEnv :=
  { usesU := false, usesV := false, usesS := true, usesT := true, bHass := false,
    bHast := false, cuSegments := 1, cvSegments := 1, cVarying := 4, m_umin := 0, m_umax := 1,
    m_vmin := 0, m_vmax := 1, pTC := [0, 0, 1, 0, 0, 1, 1, 1], BilinearEvaluate := bilinear }

/-- The same with two segments in each direction, hence a lattice of 3 x 3 values. -/
def twoByTwoDefaults : CqSurfaceNURBS.DefaultsEnv :=
  { unitDefaults with cuSegments := 2, cvSegments := 2, cVarying := 9 }

/-- A square root that is exact on the squares of the rationals: the integer square roots of
the numerator and of the denominator. -/
def sqrtRat (q : ℚ) : ℚ :=
  (sqrtUpTo q.num.toNat q.num.toNat : ℚ) / (sqrtUpTo q.den q.den : ℚ)

/-- The square `[0, 1/2] x [0, 1/2]` in the plane `z = 0`, over the full parameter range: its
sides have the length `1/2`. -/
def halfSquare : Patch :=
  Patch.ofVars { P := [⟨0, 0, 0⟩, ⟨1 / 2, 0, 0⟩, ⟨0, 1 / 2, 0⟩, ⟨1 / 2, 1 / 2, 0⟩] }

/-- The binary digits of the integer square root, from bit `b - 1` down: `r` grows by `2^b`
while its square stays at most `n`. -/
def isqrtLoop : Nat → Nat → Nat → Nat
  | 0, r, _ => r
  | b + 1, r, n =>
    if (r + 2 ^ b) * (r + 2 ^ b) ≤ n then isqrtLoop b (r + 2 ^ b) n else isqrtLoop b r n

/-- A square root that is exact on the squares of the rationals whose numerator and
denominator are below `2^64`: the integer square roots of the numerator and of the
denominator. -/
def sqrtDyadic (q : ℚ) : ℚ :=
  (isqrtLoop 64 0 q.num.toNat : ℚ) / (isqrtLoop 64 0 q.den : ℚ)

/-- The primitive variables of a rectangle of width `w` and height 1 in the plane `z = 0` with
a varying float whose corner values are 10, 20, 30, 40. -/
def rampVars (w : ℚ) : PrimvarStorage :=
  { P := [⟨0, 0, 0⟩, ⟨w, 0, 0⟩, ⟨0, 1, 0⟩, ⟨w, 1, 0⟩],
    varSet := [⟨EqVariableClass.class_varying, 1⟩],
    data := [[10, 20, 30, 40]] }

/-- The rectangle `[0, 2^41] x [0, 1]` in the plane `z = 0`, over the full parameter range. -/
def widePatch : Patch :=
  Patch.ofVars { P := [⟨0, 0, 0⟩, ⟨2199023255552, 0, 0⟩, ⟨0, 1, 0⟩, ⟨2199023255552, 1, 0⟩] }

/-- A context with the default grid size 256 whose queue holds `widePatch`. -/
def wideQueue : TessellationContext := { pushed := [widePatch] }

/-- The piece of `widePatch` over the `u` range from `1 - 2^-k` to 1. -/
def widePiece (k : Nat) : Patch :=
  ⟨widePatch.m_vars, 1 - 1 / ((2 ^ k : Nat) : ℚ), 1, 0, 1⟩

/-- The piece of `widePatch` over the `u` range from `1 - 2^-k` to `1 - 2^-(k+1)`. -/
def wideLeft (k : Nat) : Patch :=
  ⟨widePatch.m_vars, 1 - 1 / ((2 ^ k : Nat) : ℚ), 1 - 1 / ((2 ^ (k + 1) : Nat) : ℚ), 0, 1⟩

/-- The piece of `widePatch` over the empty `u` range from 1 to 1. -/
def wideEnd : Patch := ⟨widePatch.m_vars, 1, 1, 0, 1⟩

/-- The length `2^(41 - k)` of the piece of `widePatch` over the `u` range from `1 - 2^-k` to
1. -/
def wideLength (k : Nat) : ℚ := ((2 ^ (41 - k) : Nat) : ℚ)

end Examples

/-! ## Theorems -/

open CqSurfaceNURBS

/-- C8: if the value is below the knot at index `degree` or above the knot at index `cVerts`,
`InsertKnotU` returns 0 and leaves the whole surface (knot vectors, vertex counts, every control
point) unchanged, and `InsertKnotV` does the same for the V direction.  Both are total
functions, so nothing is raised. -/
theorem InsertKnot_out_of_range (S : CqSurfaceNURBS) (t : ℚ) (r : Int) :
    ((t < rd S.m_auKnots S.uDegree ∨ t > rd S.m_auKnots S.m_cuVerts) →
        InsertKnotU S t r = (S, 0)) ∧
    ((t < rd S.m_avKnots S.vDegree ∨ t > rd S.m_avKnots S.m_cvVerts) →
        InsertKnotV S t r = (S, 0)) := by
  constructor
  · intro h
    unfold InsertKnotU
    simp only [h, if_true]
  · intro h
    unfold InsertKnotV
    simp only [h, if_true]

/-- Witness for C8: on the bicubic example the value 2 is above the U range and -1 is below the
V range. -/
theorem InsertKnot_out_of_range_witness :
    InsertKnotU Examples.bicubic 2 1 = (Examples.bicubic, 0) ∧
    InsertKnotV Examples.bicubic (-1) 1 = (Examples.bicubic, 0) :=
  ⟨(InsertKnot_out_of_range Examples.bicubic 2 1).1 (by with_unfolding_all decide),
   (InsertKnot_out_of_range Examples.bicubic (-1) 1).2 (by with_unfolding_all decide)⟩

/-! ### Bilinear patch: split and bound -/

theorem Icc_mid_union (a b : ℚ) :
    Set.Icc a ((a + b) / 2) ∪ Set.Icc ((a + b) / 2) b = Set.Icc a b := by
  ext x
  simp only [Set.mem_union, Set.mem_Icc]
  constructor
  · rintro (⟨h1, h2⟩ | ⟨h1, h2⟩)
    · constructor
      · exact h1
      · linarith
    · constructor
      · linarith
      · exact h2
  · rintro ⟨h1, h2⟩
    rcases le_total x ((a + b) / 2) with h | h
    · exact Or.inl ⟨h1, h⟩
    · exact Or.inr ⟨h, h2⟩

theorem Icc_mid_inter_subset (a b : ℚ) :
    Set.Icc a ((a + b) / 2) ∩ Set.Icc ((a + b) / 2) b ⊆ {(a + b) / 2} := by
  intro x hx
  simp only [Set.mem_inter_iff, Set.mem_Icc] at hx
  simp only [Set.mem_singleton_iff]
  linarith [hx.1.2, hx.2.1]

theorem Icc_mid_inter (a b : ℚ) (h : a ≤ b) :
    Set.Icc a ((a + b) / 2) ∩ Set.Icc ((a + b) / 2) b = {(a + b) / 2} := by
  apply Set.Subset.antisymm (Icc_mid_inter_subset a b)
  intro x hx
  simp only [Set.mem_singleton_iff] at hx
  subst hx
  simp only [Set.mem_inter_iff, Set.mem_Icc]
  refine ⟨⟨?_, le_refl _⟩, ⟨le_refl _, ?_⟩⟩ <;> linarith

theorem split_pushed_u (self : Patch) (tessCtx : TessellationContext) :
    (self.split true tessCtx).pushed = tessCtx.pushed ++
      [⟨self.m_vars, self.m_uMin, (self.m_uMin + self.m_uMax) / 2, self.m_vMin, self.m_vMax⟩,
       ⟨self.m_vars, (self.m_uMin + self.m_uMax) / 2, self.m_uMax, self.m_vMin, self.m_vMax⟩] := by
  have hm : (1 / 2 : ℚ) * (self.m_uMin + self.m_uMax) = (self.m_uMin + self.m_uMax) / 2 := by
    ring
  simp only [Patch.split, TessellationContext.push, hm, if_true, List.append_assoc,
    List.singleton_append]

theorem split_pushed_v (self : Patch) (tessCtx : TessellationContext) :
    (self.split false tessCtx).pushed = tessCtx.pushed ++
      [⟨self.m_vars, self.m_uMin, self.m_uMax, self.m_vMin, (self.m_vMin + self.m_vMax) / 2⟩,
       ⟨self.m_vars, self.m_uMin, self.m_uMax, (self.m_vMin + self.m_vMax) / 2, self.m_vMax⟩] := by
  have hm : (1 / 2 : ℚ) * (self.m_vMin + self.m_vMax) = (self.m_vMin + self.m_vMax) / 2 := by
    ring
  simp only [Patch.split, TessellationContext.push, hm, if_false, List.append_assoc,
    List.singleton_append, Bool.false_eq_true]

/-- C4: `split` pushes exactly two children, both holding the parent's primvar storage.  Split
in u, their ranges are `[uMin,uMid] x [vMin,vMax]` and `[uMid,uMax] x [vMin,vMax]` with
`uMid = (uMin+uMax)/2`; split in v, symmetrically.  The union of the two ranges is the parent
range, and their intersection lies on the single line `u = uMid` (resp. `v = vMid`), being
exactly that segment when the parent range is not empty in the split direction. -/
theorem Patch_split_tiles (self : Patch) (tessCtx : TessellationContext) :
    (∃ a1 a2 : Patch,
      (self.split true tessCtx).pushed = tessCtx.pushed ++ [a1, a2] ∧
      a1 = ⟨self.m_vars, self.m_uMin, (self.m_uMin + self.m_uMax) / 2,
            self.m_vMin, self.m_vMax⟩ ∧
      a2 = ⟨self.m_vars, (self.m_uMin + self.m_uMax) / 2, self.m_uMax,
            self.m_vMin, self.m_vMax⟩ ∧
      a1.range ∪ a2.range = self.range ∧
      a1.range ∩ a2.range ⊆
        {(self.m_uMin + self.m_uMax) / 2} ×ˢ Set.Icc self.m_vMin self.m_vMax ∧
      (self.m_uMin ≤ self.m_uMax → a1.range ∩ a2.range =
        {(self.m_uMin + self.m_uMax) / 2} ×ˢ Set.Icc self.m_vMin self.m_vMax)) ∧
    (∃ b1 b2 : Patch,
      (self.split false tessCtx).pushed = tessCtx.pushed ++ [b1, b2] ∧
      b1 = ⟨self.m_vars, self.m_uMin, self.m_uMax, self.m_vMin,
            (self.m_vMin + self.m_vMax) / 2⟩ ∧
      b2 = ⟨self.m_vars, self.m_uMin, self.m_uMax, (self.m_vMin + self.m_vMax) / 2,
            self.m_vMax⟩ ∧
      b1.range ∪ b2.range = self.range ∧
      b1.range ∩ b2.range ⊆
        Set.Icc self.m_uMin self.m_uMax ×ˢ {(self.m_vMin + self.m_vMax) / 2} ∧
      (self.m_vMin ≤ self.m_vMax → b1.range ∩ b2.range =
        Set.Icc self.m_uMin self.m_uMax ×ˢ {(self.m_vMin + self.m_vMax) / 2})) := by
  constructor
  · refine ⟨_, _, split_pushed_u self tessCtx, rfl, rfl, ?_, ?_, ?_⟩
    · simp only [Patch.range]
      rw [← Set.union_prod, Icc_mid_union]
    · simp only [Patch.range]
      rw [Set.prod_inter_prod, Set.inter_self]
      exact Set.prod_mono (Icc_mid_inter_subset _ _) (le_refl _)
    · intro h
      simp only [Patch.range]
      rw [Set.prod_inter_prod, Set.inter_self, Icc_mid_inter _ _ h]
  · refine ⟨_, _, split_pushed_v self tessCtx, rfl, rfl, ?_, ?_, ?_⟩
    · simp only [Patch.range]
      rw [← Set.prod_union, Icc_mid_union]
    · simp only [Patch.range]
      rw [Set.prod_inter_prod, Set.inter_self]
      exact Set.prod_mono (le_refl _) (Icc_mid_inter_subset _ _)
    · intro h
      simp only [Patch.range]
      rw [Set.prod_inter_prod, Set.inter_self, Icc_mid_inter _ _ h]

/-- Witness for C4: the unit square split in u; the children meet on the segment `u = 1/2`. -/
theorem Patch_split_tiles_witness :
    ∃ a1 a2 : Patch,
      (Examples.unitSquare.split true { pushed := [] }).pushed = [a1, a2] ∧
      a1.range ∩ a2.range = {(1 / 2 : ℚ)} ×ˢ Set.Icc 0 1 := by
  obtain ⟨⟨a1, a2, h1, _, _, _, _, h6⟩, _⟩ := Patch_split_tiles Examples.unitSquare { pushed := [] }
  refine ⟨a1, a2, by simpa using h1, ?_⟩
  have h := h6 (by simp [Examples.unitSquare, Patch.ofVars])
  simpa [Examples.unitSquare, Patch.ofVars] using h


theorem Vec3.add_def (a b : Vec3) : a + b = ⟨a.x + b.x, a.y + b.y, a.z + b.z⟩ := rfl

theorem Vec3.smul_def (c : ℚ) (a : Vec3) : c • a = ⟨c * a.x, c * a.y, c * a.z⟩ := rfl

theorem bilerp_mid_u (a b c d : Vec3) (u0 u1 v : ℚ) :
    bilerp a b c d ((u0 + u1) / 2) v =
      (1 / 2 : ℚ) • bilerp a b c d u0 v + (1 / 2 : ℚ) • bilerp a b c d u1 v := by
  simp only [bilerp, Vec3.add_def, Vec3.smul_def, Vec3.mk.injEq]
  refine ⟨?_, ?_, ?_⟩ <;> ring

theorem bilerp_mid_v (a b c d : Vec3) (u v0 v1 : ℚ) :
    bilerp a b c d u ((v0 + v1) / 2) =
      (1 / 2 : ℚ) • bilerp a b c d u v0 + (1 / 2 : ℚ) • bilerp a b c d u v1 := by
  simp only [bilerp, Vec3.add_def, Vec3.smul_def, Vec3.mk.injEq]
  refine ⟨?_, ?_, ?_⟩ <;> ring

theorem box4_mid_ab_cd (a b c d : Vec3) :
    (box4 a ((1 / 2 : ℚ) • a + (1 / 2 : ℚ) • b) c ((1 / 2 : ℚ) • c + (1 / 2 : ℚ) • d)).inside
      (box4 a b c d) ∧
    (box4 ((1 / 2 : ℚ) • a + (1 / 2 : ℚ) • b) b ((1 / 2 : ℚ) • c + (1 / 2 : ℚ) • d) d).inside
      (box4 a b c d) ∧
    (box4 a b ((1 / 2 : ℚ) • a + (1 / 2 : ℚ) • c) ((1 / 2 : ℚ) • b + (1 / 2 : ℚ) • d)).inside
      (box4 a b c d) ∧
    (box4 ((1 / 2 : ℚ) • a + (1 / 2 : ℚ) • c) ((1 / 2 : ℚ) • b + (1 / 2 : ℚ) • d) c d).inside
      (box4 a b c d) := by
  obtain ⟨ax, ay, az⟩ := a
  obtain ⟨bx, b_y, bz⟩ := b
  obtain ⟨cx, cy, cz⟩ := c
  obtain ⟨dx, dy, dz⟩ := d
  simp only [box4, Box.inside, Box.ofPoint, Box.extendBy, Vec3.add_def, Vec3.smul_def,
    le_min_iff, max_le_iff]
  have key : ∀ p q r s t : ℚ, (Min.min (Min.min (Min.min p q) r) s ≤ p ∧
      Min.min (Min.min (Min.min p q) r) s ≤ q ∧ Min.min (Min.min (Min.min p q) r) s ≤ r ∧
      Min.min (Min.min (Min.min p q) r) s ≤ s) ∧
      (p ≤ Max.max (Max.max (Max.max p q) r) s ∧ q ≤ Max.max (Max.max (Max.max p q) r) s ∧
      r ≤ Max.max (Max.max (Max.max p q) r) s ∧ s ≤ Max.max (Max.max (Max.max p q) r) s) := by
    intro p q r s _
    refine ⟨⟨?_, ?_, ?_, ?_⟩, ⟨?_, ?_, ?_, ?_⟩⟩ <;> simp
  obtain ⟨⟨hx1, hx2, hx3, hx4⟩, hx5, hx6, hx7, hx8⟩ := key ax bx cx dx 0
  obtain ⟨⟨hy1, hy2, hy3, hy4⟩, hy5, hy6, hy7, hy8⟩ := key ay b_y cy dy 0
  obtain ⟨⟨hz1, hz2, hz3, hz4⟩, hz5, hz6, hz7, hz8⟩ := key az bz cz dz 0
  repeat' constructor
  all_goals linarith

/-- C5: for either split direction the boxes that `bound` returns on the two children lie inside
the box it returns on the parent (exact arithmetic). -/
theorem Patch_bound_contains_children (self : Patch) (splitInU : Bool)
    (tessCtx : TessellationContext) :
    ∃ c1 c2 : Patch, (self.split splitInU tessCtx).pushed = tessCtx.pushed ++ [c1, c2] ∧
      c1.bound.inside self.bound ∧ c2.bound.inside self.bound := by
  obtain ⟨h1, h2, h3, h4⟩ := box4_mid_ab_cd
    (bilerp (rd self.m_vars.P 0) (rd self.m_vars.P 1) (rd self.m_vars.P 2) (rd self.m_vars.P 3)
      self.m_uMin self.m_vMin)
    (bilerp (rd self.m_vars.P 0) (rd self.m_vars.P 1) (rd self.m_vars.P 2) (rd self.m_vars.P 3)
      self.m_uMax self.m_vMin)
    (bilerp (rd self.m_vars.P 0) (rd self.m_vars.P 1) (rd self.m_vars.P 2) (rd self.m_vars.P 3)
      self.m_uMin self.m_vMax)
    (bilerp (rd self.m_vars.P 0) (rd self.m_vars.P 1) (rd self.m_vars.P 2) (rd self.m_vars.P 3)
      self.m_uMax self.m_vMax)
  cases splitInU
  · refine ⟨_, _, split_pushed_v self tessCtx, ?_, ?_⟩
    · simp only [Patch.bound, Patch.getCorners, bilerp_mid_v]
      exact h3
    · simp only [Patch.bound, Patch.getCorners, bilerp_mid_v]
      exact h4
  · refine ⟨_, _, split_pushed_u self tessCtx, ?_, ?_⟩
    · simp only [Patch.bound, Patch.getCorners, bilerp_mid_u]
      exact h1
    · simp only [Patch.bound, Patch.getCorners, bilerp_mid_u]
      exact h2

/-! ### Span lookup -/

theorem rd_nat {α : Type} [Zero α] (a : List α) (i : Nat) : rd a (i : Int) = a.getD i 0 := by
  simp [rd]

theorem rd_nat_lt {α : Type} [Zero α] (a : List α) (i : Nat) (h : i < a.length) :
    rd a (i : Int) = a[i] := by
  rw [rd_nat, List.getD_eq_getElem _ _ h]

theorem rd_mono (U : List ℚ) (h : U.Sorted (· ≤ ·)) {i j : Nat} (hij : i ≤ j)
    (hj : j < U.length) : rd U (i : Int) ≤ rd U (j : Int) := by
  rw [rd_nat_lt U i (by omega), rd_nat_lt U j hj]
  exact h.rel_get_of_le (a := ⟨i, by omega⟩) (b := ⟨j, hj⟩) hij

theorem findSpanLoop_spec (knots : List ℚ) (u : ℚ) (n : Nat) (hn : u < rd knots (n : Int)) :
    ∀ fuel low high : Nat, rd knots (low : Int) ≤ u → low < n → low < high → high ≤ n + 1 →
      (high ≤ n → u < rd knots (high : Int)) → high - low ≤ fuel →
      ∃ i, findSpanLoop knots u fuel low high = some i ∧ i < n ∧
        rd knots (i : Int) ≤ u ∧ u < rd knots ((i : Int) + 1) := by
  intro fuel
  induction fuel with
  | zero =>
    intro low high _ _ h3 _ _ h6
    omega
  | succ fuel ih =>
    intro low high h1 h2 h3 h4 h5 h6
    have hmid1 : low ≤ (low + high) / 2 := by omega
    have hmid2 : (low + high) / 2 < high := by omega
    unfold findSpanLoop
    simp only []
    by_cases hA : u < rd knots (((low + high) / 2 : Nat) : Int)
    · have hne : low ≠ (low + high) / 2 := by
        intro he
        rw [← he] at hA
        exact absurd h1 (not_le.mpr hA)
      simp only [hA, true_or, if_true]
      exact ih low ((low + high) / 2) h1 h2 (by omega) (by omega) (fun _ => hA) (by omega)
    · by_cases hB : u ≥ rd knots ((((low + high) / 2 : Nat) : Int) + 1)
      · simp only [hA, hB, or_true, if_true, if_false]
        have hA' : rd knots (((low + high) / 2 : Nat) : Int) ≤ u := not_lt.mp hA
        have hmn : (low + high) / 2 ≠ n := by
          intro he
          rw [he] at hA'
          exact absurd hn (not_lt.mpr hA')
        have hlt : low < (low + high) / 2 := by
          rcases Nat.lt_or_ge low ((low + high) / 2) with h | h
          · exact h
          · exfalso
            have he : (low + high) / 2 = low := by omega
            have hh : high = low + 1 := by omega
            have h7 := h5 (by omega)
            rw [he] at hB
            rw [hh] at h7
            push_cast at h7
            exact absurd h7 (not_lt.mpr hB)
        exact ih ((low + high) / 2) high hA' (by omega) hmid2 h4 h5 (by omega)
      · simp only [hA, hB, or_self, if_false]
        have hA' : rd knots (((low + high) / 2 : Nat) : Int) ≤ u := not_lt.mp hA
        have hmn : (low + high) / 2 ≠ n := by
          intro he
          rw [he] at hA'
          exact absurd hn (not_lt.mpr hA')
        exact ⟨(low + high) / 2, rfl, by omega, hA', not_le.mp hB⟩

theorem span_unique (knots : List ℚ) (hs : knots.Sorted (· ≤ ·)) (u : ℚ) (i j : Nat)
    (hi : i + 1 < knots.length) (hj : j + 1 < knots.length)
    (hi1 : rd knots (i : Int) ≤ u) (hi2 : u < rd knots ((i : Int) + 1))
    (hj1 : rd knots (j : Int) ≤ u) (hj2 : u < rd knots ((j : Int) + 1)) : i = j := by
  rcases Nat.lt_trichotomy i j with h | h | h
  · exfalso
    have := rd_mono knots hs (i := i + 1) (j := j) (by omega) (by omega)
    push_cast at this
    linarith
  · exact h
  · exfalso
    have := rd_mono knots hs (i := j + 1) (j := i) (by omega) (by omega)
    push_cast at this
    linarith

theorem findSpan_spec (knots : List ℚ) (n order : Nat) (u : ℚ) (fuel : Nat)
    (hs : knots.Sorted (· ≤ ·)) (hlen : knots.length = n + order) (hord : 1 ≤ order)
    (hfuel : n + 1 ≤ fuel) :
    (rd knots ((order - 1 : Nat) : Int) < u → u < rd knots (n : Int) →
      ∃ i, findSpan fuel knots n order u = some i ∧ order - 1 ≤ i ∧ i + 1 ≤ n ∧
        rd knots (i : Int) ≤ u ∧ u < rd knots ((i : Int) + 1) ∧
        ∀ j : Nat, j + 1 < knots.length → rd knots (j : Int) ≤ u →
          u < rd knots ((j : Int) + 1) → j = i) ∧
    (u ≤ rd knots ((order - 1 : Nat) : Int) → u < rd knots (n : Int) →
      findSpan fuel knots n order u = some (order - 1)) ∧
    (rd knots (n : Int) ≤ u → findSpan fuel knots n order u = some (n - 1)) := by
  refine ⟨?_, ?_, ?_⟩
  · intro h1 h2
    have hpn : order - 1 < n := by
      rcases Nat.lt_or_ge (order - 1) n with h | h
      · exact h
      · exfalso
        have := rd_mono knots hs (i := n) (j := order - 1) h (by omega)
        linarith
    have h0 : rd knots ((0 : Nat) : Int) ≤ u := by
      have := rd_mono knots hs (i := 0) (j := order - 1) (by omega) (by omega)
      linarith
    obtain ⟨i, hi, hin, hi1, hi2⟩ := findSpanLoop_spec knots u n h2 fuel 0 (n + 1) h0 (by omega)
      (by omega) (by omega) (by omega) (by omega)
    refine ⟨i, ?_, ?_, by omega, hi1, hi2, ?_⟩
    · unfold findSpan
      rw [if_neg (not_le.mpr h2), if_neg (not_le.mpr h1)]
      exact hi
    · rcases Nat.lt_or_ge i (order - 1) with h | h
      · exfalso
        have := rd_mono knots hs (i := i + 1) (j := order - 1) (by omega) (by omega)
        push_cast at this
        linarith
      · exact h
    · intro j hj hj1 hj2
      exact span_unique knots hs u j i hj (by omega) hj1 hj2 hi1 hi2
  · intro h1 h2
    unfold findSpan
    rw [if_neg (not_le.mpr h2), if_pos h1]
  · intro h
    unfold findSpan
    rw [if_pos h]


/-- The statement of C6 for one direction, on the shared body `findSpan`. -/
theorem findSpan_three_cases (knots : List ℚ) (n order : Nat) (u : ℚ) (fuel : Nat)
    (hs : knots.Sorted (· ≤ ·)) (hlen : knots.length = n + order) (hord : 1 ≤ order)
    (hfuel : n + 1 ≤ fuel) :
    (rd knots ((order - 1 : Nat) : Int) ≤ u → u < rd knots (n : Int) →
      (rd knots ((order - 1 : Nat) : Int) < u ∨
        rd knots ((order - 1 : Nat) : Int) < rd knots (((order - 1 : Nat) : Int) + 1)) →
      ∃ i, findSpan fuel knots n order u = some i ∧ order - 1 ≤ i ∧ i ≤ n - 1 ∧
        rd knots (i : Int) ≤ u ∧ u < rd knots ((i : Int) + 1) ∧
        ∀ j : Nat, j + 1 < knots.length → rd knots (j : Int) ≤ u →
          u < rd knots ((j : Int) + 1) → j = i) ∧
    (u ≤ rd knots ((order - 1 : Nat) : Int) → u < rd knots (n : Int) →
      findSpan fuel knots n order u = some (order - 1)) ∧
    (rd knots (n : Int) ≤ u → findSpan fuel knots n order u = some (n - 1)) := by
  obtain ⟨h1, h2, h3⟩ := findSpan_spec knots n order u fuel hs hlen hord hfuel
  refine ⟨?_, h2, h3⟩
  intro ha hb hc
  rcases lt_or_eq_of_le ha with hlt | heq
  · obtain ⟨i, hi, hi1, hi2, hi3, hi4, hi5⟩ := h1 hlt hb
    exact ⟨i, hi, hi1, by omega, hi3, hi4, hi5⟩
  · have hlt : rd knots ((order - 1 : Nat) : Int) <
        rd knots (((order - 1 : Nat) : Int) + 1) := by
      rcases hc with h | h
      · exact absurd heq (ne_of_lt h)
      · exact h
    have hpn : order - 1 < n := by
      rcases Nat.lt_or_ge (order - 1) n with h | h
      · exact h
      · exfalso
        have := rd_mono knots hs (i := n) (j := order - 1) h (by omega)
        linarith
    refine ⟨order - 1, h2 (le_of_eq heq.symm) hb, le_refl _, by omega, ha, by rw [← heq]; exact hlt,
      ?_⟩
    intro j hj hj1 hj2
    exact span_unique knots hs u j (order - 1) hj (by omega) hj1 hj2 ha (by rw [← heq]; exact hlt)

/-- C6 (amended): on a non-decreasing U knot vector of length `cuVerts + uOrder`, with enough
fuel for the loop, `FindSpanU u` returns the unique index `i` with `uDegree <= i <= cuVerts-1`
and `U[i] <= u < U[i+1]` for every `u` with `U[uDegree] <= u < U[cuVerts]` that is above
`U[uDegree]` or for which `U[uDegree] < U[uDegree+1]`; it returns `uDegree` for every
`u <= U[uDegree]` below `U[cuVerts]`, and `cuVerts-1` for every `u >= U[cuVerts]`.
`FindSpanV` satisfies the same on the V knot vector. -/
theorem FindSpan_amended (S : CqSurfaceNURBS) (t : ℚ) (fuel : Nat) :
    (S.m_auKnots.Sorted (· ≤ ·) → S.m_auKnots.length = S.m_cuVerts + S.m_uOrder →
      1 ≤ S.m_uOrder → S.m_cuVerts + 1 ≤ fuel →
      (rd S.m_auKnots (S.uDegree : Int) ≤ t → t < rd S.m_auKnots (S.m_cuVerts : Int) →
        (rd S.m_auKnots (S.uDegree : Int) < t ∨
          rd S.m_auKnots (S.uDegree : Int) < rd S.m_auKnots ((S.uDegree : Int) + 1)) →
        ∃ i, FindSpanU fuel S t = some i ∧ S.uDegree ≤ i ∧ i ≤ S.m_cuVerts - 1 ∧
          rd S.m_auKnots (i : Int) ≤ t ∧ t < rd S.m_auKnots ((i : Int) + 1) ∧
          ∀ j : Nat, j + 1 < S.m_auKnots.length → rd S.m_auKnots (j : Int) ≤ t →
            t < rd S.m_auKnots ((j : Int) + 1) → j = i) ∧
      (t ≤ rd S.m_auKnots (S.uDegree : Int) → t < rd S.m_auKnots (S.m_cuVerts : Int) →
        FindSpanU fuel S t = some S.uDegree) ∧
      (rd S.m_auKnots (S.m_cuVerts : Int) ≤ t → FindSpanU fuel S t = some (S.m_cuVerts - 1))) ∧
    (S.m_avKnots.Sorted (· ≤ ·) → S.m_avKnots.length = S.m_cvVerts + S.m_vOrder →
      1 ≤ S.m_vOrder → S.m_cvVerts + 1 ≤ fuel →
      (rd S.m_avKnots (S.vDegree : Int) ≤ t → t < rd S.m_avKnots (S.m_cvVerts : Int) →
        (rd S.m_avKnots (S.vDegree : Int) < t ∨
          rd S.m_avKnots (S.vDegree : Int) < rd S.m_avKnots ((S.vDegree : Int) + 1)) →
        ∃ i, FindSpanV fuel S t = some i ∧ S.vDegree ≤ i ∧ i ≤ S.m_cvVerts - 1 ∧
          rd S.m_avKnots (i : Int) ≤ t ∧ t < rd S.m_avKnots ((i : Int) + 1) ∧
          ∀ j : Nat, j + 1 < S.m_avKnots.length → rd S.m_avKnots (j : Int) ≤ t →
            t < rd S.m_avKnots ((j : Int) + 1) → j = i) ∧
      (t ≤ rd S.m_avKnots (S.vDegree : Int) → t < rd S.m_avKnots (S.m_cvVerts : Int) →
        FindSpanV fuel S t = some S.vDegree) ∧
      (rd S.m_avKnots (S.m_cvVerts : Int) ≤ t → FindSpanV fuel S t = some (S.m_cvVerts - 1))) :=
  ⟨fun hs hlen hord hfuel => findSpan_three_cases S.m_auKnots S.m_cuVerts S.m_uOrder t fuel hs hlen
      hord hfuel,
   fun hs hlen hord hfuel => findSpan_three_cases S.m_avKnots S.m_cvVerts S.m_vOrder t fuel hs hlen
      hord hfuel⟩

/-- Witness for C6: the bicubic example at `t = 1/2` in both directions; the span is 3. -/
theorem FindSpan_amended_witness :
    (∃ i, FindSpanU 5 Examples.bicubic (1 / 2) = some i ∧ 3 ≤ i ∧ i ≤ 3 ∧
      rd Examples.bicubic.m_auKnots (i : Int) ≤ 1 / 2 ∧
      (1 / 2 : ℚ) < rd Examples.bicubic.m_auKnots ((i : Int) + 1)) ∧
    (∃ i, FindSpanV 5 Examples.bicubic (1 / 2) = some i ∧ 3 ≤ i ∧ i ≤ 3 ∧
      rd Examples.bicubic.m_avKnots (i : Int) ≤ 1 / 2 ∧
      (1 / 2 : ℚ) < rd Examples.bicubic.m_avKnots ((i : Int) + 1)) := by
  have h := FindSpan_amended Examples.bicubic (1 / 2) 5
  obtain ⟨hu, -, -⟩ := h.1 (by with_unfolding_all decide) (by with_unfolding_all decide)
    (by with_unfolding_all decide) (by with_unfolding_all decide)
  obtain ⟨hv, -, -⟩ := h.2 (by with_unfolding_all decide) (by with_unfolding_all decide)
    (by with_unfolding_all decide) (by with_unfolding_all decide)
  obtain ⟨i, h1, h2, h3, h4, h5, -⟩ := hu (by with_unfolding_all decide)
    (by with_unfolding_all decide) (Or.inl (by with_unfolding_all decide))
  obtain ⟨j, g1, g2, g3, g4, g5, -⟩ := hv (by with_unfolding_all decide)
    (by with_unfolding_all decide) (Or.inl (by with_unfolding_all decide))
  exact ⟨⟨i, h1, h2, h3, h4, h5⟩, ⟨j, g1, g2, g3, g4, g5⟩⟩

/-- Counterexample for C6 as stated: on the non-decreasing knot vector `[0,0,0,0,0,1,1,1,1]`
(5 control points, order 4) the value `u = 0` satisfies `U[3] <= u < U[5]`, and `FindSpanU`
returns 3 although `u < U[4]` fails; the index with `U[i] <= u < U[i+1]` is 4. -/
theorem FindSpanU_left_end_counterexample :
    Examples.doubledLeft.m_auKnots.Sorted (· ≤ ·) ∧
    Examples.doubledLeft.m_auKnots.length =
      Examples.doubledLeft.m_cuVerts + Examples.doubledLeft.m_uOrder ∧
    rd Examples.doubledLeft.m_auKnots (Examples.doubledLeft.uDegree : Int) ≤ 0 ∧
    (0 : ℚ) < rd Examples.doubledLeft.m_auKnots (Examples.doubledLeft.m_cuVerts : Int) ∧
    FindSpanU 6 Examples.doubledLeft 0 = some 3 ∧
    ¬ ((0 : ℚ) < rd Examples.doubledLeft.m_auKnots ((3 : Int) + 1)) ∧
    (rd Examples.doubledLeft.m_auKnots (4 : Int) ≤ 0 ∧
      (0 : ℚ) < rd Examples.doubledLeft.m_auKnots ((4 : Int) + 1)) := by
  with_unfolding_all decide

/-! ### Knot insertion and refinement at concrete inputs -/

/-- C1 (the code at the failing input): on the bicubic example, `InsertKnotU(1/2, 1)` performs one
insertion, the first row of the new net has `x` coordinates `0, 1, 3/2, 5/2, 3` (the Boehm
update gives `0, 1/2, 3/2, 5/2, 3`), and the surface point at `(1/2, 1/2)` moves from
`(3/2, 3/2, 0, 1)` to `(13/8, 3/2, 0, 1)`. -/
theorem InsertKnotU_moves_surface :
    Evaluate 5 Examples.bicubic (1 / 2) (1 / 2) = some ⟨3 / 2, 3 / 2, 0, 1⟩ ∧
    (InsertKnotU Examples.bicubic (1 / 2) 1).2 = 1 ∧
    (InsertKnotU Examples.bicubic (1 / 2) 1).1.m_auKnots = [0, 0, 0, 0, 1 / 2, 1, 1, 1, 1] ∧
    ((InsertKnotU Examples.bicubic (1 / 2) 1).1.P.take 5).map (fun c => c.x) =
      [0, 1, 3 / 2, 5 / 2, 3] ∧
    Evaluate 6 (InsertKnotU Examples.bicubic (1 / 2) 1).1 (1 / 2) (1 / 2) =
      some ⟨13 / 8, 3 / 2, 0, 1⟩ := by
  with_unfolding_all decide

/-- C2 (the code at two failing inputs): `RefineKnotU [1/2, 3/4]` on the degree-1 example moves
the point at `u = 3/16` from `x = 29/16` to `x = 3/2`, and `RefineKnotU [3/10, 7/10]` on the
bicubic example moves the point at `(1/10, 1/2)` from `x = 3/10` to `x = 136947/343000`. -/
theorem RefineKnotU_moves_surface :
    (Evaluate 4 Examples.polyline (3 / 16) 0 = some ⟨29 / 16, 0, 0, 1⟩ ∧
      ((RefineKnotU 4 Examples.polyline [1 / 2, 3 / 4]).bind
        (fun S => Evaluate 6 S (3 / 16) 0)) = some ⟨3 / 2, 0, 0, 1⟩) ∧
    (Evaluate 5 Examples.bicubic (1 / 10) (1 / 2) = some ⟨3 / 10, 3 / 2, 0, 1⟩ ∧
      ((RefineKnotU 5 Examples.bicubic [3 / 10, 7 / 10]).bind
        (fun S => Evaluate 7 S (1 / 10) (1 / 2))) = some ⟨136947 / 343000, 3 / 2, 0, 1⟩) := by
  decide!

/-! ### Vectors and loops: basic facts -/

theorem wr_length {α : Type} (a : List α) (i : Int) (v : α) : (wr a i v).length = a.length := by
  unfold wr
  split <;> simp

theorem rd_neg {α : Type} [Zero α] (a : List α) (i : Int) (h : i < 0) : rd a i = 0 := by
  unfold rd
  rw [if_neg (by omega)]

theorem rd_ge {α : Type} [Zero α] (a : List α) (i : Int) (h : (a.length : Int) ≤ i) :
    rd a i = 0 := by
  unfold rd
  split
  · rw [List.getD_eq_default]
    omega
  · rfl

theorem rd_wr_same {α : Type} [Zero α] (a : List α) (i : Int) (v : α) (h0 : 0 ≤ i)
    (h1 : i < a.length) : rd (wr a i v) i = v := by
  unfold rd wr
  rw [if_pos h0, if_pos h0]
  rw [List.getD_eq_getElem _ _ (by rw [List.length_set]; omega)]
  simp

theorem rd_wr_ne {α : Type} [Zero α] (a : List α) (i j : Int) (v : α) (h : i ≠ j) :
    rd (wr a i v) j = rd a j := by
  by_cases h0 : 0 ≤ i
  · by_cases h1 : 0 ≤ j
    · have hne : i.toNat ≠ j.toNat := by omega
      simp only [rd, wr, h0, h1, if_true, List.getD_eq_getElem?_getD]
      rw [List.getElem?_set_ne hne]
    · simp only [rd, h1, if_false]
  · simp only [wr, h0, if_false]

theorem rd_wr {α : Type} [Zero α] (a : List α) (i j : Int) (v : α) :
    rd (wr a i v) j = if i = j ∧ 0 ≤ i ∧ i < a.length then v else rd a j := by
  by_cases h : i = j
  · subst h
    by_cases h0 : 0 ≤ i
    · by_cases h1 : i < a.length
      · rw [if_pos ⟨rfl, h0, h1⟩]
        exact rd_wr_same a i v h0 h1
      · rw [if_neg (by tauto)]
        rw [rd_ge _ _ (by rw [wr_length]; omega), rd_ge _ _ (by omega)]
    · rw [if_neg (by tauto)]
      rw [rd_neg _ _ (by omega), rd_neg _ _ (by omega)]
  · rw [if_neg (by tauto)]
    exact rd_wr_ne a i j v h

theorem list_ext_rd {α : Type} [Zero α] (a b : List α) (hl : a.length = b.length)
    (h : ∀ t : Nat, t < a.length → rd a (t : Int) = rd b (t : Int)) : a = b := by
  apply List.ext_getElem hl
  intro t h1 h2
  have := h t h1
  rw [rd_nat_lt a t h1, rd_nat_lt b t h2] at this
  exact this

theorem resize_length {α : Type} [Zero α] (a : List α) (n : Nat) : (resize a n).length = n := by
  unfold resize
  simp only [List.length_append, List.length_take, List.length_replicate]
  omega

theorem rd_resize {α : Type} [Zero α] (a : List α) (n : Nat) (t : Nat) :
    rd (resize a n) (t : Int) = if t < n then rd a (t : Int) else 0 := by
  by_cases h : t < n
  · rw [if_pos h, rd_nat, rd_nat]
    unfold resize
    by_cases h2 : t < a.length
    · simp only [List.getD_eq_getElem?_getD]
      rw [List.getElem?_append_left (by simp; omega)]
      rw [List.getElem?_take_of_lt h]
    · simp only [List.getD_eq_getElem?_getD]
      rw [List.getElem?_append_right (by simp; omega)]
      rw [List.getElem?_eq_none (l := a) (by omega)]
      simp only [List.length_take, Option.getD_none]
      rw [List.getElem?_replicate]
      split <;> rfl
  · rw [if_neg h]
    exact rd_ge _ _ (by rw [resize_length]; omega)

theorem forUp_empty {σ : Type} (lo hi : Int) (body : Int → σ → σ) (st : σ) (h : hi ≤ lo) :
    forUp lo hi body st = st := by
  unfold forUp
  have : (hi - lo).toNat = 0 := by omega
  rw [this]
  rfl

theorem forUp_succ {σ : Type} (lo hi : Int) (body : Int → σ → σ) (st : σ) (h : lo ≤ hi) :
    forUp lo (hi + 1) body st = body hi (forUp lo hi body st) := by
  unfold forUp
  have : (hi + 1 - lo).toNat = (hi - lo).toNat + 1 := by omega
  rw [this, List.range_succ, List.foldl_append]
  simp only [List.foldl_cons, List.foldl_nil]
  congr 1
  omega

/-- Induction over an upward loop: an invariant that holds at entry and that every round
with an index inside the bounds keeps, holds at exit. -/
theorem forUp_induction {σ : Type} (Inv : σ → Prop) (lo hi : Int) (body : Int → σ → σ)
    (st : σ) (h0 : Inv st) (hstep : ∀ i s, lo ≤ i → i < hi → Inv s → Inv (body i s)) :
    Inv (forUp lo hi body st) := by
  by_cases hle : hi ≤ lo
  · rw [forUp_empty _ _ _ _ hle]
    exact h0
  · have key : ∀ d : Nat, lo + d ≤ hi → Inv (forUp lo (lo + d) body st) := by
      intro d
      induction d with
      | zero =>
        intro _
        rw [forUp_empty _ _ _ _ (by omega)]
        exact h0
      | succ d ih =>
        intro hd
        have e : lo + ((d + 1 : Nat) : Int) = (lo + d) + 1 := by push_cast; ring
        rw [e, forUp_succ _ _ _ _ (by omega)]
        exact hstep _ _ (by omega) (by omega) (ih (by omega))
    have := key (hi - lo).toNat (by omega)
    have e : lo + ((hi - lo).toNat : Int) = hi := by omega
    rw [e] at this
    exact this

/-- A loop of writes `a[i + c] = g i` for `i` in `[lo, hi)`: the final vector, read at `t`. -/
theorem forUp_wr_shift {α : Type} [Zero α] (lo hi c : Int) (g : Int → α) (a : List α) :
    (forUp lo hi (fun i U => wr U (i + c) (g i)) a).length = a.length ∧
    ∀ t : Int, rd (forUp lo hi (fun i U => wr U (i + c) (g i)) a) t =
      if lo + c ≤ t ∧ t < hi + c ∧ 0 ≤ t ∧ t < a.length then g (t - c) else rd a t := by
  by_cases hle : hi ≤ lo
  · rw [forUp_empty _ _ _ _ hle]
    refine ⟨rfl, fun t => ?_⟩
    rw [if_neg (by omega)]
  · have key : ∀ d : Nat,
        (forUp lo (lo + d) (fun i U => wr U (i + c) (g i)) a).length = a.length ∧
        ∀ t : Int, rd (forUp lo (lo + d) (fun i U => wr U (i + c) (g i)) a) t =
          if lo + c ≤ t ∧ t < lo + d + c ∧ 0 ≤ t ∧ t < a.length then g (t - c) else rd a t := by
      intro d
      induction d with
      | zero =>
        rw [forUp_empty _ _ _ _ (by omega)]
        refine ⟨rfl, fun t => ?_⟩
        rw [if_neg (by omega)]
      | succ d ih =>
        have e : lo + ((d + 1 : Nat) : Int) = (lo + d) + 1 := by push_cast; ring
        rw [e, forUp_succ _ _ _ _ (by omega)]
        refine ⟨by rw [wr_length]; exact ih.1, fun t => ?_⟩
        rw [rd_wr, ih.2 t, ih.1]
        by_cases h1 : lo + (d : Int) + c = t
        · by_cases h2 : 0 ≤ t ∧ t < a.length
          · rw [if_pos (by omega), if_pos (by omega)]
            congr 1
            omega
          · rw [if_neg (by omega), if_neg (by omega), if_neg (by omega)]
        · rw [if_neg (by omega)]
          by_cases h3 : lo + c ≤ t ∧ t < lo + d + c ∧ 0 ≤ t ∧ t < a.length
          · rw [if_pos h3, if_pos (by omega)]
          · rw [if_neg h3, if_neg (by omega)]
    have := key (hi - lo).toNat
    have e : lo + ((hi - lo).toNat : Int) = hi := by omega
    rw [e] at this
    exact this

/-! ### Knot vectors: insertion point and multiplicity -/

theorem lastKnotLE_bounds (U : List ℚ) (u : ℚ) :
    -1 ≤ lastKnotLE U u ∧ lastKnotLE U u < U.length := by
  unfold lastKnotLE
  cases h : U.findIdx? (fun x => decide (x > u)) with
  | none => simp only; omega
  | some i =>
    simp only
    rw [List.findIdx?_eq_some_iff_getElem] at h
    obtain ⟨hi, -, -⟩ := h
    omega

theorem lastKnotLE_le (U : List ℚ) (u : ℚ) (t : Nat) (ht : (t : Int) ≤ lastKnotLE U u) :
    rd U (t : Int) ≤ u := by
  have hb := lastKnotLE_bounds U u
  have htl : t < U.length := by omega
  rw [rd_nat_lt U t htl]
  unfold lastKnotLE at ht
  cases h : U.findIdx? (fun x => decide (x > u)) with
  | none =>
    rw [List.findIdx?_eq_none_iff] at h
    have := h U[t] (List.getElem_mem htl)
    simpa using this
  | some i =>
    rw [h] at ht
    simp only at ht
    rw [List.findIdx?_eq_some_iff_getElem] at h
    obtain ⟨hi, -, h2⟩ := h
    have := h2 t (by omega)
    simpa using this

theorem lastKnotLE_next (U : List ℚ) (u : ℚ) (h : lastKnotLE U u + 1 < U.length) :
    u < rd U (lastKnotLE U u + 1) := by
  unfold lastKnotLE at h ⊢
  cases hf : U.findIdx? (fun x => decide (x > u)) with
  | none =>
    rw [hf] at h
    simp only at h
    omega
  | some i =>
    simp only
    rw [List.findIdx?_eq_some_iff_getElem] at hf
    obtain ⟨hi, h1, -⟩ := hf
    have e : ((i : Int) - 1 + 1) = (i : Int) := by omega
    rw [e, rd_nat_lt U i hi]
    simpa using h1

theorem lastKnotLE_max (U : List ℚ) (hs : U.Sorted (· ≤ ·)) (u : ℚ) (t : Nat)
    (ht : t < U.length) (h : rd U (t : Int) ≤ u) : (t : Int) ≤ lastKnotLE U u := by
  by_contra hc
  have hb := lastKnotLE_bounds U u
  have hk : lastKnotLE U u + 1 < U.length := by omega
  have h1 := lastKnotLE_next U u hk
  have e : lastKnotLE U u + 1 = (((lastKnotLE U u + 1).toNat : Nat) : Int) := by omega
  rw [e] at h1
  have := rd_mono U hs (i := (lastKnotLE U u + 1).toNat) (j := t) (by omega) ht
  linarith

theorem runLength_bounds (U : List ℚ) (k : Nat) :
    1 ≤ runLength U k ∧ runLength U k ≤ (k : Int) + 1 := by
  induction k with
  | zero => simp [runLength]
  | succ k ih =>
    obtain ⟨h1, h2⟩ := ih
    have e : runLength U (k + 1) =
        if rd U ((k : Int) + 1) ≤ rd U (k : Int) then runLength U k + 1 else 1 := rfl
    rw [e]
    split
    · constructor
      · omega
      · push_cast; omega
    · constructor
      · omega
      · push_cast; omega

theorem runLength_chain (U : List ℚ) (k : Nat) :
    ∀ i : Nat, (k : Int) + 1 - runLength U k < i → i ≤ k →
      rd U (i : Int) ≤ rd U ((i : Int) - 1) := by
  induction k with
  | zero =>
    intro i h1 h2
    simp only [runLength] at h1
    omega
  | succ k ih =>
    intro i h1 h2
    unfold runLength at h1
    by_cases hc : rd U ((k : Int) + 1) ≤ rd U (k : Int)
    · rw [if_pos hc] at h1
      rcases Nat.lt_or_ge i (k + 1) with h | h
      · exact ih i (by push_cast at h1; omega) (by omega)
      · have e : i = k + 1 := by omega
        subst e
        push_cast
        have e2 : (k : Int) + 1 - 1 = k := by omega
        rw [e2]
        exact hc
    · rw [if_neg hc] at h1
      push_cast at h1
      omega

theorem runLength_stop (U : List ℚ) (k : Nat) (h : runLength U k ≤ k) :
    rd U ((k : Int) - runLength U k) < rd U ((k : Int) - runLength U k + 1) := by
  induction k with
  | zero =>
    simp only [runLength] at h
    omega
  | succ k ih =>
    unfold runLength at h ⊢
    by_cases hc : rd U ((k : Int) + 1) ≤ rd U (k : Int)
    · rw [if_pos hc] at h ⊢
      have := ih (by push_cast at h; omega)
      push_cast
      have e1 : (k : Int) + 1 - (runLength U k + 1) = (k : Int) - runLength U k := by omega
      rw [e1]
      exact this
    · rw [if_neg hc]
      push_cast
      have e1 : (k : Int) + 1 - 1 = k := by omega
      rw [e1]
      exact not_le.mp hc

theorem runLength_ge (U : List ℚ) (k : Nat) :
    ∀ t : Nat, t ≤ k → (∀ i : Nat, t < i → i ≤ k → rd U (i : Int) ≤ rd U ((i : Int) - 1)) →
      (k : Int) - t + 1 ≤ runLength U k := by
  induction k with
  | zero =>
    intro t ht _
    simp only [runLength]
    omega
  | succ k ih =>
    intro t ht h
    unfold runLength
    rcases Nat.lt_or_ge t (k + 1) with hlt | hge
    · have hc := h (k + 1) hlt (le_refl _)
      push_cast at hc
      have e1 : (k : Int) + 1 - 1 = k := by omega
      rw [e1] at hc
      rw [if_pos hc]
      have := ih t (by omega) (fun i h1 h2 => h i h1 (by omega))
      push_cast
      omega
    · have := (runLength_bounds U k).1
      split <;> (push_cast; omega)

/-- In a non-decreasing vector the entries between two equal entries are equal to them. -/
theorem sorted_between (U : List ℚ) (hs : U.Sorted (· ≤ ·)) (i j t : Nat) (hj : j < U.length)
    (hit : i ≤ t) (htj : t ≤ j) (he : rd U (i : Int) = rd U (j : Int)) :
    rd U (t : Int) = rd U (j : Int) := by
  have h1 := rd_mono U hs hit (by omega)
  have h2 := rd_mono U hs htj hj
  linarith

/-! ### Loading the new knot vector -/

theorem insAt_length (L : List ℚ) (pos c : Nat) (v : ℚ) :
    (insAt L pos c v).length = L.length + c := by
  unfold insAt
  simp only [List.length_append, List.length_take, List.length_replicate, List.length_drop]
  omega

theorem rd_insAt (L : List ℚ) (pos c : Nat) (v : ℚ) (hp : pos ≤ L.length) (t : Nat) :
    rd (insAt L pos c v) (t : Int) =
      if t < pos then rd L (t : Int) else if t < pos + c then v else rd L ((t : Int) - c) := by
  rw [rd_nat]
  unfold insAt
  simp only [List.getD_eq_getElem?_getD]
  by_cases h1 : t < pos
  · rw [if_pos h1, List.append_assoc, List.getElem?_append_left (by simp; omega),
      List.getElem?_take_of_lt h1, rd_nat, List.getD_eq_getElem?_getD]
  · rw [if_neg h1]
    by_cases h2 : t < pos + c
    · rw [if_pos h2, List.append_assoc, List.getElem?_append_right (by simp; omega),
        List.getElem?_append_left (by simp; omega), List.getElem?_replicate]
      simp only [List.length_take]
      rw [if_pos (by omega)]
      rfl
    · rw [if_neg h2, List.getElem?_append_right (by simp; omega), List.getElem?_drop]
      have e : ((t : Int) - c) = ((t - c : Nat) : Int) := by omega
      rw [e, rd_nat, List.getD_eq_getElem?_getD]
      congr 2
      simp only [List.length_append, List.length_take, List.length_replicate]
      omega

theorem rd_resize_grow {α : Type} [Zero α] (a : List α) (n : Nat) (h : a.length ≤ n) (t : Int) :
    rd (resize a n) t = rd a t := by
  by_cases h0 : 0 ≤ t
  · have e : t = ((t.toNat : Nat) : Int) := by omega
    rw [e, rd_resize]
    split
    · rfl
    · rw [rd_ge _ _ (by omega)]
  · rw [rd_neg _ _ (by omega), rd_neg _ _ (by omega)]

theorem loadKnots_eq (U : List ℚ) (k r : Int) (u : ℚ) (hk0 : -1 ≤ k) (hk1 : k < U.length)
    (hr : 1 ≤ r) :
    loadKnots (resize U (U.length + r.toNat)) k r u = insAt U (k + 1).toNat r.toNat u := by
  have hL : (resize U (U.length + r.toNat)).length = U.length + r.toNat := resize_length _ _
  have e1 : (fun (i : Int) (V : List ℚ) => wr V i (rd (resize U (U.length + r.toNat)) i)) =
      (fun (i : Int) (V : List ℚ) => wr V (i + 0) (rd (resize U (U.length + r.toNat)) i)) := by
    funext i V
    rw [add_zero]
  have e2 : (fun (i : Int) (V : List ℚ) => wr V (k + i) u) =
      (fun (i : Int) (V : List ℚ) => wr V (i + k) ((fun _ => u) i)) := by
    funext i V
    rw [add_comm]
  apply list_ext_rd
  · unfold loadKnots
    simp only []
    rw [(forUp_wr_shift _ _ _ _ _).1, e2, (forUp_wr_shift _ _ _ _ _).1, e1,
      (forUp_wr_shift _ _ _ _ _).1, hL, insAt_length]
  · intro t ht
    rw [rd_insAt U _ _ u (by omega) t]
    unfold loadKnots
    simp only []
    rw [(forUp_wr_shift _ _ _ _ _).2, e2, (forUp_wr_shift _ _ _ _ _).1,
      (forUp_wr_shift _ _ _ _ _).2, e1, (forUp_wr_shift _ _ _ _ _).1,
      (forUp_wr_shift _ _ _ _ _).2, hL]
    simp only [rd_resize_grow U _ (Nat.le_add_right _ _)]
    by_cases h1 : t < (k + 1).toNat
    · rw [if_pos h1, if_neg (by omega), if_neg (by omega)]
      split <;> simp
    · rw [if_neg h1]
      by_cases h2 : t < (k + 1).toNat + r.toNat
      · rw [if_pos h2, if_neg (by omega), if_pos (by omega)]
      · rw [if_neg h2, if_pos]
        · congr 1
          omega
        · unfold loadKnots at ht
          simp only [] at ht
          rw [(forUp_wr_shift _ _ _ _ _).1, e2, (forUp_wr_shift _ _ _ _ _).1, e1,
            (forUp_wr_shift _ _ _ _ _).1, hL] at ht
          omega

/-! ### What `InsertKnotU` / `InsertKnotV` do to the members -/

theorem insAt_zero (L : List ℚ) (pos : Nat) (v : ℚ) : insAt L pos 0 v = L := by
  unfold insAt
  simp

theorem forUp_wr_length {α : Type} (lo hi : Int) (f : Int → List α → Int)
    (g : Int → List α → α) (a : List α) :
    (forUp lo hi (fun i P => wr P (f i P) (g i P)) a).length = a.length := by
  refine forUp_induction (fun s : List α => s.length = a.length) lo hi _ a rfl ?_
  intro i s _ _ h
  simp only [wr_length]
  exact h

theorem forUp_fst_length {α β : Type} (lo hi : Int) (body : Int → List α × β → List α × β)
    (h : ∀ i st, (body i st).1.length = st.1.length) (st : List α × β) :
    (forUp lo hi body st).1.length = st.1.length := by
  refine forUp_induction (fun s : List α × β => s.1.length = st.1.length) lo hi _ st rfl ?_
  intro i s _ _ hs
  show (body i s).1.length = st.1.length
  rw [h]
  exact hs

theorem insertRowU_length (knots : List ℚ) (aCPHold : List CqVector4D) (u : ℚ)
    (n cu k s r p row : Int) (st : List CqVector4D × List CqVector4D) :
    (insertRowU knots aCPHold u n cu k s r p row st).1.length = st.1.length := by
  unfold insertRowU
  simp only []
  rw [forUp_wr_length]
  have h3 : ∀ (init : List CqVector4D × List CqVector4D × Int),
      (forUp 1 (r + 1) (fun j (acc : List CqVector4D × List CqVector4D × Int) =>
        (if p - j - s > 0 then
          wr (wr acc.1 (row * cu + (k - p + j))
              (rd (forUp 0 (p - j - s + 1) (insertBlend knots u k (k - p + j)) acc.2.1) 0))
            (row * cu + k + r - j - s)
            (rd (forUp 0 (p - j - s + 1) (insertBlend knots u k (k - p + j)) acc.2.1)
              (p - j - s))
          else wr acc.1 (row * cu + (k - p + j))
              (rd (forUp 0 (p - j - s + 1) (insertBlend knots u k (k - p + j)) acc.2.1) 0),
         forUp 0 (p - j - s + 1) (insertBlend knots u k (k - p + j)) acc.2.1,
         k - p + j)) init).1.length = init.1.length := by
    intro init
    refine forUp_induction
      (fun s : List CqVector4D × List CqVector4D × Int => s.1.length = init.1.length)
      1 (r + 1) _ init rfl ?_
    intro i s _ _ h
    simp only []
    split <;> simp only [wr_length] <;> exact h
  rw [h3]
  simp only []
  rw [forUp_wr_length, forUp_wr_length]

theorem insertColV_length (knots : List ℚ) (aCPHold : List CqVector4D) (v : ℚ)
    (m cu k s r p col : Int) (st : List CqVector4D × List CqVector4D) :
    (insertColV knots aCPHold v m cu k s r p col st).1.length = st.1.length := by
  unfold insertColV
  simp only []
  rw [forUp_wr_length]
  have h3 : ∀ (init : List CqVector4D × List CqVector4D × Int),
      (forUp 1 (r + 1) (fun j (acc : List CqVector4D × List CqVector4D × Int) =>
        (if p - j - s > 0 then
          wr (wr acc.1 ((k - p + j) * cu + col)
              (rd (forUp 0 (p - j - s + 1) (insertBlend knots v k (k - p + j)) acc.2.1) 0))
            ((k + r - j - s) * cu + col)
            (rd (forUp 0 (p - j - s + 1) (insertBlend knots v k (k - p + j)) acc.2.1)
              (p - j - s))
          else wr acc.1 ((k - p + j) * cu + col)
              (rd (forUp 0 (p - j - s + 1) (insertBlend knots v k (k - p + j)) acc.2.1) 0),
         forUp 0 (p - j - s + 1) (insertBlend knots v k (k - p + j)) acc.2.1,
         k - p + j)) init).1.length = init.1.length := by
    intro init
    refine forUp_induction
      (fun s : List CqVector4D × List CqVector4D × Int => s.1.length = init.1.length)
      1 (r + 1) _ init rfl ?_
    intro i s _ _ h
    simp only []
    split <;> simp only [wr_length] <;> exact h
  rw [h3]
  simp only []
  rw [forUp_wr_length, forUp_wr_length]

/-- The effect of `InsertKnotU` on the members, for a knot vector of length
`m_cuVerts + m_uOrder`. -/
theorem InsertKnotU_fields (S : CqSurfaceNURBS) (u : ℚ) (r : Int)
    (hlen : S.m_auKnots.length = S.m_cuVerts + S.m_uOrder) :
    (InsertKnotU S u r).2 = insertCount S.m_auKnots S.m_cuVerts S.uDegree u r ∧
    ((InsertKnotU S u r).2 = 0 → (InsertKnotU S u r).1 = S) ∧
    (InsertKnotU S u r).1.m_cuVerts = S.m_cuVerts + (InsertKnotU S u r).2 ∧
    (InsertKnotU S u r).1.m_auKnots =
      insAt S.m_auKnots (lastKnotLE S.m_auKnots u + 1).toNat (InsertKnotU S u r).2 u ∧
    (InsertKnotU S u r).1.m_uOrder = S.m_uOrder ∧
    (InsertKnotU S u r).1.m_cvVerts = S.m_cvVerts ∧
    (InsertKnotU S u r).1.m_vOrder = S.m_vOrder ∧
    (InsertKnotU S u r).1.m_avKnots = S.m_avKnots ∧
    (InsertKnotU S u r).1.m_aUserParams = S.m_aUserParams ∧
    (0 < (InsertKnotU S u r).2 → (InsertKnotU S u r).1.P.length =
      (InsertKnotU S u r).1.m_cuVerts * S.m_cvVerts) := by
  unfold InsertKnotU insertCount
  simp only []
  by_cases h1 : u < rd S.m_auKnots S.uDegree ∨ u > rd S.m_auKnots S.m_cuVerts
  · simp only [h1, if_true, insAt_zero, Nat.add_zero, Nat.lt_irrefl, false_implies,
      implies_true, and_self]
  · simp only [h1, if_false]
    by_cases h2 : adjustInsertions r
        (knotMultiplicity S.m_auKnots (lastKnotLE S.m_auKnots u) u) S.uDegree ≤ 0
    · have e : (adjustInsertions r
          (knotMultiplicity S.m_auKnots (lastKnotLE S.m_auKnots u) u) S.uDegree).toNat = 0 := by
        omega
      simp only [h2, if_true, e, insAt_zero, Nat.add_zero, Nat.lt_irrefl, false_implies,
        implies_true, and_self]
    · simp only [h2, if_false, true_and]
      have hb := lastKnotLE_bounds S.m_auKnots u
      refine ⟨by intro h; omega, ?_, ?_⟩
      · have e : S.m_cuVerts + (adjustInsertions r
            (knotMultiplicity S.m_auKnots (lastKnotLE S.m_auKnots u) u) S.uDegree).toNat +
            S.m_uOrder = S.m_auKnots.length + (adjustInsertions r
            (knotMultiplicity S.m_auKnots (lastKnotLE S.m_auKnots u) u) S.uDegree).toNat := by
          omega
        rw [e]
        exact loadKnots_eq S.m_auKnots _ _ u hb.1 hb.2 (by omega)
      · intro _
        rw [forUp_fst_length _ _ _ (fun i st => insertRowU_length _ _ _ _ _ _ _ _ _ _ st)]
        exact resize_length _ _

/-- The effect of `InsertKnotV` on the members, for a knot vector of length
`m_cvVerts + m_vOrder`. -/
theorem InsertKnotV_fields (S : CqSurfaceNURBS) (u : ℚ) (r : Int)
    (hlen : S.m_avKnots.length = S.m_cvVerts + S.m_vOrder) :
    (InsertKnotV S u r).2 = insertCount S.m_avKnots S.m_cvVerts S.vDegree u r ∧
    ((InsertKnotV S u r).2 = 0 → (InsertKnotV S u r).1 = S) ∧
    (InsertKnotV S u r).1.m_cvVerts = S.m_cvVerts + (InsertKnotV S u r).2 ∧
    (InsertKnotV S u r).1.m_avKnots =
      insAt S.m_avKnots (lastKnotLE S.m_avKnots u + 1).toNat (InsertKnotV S u r).2 u ∧
    (InsertKnotV S u r).1.m_vOrder = S.m_vOrder ∧
    (InsertKnotV S u r).1.m_cuVerts = S.m_cuVerts ∧
    (InsertKnotV S u r).1.m_uOrder = S.m_uOrder ∧
    (InsertKnotV S u r).1.m_auKnots = S.m_auKnots ∧
    (InsertKnotV S u r).1.m_aUserParams = S.m_aUserParams ∧
    (0 < (InsertKnotV S u r).2 → (InsertKnotV S u r).1.P.length =
      S.m_cuVerts * (InsertKnotV S u r).1.m_cvVerts) := by
  unfold InsertKnotV insertCount
  simp only []
  by_cases h1 : u < rd S.m_avKnots S.vDegree ∨ u > rd S.m_avKnots S.m_cvVerts
  · simp only [h1, if_true, insAt_zero, Nat.add_zero, Nat.lt_irrefl, false_implies,
      implies_true, and_self]
  · simp only [h1, if_false]
    by_cases h2 : adjustInsertions r
        (knotMultiplicity S.m_avKnots (lastKnotLE S.m_avKnots u) u) S.vDegree ≤ 0
    · have e : (adjustInsertions r
          (knotMultiplicity S.m_avKnots (lastKnotLE S.m_avKnots u) u) S.vDegree).toNat = 0 := by
        omega
      simp only [h2, if_true, e, insAt_zero, Nat.add_zero, Nat.lt_irrefl, false_implies,
        implies_true, and_self]
    · simp only [h2, if_false, true_and]
      have hb := lastKnotLE_bounds S.m_avKnots u
      refine ⟨by intro h; omega, ?_, ?_⟩
      · have e : S.m_cvVerts + (adjustInsertions r
            (knotMultiplicity S.m_avKnots (lastKnotLE S.m_avKnots u) u) S.vDegree).toNat +
            S.m_vOrder = S.m_avKnots.length + (adjustInsertions r
            (knotMultiplicity S.m_avKnots (lastKnotLE S.m_avKnots u) u) S.vDegree).toNat := by
          omega
        rw [e]
        exact loadKnots_eq S.m_avKnots _ _ u hb.1 hb.2 (by omega)
      · intro _
        rw [forUp_fst_length _ _ _ (fun i st => insertColV_length _ _ _ _ _ _ _ _ _ _ st)]
        exact resize_length _ _

/-! ### Counting and order in knot vectors -/

theorem rd_cons_succ (x : ℚ) (L : List ℚ) (t : Nat) :
    rd (x :: L) ((t + 1 : Nat) : Int) = rd L (t : Int) := by
  rw [rd_nat, rd_nat]
  simp

theorem rd_cons_zero (x : ℚ) (L : List ℚ) : rd (x :: L) ((0 : Nat) : Int) = x := by
  rw [rd_nat]
  simp

theorem count_of_segments (u : ℚ) (U : List ℚ) :
    ∀ a b : Nat, a ≤ b → b ≤ U.length → (∀ t : Nat, t < a → rd U (t : Int) ≠ u) →
      (∀ t : Nat, a ≤ t → t < b → rd U (t : Int) = u) →
      (∀ t : Nat, b ≤ t → t < U.length → rd U (t : Int) ≠ u) → U.count u = b - a := by
  induction U with
  | nil =>
    intro a b _ hb _ _ _
    simp only [List.length_nil] at hb
    simp only [List.count_nil]
    omega
  | cons x U ih =>
    intro a b hab hb h1 h2 h3
    simp only [List.length_cons] at hb h3
    rw [List.count_cons]
    rcases Nat.eq_zero_or_pos a with ha | ha
    · subst ha
      rcases Nat.eq_zero_or_pos b with hb0 | hb0
      · subst hb0
        have hx : x ≠ u := by
          have := h3 0 (le_refl _) (by omega)
          rwa [rd_cons_zero] at this
        have := ih 0 0 (le_refl _) (by omega) (fun t ht => by omega) (fun t _ ht => by omega)
          (fun t _ ht => by
            have := h3 (t + 1) (by omega) (by omega)
            rwa [rd_cons_succ] at this)
        rw [this]
        simp [hx]
      · have hx : x = u := by
          have := h2 0 (le_refl _) hb0
          rwa [rd_cons_zero] at this
        have := ih 0 (b - 1) (by omega) (by omega) (fun t ht => by omega)
          (fun t _ ht => by
            have := h2 (t + 1) (by omega) (by omega)
            rwa [rd_cons_succ] at this)
          (fun t ht1 ht2 => by
            have := h3 (t + 1) (by omega) (by omega)
            rwa [rd_cons_succ] at this)
        rw [this]
        simp [hx]
        omega
    · have hx : x ≠ u := by
        have := h1 0 ha
        rwa [rd_cons_zero] at this
      have := ih (a - 1) (b - 1) (by omega) (by omega)
        (fun t ht => by
          have := h1 (t + 1) (by omega)
          rwa [rd_cons_succ] at this)
        (fun t ht1 ht2 => by
          have := h2 (t + 1) (by omega) (by omega)
          rwa [rd_cons_succ] at this)
        (fun t ht1 ht2 => by
          have := h3 (t + 1) (by omega) (by omega)
          rwa [rd_cons_succ] at this)
      rw [this]
      simp [hx]
      omega

theorem sorted_of_rd (L : List ℚ)
    (h : ∀ i j : Nat, i < j → j < L.length → rd L (i : Int) ≤ rd L (j : Int)) :
    L.Sorted (· ≤ ·) := by
  unfold List.Sorted
  rw [List.pairwise_iff_getElem]
  intro i j hi hj hij
  have := h i j hij hj
  rwa [rd_nat_lt L i hi, rd_nat_lt L j hj] at this

/-- Above the insertion point every knot is greater than the value. -/
theorem lastKnotLE_gt (U : List ℚ) (hs : U.Sorted (· ≤ ·)) (u : ℚ) (t : Nat)
    (ht : t < U.length) (h : lastKnotLE U u < (t : Int)) : u < rd U (t : Int) := by
  by_contra hc
  have := lastKnotLE_max U hs u t ht (not_lt.mp hc)
  omega

theorem insAt_sorted (U : List ℚ) (hs : U.Sorted (· ≤ ·)) (u : ℚ) (c : Nat) :
    (insAt U (lastKnotLE U u + 1).toNat c u).Sorted (· ≤ ·) := by
  have hb := lastKnotLE_bounds U u
  apply sorted_of_rd
  intro i j hij hj
  rw [insAt_length] at hj
  rw [rd_insAt U _ c u (by omega) i, rd_insAt U _ c u (by omega) j]
  by_cases hi1 : i < (lastKnotLE U u + 1).toNat
  · rw [if_pos hi1]
    have hiu := lastKnotLE_le U u i (by omega)
    by_cases hj1 : j < (lastKnotLE U u + 1).toNat
    · rw [if_pos hj1]
      exact rd_mono U hs (by omega) (by omega)
    · rw [if_neg hj1]
      by_cases hj2 : j < (lastKnotLE U u + 1).toNat + c
      · rw [if_pos hj2]
        exact hiu
      · rw [if_neg hj2]
        have e : (j : Int) - c = ((j - c : Nat) : Int) := by omega
        rw [e]
        exact rd_mono U hs (by omega) (by omega)
  · have hj1 : ¬ j < (lastKnotLE U u + 1).toNat := by omega
    rw [if_neg hi1, if_neg hj1]
    by_cases hi2 : i < (lastKnotLE U u + 1).toNat + c
    · rw [if_pos hi2]
      by_cases hj2 : j < (lastKnotLE U u + 1).toNat + c
      · rw [if_pos hj2]
      · rw [if_neg hj2]
        have e : (j : Int) - c = ((j - c : Nat) : Int) := by omega
        rw [e]
        exact le_of_lt (lastKnotLE_gt U hs u (j - c) (by omega) (by omega))
    · have hj2 : ¬ j < (lastKnotLE U u + 1).toNat + c := by omega
      rw [if_neg hi2, if_neg hj2]
      have e : (j : Int) - c = ((j - c : Nat) : Int) := by omega
      have e2 : (i : Int) - c = ((i - c : Nat) : Int) := by omega
      rw [e, e2]
      exact rd_mono U hs (by omega) (by omega)

theorem insAt_perm (U : List ℚ) (pos c : Nat) (u : ℚ) :
    (insAt U pos c u).Perm (U ++ List.replicate c u) := by
  unfold insAt
  have h1 : (List.replicate c u ++ List.drop pos U).Perm (List.drop pos U ++ List.replicate c u) :=
    List.perm_append_comm
  have h2 := List.Perm.append_left (List.take pos U) h1
  have h3 : List.take pos U ++ (List.drop pos U ++ List.replicate c u) =
      U ++ List.replicate c u := by
    rw [← List.append_assoc, List.take_append_drop]
  rw [List.append_assoc, ← h3]
  exact h2

theorem insAt_count (U : List ℚ) (pos c : Nat) (u : ℚ) :
    (insAt U pos c u).count u = U.count u + c := by
  rw [(insAt_perm U pos c u).count_eq, List.count_append, List.count_replicate_self]

/-- On a non-decreasing knot vector the multiplicity that `InsertKnotU` computes is the number
of occurrences of the value. -/
theorem knotMultiplicity_eq_count (U : List ℚ) (hs : U.Sorted (· ≤ ·)) (u : ℚ)
    (hk : 0 ≤ lastKnotLE U u) :
    knotMultiplicity U (lastKnotLE U u) u = (U.count u : Int) := by
  have hb := lastKnotLE_bounds U u
  have hkk : lastKnotLE U u = ((lastKnotLE U u).toNat : Int) := by omega
  have hle : rd U (lastKnotLE U u) ≤ u := by
    rw [hkk]
    exact lastKnotLE_le U u _ (by omega)
  unfold knotMultiplicity
  by_cases hc : u ≤ rd U (lastKnotLE U u)
  · rw [if_pos hc]
    have heq : rd U (((lastKnotLE U u).toNat : Nat) : Int) = u := by
      rw [← hkk]
      exact le_antisymm hle hc
    have hrb := runLength_bounds U (lastKnotLE U u).toNat
    have hrun : ∀ t : Nat, ((lastKnotLE U u).toNat : Int) + 1 - runLength U (lastKnotLE U u).toNat
        ≤ t → t ≤ (lastKnotLE U u).toNat → rd U (t : Int) = u := by
      intro t h1 h2
      have hdown : ∀ d : Nat, d ≤ (lastKnotLE U u).toNat →
          ((lastKnotLE U u).toNat : Int) + 1 - runLength U (lastKnotLE U u).toNat ≤
            (((lastKnotLE U u).toNat - d : Nat) : Int) →
          u ≤ rd U ((((lastKnotLE U u).toNat - d : Nat)) : Int) := by
        intro d
        induction d with
        | zero =>
          intro _ _
          rw [Nat.sub_zero, heq]
        | succ d ih =>
          intro hd1 hd2
          have h3 := ih (by omega) (by omega)
          have h4 := runLength_chain U (lastKnotLE U u).toNat ((lastKnotLE U u).toNat - d)
            (by omega) (by omega)
          have e : ((((lastKnotLE U u).toNat - d : Nat)) : Int) - 1 =
              ((((lastKnotLE U u).toNat - (d + 1) : Nat)) : Int) := by omega
          rw [e] at h4
          linarith
      have h5 := hdown ((lastKnotLE U u).toNat - t) (by omega) (by omega)
      have e : (lastKnotLE U u).toNat - ((lastKnotLE U u).toNat - t) = t := by omega
      rw [e] at h5
      have h6 := rd_mono U hs (i := t) (j := (lastKnotLE U u).toNat) h2 (by omega)
      rw [heq] at h6
      exact le_antisymm h6 h5
    have hcount := count_of_segments u U
      (((lastKnotLE U u).toNat : Int) + 1 - runLength U (lastKnotLE U u).toNat).toNat
      ((lastKnotLE U u).toNat + 1) (by omega) (by omega)
      (fun t ht => by
        have hst := runLength_stop U (lastKnotLE U u).toNat (by omega)
        have e1 : ((lastKnotLE U u).toNat : Int) - runLength U (lastKnotLE U u).toNat =
            (((((lastKnotLE U u).toNat : Int) + 1 -
              runLength U (lastKnotLE U u).toNat).toNat - 1 : Nat) : Int) := by omega
        have e2 : ((lastKnotLE U u).toNat : Int) - runLength U (lastKnotLE U u).toNat + 1 =
            ((((((lastKnotLE U u).toNat : Int) + 1 -
              runLength U (lastKnotLE U u).toNat).toNat : Nat)) : Int) := by omega
        rw [e2, e1] at hst
        have h7 := hrun (((lastKnotLE U u).toNat : Int) + 1 -
          runLength U (lastKnotLE U u).toNat).toNat (by omega) (by omega)
        rw [h7] at hst
        have h8 := rd_mono U hs (i := t) (j := (((lastKnotLE U u).toNat : Int) + 1 -
              runLength U (lastKnotLE U u).toNat).toNat - 1) (by omega) (by omega)
        exact ne_of_lt (lt_of_le_of_lt h8 hst))
      (fun t ht1 ht2 => hrun t (by omega) (by omega))
      (fun t ht1 ht2 => ne_of_gt (lastKnotLE_gt U hs u t ht2 (by omega)))
    rw [hcount]
    omega
  · rw [if_neg hc]
    have hlt : rd U (lastKnotLE U u) < u := lt_of_le_of_ne hle (fun h => hc (le_of_eq h.symm))
    have := count_of_segments u U 0 0 (le_refl _) (by omega) (fun t ht => by omega)
      (fun t _ ht => by omega)
      (fun t _ ht => by
        rcases Int.lt_or_le (lastKnotLE U u) (t : Int) with h | h
        · exact ne_of_gt (lastKnotLE_gt U hs u t ht h)
        · have := rd_mono U hs (i := t) (j := (lastKnotLE U u).toNat) (by omega) (by omega)
          rw [← hkk] at this
          exact ne_of_lt (lt_of_le_of_lt this hlt))
    rw [this]
    rfl

/-! ### Single knot insertion: the knot vector -/

theorem insertCount_in_range (U : List ℚ) (hs : U.Sorted (· ≤ ·)) (n p : Nat) (u : ℚ) (r : Int)
    (hp : p < U.length) (hlo : rd U (p : Int) ≤ u) (hhi : u ≤ rd U (n : Int)) :
    (p : Int) ≤ lastKnotLE U u ∧
    insertCount U n p u r = (min r ((p : Int) + 1 - U.count u)).toNat := by
  have hk := lastKnotLE_max U hs u p hp hlo
  refine ⟨hk, ?_⟩
  unfold insertCount
  rw [if_neg (by rw [not_or]; exact ⟨not_lt.mpr hlo, not_lt.mpr hhi⟩)]
  rw [knotMultiplicity_eq_count U hs u (by omega)]
  unfold adjustInsertions
  split
  · rw [min_eq_right (by omega)]
  · rw [min_eq_left (by omega)]

/-- C7: for a non-decreasing U knot vector of length `cuVerts + uOrder` and a value `u` inside
`[U[uDegree], U[cuVerts]]` that occurs `s` times in it, `InsertKnotU(u, r)` returns
`r' = min(r, uDegree + 1 - s)` when that is positive and 0 otherwise; afterwards `cuVerts` has
grown by `r'`, the knot vector has length `cuVerts + uOrder`, is a permutation of the old vector
with `r'` extra copies of `u` and is still non-decreasing, the control net has
`cuVerts * cvVerts` points, and `u` occurs `s + r'` times, which is at most `uDegree + 1` when
`s` was (the knot-vector invariant "multiplicity at most the order"). -/
theorem InsertKnotU_spec (S : CqSurfaceNURBS) (u : ℚ) (r : Int)
    (hs : S.m_auKnots.Sorted (· ≤ ·))
    (hlen : S.m_auKnots.length = S.m_cuVerts + S.m_uOrder) (hord : 1 ≤ S.m_uOrder)
    (hP : S.P.length = S.m_cuVerts * S.m_cvVerts)
    (hlo : rd S.m_auKnots (S.uDegree : Int) ≤ u)
    (hhi : u ≤ rd S.m_auKnots (S.m_cuVerts : Int)) :
    (InsertKnotU S u r).2 =
      (min r ((S.uDegree : Int) + 1 - (S.m_auKnots.count u : Int))).toNat ∧
    (InsertKnotU S u r).1.m_cuVerts = S.m_cuVerts + (InsertKnotU S u r).2 ∧
    (InsertKnotU S u r).1.m_auKnots.length =
      (InsertKnotU S u r).1.m_cuVerts + (InsertKnotU S u r).1.m_uOrder ∧
    (InsertKnotU S u r).1.m_auKnots.Perm
      (S.m_auKnots ++ List.replicate (InsertKnotU S u r).2 u) ∧
    (InsertKnotU S u r).1.m_auKnots.Sorted (· ≤ ·) ∧
    (InsertKnotU S u r).1.P.length =
      (InsertKnotU S u r).1.m_cuVerts * (InsertKnotU S u r).1.m_cvVerts ∧
    (InsertKnotU S u r).1.m_auKnots.count u = S.m_auKnots.count u + (InsertKnotU S u r).2 ∧
    (S.m_auKnots.count u ≤ S.uDegree + 1 →
      S.m_auKnots.count u + (InsertKnotU S u r).2 ≤ S.uDegree + 1) := by
  obtain ⟨f1, f2, f3, f4, f5, f6, -, -, -, f10⟩ := InsertKnotU_fields S u r hlen
  have hp : S.uDegree < S.m_auKnots.length := by
    unfold uDegree
    omega
  obtain ⟨-, hc⟩ := insertCount_in_range S.m_auKnots hs S.m_cuVerts S.uDegree u r hp hlo hhi
  rw [hc] at f1
  refine ⟨f1, f3, ?_, ?_, ?_, ?_, ?_, ?_⟩
  · rw [f4, insAt_length, f3, f5, hlen]
    omega
  · rw [f4]
    exact insAt_perm _ _ _ _
  · rw [f4]
    exact insAt_sorted _ hs _ _
  · rcases Nat.eq_zero_or_pos (InsertKnotU S u r).2 with h0 | h0
    · rw [f2 h0]
      exact hP
    · rw [f10 h0, f6]
  · rw [f4]
    exact insAt_count _ _ _ _
  · intro h
    rw [f1]
    omega

/-- Witness for C7: the bicubic example, `InsertKnotU(1/2, 1)`. -/
theorem InsertKnotU_spec_witness :
    (InsertKnotU Examples.bicubic (1 / 2) 1).2 = 1 ∧
    (InsertKnotU Examples.bicubic (1 / 2) 1).1.m_cuVerts = 4 + 1 ∧
    (InsertKnotU Examples.bicubic (1 / 2) 1).1.m_auKnots.Sorted (· ≤ ·) := by
  obtain ⟨h1, h2, -, -, h5, -⟩ := InsertKnotU_spec Examples.bicubic (1 / 2) 1
    (by with_unfolding_all decide) (by with_unfolding_all decide) (by with_unfolding_all decide)
    (by with_unfolding_all decide) (by with_unfolding_all decide) (by with_unfolding_all decide)
  refine ⟨?_, ?_, h5⟩
  · rw [h1]
    with_unfolding_all decide
  · rw [h2, h1]
    with_unfolding_all decide

/-! ### Clamping: the knot vector -/

/-- Every entry of the run that `runLength` counts below index `k` equals the entry at `k`. -/
theorem runLength_all_eq (U : List ℚ) (hs : U.Sorted (· ≤ ·)) (k : Nat) (hk : k < U.length)
    (t : Nat) (h1 : (k : Int) + 1 - runLength U k ≤ t) (h2 : t ≤ k) :
    rd U (t : Int) = rd U (k : Int) := by
  have hdown : ∀ d : Nat, d ≤ k → (k : Int) + 1 - runLength U k ≤ ((k - d : Nat) : Int) →
      rd U (k : Int) ≤ rd U ((k - d : Nat) : Int) := by
    intro d
    induction d with
    | zero =>
      intro _ _
      rw [Nat.sub_zero]
    | succ d ih =>
      intro hd1 hd2
      have h3 := ih (by omega) (by omega)
      have h4 := runLength_chain U k (k - d) (by omega) (by omega)
      have e : ((k - d : Nat) : Int) - 1 = ((k - (d + 1) : Nat) : Int) := by omega
      rw [e] at h4
      linarith
  have h5 := hdown (k - t) (by omega) (by omega)
  have e : k - (k - t) = t := by omega
  rw [e] at h5
  have h6 := rd_mono U hs (i := t) (j := k) h2 hk
  exact le_antisymm h6 h5

/-- A knot value that already fills `p + 1` consecutive entries is not inserted again. -/
theorem insertCount_zero_of_run (L : List ℚ) (hs : L.Sorted (· ≤ ·)) (n p : Nat) (v : ℚ)
    (i : Nat) (hi : i + p < L.length)
    (h : ∀ t : Nat, i ≤ t → t ≤ i + p → rd L (t : Int) = v) :
    insertCount L n p v p = 0 := by
  unfold insertCount
  split
  · rfl
  · have hb := lastKnotLE_bounds L v
    have hk := lastKnotLE_max L hs v (i + p) hi (le_of_eq (h (i + p) (by omega) (le_refl _)))
    have hkk : lastKnotLE L v = ((lastKnotLE L v).toNat : Int) := by omega
    have hle : rd L (lastKnotLE L v) ≤ v := by
      rw [hkk]
      exact lastKnotLE_le L v _ (by omega)
    have hge : v ≤ rd L (lastKnotLE L v) := by
      have m := rd_mono L hs (i := i + p) (j := (lastKnotLE L v).toNat) (by omega) (by omega)
      rw [h (i + p) (by omega) (le_refl _)] at m
      rw [hkk]
      exact m
    have heq : rd L (((lastKnotLE L v).toNat : Nat) : Int) = v := by
      rw [← hkk]
      exact le_antisymm hle hge
    unfold knotMultiplicity
    rw [if_pos hge]
    have hrl := runLength_ge L (lastKnotLE L v).toNat i (by omega) (by
      intro j hj1 hj2
      have e : (j : Int) - 1 = ((j - 1 : Nat) : Int) := by omega
      rw [e]
      have hi0 := h i (le_refl _) (by omega)
      have a1 := sorted_between L hs i (lastKnotLE L v).toNat j (by omega) (by omega) hj2
        (by rw [hi0, heq])
      have a2 := sorted_between L hs i (lastKnotLE L v).toNat (j - 1) (by omega) (by omega)
        (by omega) (by rw [hi0, heq])
      rw [a1, a2])
    unfold adjustInsertions
    split <;> omega

theorem insertCount_out_of_range (L : List ℚ) (n p : Nat) (v : ℚ) (r : Int)
    (h : v < rd L (p : Int) ∨ v > rd L (n : Int)) : insertCount L n p v r = 0 := by
  unfold insertCount
  rw [if_pos h]

theorem insertCount_le (U : List ℚ) (n p : Nat) (u : ℚ) (r : Nat) :
    insertCount U n p u (r : Int) ≤ r := by
  unfold insertCount
  split
  · omega
  · unfold adjustInsertions
    split <;> omega

/-- One insertion of a value that occurs in the vector, with the request `r = p`: the run of
that value ends at `k + c` and has at least `p + 1` entries. -/
theorem insert_run (U : List ℚ) (hs : U.Sorted (· ≤ ·)) (n p : Nat) (u : ℚ)
    (hp : p < U.length) (hlo : rd U (p : Int) ≤ u) (hhi : u ≤ rd U (n : Int))
    (hmem : ∃ t0 : Nat, t0 < U.length ∧ rd U (t0 : Int) = u) :
    (p : Int) ≤ lastKnotLE U u ∧ lastKnotLE U u < U.length ∧
    (∀ t : Nat, lastKnotLE U u + insertCount U n p u p ≤ (t : Int) + p →
      (t : Int) ≤ lastKnotLE U u + insertCount U n p u p →
      rd (insAt U (lastKnotLE U u + 1).toNat (insertCount U n p u p) u) (t : Int) = u) ∧
    (∀ t : Nat, (t : Int) ≤ lastKnotLE U u →
      rd (insAt U (lastKnotLE U u + 1).toNat (insertCount U n p u p) u) (t : Int) =
        rd U (t : Int)) ∧
    (0 < insertCount U n p u p → ∀ t0 : Nat, t0 < U.length → rd U (t0 : Int) = u →
      lastKnotLE U u + insertCount U n p u p ≤ (t0 : Int) + p) := by
  have hb := lastKnotLE_bounds U u
  have hk := lastKnotLE_max U hs u p hp hlo
  have hkk : lastKnotLE U u = ((lastKnotLE U u).toNat : Int) := by omega
  have hle : rd U (lastKnotLE U u) ≤ u := by
    rw [hkk]
    exact lastKnotLE_le U u _ (by omega)
  obtain ⟨t0, ht0, ht0u⟩ := hmem
  have ht0k := lastKnotLE_max U hs u t0 ht0 (le_of_eq ht0u)
  have hge : u ≤ rd U (lastKnotLE U u) := by
    have m := rd_mono U hs (i := t0) (j := (lastKnotLE U u).toNat) (by omega) (by omega)
    rw [ht0u] at m
    rw [hkk]
    exact m
  have heq : rd U (((lastKnotLE U u).toNat : Nat) : Int) = u := by
    rw [← hkk]
    exact le_antisymm hle hge
  have hrb := runLength_bounds U (lastKnotLE U u).toNat
  have hc : insertCount U n p u p =
      ((p : Int) + 1 - runLength U (lastKnotLE U u).toNat).toNat := by
    unfold insertCount
    rw [if_neg (by rw [not_or]; exact ⟨not_lt.mpr hlo, not_lt.mpr hhi⟩)]
    unfold knotMultiplicity
    rw [if_pos hge]
    unfold adjustInsertions
    split <;> congr 1 <;> omega
  have hsum : (p : Int) + 1 ≤ runLength U (lastKnotLE U u).toNat + insertCount U n p u p := by
    omega
  refine ⟨hk, hb.2, ?_, ?_, ?_⟩
  · intro t h1 h2
    rw [rd_insAt U _ _ u (by omega) t]
    by_cases ha : t < (lastKnotLE U u + 1).toNat
    · rw [if_pos ha]
      rw [runLength_all_eq U hs (lastKnotLE U u).toNat (by omega) t (by omega) (by omega), heq]
    · rw [if_neg ha, if_pos (by omega)]
  · intro t ht
    rw [rd_insAt U _ _ u (by omega) t, if_pos (by omega)]
  · intro hpos t1 ht1 ht1u
    have ht1k := lastKnotLE_max U hs u t1 ht1 (le_of_eq ht1u)
    have hrl := runLength_ge U (lastKnotLE U u).toNat t1 (by omega) (by
      intro j hj1 hj2
      have e : (j : Int) - 1 = ((j - 1 : Nat) : Int) := by omega
      rw [e]
      have a1 := sorted_between U hs t1 (lastKnotLE U u).toNat j (by omega) (by omega) hj2
        (by rw [ht1u, heq])
      have a2 := sorted_between U hs t1 (lastKnotLE U u).toNat (j - 1) (by omega) (by omega)
        (by omega) (by rw [ht1u, heq])
      rw [a1, a2])
    omega

/-- The knot-vector part of "clamping twice is clamping once": after the two insertions and the
trim, both insertion requests of a second clamp are answered with 0. -/
theorem clamp_knots_stable (U : List ℚ) (hs : U.Sorted (· ≤ ·)) (n p : Nat)
    (hlen : U.length = n + p + 1) (n1 : Nat) (U1 : List ℚ) (n2 : Nat) (U2 U3 : List ℚ)
    (hn1 : n1 = insertCount U n p (rd U (p : Int)) p)
    (hU1 : U1 = insAt U (lastKnotLE U (rd U (p : Int)) + 1).toNat n1 (rd U (p : Int)))
    (hn2 : n2 = insertCount U1 (n + n1) p (rd U1 ((n + n1 : Nat) : Int)) p)
    (hU2 : U2 = insAt U1 (lastKnotLE U1 (rd U1 ((n + n1 : Nat) : Int)) + 1).toNat n2
      (rd U1 ((n + n1 : Nat) : Int)))
    (hl3 : U3.length = n + p + 1)
    (h3 : ∀ t : Nat, t < n + p + 1 → rd U3 (t : Int) = rd U2 ((t + n1 : Nat) : Int))
    (hne : n1 ≠ 0 ∨ n2 ≠ 0) :
    insertCount U3 n p (rd U3 (p : Int)) p = 0 ∧
    insertCount U3 n p (rd U3 (n : Int)) p = 0 := by
  have hs1 : U1.Sorted (· ≤ ·) := by rw [hU1]; exact insAt_sorted U hs _ _
  have hl1 : U1.length = n + n1 + p + 1 := by rw [hU1, insAt_length]; omega
  have hs2 : U2.Sorted (· ≤ ·) := by rw [hU2]; exact insAt_sorted U1 hs1 _ _
  have hl2 : U2.length = n + n1 + n2 + p + 1 := by rw [hU2, insAt_length]; omega
  have hs3 : U3.Sorted (· ≤ ·) := by
    apply sorted_of_rd
    intro i j hij hj
    rw [h3 i (by omega), h3 j (by omega)]
    exact rd_mono U2 hs2 (by omega) (by omega)
  by_cases hA : rd U (p : Int) ≤ rd U (n : Int)
  · obtain ⟨k1p, k1l, run1, low1, -⟩ := insert_run U hs n p (rd U (p : Int)) (by omega)
      (le_refl _) hA ⟨p, by omega, rfl⟩
    rw [← hn1, ← hU1] at run1 low1
    have hn1p : n1 ≤ p := by rw [hn1]; exact insertCount_le U n p _ p
    have hk1le : rd U (lastKnotLE U (rd U (p : Int))) = rd U (p : Int) := by
      have e : lastKnotLE U (rd U (p : Int)) =
          (((lastKnotLE U (rd U (p : Int))).toNat : Nat) : Int) := by omega
      have a1 := lastKnotLE_le U (rd U (p : Int)) (lastKnotLE U (rd U (p : Int))).toNat (by omega)
      have a2 := rd_mono U hs (i := p) (j := (lastKnotLE U (rd U (p : Int))).toNat) (by omega)
        (by omega)
      rw [← e] at a1 a2
      exact le_antisymm a1 a2
    have F3 : rd U1 ((p + n1 : Nat) : Int) = rd U (p : Int) := by
      by_cases hc : ((p + n1 : Nat) : Int) ≤ lastKnotLE U (rd U (p : Int))
      · rw [low1 (p + n1) hc]
        have e : lastKnotLE U (rd U (p : Int)) =
            (((lastKnotLE U (rd U (p : Int))).toNat : Nat) : Int) := by omega
        rw [e] at hk1le
        rw [sorted_between U hs p (lastKnotLE U (rd U (p : Int))).toNat (p + n1) (by omega)
          (by omega) (by omega) hk1le.symm, hk1le]
      · exact run1 (p + n1) (by omega) (by omega)
    have F3p : rd U1 (p : Int) = rd U (p : Int) := low1 p k1p
    have hend1 : rd U1 (lastKnotLE U (rd U (p : Int)) + n1) = rd U (p : Int) := by
      have e : lastKnotLE U (rd U (p : Int)) + n1 =
          (((lastKnotLE U (rd U (p : Int)) + n1).toNat : Nat) : Int) := by omega
      rw [e]
      exact run1 _ (by omega) (by omega)
    by_cases hB : rd U1 (p : Int) ≤ rd U1 ((n + n1 : Nat) : Int)
    · obtain ⟨k2p, k2l, run2, low2, max2⟩ := insert_run U1 hs1 (n + n1) p
        (rd U1 ((n + n1 : Nat) : Int)) (by omega) hB (le_refl _) ⟨n + n1, by omega, rfl⟩
      rw [← hn2, ← hU2] at run2 low2
      rw [← hn2] at max2
      have hk2n := lastKnotLE_max U1 hs1 (rd U1 ((n + n1 : Nat) : Int)) (n + n1) (by omega)
        (le_refl _)
      have he2 : lastKnotLE U1 (rd U1 ((n + n1 : Nat) : Int)) + n2 ≤ (n : Int) + n1 + p := by
        rcases Nat.eq_zero_or_pos n2 with h0 | h0
        · omega
        · have := max2 h0 (n + n1) (by omega) rfl
          omega
      have hk12 : lastKnotLE U (rd U (p : Int)) + n1 ≤
          lastKnotLE U1 (rd U1 ((n + n1 : Nat) : Int)) := by
        have e : lastKnotLE U (rd U (p : Int)) + n1 =
            (((lastKnotLE U (rd U (p : Int)) + n1).toNat : Nat) : Int) := by omega
        rw [e]
        apply lastKnotLE_max U1 hs1 _ _ (by omega)
        rw [← e, hend1, ← F3p]
        exact hB
      have hU3p : rd U3 (p : Int) = rd U (p : Int) := by
        rw [h3 p (by omega), low2 (p + n1) (by omega), F3]
      have hU3n : rd U3 (n : Int) = rd U1 ((n + n1 : Nat) : Int) := by
        rw [h3 n (by omega), low2 (n + n1) hk2n]
      have first : insertCount U3 n p (rd U3 (p : Int)) p = 0 := by
        apply insertCount_zero_of_run U3 hs3 n p _ (lastKnotLE U (rd U (p : Int)) - p).toNat
          (by omega)
        intro t ht1 ht2
        rw [hU3p, h3 t (by omega), low2 (t + n1) (by omega)]
        exact run1 (t + n1) (by omega) (by omega)
      refine ⟨first, ?_⟩
      by_cases heq : rd U (p : Int) = rd U1 ((n + n1 : Nat) : Int)
      · rw [hU3n, ← heq, ← hU3p]
        exact first
      · have hlt : rd U (p : Int) < rd U1 ((n + n1 : Nat) : Int) := by
          rw [← F3p]
          exact lt_of_le_of_ne hB (by rw [F3p]; exact heq)
        have hsep : lastKnotLE U (rd U (p : Int)) + n1 <
            lastKnotLE U1 (rd U1 ((n + n1 : Nat) : Int)) + n2 - p := by
          by_contra hc
          have e1 : lastKnotLE U (rd U (p : Int)) + n1 =
              (((lastKnotLE U (rd U (p : Int)) + n1).toNat : Nat) : Int) := by omega
          have a1 := run2 (lastKnotLE U1 (rd U1 ((n + n1 : Nat) : Int)) + n2 - p).toNat
            (by omega) (by omega)
          have a2 := low2 (lastKnotLE U (rd U (p : Int)) + n1).toNat (by omega)
          have a4 : rd U1 (((lastKnotLE U (rd U (p : Int)) + n1).toNat : Nat) : Int) =
              rd U (p : Int) := by
            rw [← e1]
            exact hend1
          rw [a4] at a2
          have a3 := rd_mono U2 hs2
            (i := (lastKnotLE U1 (rd U1 ((n + n1 : Nat) : Int)) + n2 - p).toNat)
            (j := (lastKnotLE U (rd U (p : Int)) + n1).toNat) (by omega) (by omega)
          rw [a1, a2] at a3
          exact absurd hlt (not_lt.mpr a3)
        apply insertCount_zero_of_run U3 hs3 n p _
          (lastKnotLE U1 (rd U1 ((n + n1 : Nat) : Int)) + n2 - p - n1).toNat (by omega)
        intro t ht1 ht2
        rw [hU3n, h3 t (by omega)]
        exact run2 (t + n1) (by omega) (by omega)
    · have hn20 : n2 = 0 := by
        rw [hn2]
        exact insertCount_out_of_range U1 _ p _ p (Or.inl (not_le.mp hB))
      have hU21 : U2 = U1 := by rw [hU2, hn20, insAt_zero]
      have hU3p : rd U3 (p : Int) = rd U (p : Int) := by
        rw [h3 p (by omega), hU21, F3]
      have hU3n : rd U3 (n : Int) = rd U1 ((n + n1 : Nat) : Int) := by
        rw [h3 n (by omega), hU21]
      have hlt : rd U3 (n : Int) < rd U3 (p : Int) := by
        rw [hU3n, hU3p, ← F3p]
        exact not_le.mp hB
      exact ⟨insertCount_out_of_range U3 n p _ p (Or.inr hlt),
        insertCount_out_of_range U3 n p _ p (Or.inl hlt)⟩
  · exfalso
    have hn10 : n1 = 0 := by
      rw [hn1]
      exact insertCount_out_of_range U n p _ p (Or.inr (not_le.mp hA))
    have hU10 : U1 = U := by rw [hU1, hn10, insAt_zero]
    have hn20 : n2 = 0 := by
      rw [hn2]
      apply insertCount_out_of_range U1 _ p _ p
      left
      rw [hU10, hn10]
      exact not_le.mp hA
    omega

/-! ### Clamping twice -/

theorem ClampU_of_zero (S : CqSurfaceNURBS)
    (h1 : InsertKnotU S (rd S.m_auKnots S.uDegree) S.uDegree = (S, 0))
    (h2 : InsertKnotU S (rd S.m_auKnots S.m_cuVerts) S.uDegree = (S, 0)) : ClampU S = S := by
  unfold ClampU
  simp only [h1, h2, ne_eq, not_true_eq_false, or_self, if_false]

theorem ClampU_knots (S : CqSurfaceNURBS) (c1 c2 : CqSurfaceNURBS × Nat)
    (h1 : InsertKnotU S (rd S.m_auKnots S.uDegree) S.uDegree = c1)
    (h2 : InsertKnotU c1.1 (rd c1.1.m_auKnots c1.1.m_cuVerts) c1.1.uDegree = c2)
    (hne : c1.2 ≠ 0 ∨ c2.2 ≠ 0) :
    (ClampU S).m_uOrder = c2.1.m_uOrder ∧
    (ClampU S).m_cuVerts = c2.1.m_cuVerts - (c1.2 + c2.2) ∧
    (ClampU S).m_auKnots =
      forUp c1.2 ((c2.1.m_auKnots.length : Int) - c2.2)
        (fun i U => wr U (i - c1.2) (rd c2.1.m_auKnots i))
        (resize c2.1.m_auKnots (c2.1.m_auKnots.length - c1.2 - c2.2)) := by
  subst h2
  subst h1
  unfold ClampU
  simp only [hne, if_true, and_self]

theorem ClampV_of_zero (S : CqSurfaceNURBS)
    (h1 : InsertKnotV S (rd S.m_avKnots S.vDegree) S.vDegree = (S, 0))
    (h2 : InsertKnotV S (rd S.m_avKnots S.m_cvVerts) S.vDegree = (S, 0)) : ClampV S = S := by
  unfold ClampV
  simp only [h1, h2, ne_eq, not_true_eq_false, or_self, if_false]

theorem ClampV_knots (S : CqSurfaceNURBS) (c1 c2 : CqSurfaceNURBS × Nat)
    (h1 : InsertKnotV S (rd S.m_avKnots S.vDegree) S.vDegree = c1)
    (h2 : InsertKnotV c1.1 (rd c1.1.m_avKnots c1.1.m_cvVerts) c1.1.vDegree = c2)
    (hne : c1.2 ≠ 0 ∨ c2.2 ≠ 0) :
    (ClampV S).m_vOrder = c2.1.m_vOrder ∧
    (ClampV S).m_cvVerts = c2.1.m_cvVerts - (c1.2 + c2.2) ∧
    (ClampV S).m_avKnots =
      forUp c1.2 ((c2.1.m_avKnots.length : Int) - c2.2)
        (fun i U => wr U (i - c1.2) (rd c2.1.m_avKnots i))
        (resize c2.1.m_avKnots (c2.1.m_avKnots.length - c1.2 - c2.2)) := by
  subst h2
  subst h1
  unfold ClampV
  simp only [hne, if_true, and_self]

/-- The trim loop of `ClampU` / `ClampV`: the kept knots are the old ones from index `n1` on. -/
theorem trim_knots (K : List ℚ) (n1 n2 : Nat) (h : n1 + n2 ≤ K.length) :
    (forUp n1 ((K.length : Int) - n2) (fun i U => wr U (i - n1) (rd K i))
      (resize K (K.length - n1 - n2))).length = K.length - n1 - n2 ∧
    ∀ t : Nat, t < K.length - n1 - n2 →
      rd (forUp n1 ((K.length : Int) - n2) (fun i U => wr U (i - n1) (rd K i))
        (resize K (K.length - n1 - n2))) (t : Int) = rd K ((t + n1 : Nat) : Int) := by
  have e : (fun (i : Int) (U : List ℚ) => wr U (i - n1) (rd K i)) =
      (fun (i : Int) (U : List ℚ) => wr U (i + (-(n1 : Int))) (rd K i)) := by
    funext i U
    rw [sub_eq_add_neg]
  rw [e]
  obtain ⟨hl, hr⟩ := forUp_wr_shift (n1 : Int) ((K.length : Int) - n2) (-(n1 : Int))
    (fun i => rd K i) (resize K (K.length - n1 - n2))
  rw [resize_length] at hl hr
  refine ⟨hl, fun t ht => ?_⟩
  rw [hr, if_pos (by omega)]
  congr 1
  omega

/-- `ClampU` twice is `ClampU` once, on a non-decreasing U knot vector. -/
theorem ClampU_idempotent (S : CqSurfaceNURBS) (hs : S.m_auKnots.Sorted (· ≤ ·))
    (hlen : S.m_auKnots.length = S.m_cuVerts + S.m_uOrder) (hord : 1 ≤ S.m_uOrder) :
    ClampU (ClampU S) = ClampU S := by
  obtain ⟨f1, f2, f3, f4, f5, -⟩ :=
    InsertKnotU_fields S (rd S.m_auKnots S.uDegree) S.uDegree hlen
  generalize hc1 : InsertKnotU S (rd S.m_auKnots S.uDegree) S.uDegree = c1 at f1 f2 f3 f4 f5
  have hdeg1 : c1.1.uDegree = S.uDegree := by unfold uDegree; rw [f5]
  have hlen1 : c1.1.m_auKnots.length = c1.1.m_cuVerts + c1.1.m_uOrder := by
    rw [f4, insAt_length, f3, f5, hlen]
    omega
  obtain ⟨g1, g2, g3, g4, g5, -⟩ :=
    InsertKnotU_fields c1.1 (rd c1.1.m_auKnots c1.1.m_cuVerts) c1.1.uDegree hlen1
  generalize hc2 : InsertKnotU c1.1 (rd c1.1.m_auKnots c1.1.m_cuVerts) c1.1.uDegree = c2
    at g1 g2 g3 g4 g5
  by_cases h0 : c1.2 = 0 ∧ c2.2 = 0
  · have e1 : c1 = (S, 0) := Prod.ext (f2 h0.1) h0.1
    have e2 : c2 = (S, 0) := by
      apply Prod.ext
      · rw [g2 h0.2]
        exact f2 h0.1
      · exact h0.2
    have e3 : InsertKnotU S (rd S.m_auKnots S.m_cuVerts) S.uDegree = (S, 0) := by
      rw [← e2, ← hc2, e1]
    have : ClampU S = S := ClampU_of_zero S (by rw [hc1, e1]) e3
    rw [this, this]
  · have hne : c1.2 ≠ 0 ∨ c2.2 ≠ 0 := by omega
    obtain ⟨k1, k2, k3⟩ := ClampU_knots S c1 c2 hc1 hc2 hne
    have hl2 : c2.1.m_auKnots.length = S.m_cuVerts + c1.2 + c2.2 + S.uDegree + 1 := by
      rw [g4, insAt_length, f4, insAt_length, hlen]
      unfold uDegree
      omega
    obtain ⟨t1, t2⟩ := trim_knots c2.1.m_auKnots c1.2 c2.2 (by omega)
    rw [← k3] at t1 t2
    have hcu : (ClampU S).m_cuVerts = S.m_cuVerts := by
      rw [k2, g3, f3]
      omega
    have hord3 : (ClampU S).m_uOrder = S.m_uOrder := by rw [k1, g5, f5]
    have hdeg3 : (ClampU S).uDegree = S.uDegree := by unfold uDegree; rw [hord3]
    have hlen3 : (ClampU S).m_auKnots.length = (ClampU S).m_cuVerts + (ClampU S).m_uOrder := by
      rw [t1, hl2, hcu, hord3]
      unfold uDegree
      omega
    have hstab := clamp_knots_stable S.m_auKnots hs S.m_cuVerts S.uDegree
      (by rw [hlen]; unfold uDegree; omega) c1.2 c1.1.m_auKnots c2.2 c2.1.m_auKnots
      (ClampU S).m_auKnots (by rw [f1]) (by rw [f4])
      (by rw [g1, f3, hdeg1]) (by rw [g4, f3])
      (by rw [t1, hl2]; omega)
      (fun t ht => t2 t (by rw [hl2]; omega)) hne
    obtain ⟨z1, z2, -⟩ := InsertKnotU_fields (ClampU S)
      (rd (ClampU S).m_auKnots (ClampU S).uDegree) (ClampU S).uDegree hlen3
    rw [hdeg3, hcu] at z1
    rw [hstab.1] at z1
    obtain ⟨y1, y2, -⟩ := InsertKnotU_fields (ClampU S)
      (rd (ClampU S).m_auKnots (ClampU S).m_cuVerts) (ClampU S).uDegree hlen3
    rw [hdeg3, hcu] at y1
    rw [hstab.2] at y1
    rw [hdeg3, hcu] at y2
    exact ClampU_of_zero (ClampU S) (Prod.ext (z2 (by rw [hdeg3]; exact z1)) (by rw [hdeg3]; exact z1))
      (Prod.ext (by rw [hdeg3, hcu]; exact y2 y1) (by rw [hdeg3, hcu]; exact y1))

/-- `ClampV` twice is `ClampV` once, on a non-decreasing V knot vector. -/
theorem ClampV_idempotent (S : CqSurfaceNURBS) (hs : S.m_avKnots.Sorted (· ≤ ·))
    (hlen : S.m_avKnots.length = S.m_cvVerts + S.m_vOrder) (hord : 1 ≤ S.m_vOrder) :
    ClampV (ClampV S) = ClampV S := by
  obtain ⟨f1, f2, f3, f4, f5, -⟩ :=
    InsertKnotV_fields S (rd S.m_avKnots S.vDegree) S.vDegree hlen
  generalize hc1 : InsertKnotV S (rd S.m_avKnots S.vDegree) S.vDegree = c1 at f1 f2 f3 f4 f5
  have hdeg1 : c1.1.vDegree = S.vDegree := by unfold vDegree; rw [f5]
  have hlen1 : c1.1.m_avKnots.length = c1.1.m_cvVerts + c1.1.m_vOrder := by
    rw [f4, insAt_length, f3, f5, hlen]
    omega
  obtain ⟨g1, g2, g3, g4, g5, -⟩ :=
    InsertKnotV_fields c1.1 (rd c1.1.m_avKnots c1.1.m_cvVerts) c1.1.vDegree hlen1
  generalize hc2 : InsertKnotV c1.1 (rd c1.1.m_avKnots c1.1.m_cvVerts) c1.1.vDegree = c2
    at g1 g2 g3 g4 g5
  by_cases h0 : c1.2 = 0 ∧ c2.2 = 0
  · have e1 : c1 = (S, 0) := Prod.ext (f2 h0.1) h0.1
    have e2 : c2 = (S, 0) := by
      apply Prod.ext
      · rw [g2 h0.2]
        exact f2 h0.1
      · exact h0.2
    have e3 : InsertKnotV S (rd S.m_avKnots S.m_cvVerts) S.vDegree = (S, 0) := by
      rw [← e2, ← hc2, e1]
    have : ClampV S = S := ClampV_of_zero S (by rw [hc1, e1]) e3
    rw [this, this]
  · have hne : c1.2 ≠ 0 ∨ c2.2 ≠ 0 := by omega
    obtain ⟨k1, k2, k3⟩ := ClampV_knots S c1 c2 hc1 hc2 hne
    have hl2 : c2.1.m_avKnots.length = S.m_cvVerts + c1.2 + c2.2 + S.vDegree + 1 := by
      rw [g4, insAt_length, f4, insAt_length, hlen]
      unfold vDegree
      omega
    obtain ⟨t1, t2⟩ := trim_knots c2.1.m_avKnots c1.2 c2.2 (by omega)
    rw [← k3] at t1 t2
    have hcu : (ClampV S).m_cvVerts = S.m_cvVerts := by
      rw [k2, g3, f3]
      omega
    have hord3 : (ClampV S).m_vOrder = S.m_vOrder := by rw [k1, g5, f5]
    have hdeg3 : (ClampV S).vDegree = S.vDegree := by unfold vDegree; rw [hord3]
    have hlen3 : (ClampV S).m_avKnots.length = (ClampV S).m_cvVerts + (ClampV S).m_vOrder := by
      rw [t1, hl2, hcu, hord3]
      unfold vDegree
      omega
    have hstab := clamp_knots_stable S.m_avKnots hs S.m_cvVerts S.vDegree
      (by rw [hlen]; unfold vDegree; omega) c1.2 c1.1.m_avKnots c2.2 c2.1.m_avKnots
      (ClampV S).m_avKnots (by rw [f1]) (by rw [f4])
      (by rw [g1, f3, hdeg1]) (by rw [g4, f3])
      (by rw [t1, hl2]; omega)
      (fun t ht => t2 t (by rw [hl2]; omega)) hne
    obtain ⟨z1, z2, -⟩ := InsertKnotV_fields (ClampV S)
      (rd (ClampV S).m_avKnots (ClampV S).vDegree) (ClampV S).vDegree hlen3
    rw [hdeg3, hcu] at z1
    rw [hstab.1] at z1
    obtain ⟨y1, y2, -⟩ := InsertKnotV_fields (ClampV S)
      (rd (ClampV S).m_avKnots (ClampV S).m_cvVerts) (ClampV S).vDegree hlen3
    rw [hdeg3, hcu] at y1
    rw [hstab.2] at y1
    rw [hdeg3, hcu] at y2
    exact ClampV_of_zero (ClampV S) (Prod.ext (z2 (by rw [hdeg3]; exact z1)) (by rw [hdeg3]; exact z1))
      (Prod.ext (by rw [hdeg3, hcu]; exact y2 y1) (by rw [hdeg3, hcu]; exact y1))

/-- C3: clamping is idempotent.  For every surface whose U knot vector is non-decreasing and has
length `cuVerts + uOrder`, `ClampU (ClampU S) = ClampU S` as whole surfaces (same knot vectors,
same vertex counts, same control net); likewise `ClampV` for the V knot vector. -/
theorem Clamp_idempotent (S : CqSurfaceNURBS) :
    (S.m_auKnots.Sorted (· ≤ ·) → S.m_auKnots.length = S.m_cuVerts + S.m_uOrder →
      1 ≤ S.m_uOrder → ClampU (ClampU S) = ClampU S) ∧
    (S.m_avKnots.Sorted (· ≤ ·) → S.m_avKnots.length = S.m_cvVerts + S.m_vOrder →
      1 ≤ S.m_vOrder → ClampV (ClampV S) = ClampV S) :=
  ⟨ClampU_idempotent S, ClampV_idempotent S⟩

/-- Witness for C3: the unclamped cubic-by-linear example, in both directions. -/
theorem Clamp_idempotent_witness :
    ClampU (ClampU Examples.unclamped) = ClampU Examples.unclamped ∧
    ClampV (ClampV Examples.unclamped) = ClampV Examples.unclamped :=
  ⟨(Clamp_idempotent Examples.unclamped).1 (by with_unfolding_all decide)
      (by with_unfolding_all decide) (by with_unfolding_all decide),
   (Clamp_idempotent Examples.unclamped).2 (by with_unfolding_all decide)
      (by with_unfolding_all decide) (by with_unfolding_all decide)⟩

/-! ### Batch refinement: the knot vector -/

/-- Induction over a downward loop with a round counter. -/
theorem forDown_induction {σ : Type} (Inv : Nat → σ → Prop) (hi lo : Int) (body : Int → σ → σ)
    (st : σ) (h0 : Inv 0 st)
    (hstep : ∀ (t : Nat) (s : σ), t < (hi + 1 - lo).toNat → Inv t s →
      Inv (t + 1) (body (hi - (t : Int)) s)) :
    Inv (hi + 1 - lo).toNat (forDown hi lo body st) := by
  unfold forDown
  have key : ∀ n : Nat, n ≤ (hi + 1 - lo).toNat →
      Inv n ((List.range n).foldl (fun s (t : Nat) => body (hi - (t : Int)) s) st) := by
    intro n
    induction n with
    | zero =>
      intro _
      exact h0
    | succ n ih =>
      intro hn
      rw [List.range_succ, List.foldl_append]
      exact hstep n _ (by omega) (ih (by omega))
  exact key _ (le_refl _)

theorem wr_drop_self (l : List ℚ) (k : Nat) (v : ℚ) (hk : k < l.length) :
    (wr l (k : Int) v).drop k = v :: l.drop (k + 1) := by
  unfold wr
  rw [if_pos (by omega)]
  simp only [Int.toNat_ofNat]
  rw [List.drop_eq_getElem_cons (by rw [List.length_set]; exact hk), List.getElem_set_self,
    List.drop_set_of_lt v l (by omega)]

theorem wr_drop_above (l : List ℚ) (k j : Nat) (v : ℚ) (hkj : k < j) :
    (wr l (k : Int) v).drop j = l.drop j := by
  unfold wr
  rw [if_pos (by omega)]
  simp only [Int.toNat_ofNat]
  exact List.drop_set_of_lt v l hkj

theorem mem_drop_rd (l : List ℚ) (n : Nat) (y : ℚ) (h : y ∈ l.drop n) :
    ∃ t : Nat, n ≤ t ∧ t < l.length ∧ rd l (t : Int) = y := by
  rw [List.mem_drop_iff_getElem] at h
  obtain ⟨i, hi, he⟩ := h
  exact ⟨n + i, by omega, by omega, by rw [rd_nat_lt l (n + i) (by omega)]; exact he⟩

theorem mem_take_rd (l : List ℚ) (n : Nat) (y : ℚ) (h : y ∈ l.take n) :
    ∃ t : Nat, t < n ∧ t < l.length ∧ rd l (t : Int) = y := by
  rw [List.mem_take_iff_getElem] at h
  obtain ⟨i, hi, he⟩ := h
  exact ⟨i, by omega, by omega, by rw [rd_nat_lt l i (by omega)]; exact he⟩

theorem rd_mem_take (l : List ℚ) (n t : Nat) (h1 : t < n) (h2 : t < l.length) :
    rd l (t : Int) ∈ l.take n := by
  rw [List.mem_take_iff_getElem]
  exact ⟨t, by omega, by rw [rd_nat_lt l t h2]⟩

/-- The `while` loop of the knot merge keeps the invariant and stops either on a knot below
the value or at `i = a`. -/
theorem refineKnotsWhile_inv (U X : List ℚ) (hsU : U.Sorted (· ≤ ·)) (hsX : X.Sorted (· ≤ ·))
    (a L m : Nat) (hm : 1 ≤ m) (hmX : m ≤ X.length) :
    ∀ (d : Nat) (st : List ℚ × Int × Int), MergeInv U X a L m st →
      (st.2.1 - a).toNat ≤ d →
      MergeInv U X a L m (refineKnotsWhile (rd X ((m - 1 : Nat) : Int)) U a d st) ∧
      (rd U (refineKnotsWhile (rd X ((m - 1 : Nat) : Int)) U a d st).2.1 <
          rd X ((m - 1 : Nat) : Int) ∨
        (refineKnotsWhile (rd X ((m - 1 : Nat) : Int)) U a d st).2.1 ≤ a) := by
  intro d
  induction d with
  | zero =>
    intro st hinv hd
    unfold refineKnotsWhile
    exact ⟨hinv, Or.inr (by omega)⟩
  | succ d ih =>
    intro st hinv hd
    obtain ⟨i, k, hi, hk, hai, hiU, hkim, hL, hkL, hpre, hsrt, hperm, hT1, hT2⟩ := hinv
    unfold refineKnotsWhile
    have hrdi : rd st.1 st.2.1 = rd U (i : Int) := by rw [hi]; exact hpre i (le_refl _)
    by_cases hc : rd X ((m - 1 : Nat) : Int) ≤ rd st.1 st.2.1 ∧ st.2.1 > a
    · rw [if_pos hc]
      apply ih
      · refine ⟨i - 1, k - 1, ?_, ?_, ?_, ?_, ?_, ?_, ?_, ?_, ?_, ?_, ?_, ?_⟩
        · simp only []; omega
        · simp only []; omega
        · omega
        · omega
        · omega
        · simp only [wr_length]; exact hL
        · omega
        · intro t ht
          simp only []
          rw [rd_wr_ne _ _ _ _ (by omega)]
          exact hpre t (by omega)
        · simp only []
          have e : k - 1 + 1 = k := by omega
          rw [e, hk, wr_drop_self _ _ _ (by omega), hi]
          exact List.sorted_cons.mpr ⟨fun b hb => hT1 b hb, hsrt⟩
        · simp only []
          have e : k - 1 + 1 = k := by omega
          have e2 : i - 1 + 1 = i := by omega
          rw [e, e2, hk, wr_drop_self _ _ _ (by omega), hi, List.drop_eq_getElem_cons hiU,
            rd_nat_lt U i hiU, List.cons_append]
          exact List.Perm.cons _ hperm
        · simp only []
          have e : k - 1 + 1 = k := by omega
          rw [e, hk, wr_drop_self _ _ _ (by omega), hi]
          have hstep : rd U ((i - 1 : Nat) : Int) ≤ rd U (i : Int) :=
            rd_mono U hsU (by omega) hiU
          intro y hy
          rcases List.mem_cons.mp hy with h | h
          · rw [h]
            exact hstep
          · exact le_trans hstep (hT1 y h)
        · simp only []
          have e : k - 1 + 1 = k := by omega
          rw [e, hk, wr_drop_self _ _ _ (by omega), hi]
          intro y hy x hx
          rcases List.mem_cons.mp hy with h | h
          · rw [h]
            obtain ⟨t, ht1, ht2, ht3⟩ := mem_take_rd X m x hx
            rw [← ht3]
            have h1 := rd_mono X hsX (i := t) (j := m - 1) (by omega) (by omega)
            have h2 := hc.1
            rw [hrdi] at h2
            exact le_trans h1 h2
          · exact hT2 y h x hx
      · simp only []
        omega
    · rw [if_neg hc]
      refine ⟨⟨i, k, hi, hk, hai, hiU, hkim, hL, hkL, hpre, hsrt, hperm, hT1, hT2⟩, ?_⟩
      rw [hrdi] at hc
      rw [hi]
      by_cases h1 : rd X ((m - 1 : Nat) : Int) ≤ rd U (i : Int)
      · right
        have : ¬ (st.2.1 > a) := fun h => hc ⟨h1, h⟩
        omega
      · left
        exact not_le.mp h1

/-- One round of the outer merge loop: the `while` loop, then `m_auKnots[k--] = X[j]`. -/
theorem merge_round (U X : List ℚ) (hsU : U.Sorted (· ≤ ·)) (hsX : X.Sorted (· ≤ ·))
    (a L m : Nat) (hm : 1 ≤ m) (hmX : m ≤ X.length)
    (hA : rd U (a : Int) ≤ rd X ((0 : Nat) : Int)) (st : List ℚ × Int × Int)
    (hinv : MergeInv U X a L m st) :
    MergeInv U X a L (m - 1)
      (wr (refineKnotsWhile (rd X ((m - 1 : Nat) : Int)) U a (st.2.1 - a).toNat st).1
          (refineKnotsWhile (rd X ((m - 1 : Nat) : Int)) U a (st.2.1 - a).toNat st).2.2
          (rd X ((m - 1 : Nat) : Int)),
        (refineKnotsWhile (rd X ((m - 1 : Nat) : Int)) U a (st.2.1 - a).toNat st).2.1,
        (refineKnotsWhile (rd X ((m - 1 : Nat) : Int)) U a (st.2.1 - a).toNat st).2.2 - 1) := by
  obtain ⟨h1, hstop⟩ := refineKnotsWhile_inv U X hsU hsX a L m hm hmX (st.2.1 - a).toNat st hinv
    (le_refl _)
  generalize refineKnotsWhile (rd X ((m - 1 : Nat) : Int)) U a (st.2.1 - a).toNat st = st1
    at h1 hstop
  obtain ⟨i, k, hi, hk, hai, hiU, hkim, hL, hkL, hpre, hsrt, hperm, hT1, hT2⟩ := h1
  have hXm : rd X ((m - 1 : Nat) : Int) ∈ X.take m := rd_mem_take X m (m - 1) (by omega) (by omega)
  have hlow : rd U (i : Int) ≤ rd X ((m - 1 : Nat) : Int) := by
    rw [hi] at hstop
    rcases hstop with h | h
    · exact le_of_lt h
    · have e : i = a := by omega
      rw [e]
      exact le_trans hA (rd_mono X hsX (by omega) (by omega))
  have e : k - 1 + 1 = k := by omega
  refine ⟨i, k - 1, hi, ?_, hai, hiU, by omega, ?_, by omega, ?_, ?_, ?_, ?_, ?_⟩
  · simp only []; omega
  · simp only [wr_length]; exact hL
  · intro t ht
    simp only []
    rw [hk, rd_wr_ne _ _ _ _ (by omega)]
    exact hpre t ht
  · simp only []
    rw [e, hk, wr_drop_self _ _ _ (by omega)]
    exact List.sorted_cons.mpr ⟨fun y hy => hT2 y hy _ hXm, hsrt⟩
  · simp only []
    rw [e, hk, wr_drop_self _ _ _ (by omega)]
    have hd : X.drop (m - 1) = rd X ((m - 1 : Nat) : Int) :: X.drop m := by
      rw [List.drop_eq_getElem_cons (by omega : m - 1 < X.length),
        rd_nat_lt X (m - 1) (by omega)]
      congr 2
      omega
    rw [hd]
    exact (List.Perm.cons _ hperm).trans List.perm_middle.symm
  · simp only []
    rw [e, hk, wr_drop_self _ _ _ (by omega)]
    intro y hy
    rcases List.mem_cons.mp hy with h | h
    · rw [h]
      exact hlow
    · exact hT1 y h
  · simp only []
    rw [e, hk, wr_drop_self _ _ _ (by omega)]
    intro y hy x hx
    rcases List.mem_cons.mp hy with h | h
    · rw [h]
      obtain ⟨t, ht1, ht2, ht3⟩ := mem_take_rd X (m - 1) x hx
      rw [← ht3]
      exact rd_mono X hsX (by omega) (by omega)
    · exact hT2 y h x (List.take_subset_take_left X (by omega) hx)

theorem rd_take (l : List ℚ) (n t : Nat) (h : t < n) :
    rd (l.take n) (t : Int) = rd l (t : Int) := by
  rw [rd_nat, rd_nat]
  simp only [List.getD_eq_getElem?_getD]
  rw [List.getElem?_take_of_lt h]

theorem rd_drop (l : List ℚ) (n t : Nat) :
    rd (l.drop n) (t : Int) = rd l ((n + t : Nat) : Int) := by
  rw [rd_nat, rd_nat]
  simp only [List.getD_eq_getElem?_getD]
  rw [List.getElem?_drop]

/-- When nothing is left to place, the vector is the sorted merge. -/
theorem merge_final (U X : List ℚ) (hsU : U.Sorted (· ≤ ·)) (a L : Nat)
    (st : List ℚ × Int × Int) (hinv : MergeInv U X a L 0 st) :
    st.1.Sorted (· ≤ ·) ∧ st.1.Perm (U ++ X) := by
  obtain ⟨i, k, hi, hk, hai, hiU, hkim, hL, hkL, hpre, hsrt, hperm, hT1, hT2⟩ := hinv
  have hki : k = i := by omega
  subst hki
  have htake : st.1.take (k + 1) = U.take (k + 1) := by
    apply list_ext_rd
    · simp only [List.length_take]
      omega
    · intro t ht
      simp only [List.length_take] at ht
      rw [rd_take _ _ _ (by omega), rd_take _ _ _ (by omega)]
      exact hpre t (by omega)
  have hsplit : st.1 = U.take (k + 1) ++ st.1.drop (k + 1) := by
    rw [← htake, List.take_append_drop]
  constructor
  · rw [hsplit]
    unfold List.Sorted
    rw [List.pairwise_append]
    refine ⟨List.Pairwise.sublist (List.take_sublist _ _) hsU, hsrt, ?_⟩
    intro x hx y hy
    obtain ⟨t, ht1, ht2, ht3⟩ := mem_take_rd U (k + 1) x hx
    rw [← ht3]
    exact le_trans (rd_mono U hsU (by omega) hiU) (hT1 y hy)
  · rw [hsplit]
    have h1 := List.Perm.append_left (U.take (k + 1)) hperm
    rw [List.drop_zero, ← List.append_assoc, List.take_append_drop] at h1
    exact h1

/-- The two copy loops of lines 611-615 establish the invariant of the merge loop. -/
theorem merge_initial (U X : List ℚ) (hsU : U.Sorted (· ≤ ·)) (hsX : X.Sorted (· ≤ ·))
    (a b p : Nat) (hX : 1 ≤ X.length) (ha : a + 1 ≤ b + p) (hb : b + p < U.length)
    (hB : rd X ((X.length - 1 : Nat) : Int) ≤ rd U ((b + p : Nat) : Int)) :
    MergeInv U X a (U.length + X.length) X.length
      (forUp ((b : Int) + p) ((U.length : Int) - 1 + 1)
          (fun j V => wr V (j + ((X.length : Int) - 1) + 1) (rd U j))
          (forUp 0 ((a : Int) + 1) (fun j V => wr V j (rd U j))
            (resize U (U.length + X.length))),
        (b : Int) + p - 1, (b : Int) + p + ((X.length : Int) - 1)) := by
  have e1 : (fun (j : Int) (V : List ℚ) => wr V j (rd U j)) =
      (fun (j : Int) (V : List ℚ) => wr V (j + 0) (rd U j)) := by
    funext j V
    rw [add_zero]
  have e2 : (fun (j : Int) (V : List ℚ) => wr V (j + ((X.length : Int) - 1) + 1) (rd U j)) =
      (fun (j : Int) (V : List ℚ) => wr V (j + (X.length : Int)) (rd U j)) := by
    funext j V
    congr 1
    omega
  rw [e1, e2]
  obtain ⟨l1, r1⟩ := forUp_wr_shift 0 ((a : Int) + 1) 0 (fun j => rd U j)
    (resize U (U.length + X.length))
  rw [resize_length] at l1 r1
  have r1' : ∀ t : Int, rd (forUp 0 ((a : Int) + 1) (fun j V => wr V (j + 0) (rd U j))
      (resize U (U.length + X.length))) t = rd U t := by
    intro t
    rw [r1 t, rd_resize_grow U _ (by omega)]
    split
    · congr 1
      omega
    · rfl
  generalize forUp 0 ((a : Int) + 1) (fun j V => wr V (j + 0) (rd U j))
      (resize U (U.length + X.length)) = U1 at l1 r1'
  obtain ⟨l2, r2⟩ := forUp_wr_shift ((b : Int) + p) ((U.length : Int) - 1 + 1) (X.length : Int)
    (fun j => rd U j) U1
  rw [l1] at l2 r2
  generalize forUp ((b : Int) + p) ((U.length : Int) - 1 + 1)
      (fun j V => wr V (j + (X.length : Int)) (rd U j)) U1 = U2 at l2 r2
  have htail : U2.drop (b + p - 1 + X.length + 1) = U.drop (b + p) := by
    apply list_ext_rd
    · simp only [List.length_drop]
      omega
    · intro t ht
      simp only [List.length_drop] at ht
      rw [rd_drop, rd_drop, r2, if_pos (by omega)]
      congr 1
      omega
  refine ⟨b + p - 1, b + p - 1 + X.length, ?_, ?_, by omega, by omega, rfl, l2, by omega,
    ?_, ?_, ?_, ?_, ?_⟩
  · simp only []; omega
  · simp only []; omega
  · intro t ht
    simp only []
    rw [r2, if_neg (by omega)]
    exact r1' _
  · simp only []
    rw [htail]
    exact List.Pairwise.sublist (List.drop_sublist _ _) hsU
  · simp only []
    have e : b + p - 1 + 1 = b + p := by omega
    rw [htail, e, List.drop_length, List.append_nil]
  · simp only []
    rw [htail]
    intro y hy
    obtain ⟨t, ht1, ht2, ht3⟩ := mem_drop_rd U (b + p) y hy
    rw [← ht3]
    exact rd_mono U hsU (by omega) ht2
  · simp only []
    rw [htail]
    intro y hy x hx
    obtain ⟨t, ht1, ht2, ht3⟩ := mem_drop_rd U (b + p) y hy
    obtain ⟨t', ht1', ht2', ht3'⟩ := mem_take_rd X X.length x hx
    rw [← ht3, ← ht3']
    exact le_trans (rd_mono X hsX (i := t') (j := X.length - 1) (by omega) (by omega))
      (le_trans hB (rd_mono U hsU ht1 ht2))

/-- The new knot vector of `RefineKnotU` is the sorted merge of the old one and `X`. -/
theorem refineKnots_spec (U X : List ℚ) (hsU : U.Sorted (· ≤ ·)) (hsX : X.Sorted (· ≤ ·))
    (a b p : Nat) (hX : 1 ≤ X.length) (ha : a + 1 ≤ b + p) (hb : b + p < U.length)
    (hA : rd U (a : Int) ≤ rd X ((0 : Nat) : Int))
    (hB : rd X ((X.length - 1 : Nat) : Int) ≤ rd U ((b + p : Nat) : Int)) :
    (refineKnots U X a b p ((U.length : Int) - 1) ((X.length : Int) - 1)
      (U.length + X.length)).Sorted (· ≤ ·) ∧
    (refineKnots U X a b p ((U.length : Int) - 1) ((X.length : Int) - 1)
      (U.length + X.length)).Perm (U ++ X) := by
  unfold refineKnots
  simp only []
  have h0 := merge_initial U X hsU hsX a b p hX ha hb hB
  have hloop := forDown_induction
    (fun (t : Nat) (s : List ℚ × Int × Int) =>
      MergeInv U X a (U.length + X.length) (X.length - t) s)
    ((X.length : Int) - 1) 0
    (fun j (st : List ℚ × Int × Int) =>
      (wr (refineKnotsWhile (rd X j) U a (st.2.1 - a).toNat st).1
          (refineKnotsWhile (rd X j) U a (st.2.1 - a).toNat st).2.2 (rd X j),
        (refineKnotsWhile (rd X j) U a (st.2.1 - a).toNat st).2.1,
        (refineKnotsWhile (rd X j) U a (st.2.1 - a).toNat st).2.2 - 1))
    _ h0 (by
      intro t s ht hs
      have hj : (X.length : Int) - 1 - (t : Int) = ((X.length - t - 1 : Nat) : Int) := by omega
      have hm : X.length - (t + 1) = X.length - t - 1 := by omega
      show MergeInv U X a (U.length + X.length) (X.length - (t + 1)) _
      rw [hj, hm]
      exact merge_round U X hsU hsX a (U.length + X.length) (X.length - t) (by omega) (by omega)
        hA s hs)
  have e : ((X.length : Int) - 1 + 1 - 0).toNat = X.length := by omega
  simp only [e, Nat.sub_self] at hloop
  exact merge_final U X hsU a (U.length + X.length) _ hloop

/-- Span lookup of a value inside the active range: the span found, what lies at its two ends,
and that a larger value is not given a smaller span. -/
theorem findSpan_in_range (U : List ℚ) (hs : U.Sorted (· ≤ ·)) (n order : Nat)
    (hlen : U.length = n + order) (hord : 1 ≤ order) (hn : 1 ≤ n) (fuel : Nat)
    (hfuel : n + 1 ≤ fuel) (x : ℚ) (hlo : rd U ((order - 1 : Nat) : Int) ≤ x)
    (hhi : x ≤ rd U (n : Int)) :
    ∃ i : Nat, findSpan fuel U n order x = some i ∧ i + 1 ≤ n ∧ rd U (i : Int) ≤ x ∧
      x ≤ rd U ((i + 1 + (order - 1) : Nat) : Int) ∧
      ∀ x' : ℚ, x ≤ x' → x' ≤ rd U (n : Int) →
        ∃ i' : Nat, findSpan fuel U n order x' = some i' ∧ i ≤ i' := by
  obtain ⟨c3, c2, c1⟩ := findSpan_spec U n order x fuel hs hlen hord hfuel
  have hpn_of : ∀ y : ℚ, rd U ((order - 1 : Nat) : Int) ≤ y → y < rd U (n : Int) →
      order - 1 < n := by
    intro y h1 h2
    rcases Nat.lt_or_ge (order - 1) n with h | h
    · exact h
    · exfalso
      have := rd_mono U hs (i := n) (j := order - 1) h (by omega)
      linarith
  have hmono : ∀ (i : Nat), findSpan fuel U n order x = some i → i + 1 ≤ n →
      ∀ x' : ℚ, x ≤ x' → x' ≤ rd U (n : Int) →
        ∃ i' : Nat, findSpan fuel U n order x' = some i' ∧ i ≤ i' := by
    intro i hi hin x' hxx hx'
    obtain ⟨d3, d2, d1⟩ := findSpan_spec U n order x' fuel hs hlen hord hfuel
    rcases lt_or_le x' (rd U (n : Int)) with h1 | h1
    · rcases lt_or_le (rd U ((order - 1 : Nat) : Int)) x' with h2 | h2
      · obtain ⟨i', hi', hip', -, hle', hlt', -⟩ := d3 h2 h1
        refine ⟨i', hi', ?_⟩
        rcases Nat.lt_or_ge i' i with h | h
        · exfalso
          have a2 := rd_mono U hs (i := i' + 1) (j := i) (by omega) (by omega)
          push_cast at a2
          rcases lt_or_le (rd U ((order - 1 : Nat) : Int)) x with h3 | h3
          · obtain ⟨i0, hi0, -, -, hle0, -, -⟩ := c3 h3 (lt_of_le_of_lt hxx h1)
            rw [hi] at hi0
            cases hi0
            linarith
          · have hi2 := c2 h3 (lt_of_le_of_lt hxx h1)
            rw [hi] at hi2
            cases hi2
            omega
        · exact h
      · have hx2 : x ≤ rd U ((order - 1 : Nat) : Int) := le_trans hxx h2
        have e1 := c2 hx2 (lt_of_le_of_lt hxx h1)
        have e2 := d2 h2 h1
        rw [hi] at e1
        cases e1
        exact ⟨order - 1, e2, le_refl _⟩
    · exact ⟨n - 1, d1 h1, by omega⟩
  rcases lt_or_le x (rd U (n : Int)) with h1 | h1
  · rcases lt_or_le (rd U ((order - 1 : Nat) : Int)) x with h2 | h2
    · obtain ⟨i, hi, hip, hin, hle, hlt, -⟩ := c3 h2 h1
      refine ⟨i, hi, hin, hle, ?_, hmono i hi hin⟩
      have := rd_mono U hs (i := i + 1) (j := i + 1 + (order - 1)) (by omega) (by omega)
      push_cast at this hlt ⊢
      linarith
    · have hpn := hpn_of x hlo h1
      refine ⟨order - 1, c2 h2 h1, by omega, hlo, ?_, hmono (order - 1) (c2 h2 h1) (by omega)⟩
      have := rd_mono U hs (i := order - 1) (j := order - 1 + 1 + (order - 1)) (by omega)
        (by omega)
      linarith
  · refine ⟨n - 1, c1 h1, by omega, ?_, ?_, hmono (n - 1) (c1 h1) (by omega)⟩
    · have := rd_mono U hs (i := n - 1) (j := n) (by omega) (by omega)
      linarith
    · have := rd_mono U hs (i := n) (j := n - 1 + 1 + (order - 1)) (by omega) (by omega)
      linarith


theorem rd_mem (l : List ℚ) (t : Nat) (h : t < l.length) : rd l (t : Int) ∈ l := by
  rw [rd_nat_lt l t h]
  exact List.getElem_mem h

/-- What `RefineKnotU` returns for a non-empty sorted `X` inside the active range: the spans
of the first and the last new knot are found, and the new knot vector is the merge. -/
theorem RefineKnotU_eq (fuel : Nat) (S : CqSurfaceNURBS) (X : List ℚ)
    (hsU : S.m_auKnots.Sorted (· ≤ ·)) (hlen : S.m_auKnots.length = S.m_cuVerts + S.m_uOrder)
    (hord : 1 ≤ S.m_uOrder) (hcu : 1 ≤ S.m_cuVerts) (hfuel : S.m_cuVerts + 1 ≤ fuel)
    (hX : X ≠ []) (hsX : X.Sorted (· ≤ ·))
    (hin : ∀ x ∈ X, rd S.m_auKnots (S.uDegree : Int) ≤ x ∧ x ≤ rd S.m_auKnots (S.m_cuVerts : Int)) :
    ∃ (a b0 : Nat) (knots : List ℚ),
      knots.Sorted (· ≤ ·) ∧ knots.Perm (S.m_auKnots ++ X) ∧
      RefineKnotU fuel S X = some { S with
        m_cuVerts := S.m_cuVerts + X.length
        m_auKnots := knots
        P := refineValuesU blend knots S.m_auKnots X a ((b0 : Int) + 1) S.uDegree
          ((S.m_cuVerts : Int) - 1) ((X.length : Int) - 1) (S.m_cuVerts + X.length) S.m_cvVerts S.P
        m_aUserParams := S.m_aUserParams.map (refineParamU knots S.m_auKnots X a ((b0 : Int) + 1)
          S.uDegree ((S.m_cuVerts : Int) - 1) ((X.length : Int) - 1) (S.m_cuVerts + X.length)
          S.m_cvVerts) } := by
  have hXl : 1 ≤ X.length := by
    rcases X with _ | ⟨x, t⟩
    · exact absurd rfl hX
    · simp
  have h0 := hin (rd X ((0 : Nat) : Int)) (rd_mem X 0 (by omega))
  have hr := hin (rd X ((X.length - 1 : Nat) : Int)) (rd_mem X (X.length - 1) (by omega))
  have h0r : rd X ((0 : Nat) : Int) ≤ rd X ((X.length - 1 : Nat) : Int) :=
    rd_mono X hsX (by omega) (by omega)
  unfold uDegree at h0 hr
  obtain ⟨a, ha, han, haA, -, hmono⟩ := findSpan_in_range S.m_auKnots hsU S.m_cuVerts S.m_uOrder
    hlen hord hcu fuel hfuel _ h0.1 h0.2
  obtain ⟨b0, hb0, hab⟩ := hmono _ h0r hr.2
  obtain ⟨b0', hb0', hbn, -, hbB, -⟩ := findSpan_in_range S.m_auKnots hsU S.m_cuVerts S.m_uOrder
    hlen hord hcu fuel hfuel _ hr.1 hr.2
  rw [hb0] at hb0'
  cases hb0'
  have hspec := refineKnots_spec S.m_auKnots X hsU hsX a (b0 + 1) (S.m_uOrder - 1) hXl
    (by omega) (by omega) haA hbB
  have e1 : ((X.length - 1 : Nat) : Int) = (X.length : Int) - 1 := by omega
  have e2 : ((b0 + 1 : Nat) : Int) = (b0 : Int) + 1 := by omega
  have e3 : ((S.m_auKnots.length : Int) - 1)
      = ((S.m_cuVerts : Int) - 1) + ((S.m_uOrder - 1 : Nat) : Int) + 1 := by omega
  have e4 : S.m_auKnots.length + X.length = S.m_cuVerts + X.length + S.m_uOrder := by omega
  have e5 : ((X.length : Int) - 1 + 1 + ((S.m_cuVerts : Int) - 1) + 1).toNat
      = S.m_cuVerts + X.length := by omega
  rw [e2, e3, e4] at hspec
  rw [e1] at hb0
  rw [Nat.cast_zero] at ha
  refine ⟨a, b0, _, hspec.1, hspec.2, ?_⟩
  unfold RefineKnotU
  rw [if_neg (by omega)]
  simp only [FindSpanU, uDegree, ha, hb0, e5]


/-- C9: `RefineKnotU` on the knot vector.  With an empty `X` the surface is returned as it is.
For a surface with at least one control point per row, `uOrder ≥ 1`, and a non-decreasing U knot
vector of length `cuVerts + uOrder`, and for every non-empty non-decreasing `X` whose values lie
in the active range `[U[uDegree], U[cuVerts]]`, the call returns (the span lookups end within
`cuVerts + 1` steps) a surface whose U knot vector is non-decreasing and a permutation of the old
knot vector followed by `X`, whose `m_cuVerts` is the old one plus `|X|`, and whose U knot vector
has length `m_cuVerts + m_uOrder`. -/
theorem RefineKnotU_sorted_merge (fuel : Nat) (S : CqSurfaceNURBS) (X : List ℚ) :
    RefineKnotU fuel S [] = some S ∧
    (S.m_auKnots.Sorted (· ≤ ·) → S.m_auKnots.length = S.m_cuVerts + S.m_uOrder →
      1 ≤ S.m_uOrder → 1 ≤ S.m_cuVerts → S.m_cuVerts + 1 ≤ fuel →
      X ≠ [] → X.Sorted (· ≤ ·) →
      (∀ x ∈ X, rd S.m_auKnots (S.uDegree : Int) ≤ x ∧
        x ≤ rd S.m_auKnots (S.m_cuVerts : Int)) →
      ∃ S1 : CqSurfaceNURBS, RefineKnotU fuel S X = some S1 ∧
        S1.m_auKnots.Sorted (· ≤ ·) ∧ S1.m_auKnots.Perm (S.m_auKnots ++ X) ∧
        S1.m_cuVerts = S.m_cuVerts + X.length ∧
        S1.m_auKnots.length = S1.m_cuVerts + S1.m_uOrder) := by
  refine ⟨by simp [RefineKnotU], ?_⟩
  intro hsU hlen hord hcu hfuel hX hsX hin
  obtain ⟨a, b0, knots, hs, hp, he⟩ := RefineKnotU_eq fuel S X hsU hlen hord hcu hfuel hX hsX hin
  refine ⟨_, he, hs, hp, rfl, ?_⟩
  have := hp.length_eq
  rw [List.length_append] at this
  show knots.length = S.m_cuVerts + X.length + S.m_uOrder
  omega

/-- Witness for C9: the bicubic patch refined with `X = [3/10, 7/10]`. -/
theorem RefineKnotU_sorted_merge_witness :
    ∃ S1 : CqSurfaceNURBS, RefineKnotU 5 Examples.bicubic [3/10, 7/10] = some S1 ∧
      S1.m_auKnots.Sorted (· ≤ ·) ∧
      S1.m_auKnots.Perm (Examples.bicubic.m_auKnots ++ [3/10, 7/10]) ∧
      S1.m_cuVerts = Examples.bicubic.m_cuVerts + 2 ∧
      S1.m_auKnots.length = S1.m_cuVerts + S1.m_uOrder :=
  (RefineKnotU_sorted_merge 5 Examples.bicubic [3/10, 7/10]).2 (by with_unfolding_all decide)
    (by decide) (by decide) (by decide) (by decide) (by simp) (by with_unfolding_all decide)
    (by with_unfolding_all decide)

/-! ### Batch refinement: the value pass on a mapped array -/

theorem refineParamU_class (knots auHold X : List ℚ) (a b p n r : Int) (cu cv : Nat)
    (q : CqParameter) : (refineParamU knots auHold X a b p n r cu cv q).Class = q.Class := by
  unfold refineParamU
  split <;> rfl

theorem refineParamU_other (knots auHold X : List ℚ) (a b p n r : Int) (cu cv : Nat)
    (q : CqParameter) (h : q.Class ≠ EqVariableClass.class_vertex) :
    refineParamU knots auHold X a b p n r cu cv q = q := by
  unfold refineParamU
  rw [if_neg h]

/-- C11: `ClampU` does not clamp the left end of `[0,1,2,3,3,4,5,6,7]` (cubic, five control
points).  The knot vector is non-decreasing and has length `cuVerts + uOrder`; the pre-clamp
value `U[uDegree]` is 3; the two insertions return 2 and 3; after the trim the knot vector is
`[2,3,3,3,3,4,4,4,4]`, of the same length `cuVerts + uOrder`, and its first entry is 2: the
first `uOrder` entries are not all equal to 3. -/
theorem ClampU_leaves_left_end_open :
    Examples.repeatedLeft.m_auKnots.Sorted (· ≤ ·) ∧
    Examples.repeatedLeft.m_auKnots.length =
      Examples.repeatedLeft.m_cuVerts + Examples.repeatedLeft.m_uOrder ∧
    rd Examples.repeatedLeft.m_auKnots Examples.repeatedLeft.uDegree = 3 ∧
    (InsertKnotU Examples.repeatedLeft 3 3).2 = 2 ∧
    (InsertKnotU (InsertKnotU Examples.repeatedLeft 3 3).1 4 3).2 = 3 ∧
    (ClampU Examples.repeatedLeft).m_auKnots = [2, 3, 3, 3, 3, 4, 4, 4, 4] ∧
    (ClampU Examples.repeatedLeft).m_cuVerts = 5 ∧
    rd (ClampU Examples.repeatedLeft).m_auKnots 0 ≠
      rd Examples.repeatedLeft.m_auKnots Examples.repeatedLeft.uDegree := by
  decide!

/-! ### The dicing decision -/

theorem ceilPow2Loop_spec (fuel k x : Nat) (h : x ≤ 2 ^ (k + fuel)) :
    ∃ j : Nat, ceilPow2Loop fuel (2 ^ k) x = 2 ^ j ∧ k ≤ j ∧ x ≤ 2 ^ j ∧
      (k < j → 2 ^ (j - 1) < x) := by
  induction fuel generalizing k with
  | zero => exact ⟨k, rfl, le_refl _, h, fun hlt => absurd hlt (lt_irrefl _)⟩
  | succ fuel ih =>
    unfold ceilPow2Loop
    by_cases hx : x ≤ 2 ^ k
    · rw [if_pos hx]
      exact ⟨k, rfl, le_refl _, hx, fun hlt => absurd hlt (lt_irrefl _)⟩
    · rw [if_neg hx]
      have e : 2 * 2 ^ k = 2 ^ (k + 1) := by rw [pow_succ, mul_comm]
      rw [e]
      obtain ⟨j, hj, hkj, hxj, hmin⟩ := ih (k + 1) (by
        have : k + 1 + fuel = k + (fuel + 1) := by omega
        rw [this]
        exact h)
      refine ⟨j, hj, by omega, hxj, fun _ => ?_⟩
      by_cases hj1 : j = k + 1
      · subst hj1
        simp only [Nat.add_sub_cancel]
        omega
      · exact hmin (by omega)

/-- `CEIL_POW2 x` is the least power of two that is at least `x`. -/
theorem CEIL_POW2_spec (x : Nat) :
    ∃ j : Nat, CEIL_POW2 x = 2 ^ j ∧ x ≤ 2 ^ j ∧ ∀ a : Nat, x ≤ 2 ^ a → 2 ^ j ≤ 2 ^ a := by
  obtain ⟨j, hj, -, hxj, hmin⟩ := ceilPow2Loop_spec x 0 x (by
    rw [Nat.zero_add]
    exact le_of_lt (Nat.lt_two_pow x))
  rw [pow_zero] at hj
  refine ⟨j, hj, hxj, fun a ha => ?_⟩
  rcases Nat.lt_or_ge a j with h | h
  · exfalso
    have h1 := hmin (by omega)
    have h2 : 2 ^ a ≤ 2 ^ (j - 1) := Nat.pow_le_pow_right (by decide) (by omega)
    omega
  · exact Nat.pow_le_pow_right (by decide) h

theorem MAX_toNat_pos (a : Int) : 1 ≤ (MAX a 1).toNat := by
  unfold MAX
  split <;> omega

/-- The exits of `Diceable` once the surface is marked diceable and neither extent is above
255: none for a shading rate without a square root to divide by, else one of the three
last exits, each with the dice sizes stored. -/
theorem Diceable_sizes (env : RenderEnv) (S : CqSurfaceNURBS) (hd : S.m_fDiceable = true)
    (hc : ¬ (MaxvLen env S > 255 ∨ MaxuLen env S > 255))
    (hs : ¬ (env.ShadingRate ≤ 0 ∨ env.sqrt env.ShadingRate = 0)) :
    Diceable env S =
      if MaxuLen env S / env.sqrt env.ShadingRate < FLT_EPSILON ∨
          MaxvLen env S / env.sqrt env.ShadingRate < FLT_EPSILON then
        some (false, { S with
          m_uDiceSize := diceSize (MaxuLen env S / env.sqrt env.ShadingRate)
          m_vDiceSize := diceSize (MaxvLen env S / env.sqrt env.ShadingRate)
          m_fDiscard := true })
      else if abs (((i32 ((diceSize (MaxuLen env S / env.sqrt env.ShadingRate) *
          diceSize (MaxvLen env S / env.sqrt env.ShadingRate) : Nat) : Int) : Int) : ℚ))
          > (gridsize env : ℚ) then
        some (false, { S with
          m_uDiceSize := diceSize (MaxuLen env S / env.sqrt env.ShadingRate)
          m_vDiceSize := diceSize (MaxvLen env S / env.sqrt env.ShadingRate)
          m_SplitDir :=
            if MaxuLen env S / env.sqrt env.ShadingRate > MaxvLen env S / env.sqrt env.ShadingRate
            then EqSplitDir.SplitDir_U else EqSplitDir.SplitDir_V })
      else
        some (true, { S with
          m_uDiceSize := diceSize (MaxuLen env S / env.sqrt env.ShadingRate)
          m_vDiceSize :=
            diceSize (MaxvLen env S / env.sqrt env.ShadingRate) }) := by
  unfold Diceable
  have hd2 : ¬ (S.m_fDiceable = false) := by rw [hd]; decide
  rw [if_neg hd2]
  simp only []
  rw [if_neg hc, if_neg hs]

/-- Whatever `Diceable` returns with the value true, it has passed all the tests. -/
theorem Diceable_true (env : RenderEnv) (S S1 : CqSurfaceNURBS)
    (h : Diceable env S = some (true, S1)) :
    S1 = { S with
      m_uDiceSize := diceSize (MaxuLen env S / env.sqrt env.ShadingRate)
      m_vDiceSize :=
        diceSize (MaxvLen env S / env.sqrt env.ShadingRate) } ∧
    ¬ (abs (((i32 ((diceSize (MaxuLen env S / env.sqrt env.ShadingRate) *
          diceSize (MaxvLen env S / env.sqrt env.ShadingRate) : Nat) : Int) : Int) : ℚ))
          > (gridsize env : ℚ)) := by
  by_cases hd : S.m_fDiceable = true
  · by_cases hc : MaxvLen env S > 255 ∨ MaxuLen env S > 255
    · unfold Diceable at h
      have hd2 : ¬ (S.m_fDiceable = false) := by rw [hd]; decide
      rw [if_neg hd2] at h
      simp only [] at h
      rw [if_pos hc] at h
      simp at h
    · by_cases hs : env.ShadingRate ≤ 0 ∨ env.sqrt env.ShadingRate = 0
      · unfold Diceable at h
        have hd2 : ¬ (S.m_fDiceable = false) := by rw [hd]; decide
        rw [if_neg hd2] at h
        simp only [] at h
        rw [if_neg hc, if_pos hs] at h
        simp at h
      · rw [Diceable_sizes env S hd hc hs] at h
        split at h
        · simp at h
        · split at h
          · simp at h
          · rename_i h2
            simp only [Option.some.injEq, Prod.mk.injEq, true_and] at h
            exact ⟨h.symm, h2⟩
  · unfold Diceable at h
    have hd2 : S.m_fDiceable = false := by
      cases hb : S.m_fDiceable
      · rfl
      · exact absurd hb hd
    rw [if_pos hd2] at h
    simp at h

theorem diceSize_spec (x : ℚ) :
    ∃ j : Nat, diceSize x = 2 ^ j ∧ 1 ≤ diceSize x ∧ MAX (ROUND x) 1 ≤ (diceSize x : Int) ∧
      ∀ a : Nat, MAX (ROUND x) 1 ≤ ((2 ^ a : Nat) : Int) → diceSize x ≤ 2 ^ a := by
  unfold diceSize
  obtain ⟨j, hj, hle, hmin⟩ := CEIL_POW2_spec (MAX (ROUND x) 1).toNat
  have hpos := MAX_toNat_pos (ROUND x)
  refine ⟨j, hj, by omega, by omega, fun a ha => ?_⟩
  rw [hj]
  exact hmin a (by omega)

/-- C17: whenever `Diceable` returns true, `m_uDiceSize` and `m_vDiceSize` are powers of two
and at least 1. -/
theorem Diceable_true_powers_of_two (env : RenderEnv) (S S1 : CqSurfaceNURBS)
    (h : Diceable env S = some (true, S1)) :
    (∃ a : Nat, S1.m_uDiceSize = 2 ^ a) ∧ (∃ b : Nat, S1.m_vDiceSize = 2 ^ b) ∧
    1 ≤ S1.m_uDiceSize ∧ 1 ≤ S1.m_vDiceSize := by
  obtain ⟨rfl, -⟩ := Diceable_true env S S1 h
  obtain ⟨a, ha, ha1, -, -⟩ := diceSize_spec (MaxuLen env S / env.sqrt env.ShadingRate)
  obtain ⟨b, hb, hb1, -, -⟩ := diceSize_spec (MaxvLen env S / env.sqrt env.ShadingRate)
  exact ⟨⟨a, ha⟩, ⟨b, hb⟩, ha1, hb1⟩

/-- Witness for C17: raster extents (8, 8), shading rate 1, grid size 256. -/
theorem Diceable_true_powers_of_two_witness :
    Diceable Examples.flatEnv (Examples.rect 8 8) =
      some (true, { Examples.rect 8 8 with m_uDiceSize := 8, m_vDiceSize := 8 }) ∧
    (∃ a : Nat, 8 = 2 ^ a) ∧ (∃ b : Nat, 8 = 2 ^ b) ∧ 1 ≤ 8 ∧ 1 ≤ 8 :=
  ⟨by decide!, Diceable_true_powers_of_two Examples.flatEnv (Examples.rect 8 8)
    { Examples.rect 8 8 with m_uDiceSize := 8, m_vDiceSize := 8 } (by decide!)⟩

theorem abs_area_gt (n g : Int) : abs ((n : ℚ)) > (g : ℚ) ↔ abs n > g := by
  rw [← Int.cast_abs]
  exact Int.cast_lt

theorem i32_of_lt (n : Nat) (h : n < 2147483648) : i32 (n : Int) = n := by
  unfold i32
  omega

/-- The grid budget where the product of the dice sizes is below `2^31`, so that line 1568
computes it without wrapping.  For a surface marked diceable on which neither the ceiling of
255 nor the epsilon test fires (and whose shading rate is positive with a square root other
than zero), `Diceable` returns true when `m_uDiceSize * m_vDiceSize <= gridsize` and false
otherwise; in the second case it sets `m_SplitDir` to U when `MaxuLen > MaxvLen` (the scaled
lengths) and to V otherwise.  And whatever the surface: when `Diceable` returns true and the
product of the stored dice sizes is below `2^31`, that product is at most `gridsize`. -/
theorem Diceable_budget_in_range (env : RenderEnv) (S : CqSurfaceNURBS) :
    (S.m_fDiceable = true → MaxuLen env S ≤ 255 ∧ MaxvLen env S ≤ 255 →
      0 < env.ShadingRate ∧ env.sqrt env.ShadingRate ≠ 0 →
      ¬ (MaxuLen env S / env.sqrt env.ShadingRate < FLT_EPSILON ∨
        MaxvLen env S / env.sqrt env.ShadingRate < FLT_EPSILON) →
      diceSize (MaxuLen env S / env.sqrt env.ShadingRate) *
          diceSize (MaxvLen env S / env.sqrt env.ShadingRate) < 2147483648 →
      (((diceSize (MaxuLen env S / env.sqrt env.ShadingRate) *
          diceSize (MaxvLen env S / env.sqrt env.ShadingRate) : Nat) : Int) ≤ gridsize env →
        Diceable env S = some (true, { S with
          m_uDiceSize := diceSize (MaxuLen env S / env.sqrt env.ShadingRate)
          m_vDiceSize := diceSize (MaxvLen env S / env.sqrt env.ShadingRate) })) ∧
      (((diceSize (MaxuLen env S / env.sqrt env.ShadingRate) *
          diceSize (MaxvLen env S / env.sqrt env.ShadingRate) : Nat) : Int) > gridsize env →
        Diceable env S = some (false, { S with
          m_uDiceSize := diceSize (MaxuLen env S / env.sqrt env.ShadingRate)
          m_vDiceSize := diceSize (MaxvLen env S / env.sqrt env.ShadingRate)
          m_SplitDir :=
            if MaxuLen env S / env.sqrt env.ShadingRate >
                MaxvLen env S / env.sqrt env.ShadingRate then EqSplitDir.SplitDir_U
            else EqSplitDir.SplitDir_V }))) ∧
    (∀ S1 : CqSurfaceNURBS, Diceable env S = some (true, S1) →
      S1.m_uDiceSize * S1.m_vDiceSize < 2147483648 →
      ((S1.m_uDiceSize * S1.m_vDiceSize : Nat) : Int) ≤ gridsize env) := by
  refine ⟨?_, ?_⟩
  · intro hd hc hs he hr
    have hc2 : ¬ (MaxvLen env S > 255 ∨ MaxuLen env S > 255) := by
      intro h
      rcases h with h | h
      · exact absurd hc.2 (not_le.mpr h)
      · exact absurd hc.1 (not_le.mpr h)
    have hs2 : ¬ (env.ShadingRate ≤ 0 ∨ env.sqrt env.ShadingRate = 0) := by
      intro h
      rcases h with h | h
      · exact absurd hs.1 (not_lt.mpr h)
      · exact hs.2 h
    rw [Diceable_sizes env S hd hc2 hs2, if_neg he, i32_of_lt _ hr]
    refine ⟨fun hle => ?_, fun hgt => ?_⟩
    · rw [if_neg]
      rw [abs_area_gt, abs_of_nonneg (Int.natCast_nonneg _)]
      omega
    · rw [if_pos]
      rw [abs_area_gt, abs_of_nonneg (Int.natCast_nonneg _)]
      exact hgt
  · intro S1 h hr
    obtain ⟨rfl, hA⟩ := Diceable_true env S S1 h
    have hr2 : diceSize (MaxuLen env S / env.sqrt env.ShadingRate) *
        diceSize (MaxvLen env S / env.sqrt env.ShadingRate) < 2147483648 := hr
    rw [i32_of_lt _ hr2, abs_area_gt, abs_of_nonneg (Int.natCast_nonneg _)] at hA
    show ((diceSize _ * diceSize _ : Nat) : Int) ≤ gridsize env
    omega

/-- The grid budget at raster extents (8, 8), shading rate 1, grid size 256: 64
micropolygons. -/
theorem Diceable_budget_in_range_example :
    Diceable Examples.flatEnv (Examples.rect 8 8) = some (true, { Examples.rect 8 8 with
      m_uDiceSize := diceSize (MaxuLen Examples.flatEnv (Examples.rect 8 8) /
        Examples.flatEnv.sqrt Examples.flatEnv.ShadingRate)
      m_vDiceSize := diceSize (MaxvLen Examples.flatEnv (Examples.rect 8 8) /
        Examples.flatEnv.sqrt Examples.flatEnv.ShadingRate) }) ∧
    ((8 * 8 : Nat) : Int) ≤ gridsize Examples.flatEnv :=
  ⟨((Diceable_budget_in_range Examples.flatEnv (Examples.rect 8 8)).1 rfl
      ⟨by decide!, by decide!⟩ ⟨by decide!, by decide!⟩ (by decide!) (by decide!)).1
      (by decide!),
    (Diceable_budget_in_range Examples.flatEnv (Examples.rect 8 8)).2
      { Examples.rect 8 8 with m_uDiceSize := 8, m_vDiceSize := 8 } (by decide!) (by decide!)⟩

/-- C19 fails on the code: the product of line 1568 wraps.  With raster extents (255, 255),
which pass the ceiling of 255, and the shading rate `1/16641 = (1/129)^2` the scaled lengths
are `255 * 129 = 32895`, both dice sizes are `CEIL_POW2(32895) = 65536`, and their product
`2^32` is `0` as a 32-bit integer: `fabs(Area) > gridsize` is false and `Diceable` returns
true, although `65536 * 65536` micropolygons are far above the grid size 256. -/
theorem Diceable_grid_budget_wraps :
    MaxuLen Examples.fineEnv (Examples.rect 255 255) = 255 ∧
    MaxvLen Examples.fineEnv (Examples.rect 255 255) = 255 ∧
    MaxuLen Examples.fineEnv (Examples.rect 255 255) /
      Examples.fineEnv.sqrt Examples.fineEnv.ShadingRate = 32895 ∧
    ¬ (MaxuLen Examples.fineEnv (Examples.rect 255 255) /
      Examples.fineEnv.sqrt Examples.fineEnv.ShadingRate < FLT_EPSILON) ∧
    Diceable Examples.fineEnv (Examples.rect 255 255) =
      some (true, { Examples.rect 255 255 with m_uDiceSize := 65536, m_vDiceSize := 65536 }) ∧
    i32 ((65536 * 65536 : Nat) : Int) = 0 ∧
    gridsize Examples.fineEnv = 256 ∧
    ¬ (((65536 * 65536 : Nat) : Int) ≤ gridsize Examples.fineEnv) := by
  decide!

/-- C20: the epsilon test.  For a surface marked diceable whose raster extents are both at
most 255 (and whose shading rate is positive with a square root other than zero): if
`MaxuLen / sqrt(ShadingRate)` or `MaxvLen / sqrt(ShadingRate)` is below `FLT_EPSILON`, then
`Diceable` returns false with `m_fDiscard` set, and `m_SplitDir` is what it was; only the dice
sizes and `m_fDiscard` are written. -/
theorem Diceable_discard (env : RenderEnv) (S : CqSurfaceNURBS) (hd : S.m_fDiceable = true)
    (hc : MaxuLen env S ≤ 255 ∧ MaxvLen env S ≤ 255)
    (hs : 0 < env.ShadingRate ∧ env.sqrt env.ShadingRate ≠ 0)
    (he : MaxuLen env S / env.sqrt env.ShadingRate < FLT_EPSILON ∨
      MaxvLen env S / env.sqrt env.ShadingRate < FLT_EPSILON) :
    ∃ S1 : CqSurfaceNURBS, Diceable env S = some (false, S1) ∧ S1.m_fDiscard = true ∧
      S1.m_SplitDir = S.m_SplitDir ∧
      S1 = { S with
        m_uDiceSize := diceSize (MaxuLen env S / env.sqrt env.ShadingRate)
        m_vDiceSize := diceSize (MaxvLen env S / env.sqrt env.ShadingRate)
        m_fDiscard := true } := by
  have hc2 : ¬ (MaxvLen env S > 255 ∨ MaxuLen env S > 255) := by
    intro h
    rcases h with h | h
    · exact absurd hc.2 (not_le.mpr h)
    · exact absurd hc.1 (not_le.mpr h)
  have hs2 : ¬ (env.ShadingRate ≤ 0 ∨ env.sqrt env.ShadingRate = 0) := by
    intro h
    rcases h with h | h
    · exact absurd hs.1 (not_lt.mpr h)
    · exact hs.2 h
  rw [Diceable_sizes env S hd hc2 hs2, if_pos he]
  exact ⟨_, rfl, rfl, rfl, rfl⟩

/-- Witness for C20: a patch of raster extents (0, 8): a degenerate row direction. -/
theorem Diceable_discard_witness :
    ∃ S1 : CqSurfaceNURBS, Diceable Examples.flatEnv (Examples.rect 0 8) = some (false, S1) ∧
      S1.m_fDiscard = true ∧ S1.m_SplitDir = (Examples.rect 0 8).m_SplitDir ∧
      S1 = { Examples.rect 0 8 with
        m_uDiceSize := diceSize (MaxuLen Examples.flatEnv (Examples.rect 0 8) /
          Examples.flatEnv.sqrt Examples.flatEnv.ShadingRate)
        m_vDiceSize := diceSize (MaxvLen Examples.flatEnv (Examples.rect 0 8) /
          Examples.flatEnv.sqrt Examples.flatEnv.ShadingRate)
        m_fDiscard := true } :=
  Diceable_discard Examples.flatEnv (Examples.rect 0 8) rfl ⟨by decide!, by decide!⟩
    ⟨by decide!, by decide!⟩ (Or.inl (by decide!))

/-! ### The bilinear patch: tessellate and dice -/

/-- Induction over an upward loop with the loop index in the invariant. -/
theorem forUp_induction_idx {σ : Type} (Inv : Int → σ → Prop) (lo hi : Int) (hle : lo ≤ hi)
    (body : Int → σ → σ) (st : σ) (h0 : Inv lo st)
    (hstep : ∀ i s, lo ≤ i → i < hi → Inv i s → Inv (i + 1) (body i s)) :
    Inv hi (forUp lo hi body st) := by
  have key : ∀ d : Nat, lo + d ≤ hi → Inv (lo + d) (forUp lo (lo + d) body st) := by
    intro d
    induction d with
    | zero =>
      intro _
      rw [forUp_empty _ _ _ _ (by omega)]
      simpa using h0
    | succ d ih =>
      intro hd
      have e : lo + ((d + 1 : Nat) : Int) = (lo + d) + 1 := by push_cast; ring
      rw [e, forUp_succ _ _ _ _ (by omega)]
      exact hstep _ _ (by omega) (by omega) (ih (by omega))
  have := key (hi - lo).toNat (by omega)
  have e : lo + ((hi - lo).toNat : Int) = hi := by omega
  rw [e] at this
  exact this

/-- A loop over a pair whose body updates the two parts independently. -/
theorem forUp_pair {α β : Type} (lo hi : Int) (F : Int → α → α) (G : Int → β → β) (a : α)
    (b : β) :
    forUp lo hi (fun i (s : α × β) => (F i s.1, G i s.2)) (a, b) =
      (forUp lo hi F a, forUp lo hi G b) := by
  by_cases hle : hi ≤ lo
  · rw [forUp_empty _ _ _ _ hle, forUp_empty _ _ _ _ hle, forUp_empty _ _ _ _ hle]
  · refine forUp_induction_idx
      (fun i (s : α × β) => s = (forUp lo i F a, forUp lo i G b)) lo hi (by omega) _ _ ?_ ?_
    · show (a, b) = _
      rw [forUp_empty _ _ _ _ (le_refl _), forUp_empty _ _ _ _ (le_refl _)]
    · intro i s h1 h2 hs
      show (F i s.1, G i s.2) = _
      rw [hs, forUp_succ _ _ _ _ h1, forUp_succ _ _ _ _ h1]

/-- A loop of writes `a[B + i] = g i` for `i` in `[lo, hi)`: the final vector, read at `t`. -/
theorem forUp_wr_base {α : Type} [Zero α] (lo hi B : Int) (g : Int → α) (a : List α) :
    (forUp lo hi (fun i U => wr U (B + i) (g i)) a).length = a.length ∧
    ∀ t : Int, rd (forUp lo hi (fun i U => wr U (B + i) (g i)) a) t =
      if B + lo ≤ t ∧ t < B + hi ∧ 0 ≤ t ∧ t < a.length then g (t - B) else rd a t := by
  have e : (fun (i : Int) (U : List α) => wr U (B + i) (g i)) =
      (fun (i : Int) (U : List α) => wr U (i + B) (g i)) := by
    funext i U
    rw [add_comm]
  rw [e]
  obtain ⟨h1, h2⟩ := forUp_wr_shift lo hi B g a
  refine ⟨h1, fun t => ?_⟩
  rw [h2 t]
  by_cases hc : lo + B ≤ t ∧ t < hi + B ∧ 0 ≤ t ∧ t < a.length
  · rw [if_pos hc, if_pos (by omega)]
  · rw [if_neg hc, if_neg (by omega)]

/-- A loop of writes `a[i] = g i` for `i` in `[0, n)` into a vector at least that long. -/
theorem forUp_wr_fill {α : Type} [Zero α] (n : Int) (g : Int → α) (a : List α)
    (h : n ≤ a.length) :
    (forUp 0 n (fun i U => wr U i (g i)) a).length = a.length ∧
    ∀ t : Int, 0 ≤ t → t < n → rd (forUp 0 n (fun i U => wr U i (g i)) a) t = g t := by
  have e : (fun (i : Int) (U : List α) => wr U i (g i)) =
      (fun (i : Int) (U : List α) => wr U (i + 0) (g i)) := by
    funext i U
    rw [add_zero]
  rw [e]
  obtain ⟨h1, h2⟩ := forUp_wr_shift 0 n 0 g a
  refine ⟨h1, fun t ht0 ht1 => ?_⟩
  rw [h2 t, if_pos (by omega), sub_zero]

theorem cell_div_mod (B size t : Int) (hs : 0 < size) (h1 : B * size ≤ t)
    (h2 : t < B * size + size) : t / size = B ∧ t % size = t - B * size := by
  have := (Int.ediv_emod_unique hs).mpr
    (show (t - B * size) + size * B = t ∧ 0 ≤ t - B * size ∧ t - B * size < size from
      ⟨by ring, by omega, by omega⟩)
  exact this

/-- One row of `Patch::dice`: the loop over the columns writes the cells `B0 + u`. -/
theorem dice_row (nu size B0 : Int) (hs : 0 < size) (H : Int → Int → ℚ)
    (g0 : List ℚ) :
    (forUp 0 nu (fun u (g : List ℚ) =>
      forUp 0 size (fun i (out : List ℚ) => wr out ((B0 + u) * size + i) (H u i)) g) g0).length
      = g0.length ∧
    ∀ t : Int, rd (forUp 0 nu (fun u (g : List ℚ) =>
      forUp 0 size (fun i (out : List ℚ) => wr out ((B0 + u) * size + i) (H u i)) g) g0) t =
      if B0 * size ≤ t ∧ t < (B0 + nu) * size ∧ 0 ≤ t ∧ t < g0.length then
        H (t / size - B0) (t % size) else rd g0 t := by
  by_cases hnu : nu ≤ 0
  · rw [forUp_empty _ _ _ _ hnu]
    refine ⟨rfl, fun t => ?_⟩
    rw [if_neg]
    intro h
    have : (B0 + nu) * size ≤ B0 * size := by
      apply mul_le_mul_of_nonneg_right _ (le_of_lt hs)
      omega
    omega
  · refine forUp_induction_idx (fun u (g : List ℚ) => g.length = g0.length ∧
      ∀ t : Int, rd g t = if B0 * size ≤ t ∧ t < (B0 + u) * size ∧ 0 ≤ t ∧ t < g0.length then
        H (t / size - B0) (t % size) else rd g0 t) 0 nu (by omega) _ g0 ?_ ?_
    · refine ⟨rfl, fun t => ?_⟩
      rw [if_neg]
      intro h
      rw [add_zero] at h
      omega
    · intro u g hu0 hu1 hg
      obtain ⟨hlen, hval⟩ := hg
      obtain ⟨h1, h2⟩ := forUp_wr_base 0 size ((B0 + u) * size) (H u) g
      refine ⟨by rw [h1, hlen], fun t => ?_⟩
      show rd (forUp 0 size (fun i (out : List ℚ) => wr out ((B0 + u) * size + i) (H u i)) g) t
        = _
      rw [h2 t]
      have e1 : (B0 + (u + 1)) * size = (B0 + u) * size + size := by ring
      have e2 : B0 * size ≤ (B0 + u) * size := by
        apply mul_le_mul_of_nonneg_right _ (le_of_lt hs)
        omega
      rw [e1]
      by_cases hc : (B0 + u) * size + 0 ≤ t ∧ t < (B0 + u) * size + size ∧ 0 ≤ t ∧
          t < g.length
      · rw [if_pos hc, if_pos (by omega)]
        obtain ⟨d1, d2⟩ := cell_div_mod (B0 + u) size t hs (by omega) (by omega)
        rw [d1, d2]
        congr 1
        omega
      · rw [if_neg hc, hval t]
        by_cases hc2 : B0 * size ≤ t ∧ t < (B0 + u) * size ∧ 0 ≤ t ∧ t < g0.length
        · rw [if_pos hc2, if_pos (by omega)]
        · rw [if_neg hc2, if_neg (by omega)]

theorem cell_range (A B size t : Int) (hs : 0 < size) (h1 : A * size ≤ t) (h2 : t < B * size) :
    A ≤ t / size ∧ t / size < B :=
  ⟨(Int.le_ediv_iff_mul_le hs).mpr h1, (Int.ediv_lt_iff_lt_mul hs).mpr h2⟩

/-- The branch of `Patch::dice` for a variable that is not uniform: lengths are kept, and the
buffer holds the bilinear interpolation at every flat index of the `nv * nu` cells. -/
theorem diceInterpolate_spec (self : Patch) (nu nv : Int) (du dv : ℚ) (size : Int)
    (pvar : List ℚ) (st : List ℚ × List ℚ × List ℚ) (hs : 0 < size) (hnu : 0 < nu)
    (hnv : 0 ≤ nv) (h1 : size ≤ st.2.1.length) (h2 : size ≤ st.2.2.length) :
    (self.diceInterpolate nu nv du dv size pvar st).1.length = st.1.length ∧
    (self.diceInterpolate nu nv du dv size pvar st).2.1.length = st.2.1.length ∧
    (self.diceInterpolate nu nv du dv size pvar st).2.2.length = st.2.2.length ∧
    ∀ t : Int, 0 ≤ t → t < nv * nu * size → t < st.1.length →
      rd (self.diceInterpolate nu nv du dv size pvar st).1 t =
        self.diceFlat nu du dv size pvar t := by
  unfold Patch.diceInterpolate
  refine forUp_induction_idx (fun v (s : List ℚ × List ℚ × List ℚ) =>
    s.1.length = st.1.length ∧ s.2.1.length = st.2.1.length ∧ s.2.2.length = st.2.2.length ∧
    ∀ t : Int, 0 ≤ t → t < v * nu * size → t < st.1.length →
      rd s.1 t = self.diceFlat nu du dv size pvar t) 0 nv hnv _ st ?_ ?_
  · refine ⟨rfl, rfl, rfl, fun t ht0 ht1 _ => ?_⟩
    rw [zero_mul, zero_mul] at ht1
    omega
  · intro v s hv0 hv1 hinv
    obtain ⟨hl1, hl2, hl3, hval⟩ := hinv
    simp only []
    rw [forUp_pair 0 size
      (fun i (a : List ℚ) => wr a i (lerp (rd pvar i) (rd pvar (2 * size + i))
        (self.m_vMin + dv * (v : ℚ))))
      (fun i (a : List ℚ) => wr a i (lerp (rd pvar (size + i)) (rd pvar (3 * size + i))
        (self.m_vMin + dv * (v : ℚ)))) s.2.1 s.2.2]
    obtain ⟨a1, a2⟩ := forUp_wr_fill size
      (fun i => lerp (rd pvar i) (rd pvar (2 * size + i)) (self.m_vMin + dv * (v : ℚ))) s.2.1
      (by omega)
    obtain ⟨b1, b2⟩ := forUp_wr_fill size
      (fun i => lerp (rd pvar (size + i)) (rd pvar (3 * size + i))
        (self.m_vMin + dv * (v : ℚ))) s.2.2 (by omega)
    obtain ⟨r1, r2⟩ := dice_row nu size (v * nu) hs
      (fun u i => lerp
        (rd (forUp 0 size (fun i (a : List ℚ) => wr a i (lerp (rd pvar i)
          (rd pvar (2 * size + i)) (self.m_vMin + dv * (v : ℚ)))) s.2.1) i)
        (rd (forUp 0 size (fun i (a : List ℚ) => wr a i (lerp (rd pvar (size + i))
          (rd pvar (3 * size + i)) (self.m_vMin + dv * (v : ℚ)))) s.2.2) i)
        (self.m_uMin + du * (u : ℚ))) s.1
    refine ⟨by rw [r1, hl1], by rw [a1, hl2], by rw [b1, hl3], fun t ht0 ht1 ht2 => ?_⟩
    show rd (forUp 0 nu (fun u (g : List ℚ) => forUp 0 size (fun i (out : List ℚ) =>
      wr out ((v * nu + u) * size + i) _) g) s.1) t = _
    rw [r2 t]
    have e1 : (v + 1) * nu * size = (v * nu + nu) * size := by ring
    rw [e1] at ht1
    by_cases hc : v * nu * size ≤ t
    · rw [if_pos ⟨hc, ht1, ht0, by omega⟩]
      obtain ⟨c1, c2⟩ := cell_range (v * nu) (v * nu + nu) size t hs hc ht1
      have hm0 := Int.emod_nonneg t (ne_of_gt hs)
      have hm1 := Int.emod_lt_of_pos t hs
      obtain ⟨d1, d2⟩ := cell_div_mod v nu (t / size) hnu c1 (by omega)
      rw [a2 _ hm0 hm1, b2 _ hm0 hm1]
      unfold Patch.diceFlat
      simp only []
      rw [d1, d2]
    · rw [if_neg (by omega)]
      exact hval t ht0 (by omega) ht2

theorem diceInterpolate_length (self : Patch) (nu nv : Int) (du dv : ℚ) (size : Int)
    (pvar : List ℚ) (st : List ℚ × List ℚ × List ℚ) :
    (self.diceInterpolate nu nv du dv size pvar st).1.length = st.1.length ∧
    (self.diceInterpolate nu nv du dv size pvar st).2.1.length = st.2.1.length ∧
    (self.diceInterpolate nu nv du dv size pvar st).2.2.length = st.2.2.length := by
  unfold Patch.diceInterpolate
  refine forUp_induction (fun (s : List ℚ × List ℚ × List ℚ) =>
    s.1.length = st.1.length ∧ s.2.1.length = st.2.1.length ∧ s.2.2.length = st.2.2.length)
    0 nv _ st ⟨rfl, rfl, rfl⟩ ?_
  intro v s _ _ hinv
  obtain ⟨hl1, hl2, hl3⟩ := hinv
  simp only []
  rw [forUp_pair 0 size
    (fun i (a : List ℚ) => wr a i (lerp (rd pvar i) (rd pvar (2 * size + i))
      (self.m_vMin + dv * (v : ℚ))))
    (fun i (a : List ℚ) => wr a i (lerp (rd pvar (size + i)) (rd pvar (3 * size + i))
      (self.m_vMin + dv * (v : ℚ)))) s.2.1 s.2.2]
  refine ⟨?_, ?_, ?_⟩
  · rw [← hl1]
    refine forUp_induction (fun (g : List ℚ) => g.length = s.1.length) 0 nu _ s.1 rfl ?_
    intro u g _ _ hg
    show (forUp 0 size _ g).length = s.1.length
    rw [forUp_wr_length, hg]
  · rw [← hl2]
    dsimp only
    exact forUp_wr_length _ _ _ _ _
  · rw [← hl3]
    dsimp only
    exact forUp_wr_length _ _ _ _ _

theorem getD_set_self (l : List (List ℚ)) (i : Nat) (a : List ℚ) (h : i < l.length) :
    (l.set i a).getD i [] = a := by
  rw [List.getD_eq_getElem?_getD, List.getElem?_set_self h]
  rfl

theorem getD_set_ne (l : List (List ℚ)) (i j : Nat) (a : List ℚ) (h : i ≠ j) :
    (l.set i a).getD j [] = l.getD j [] := by
  rw [List.getD_eq_getElem?_getD, List.getD_eq_getElem?_getD, List.getElem?_set_ne h]

theorem foldl_max_ge (l : List Nat) (init : Nat) :
    init ≤ l.foldl Max.max init ∧ ∀ x ∈ l, x ≤ l.foldl Max.max init := by
  induction l generalizing init with
  | nil => exact ⟨le_refl _, fun x hx => absurd hx (List.not_mem_nil x)⟩
  | cons y t ih =>
    simp only [List.foldl_cons]
    obtain ⟨h1, h2⟩ := ih (Max.max init y)
    refine ⟨le_trans (le_max_left _ _) h1, fun x hx => ?_⟩
    rcases List.mem_cons.mp hx with rfl | hx
    · exact le_trans (le_max_right _ _) h1
    · exact h2 x hx

theorem elSize_le_maxAggregateSize (varSet : List VariableSpec) (n : Int) (k : Nat)
    (hk : k < varSet.length) :
    (varSet.getD k ⟨EqVariableClass.class_constant, 0⟩).elSize ≤
      (GridStorage.build varSet n).maxAggregateSize := by
  unfold GridStorage.maxAggregateSize GridStorage.build
  apply (foldl_max_ge _ 0).2
  rw [List.getD_eq_getElem _ _ hk]
  exact List.mem_map.mpr ⟨varSet[k], List.getElem_mem hk, rfl⟩

theorem build_buffer (varSet : List VariableSpec) (n : Int) (k : Nat) (hk : k < varSet.length) :
    (GridStorage.build varSet n).buffers.getD k [] =
      List.replicate ((if (varSet.getD k ⟨EqVariableClass.class_constant, 0⟩).uniform then 1
        else n.toNat) * (varSet.getD k ⟨EqVariableClass.class_constant, 0⟩).elSize) (0 : ℚ) := by
  unfold GridStorage.build
  simp only [List.getD_eq_getElem?_getD, List.getElem?_map, List.getElem?_eq_getElem hk,
    Option.map_some', Option.getD_some]

/-- The loop over the variables in `Patch::dice`: every grid buffer ends as `diceGood` asks. -/
theorem dice_loop (self : Patch) (nu nv : Int) :
    (forUp 0 self.m_vars.varSet.length
      (fun ivar (st : List (List ℚ) × List ℚ × List ℚ) =>
        let pvar := self.m_vars.data.getD ivar.toNat []
        let spec := self.m_vars.varSet.getD ivar.toNat ⟨EqVariableClass.class_constant, 0⟩
        let gvar := st.1.getD ivar.toNat []
        let size : Int := spec.elSize
        if spec.uniform then
          (st.1.set ivar.toNat (forUp 0 size (fun i g => wr g i (rd pvar i)) gvar), st.2.1,
            st.2.2)
        else
          let r := self.diceInterpolate nu nv
            ((self.m_uMax - self.m_uMin) / ((nu - 1 : Int) : ℚ))
            ((self.m_vMax - self.m_vMin) / ((nv - 1 : Int) : ℚ)) size pvar
            (gvar, st.2.1, st.2.2)
          (st.1.set ivar.toNat r.1, r.2.1, r.2.2))
      ((GridStorage.build self.m_vars.varSet (nu * nv)).buffers,
        List.replicate (GridStorage.build self.m_vars.varSet (nu * nv)).maxAggregateSize 0,
        List.replicate (GridStorage.build self.m_vars.varSet (nu * nv)).maxAggregateSize
          0)).1.length = self.m_vars.varSet.length ∧
    ∀ k : Nat, k < self.m_vars.varSet.length → self.diceGood nu nv k
      ((forUp 0 self.m_vars.varSet.length
      (fun ivar (st : List (List ℚ) × List ℚ × List ℚ) =>
        let pvar := self.m_vars.data.getD ivar.toNat []
        let spec := self.m_vars.varSet.getD ivar.toNat ⟨EqVariableClass.class_constant, 0⟩
        let gvar := st.1.getD ivar.toNat []
        let size : Int := spec.elSize
        if spec.uniform then
          (st.1.set ivar.toNat (forUp 0 size (fun i g => wr g i (rd pvar i)) gvar), st.2.1,
            st.2.2)
        else
          let r := self.diceInterpolate nu nv
            ((self.m_uMax - self.m_uMin) / ((nu - 1 : Int) : ℚ))
            ((self.m_vMax - self.m_vMin) / ((nv - 1 : Int) : ℚ)) size pvar
            (gvar, st.2.1, st.2.2)
          (st.1.set ivar.toNat r.1, r.2.1, r.2.2))
      ((GridStorage.build self.m_vars.varSet (nu * nv)).buffers,
        List.replicate (GridStorage.build self.m_vars.varSet (nu * nv)).maxAggregateSize 0,
        List.replicate (GridStorage.build self.m_vars.varSet (nu * nv)).maxAggregateSize
          0)).1.getD k []) := by
  have hinit : (GridStorage.build self.m_vars.varSet (nu * nv)).buffers.length =
      self.m_vars.varSet.length := by
    simp [GridStorage.build]
  have key := forUp_induction_idx (fun n (st : List (List ℚ) × List ℚ × List ℚ) =>
    st.1.length = self.m_vars.varSet.length ∧
    st.2.1.length = (GridStorage.build self.m_vars.varSet (nu * nv)).maxAggregateSize ∧
    st.2.2.length = (GridStorage.build self.m_vars.varSet (nu * nv)).maxAggregateSize ∧
    (∀ k : Nat, (k : Int) < n → k < self.m_vars.varSet.length →
      self.diceGood nu nv k (st.1.getD k [])) ∧
    (∀ k : Nat, n ≤ (k : Int) → k < self.m_vars.varSet.length →
      st.1.getD k [] = (GridStorage.build self.m_vars.varSet (nu * nv)).buffers.getD k []))
    0 self.m_vars.varSet.length (by omega)
    (fun ivar (st : List (List ℚ) × List ℚ × List ℚ) =>
        let pvar := self.m_vars.data.getD ivar.toNat []
        let spec := self.m_vars.varSet.getD ivar.toNat ⟨EqVariableClass.class_constant, 0⟩
        let gvar := st.1.getD ivar.toNat []
        let size : Int := spec.elSize
        if spec.uniform then
          (st.1.set ivar.toNat (forUp 0 size (fun i g => wr g i (rd pvar i)) gvar), st.2.1,
            st.2.2)
        else
          let r := self.diceInterpolate nu nv
            ((self.m_uMax - self.m_uMin) / ((nu - 1 : Int) : ℚ))
            ((self.m_vMax - self.m_vMin) / ((nv - 1 : Int) : ℚ)) size pvar
            (gvar, st.2.1, st.2.2)
          (st.1.set ivar.toNat r.1, r.2.1, r.2.2))
    ((GridStorage.build self.m_vars.varSet (nu * nv)).buffers,
        List.replicate (GridStorage.build self.m_vars.varSet (nu * nv)).maxAggregateSize 0,
        List.replicate (GridStorage.build self.m_vars.varSet (nu * nv)).maxAggregateSize 0)
    ⟨hinit, List.length_replicate _ _, List.length_replicate _ _,
      fun k hk _ => absurd hk (by omega), fun k _ _ => rfl⟩ ?_
  · exact ⟨key.1, fun k hk => key.2.2.2.1 k (by omega) hk⟩
  · intro n st hn0 hn1 hinv
    obtain ⟨hl, hA, hB, hdone, hrest⟩ := hinv
    have hnN : n.toNat < self.m_vars.varSet.length := by omega
    have hg : st.1.getD n.toNat [] = List.replicate
        ((if (self.m_vars.varSet.getD n.toNat ⟨EqVariableClass.class_constant, 0⟩).uniform then 1
          else (nu * nv).toNat) *
          (self.m_vars.varSet.getD n.toNat ⟨EqVariableClass.class_constant, 0⟩).elSize)
        (0 : ℚ) := by
      rw [hrest n.toNat (by omega) hnN]
      exact build_buffer _ _ _ hnN
    have hmax := elSize_le_maxAggregateSize self.m_vars.varSet (nu * nv) n.toNat hnN
    simp only []
    by_cases hu : (self.m_vars.varSet.getD n.toNat ⟨EqVariableClass.class_constant, 0⟩).uniform
        = true
    · rw [if_pos hu]
      refine ⟨by rw [List.length_set]; exact hl, hA, hB, ?_, ?_⟩
      · intro k hk1 hk2
        by_cases hkn : k = n.toNat
        · subst hkn
          rw [getD_set_self _ _ _ (by omega)]
          have hlen : (st.1.getD n.toNat []).length =
              (self.m_vars.varSet.getD n.toNat ⟨EqVariableClass.class_constant, 0⟩).elSize := by
            rw [hg, hu, List.length_replicate]
            simp
          obtain ⟨f1, f2⟩ := forUp_wr_fill
            ((self.m_vars.varSet.getD n.toNat ⟨EqVariableClass.class_constant, 0⟩).elSize : Int)
            (fun i => rd (self.m_vars.data.getD n.toNat []) i) (st.1.getD n.toNat [])
            (by omega)
          refine ⟨fun _ => ⟨by rw [f1, hlen], fun c hc0 hc1 => f2 c hc0 hc1⟩, fun h => ?_⟩
          rw [hu] at h
          exact absurd h (by decide)
        · rw [getD_set_ne _ _ _ _ (Ne.symm hkn)]
          exact hdone k (by omega) hk2
      · intro k hk1 hk2
        rw [getD_set_ne _ _ _ _ (by omega)]
        exact hrest k (by omega) hk2
    · have hu2 : (self.m_vars.varSet.getD n.toNat ⟨EqVariableClass.class_constant, 0⟩).uniform
          = false := by
        cases hb : (self.m_vars.varSet.getD n.toNat ⟨EqVariableClass.class_constant, 0⟩).uniform
        · rfl
        · exact absurd hb hu
      rw [if_neg hu]
      obtain ⟨g1, g2, g3⟩ := diceInterpolate_length self nu nv
        ((self.m_uMax - self.m_uMin) / ((nu - 1 : Int) : ℚ))
        ((self.m_vMax - self.m_vMin) / ((nv - 1 : Int) : ℚ))
        ((self.m_vars.varSet.getD n.toNat ⟨EqVariableClass.class_constant, 0⟩).elSize : Int)
        (self.m_vars.data.getD n.toNat []) (st.1.getD n.toNat [], st.2.1, st.2.2)
      refine ⟨by rw [List.length_set]; exact hl, by rw [g2]; exact hA, by rw [g3]; exact hB,
        ?_, ?_⟩
      · intro k hk1 hk2
        by_cases hkn : k = n.toNat
        · subst hkn
          rw [getD_set_self _ _ _ (by omega)]
          have hlen : (st.1.getD n.toNat []).length = (nu * nv).toNat *
              (self.m_vars.varSet.getD n.toNat ⟨EqVariableClass.class_constant, 0⟩).elSize := by
            rw [hg, hu2, List.length_replicate]
            simp
          refine ⟨fun h => ?_, fun _ => ⟨by rw [g1]; exact hlen, fun hnu hnv t ht0 ht1 => ?_⟩⟩
          · rw [hu2] at h
            exact absurd h (by decide)
          · have hsz : 0 < ((self.m_vars.varSet.getD n.toNat
                ⟨EqVariableClass.class_constant, 0⟩).elSize : Int) := by
              rcases Nat.eq_zero_or_pos (self.m_vars.varSet.getD n.toNat
                ⟨EqVariableClass.class_constant, 0⟩).elSize with h0 | h0
              · rw [h0] at ht1
                simp at ht1
                omega
              · omega
            have hprod : 0 ≤ nu * nv := mul_nonneg (le_of_lt hnu) hnv
            have hcast : (((nu * nv).toNat * (self.m_vars.varSet.getD n.toNat
                ⟨EqVariableClass.class_constant, 0⟩).elSize : Nat) : Int) = nv * nu *
                ((self.m_vars.varSet.getD n.toNat
                  ⟨EqVariableClass.class_constant, 0⟩).elSize : Int) := by
              push_cast
              rw [Int.toNat_of_nonneg hprod]
              ring
            exact (diceInterpolate_spec self nu nv _ _ _ _
              (st.1.getD n.toNat [], st.2.1, st.2.2) hsz hnu hnv (by
                show _ ≤ (st.2.1.length : Int)
                rw [hA]
                omega) (by
                show _ ≤ (st.2.2.length : Int)
                rw [hB]
                omega)).2.2.2 t ht0 ht1 (by
                show t < ((st.1.getD n.toNat []).length : Int)
                rw [hlen, hcast]
                exact ht1)
        · rw [getD_set_ne _ _ _ _ (Ne.symm hkn)]
          exact hdone k (by omega) hk2
      · intro k hk1 hk2
        rw [getD_set_ne _ _ _ _ (by omega)]
        exact hrest k (by omega) hk2

/-- The grid that `Patch::dice` pushes. -/
theorem dice_grid (self : Patch) (nu nv : Int) (tessCtx : TessellationContext) :
    ∃ grid : QuadGrid, (self.dice nu nv tessCtx).grids = tessCtx.grids ++ [grid] ∧
      grid.nu = nu ∧ grid.nv = nv ∧ grid.storage.varSet = self.m_vars.varSet ∧
      grid.storage.nverts = (nu * nv).toNat ∧
      grid.storage.buffers.length = self.m_vars.varSet.length ∧
      ∀ k : Nat, k < self.m_vars.varSet.length →
        self.diceGood nu nv k (grid.storage.buffers.getD k []) :=
  ⟨_, rfl, rfl, rfl, rfl, rfl, (dice_loop self nu nv).1, (dice_loop self nu nv).2⟩

theorem cell_lt (nu nv i j : Int) (hi0 : 0 ≤ i) (hi : i < nu) (hj0 : 0 ≤ j) (hj : j < nv) :
    0 ≤ j * nu + i ∧ j * nu + i + 1 ≤ nv * nu := by
  have h1 : 0 ≤ j * nu := mul_nonneg hj0 (by omega)
  have h2 : (j + 1) * nu ≤ nv * nu := mul_le_mul_of_nonneg_right (by omega) (by omega)
  have h3 : (j + 1) * nu = j * nu + nu := by ring
  omega

/-- The value of a variable that is not uniform at the micro-vertex in column `i`, row `j`. -/
theorem dice_value (self : Patch) (nu nv : Int) (hnu : 2 ≤ nu) (hnv : 2 ≤ nv) (ivar : Nat)
    (hnon : (self.m_vars.varSet.getD ivar ⟨EqVariableClass.class_constant, 0⟩).uniform = false)
    (grid : QuadGrid) (hvs : grid.storage.varSet = self.m_vars.varSet)
    (hgood : self.diceGood nu nv ivar (grid.storage.buffers.getD ivar []))
    (i j c : Int) (hi0 : 0 ≤ i) (hi : i < nu) (hj0 : 0 ≤ j) (hj : j < nv) (hc0 : 0 ≤ c)
    (hc : c < ((self.m_vars.varSet.getD ivar ⟨EqVariableClass.class_constant, 0⟩).elSize : Int)) :
    grid.storage.value ivar (j * nu + i) c =
      lerp
        (lerp (rd (self.m_vars.data.getD ivar []) c)
          (rd (self.m_vars.data.getD ivar [])
            (2 * ((self.m_vars.varSet.getD ivar ⟨EqVariableClass.class_constant, 0⟩).elSize : Int)
              + c))
          (self.m_vMin + (j : ℚ) * (self.m_vMax - self.m_vMin) / ((nv : ℚ) - 1)))
        (lerp
          (rd (self.m_vars.data.getD ivar [])
            (((self.m_vars.varSet.getD ivar ⟨EqVariableClass.class_constant, 0⟩).elSize : Int)
              + c))
          (rd (self.m_vars.data.getD ivar [])
            (3 * ((self.m_vars.varSet.getD ivar ⟨EqVariableClass.class_constant, 0⟩).elSize : Int)
              + c))
          (self.m_vMin + (j : ℚ) * (self.m_vMax - self.m_vMin) / ((nv : ℚ) - 1)))
        (self.m_uMin + (i : ℚ) * (self.m_uMax - self.m_uMin) / ((nu : ℚ) - 1)) := by
  obtain ⟨c1, c2⟩ := cell_lt nu nv i j hi0 hi hj0 hj
  have hs : 0 < ((self.m_vars.varSet.getD ivar ⟨EqVariableClass.class_constant, 0⟩).elSize : Int) :=
    by omega
  have hb : (j * nu + i) * ((self.m_vars.varSet.getD ivar
      ⟨EqVariableClass.class_constant, 0⟩).elSize : Int) + c < nv * nu *
      ((self.m_vars.varSet.getD ivar ⟨EqVariableClass.class_constant, 0⟩).elSize : Int) := by
    have := mul_le_mul_of_nonneg_right c2 (le_of_lt hs)
    have e : (j * nu + i + 1) * ((self.m_vars.varSet.getD ivar
      ⟨EqVariableClass.class_constant, 0⟩).elSize : Int) = (j * nu + i) *
      ((self.m_vars.varSet.getD ivar ⟨EqVariableClass.class_constant, 0⟩).elSize : Int) +
      ((self.m_vars.varSet.getD ivar ⟨EqVariableClass.class_constant, 0⟩).elSize : Int) := by
      ring
    omega
  have hb0 : 0 ≤ (j * nu + i) * ((self.m_vars.varSet.getD ivar
      ⟨EqVariableClass.class_constant, 0⟩).elSize : Int) + c := by
    have := mul_nonneg c1 (le_of_lt hs)
    omega
  have hv := (hgood.2 hnon).2 (by omega) (by omega) _ hb0 hb
  unfold GridStorage.value
  simp only []
  rw [hvs, hnon]
  simp only [Bool.false_eq_true, if_false]
  rw [hv]
  unfold Patch.diceFlat
  simp only []
  obtain ⟨d1, d2⟩ := cell_div_mod (j * nu + i)
    ((self.m_vars.varSet.getD ivar ⟨EqVariableClass.class_constant, 0⟩).elSize : Int)
    ((j * nu + i) * ((self.m_vars.varSet.getD ivar
      ⟨EqVariableClass.class_constant, 0⟩).elSize : Int) + c) hs (by omega) (by omega)
  obtain ⟨e1, e2⟩ := cell_div_mod j nu (j * nu + i) (by omega) (by omega) (by omega)
  rw [d1, d2, e1, e2]
  have f1 : (j * nu + i) * ((self.m_vars.varSet.getD ivar
      ⟨EqVariableClass.class_constant, 0⟩).elSize : Int) + c - (j * nu + i) *
      ((self.m_vars.varSet.getD ivar ⟨EqVariableClass.class_constant, 0⟩).elSize : Int) = c := by
    omega
  have f2 : j * nu + i - j * nu = i := by omega
  rw [f1, f2]
  have g1 : self.m_vMin + (self.m_vMax - self.m_vMin) / ((nv - 1 : Int) : ℚ) * (j : ℚ) =
      self.m_vMin + (j : ℚ) * (self.m_vMax - self.m_vMin) / ((nv : ℚ) - 1) := by
    push_cast
    ring
  have g2 : self.m_uMin + (self.m_uMax - self.m_uMin) / ((nu - 1 : Int) : ℚ) * (i : ℚ) =
      self.m_uMin + (i : ℚ) * (self.m_uMax - self.m_uMin) / ((nu : ℚ) - 1) := by
    push_cast
    ring
  rw [g1, g2]

/-- C14: `Patch::dice` on a uniform (or constant) variable.  Whatever the grid dimensions, the
grid pushed holds at every micro-vertex, for every float `0 <= c < elSize` of the variable,
the float `c` of the single element of the variable in the primvar storage. -/
theorem Patch_dice_uniform (self : Patch) (nu nv : Int) (tessCtx : TessellationContext)
    (ivar : Nat) (hiv : ivar < self.m_vars.varSet.length)
    (hu : (self.m_vars.varSet.getD ivar ⟨EqVariableClass.class_constant, 0⟩).iclass =
        EqVariableClass.class_uniform ∨
      (self.m_vars.varSet.getD ivar ⟨EqVariableClass.class_constant, 0⟩).iclass =
        EqVariableClass.class_constant)
    (vertex c : Int) (hc0 : 0 ≤ c)
    (hc : c < ((self.m_vars.varSet.getD ivar ⟨EqVariableClass.class_constant, 0⟩).elSize : Int)) :
    ∃ grid : QuadGrid, (self.dice nu nv tessCtx).grids = tessCtx.grids ++ [grid] ∧
      grid.storage.value ivar vertex c = rd (self.m_vars.data.getD ivar []) c := by
  obtain ⟨grid, h1, -, -, h4, -, -, h7⟩ := dice_grid self nu nv tessCtx
  refine ⟨grid, h1, ?_⟩
  have hun : (self.m_vars.varSet.getD ivar ⟨EqVariableClass.class_constant, 0⟩).uniform = true := by
    unfold VariableSpec.uniform
    rcases hu with h | h
    · rw [h]
      decide
    · rw [h]
      decide
  have hv := ((h7 ivar hiv).1 hun).2 c hc0 hc
  unfold GridStorage.value
  simp only []
  rw [h4, hun]
  simp only [if_true, zero_mul, zero_add]
  exact hv

/-- Witness for C14: the uniform colour of `Examples.shadedSquare` on a 3 x 2 grid, read at the
micro-vertex 4. -/
theorem Patch_dice_uniform_witness :
    ∃ grid : QuadGrid,
      (Examples.shadedSquare.dice 3 2 { pushed := [] }).grids =
        ({ pushed := [] } : TessellationContext).grids ++ [grid] ∧
      grid.storage.value 1 4 2 = rd (Examples.shadedSquare.m_vars.data.getD 1 []) 2 :=
  Patch_dice_uniform Examples.shadedSquare 3 2 { pushed := [] } 1 (by decide)
    (Or.inl (by decide)) 4 2 (by decide) (by decide)

theorem lerp_zero (a b : ℚ) : lerp a b 0 = a := by
  unfold lerp
  ring

theorem lerp_one (a b : ℚ) : lerp a b 1 = b := by
  unfold lerp
  ring

/-- The corner law in exact arithmetic.  For a patch built by the public constructor (range
`[0,1] x [0,1]`) and diced with `nu, nv >= 2`, a varying variable `ivar` has at the grid
corners `0`, `nu - 1`, `(nv - 1) * nu` and `nv * nu - 1`, in every float `c`, the values of its
four input elements `pvar[0]`, `pvar[1]`, `pvar[2]`, `pvar[3]`: in `ℚ` the parameter of the
last column, `du * (nu - 1)`, is 1.  On `float` values it need not be (section "Dicing the
bilinear patch on `float` values"). -/
theorem Patch_dice_corners (vars : PrimvarStorage) (nu nv : Int) (tessCtx : TessellationContext)
    (hnu : 2 ≤ nu) (hnv : 2 ≤ nv) (ivar : Nat) (hiv : ivar < vars.varSet.length)
    (hvar : (vars.varSet.getD ivar ⟨EqVariableClass.class_constant, 0⟩).iclass =
      EqVariableClass.class_varying)
    (c : Int) (hc0 : 0 ≤ c)
    (hc : c < ((vars.varSet.getD ivar ⟨EqVariableClass.class_constant, 0⟩).elSize : Int)) :
    ∃ grid : QuadGrid, ((Patch.ofVars vars).dice nu nv tessCtx).grids = tessCtx.grids ++ [grid] ∧
      grid.storage.value ivar 0 c = rd (vars.data.getD ivar []) c ∧
      grid.storage.value ivar (nu - 1) c = rd (vars.data.getD ivar [])
        (((vars.varSet.getD ivar ⟨EqVariableClass.class_constant, 0⟩).elSize : Int) + c) ∧
      grid.storage.value ivar ((nv - 1) * nu) c = rd (vars.data.getD ivar [])
        (2 * ((vars.varSet.getD ivar ⟨EqVariableClass.class_constant, 0⟩).elSize : Int) + c) ∧
      grid.storage.value ivar (nv * nu - 1) c = rd (vars.data.getD ivar [])
        (3 * ((vars.varSet.getD ivar ⟨EqVariableClass.class_constant, 0⟩).elSize : Int) + c) := by
  have hnon : ((Patch.ofVars vars).m_vars.varSet.getD ivar
      ⟨EqVariableClass.class_constant, 0⟩).uniform = false := by
    show (vars.varSet.getD ivar ⟨EqVariableClass.class_constant, 0⟩).uniform = false
    unfold VariableSpec.uniform
    rw [hvar]
    decide
  obtain ⟨grid, h1, -, -, h4, -, -, h7⟩ := dice_grid (Patch.ofVars vars) nu nv tessCtx
  have hval := dice_value (Patch.ofVars vars) nu nv hnu hnv ivar hnon grid h4 (h7 ivar hiv)
  simp only [Patch.ofVars] at hval
  have hu1 : ((nu - 1 : Int) : ℚ) * (1 - 0) / ((nu : ℚ) - 1) = 1 := by
    have : (nu : ℚ) - 1 ≠ 0 := by
      have : (2 : ℚ) ≤ (nu : ℚ) := by exact_mod_cast hnu
      linarith
    push_cast
    field_simp
  have hv1 : ((nv - 1 : Int) : ℚ) * (1 - 0) / ((nv : ℚ) - 1) = 1 := by
    have : (nv : ℚ) - 1 ≠ 0 := by
      have : (2 : ℚ) ≤ (nv : ℚ) := by exact_mod_cast hnv
      linarith
    push_cast
    field_simp
  have z : ∀ n : ℚ, ((0 : Int) : ℚ) * (1 - 0) / (n - 1) = 0 := by
    intro n
    simp
  refine ⟨grid, h1, ?_, ?_, ?_, ?_⟩
  · have := hval 0 0 c (le_refl _) (by omega) (le_refl _) (by omega) hc0 hc
    rw [zero_mul, zero_add] at this
    rw [this]
    simp only [z, hu1, hv1, add_zero, zero_add, lerp_zero, lerp_one]
  · have := hval (nu - 1) 0 c (by omega) (by omega) (le_refl _) (by omega) hc0 hc
    rw [zero_mul, zero_add] at this
    rw [this]
    simp only [z, hu1, hv1, add_zero, zero_add, lerp_zero, lerp_one]
  · have := hval 0 (nv - 1) c (le_refl _) (by omega) (by omega) (by omega) hc0 hc
    rw [add_zero] at this
    rw [this]
    simp only [z, hu1, hv1, add_zero, zero_add, lerp_zero, lerp_one]
  · have := hval (nu - 1) (nv - 1) c (by omega) (by omega) (by omega) (by omega) hc0 hc
    have e : (nv - 1) * nu + (nu - 1) = nv * nu - 1 := by ring
    rw [e] at this
    rw [this]
    simp only [z, hu1, hv1, add_zero, zero_add, lerp_zero, lerp_one]

/-- The corner law in exact arithmetic at the varying float of `Examples.shadedSquare` (corner
values 10, 20, 30, 40) on a 3 x 2 grid. -/
theorem Patch_dice_corners_witness :
    ∃ grid : QuadGrid,
      ((Patch.ofVars Examples.shadedSquare.m_vars).dice 3 2 { pushed := [] }).grids =
        ({ pushed := [] } : TessellationContext).grids ++ [grid] ∧
      grid.storage.value 0 0 0 = rd (Examples.shadedSquare.m_vars.data.getD 0 []) 0 ∧
      grid.storage.value 0 (3 - 1) 0 = rd (Examples.shadedSquare.m_vars.data.getD 0 [])
        (((Examples.shadedSquare.m_vars.varSet.getD 0
          ⟨EqVariableClass.class_constant, 0⟩).elSize : Int) + 0) ∧
      grid.storage.value 0 ((2 - 1) * 3) 0 = rd (Examples.shadedSquare.m_vars.data.getD 0 [])
        (2 * ((Examples.shadedSquare.m_vars.varSet.getD 0
          ⟨EqVariableClass.class_constant, 0⟩).elSize : Int) + 0) ∧
      grid.storage.value 0 (2 * 3 - 1) 0 = rd (Examples.shadedSquare.m_vars.data.getD 0 [])
        (3 * ((Examples.shadedSquare.m_vars.varSet.getD 0
          ⟨EqVariableClass.class_constant, 0⟩).elSize : Int) + 0) :=
  Patch_dice_corners Examples.shadedSquare.m_vars 3 2 { pushed := [] } (by decide) (by decide) 0
    (by decide) (by decide) 0 (by decide) (by decide)

/-! ### The divisions of `BasisFunctions` -/

/-- The rounds of `basisStateAt` are those of the loops of `BasisFunctions`: the next inner
round applies the inner body. -/
theorem basisStateAt_succ (u : ℚ) (i : Nat) (U : List ℚ) (k : Nat) (N : List ℚ) (j r : Nat) :
    basisStateAt u i U k N j (r + 1) = basisInner j r (basisStateAt u i U k N j r) := by
  unfold basisStateAt
  simp only []
  have e : (((r + 1 : Nat)) : Int) = (r : Int) + 1 := by push_cast; ring
  rw [e, forUp_succ _ _ _ _ (by omega)]

/-- The outer round `j` ends with `N[j] = saved` on the state after its `j` inner rounds. -/
theorem basisStateAt_outer (u : ℚ) (i : Nat) (U : List ℚ) (k : Nat) (N : List ℚ) (j : Nat) :
    basisOuter u i U j (forUp 1 j (basisOuter u i U)
        { N := wr N 0 1, left := List.replicate k 0, right := List.replicate k 0, saved := 0 })
      = { basisStateAt u i U k N j j with
            N := wr (basisStateAt u i U k N j j).N j (basisStateAt u i U k N j j).saved } := by
  rfl

/-- The inner loop of `BasisFunctions` leaves `left` and `right` as they are. -/
theorem basisInner_loop_left_right (j : Int) (r : Int) (st : BasisState) :
    (forUp 0 r (basisInner j) st).left = st.left ∧
      (forUp 0 r (basisInner j) st).right = st.right := by
  exact forUp_induction (fun (s : BasisState) => s.left = st.left ∧ s.right = st.right) 0 r (basisInner j) st
    ⟨rfl, rfl⟩ (fun _ _ _ _ h => h)

/-- After the outer rounds `1 .. j - 1`, `left[t] = u - U[i + 1 - t]` and
`right[t] = U[i + t] - u` for `1 ≤ t < j`. -/
theorem basisOuter_loop_left_right (u : ℚ) (i : Nat) (U : List ℚ) (k : Nat) (N : List ℚ)
    (j : Nat) (hj : 1 ≤ j) (hjk : j ≤ k) :
    let st := forUp 1 j (basisOuter u i U)
      { N := wr N 0 1, left := List.replicate k 0, right := List.replicate k 0, saved := 0 }
    st.left.length = k ∧ st.right.length = k ∧
      ∀ t : Int, 1 ≤ t → t < j →
        rd st.left t = u - rd U (i + 1 - t) ∧ rd st.right t = rd U (i + t) - u := by
  intro st
  apply forUp_induction_idx
    (fun (m : Int) (s : BasisState) => s.left.length = k ∧ s.right.length = k ∧
      ∀ t : Int, 1 ≤ t → t < m →
        rd s.left t = u - rd U (i + 1 - t) ∧ rd s.right t = rd U (i + t) - u)
    1 j (by omega)
  · refine ⟨by simp, by simp, ?_⟩
    intro t h1 h2
    omega
  · intro m s hm1 hm2 ⟨hl, hr, h⟩
    unfold basisOuter
    simp only []
    obtain ⟨e1, e2⟩ := basisInner_loop_left_right m m
      { s with left := wr s.left m (u - rd U (i + 1 - m)),
               right := wr s.right m (rd U (i + m) - u), saved := 0 }
    rw [e1, e2]
    refine ⟨by rw [wr_length]; exact hl, by rw [wr_length]; exact hr, ?_⟩
    intro t h1 h2
    by_cases htm : t = m
    · subst htm
      rw [rd_wr_same _ _ _ (by omega) (by omega), rd_wr_same _ _ _ (by omega) (by omega)]
      exact ⟨rfl, rfl⟩
    · rw [rd_wr_ne _ _ _ _ (fun e => htm e.symm), rd_wr_ne _ _ _ _ (fun e => htm e.symm)]
      exact h t h1 (by omega)

open CqPrimvarToken

theorem isPlain_spec (c : Char) (h : isPlain c = true) :
    isSpace c = false ∧ c ≠ Char.ofNat 0 ∧ isInvalid c = false ∧ isBracket c = false := by
  unfold isPlain at h
  simp only [Bool.and_eq_true, Bool.not_eq_true', beq_eq_false_iff_ne, ne_eq] at h
  exact ⟨h.1.1.1, h.1.1.2, h.1.2, h.2⟩

/-- Plain characters are appended to the word. -/
theorem getLoop_plain (w : List Char) (hw : ∀ c ∈ w, isPlain c = true) :
    ∀ word rest, CqPrimvarTokenizer.getLoop word (w ++ rest)
      = CqPrimvarTokenizer.getLoop (word ++ w) rest := by
  induction w with
  | nil => intro word rest; simp
  | cons c cs ih =>
    intro word rest
    obtain ⟨h1, h2, h3, h4⟩ := isPlain_spec c (hw c (List.mem_cons_self _ _))
    rw [List.cons_append, CqPrimvarTokenizer.getLoop]
    simp only [h1, h2, h3, h4, Bool.false_eq_true, if_false]
    rw [ih (fun c hc => hw c (List.mem_cons_of_mem _ hc))]
    simp

/-- A word that is not empty ends at the end of the string, whitespace, NUL or a bracket. -/
theorem getLoop_end (word rest : List Char) (hw : word ≠ []) (hr : endsWord rest = true) :
    CqPrimvarTokenizer.getLoop word rest = .ok (word, rest) := by
  cases rest with
  | nil => rfl
  | cons d tl =>
    unfold endsWord at hr
    rw [CqPrimvarTokenizer.getLoop]
    by_cases h1 : isSpace d = true
    · simp [h1, hw]
    · by_cases h2 : d = Char.ofNat 0
      · subst h2
        simp [isSpace]
      · have h3 : isBracket d = true := by
          simp only [Bool.or_eq_true, beq_iff_eq] at hr
          tauto
        have h4 : isInvalid d = false := by
          unfold isBracket at h3
          unfold isInvalid
          simp only [Bool.or_eq_true, beq_iff_eq] at h3
          rcases h3 with h | h <;> subst h <;> decide
        simp [h1, h2, h3, h4, hw]

/-- Whitespace before a token is skipped. -/
theorem getLoop_blank (ws : List Char) (hws : Blank ws) (rest : List Char) :
    CqPrimvarTokenizer.getLoop [] (ws ++ rest) = CqPrimvarTokenizer.getLoop [] rest := by
  induction ws with
  | nil => rfl
  | cons c cs ih =>
    rw [List.cons_append, CqPrimvarTokenizer.getLoop]
    simp only [hws c (List.mem_cons_self _ _), if_true, ne_eq, not_true_eq_false, if_false]
    exact ih (fun c hc => hws c (List.mem_cons_of_mem _ hc))

/-- The token read from whitespace, a word and a text at which the word ends is the word. -/
theorem get_word (ws w rest : List Char) (hws : Blank ws) (hw : Word w)
    (hr : endsWord rest = true) :
    CqPrimvarTokenizer.get (ws ++ (w ++ rest)) = .ok (w, rest) := by
  unfold CqPrimvarTokenizer.get
  rw [getLoop_blank ws hws, getLoop_plain w hw.2, List.nil_append,
    getLoop_end w rest hw.1 hr]

/-- The token read from whitespace and a bracket is the bracket. -/
theorem get_bracket (ws rest : List Char) (hws : Blank ws) (b : Char)
    (hb : isBracket b = true) :
    CqPrimvarTokenizer.get (ws ++ (b :: rest)) = .ok ([b], rest) := by
  unfold CqPrimvarTokenizer.get
  rw [getLoop_blank ws hws, CqPrimvarTokenizer.getLoop]
  have h1 : isSpace b = false := by
    unfold isBracket at hb
    simp only [Bool.or_eq_true, beq_iff_eq] at hb
    rcases hb with h | h <;> subst h <;> decide
  have h2 : b ≠ Char.ofNat 0 := by
    unfold isBracket at hb
    simp only [Bool.or_eq_true, beq_iff_eq] at hb
    rcases hb with h | h <;> subst h <;> decide
  have h4 : isInvalid b = false := by
    unfold isBracket at hb
    simp only [Bool.or_eq_true, beq_iff_eq] at hb
    rcases hb with h | h <;> subst h <;> decide
  simp [h1, h2, h4, hb]

/-- The token read from whitespace alone is empty. -/
theorem get_blank (ws : List Char) (hws : Blank ws) :
    CqPrimvarTokenizer.get ws = .ok ([], []) := by
  unfold CqPrimvarTokenizer.get
  have := getLoop_blank ws hws []
  rw [List.append_nil] at this
  rw [this]
  rfl


/-! ### The parser of primitive variable declarations -/

theorem NEXT_OR_END_token (self : CqPrimvarToken) (text tok pos : List Char)
    (k : List Char → List Char → Except XqParseError CqPrimvarToken)
    (h : CqPrimvarTokenizer.get text = .ok (tok, pos)) (ht : tok ≠ []) :
    NEXT_OR_END self text k = k tok pos := by
  unfold NEXT_OR_END
  rw [h]
  simp only [ht, if_false]

theorem NEXT_OR_END_blank (self : CqPrimvarToken) (ws : List Char) (hws : Blank ws)
    (k : List Char → List Char → Except XqParseError CqPrimvarToken) :
    NEXT_OR_END self ws k = .ok self := by
  unfold NEXT_OR_END
  rw [get_blank ws hws]
  simp only [if_true]

theorem Word_ne_bracket (w : List Char) (hw : Word w) (b : Char) (hb : isBracket b = true) :
    w ≠ [b] := by
  intro h
  subst h
  have := (isPlain_spec b (hw.2 b (List.mem_singleton_self b))).2.2.2
  rw [hb] at this
  exact Bool.noConfusion this

/-- A digit is a plain character, and no sign. -/
theorem isDigit_plain (c : Char) (h : c.isDigit = true) :
    isPlain c = true ∧ c ≠ '-' ∧ c ≠ '+' := by
  have key : ∀ d : Char, d.isDigit = false → c ≠ d := by
    intro d hd e
    subst e
    rw [h] at hd
    exact Bool.noConfusion hd
  have e1 := key ' ' (by decide)
  have e2 := key (Char.ofNat 9) (by decide)
  have e3 := key (Char.ofNat 10) (by decide)
  have e4 := key (Char.ofNat 0) (by decide)
  have e5 := key (Char.ofNat 35) (by decide)
  have e6 := key (Char.ofNat 34) (by decide)
  have e7 := key '[' (by decide)
  have e8 := key ']' (by decide)
  refine ⟨?_, key '-' (by decide), key '+' (by decide)⟩
  unfold isPlain isSpace isInvalid isBracket
  simp [e1, e2, e3, e4, e5, e6, e7, e8]

theorem digits_word (ds : List Char) (h0 : ds ≠ []) (hd : ∀ c ∈ ds, c.isDigit = true) :
    Word ds :=
  ⟨h0, fun c hc => (isDigit_plain c (hd c hc)).1⟩

/-- Extraction from a token of digits whose value an `int` holds: that value, and the stream
is at its end. -/
theorem extractInt_digits (ds : List Char) (h0 : ds ≠ []) (hd : ∀ c ∈ ds, c.isDigit = true)
    (hmax : (digitsValue ds : Int) ≤ INT_MAX) :
    extractInt ds = ((digitsValue ds : Int), true) := by
  cases ds with
  | nil => exact absurd rfl h0
  | cons d tl =>
    obtain ⟨_, hm, hp⟩ := isDigit_plain d (hd d (List.mem_cons_self _ _))
    have ht : List.takeWhile Char.isDigit (d :: tl) = d :: tl :=
      List.takeWhile_eq_self_iff.mpr hd
    have hdr : List.dropWhile Char.isDigit (d :: tl) = [] :=
      List.dropWhile_eq_nil_iff.mpr hd
    unfold extractInt
    have hneg : (((d :: tl).head? == some '-') : Bool) = false := by
      simp [hm]
    have hpos : (((d :: tl).head? == some '+') : Bool) = false := by
      simp [hp]
    simp only [hneg, hpos, Bool.or_self, Bool.false_eq_true, if_false, ht, hdr]
    have hmin : ¬ ((digitsValue (d :: tl) : Int) < INT_MIN) := by
      have : (0 : Int) ≤ (digitsValue (d :: tl) : Int) := Int.natCast_nonneg _
      unfold INT_MIN
      omega
    simp [not_lt.mpr hmax, hmin]


/-- The class and type parts of a declaration: with whitespace `lead`, an optional class word and
an optional type word in front of a text `R` that starts with the token `tok` (no word of a part
left out), `parse` arrives at step (3) with that token and with the class and type set. -/
theorem parse_class_type (enumCastClass : List Char → Option EqVariableClass)
    (enumCastType : List Char → Option EqVariableType)
    (hsep : SeparateNames enumCastClass enumCastType)
    (lead : List Char) (cls typ : Option (List Char × List Char)) (R tok pos : List Char)
    (hlead : Blank lead)
    (hcls : ValidWord enumCastClass cls (optWord typ R))
    (htyp : ValidWord enumCastType typ R)
    (hR : ∀ ws, Blank ws → CqPrimvarTokenizer.get (ws ++ R) = .ok (tok, pos))
    (htok : tok ≠ [])
    (h1 : typ = none → lowercaseEnumCast enumCastType tok = none)
    (h2 : cls = none → typ = none → lowercaseEnumCast enumCastClass tok = none) :
    parse enumCastClass enumCastType init (lead ++ optWord cls (optWord typ R))
      = parseArraySize
          { m_class := classOfPart enumCastClass cls, m_type := typeOfPart enumCastType typ,
            m_arraySize := 1, m_name := [] } tok pos := by
  unfold parse
  rcases cls with _ | ⟨c, ws1⟩
  · rcases typ with _ | ⟨t, ws2⟩
    · simp only [optWord]
      rw [NEXT_OR_END_token _ _ tok pos _ (hR lead hlead) htok]
      simp only [h2 rfl rfl, ne_eq, not_true_eq_false, if_false]
      unfold parseType
      simp only [h1 rfl, ne_eq, not_true_eq_false, if_false]
      rfl
    · simp only [optWord]
      obtain ⟨hw, hc, hb, he⟩ := htyp
      rw [NEXT_OR_END_token _ _ t (ws2 ++ R) _ (get_word lead t _ hlead hw he) hw.1]
      simp only [hsep.1 t hc, ne_eq, not_true_eq_false, if_false]
      unfold parseType
      simp only [hc, ne_eq, not_false_eq_true, if_true]
      rw [NEXT_OR_END_token _ _ tok pos _ (hR ws2 hb) htok]
      rfl
  · obtain ⟨hw, hc, hb, he⟩ := hcls
    rcases typ with _ | ⟨t, ws2⟩
    · simp only [optWord] at he ⊢
      rw [NEXT_OR_END_token _ _ c (ws1 ++ R) _ (get_word lead c _ hlead hw he) hw.1]
      simp only [hc, ne_eq, not_false_eq_true, if_true]
      rw [NEXT_OR_END_token _ _ tok pos _ (hR ws1 hb) htok]
      unfold parseType
      simp only [h1 rfl, ne_eq, not_true_eq_false, if_false]
      rfl
    · simp only [optWord] at he ⊢
      obtain ⟨hw2, hc2, hb2, he2⟩ := htyp
      rw [NEXT_OR_END_token _ _ c (ws1 ++ (t ++ (ws2 ++ R))) _
        (get_word lead c _ hlead hw he) hw.1]
      simp only [hc, ne_eq, not_false_eq_true, if_true]
      rw [NEXT_OR_END_token _ _ t (ws2 ++ R) _ (get_word ws1 t _ hb hw2 he2) hw2.1]
      unfold parseType
      simp only [hc2, ne_eq, not_false_eq_true, if_true]
      rw [NEXT_OR_END_token _ _ tok pos _ (hR ws2 hb2) htok]
      rfl

/-- The class and type parts of a declaration with nothing after them. -/
theorem parse_class_type_only (enumCastClass : List Char → Option EqVariableClass)
    (enumCastType : List Char → Option EqVariableType)
    (hsep : SeparateNames enumCastClass enumCastType)
    (lead : List Char) (cls typ : Option (List Char × List Char))
    (hlead : Blank lead)
    (hcls : ValidWord enumCastClass cls (optWord typ []))
    (htyp : ValidWord enumCastType typ []) :
    parse enumCastClass enumCastType init (lead ++ optWord cls (optWord typ []))
      = .ok { m_class := classOfPart enumCastClass cls, m_type := typeOfPart enumCastType typ,
              m_arraySize := 1, m_name := [] } := by
  unfold parse
  rcases cls with _ | ⟨c, ws1⟩
  · rcases typ with _ | ⟨t, ws2⟩
    · simp only [optWord, List.append_nil]
      rw [NEXT_OR_END_blank _ _ hlead]
      rfl
    · simp only [optWord, List.append_nil]
      obtain ⟨hw, hc, hb, he⟩ := htyp
      rw [List.append_nil] at he
      rw [NEXT_OR_END_token _ _ t ws2 _ (get_word lead t _ hlead hw he) hw.1]
      simp only [hsep.1 t hc, ne_eq, not_true_eq_false, if_false]
      unfold parseType
      simp only [hc, ne_eq, not_false_eq_true, if_true]
      rw [NEXT_OR_END_blank _ _ hb]
      rfl
  · obtain ⟨hw, hc, hb, he⟩ := hcls
    rcases typ with _ | ⟨t, ws2⟩
    · simp only [optWord, List.append_nil] at he ⊢
      rw [NEXT_OR_END_token _ _ c ws1 _ (get_word lead c _ hlead hw he) hw.1]
      simp only [hc, ne_eq, not_false_eq_true, if_true]
      rw [NEXT_OR_END_blank _ _ hb]
      rfl
    · simp only [optWord, List.append_nil] at he ⊢
      obtain ⟨hw2, hc2, hb2, he2⟩ := htyp
      rw [List.append_nil] at he2
      rw [NEXT_OR_END_token _ _ c (ws1 ++ (t ++ ws2)) _
        (get_word lead c _ hlead hw he) hw.1]
      simp only [hc, ne_eq, not_false_eq_true, if_true]
      rw [NEXT_OR_END_token _ _ t ws2 _ (get_word ws1 t _ hb hw2 he2) hw2.1]
      unfold parseType
      simp only [hc2, ne_eq, not_false_eq_true, if_true]
      rw [NEXT_OR_END_blank _ _ hb2]
      rfl

/-- Step (4) on a word: the word becomes the name when nothing but whitespace follows. -/
theorem parseName_word (self : CqPrimvarToken) (x after : List Char) (hx : Word x)
    (ha : Blank after) : parseName self x after = .ok { self with m_name := x } := by
  unfold parseName
  rw [if_neg (Word_ne_bracket x hx ']' (by decide)), get_blank after ha]
  simp

/-- Step (4) on a word that something follows: an error. -/
theorem parseName_more (self : CqPrimvarToken) (x after : List Char)
    (ha : ∀ p, CqPrimvarTokenizer.get after ≠ .ok ([], p)) :
    ∃ e, parseName self x after = .error e := by
  unfold parseName
  by_cases hb : x = [']']
  · exact ⟨_, if_pos hb⟩
  · rw [if_neg hb]
    cases hg : CqPrimvarTokenizer.get after with
    | error e => exact ⟨e, rfl⟩
    | ok r =>
      obtain ⟨t, p⟩ := r
      have ht : t ≠ [] := by
        intro e
        subst e
        exact ha p hg
      exact ⟨.tooManyTokens, by simp [ht]⟩

/-- Step (3) on a word: the word goes to step (4). -/
theorem parseArraySize_word (self : CqPrimvarToken) (x after : List Char) (hx : Word x) :
    parseArraySize self x after = parseName self x after := by
  unfold parseArraySize
  rw [if_neg (Word_ne_bracket x hx '[' (by decide))]

/-- Step (3) on a well-formed array size: the value of the digits is stored, and the parser
reads on after the closing bracket. -/
theorem parseArraySize_bracketed (self : CqPrimvarToken) (w3 ds w4 w5 rest : List Char)
    (h : ValidArray (some (w3, ds, w4, w5))) :
    parseArraySize self ['['] (w3 ++ (ds ++ (w4 ++ (']' :: (w5 ++ rest)))))
      = NEXT_OR_END { self with m_arraySize := (digitsValue ds : Int) } (w5 ++ rest)
          (parseName { self with m_arraySize := (digitsValue ds : Int) }) := by
  obtain ⟨h3, h0, hd, hpos, hmax, h4, h5⟩ := h
  unfold parseArraySize
  rw [if_pos rfl]
  have e : endsWord (w4 ++ (']' :: (w5 ++ rest))) = true := by
    cases w4 with
    | nil => rfl
    | cons a tl =>
      have := h4 a (List.mem_cons_self _ _)
      simp [endsWord, this]
  rw [get_word w3 ds _ h3 (digits_word ds h0 hd) e]
  simp only [h0, if_false, extractInt_digits ds h0 hd hmax]
  have hp : ¬ ((digitsValue ds : Int) ≤ 0) := by omega
  simp only [hp, false_or, Bool.true_eq_false, if_false]
  rw [get_bracket w4 _ h4 ']' (by decide)]
  simp


theorem endsWord_blank_append (ws rest : List Char) (hws : Blank ws) (h : ws ≠ []) :
    endsWord (ws ++ rest) = true := by
  cases ws with
  | nil => exact absurd rfl h
  | cons a tl =>
    have := hws a (List.mem_cons_self _ _)
    simp [endsWord, this]

theorem endsWord_of_blank (ws : List Char) (hws : Blank ws) : endsWord ws = true := by
  cases ws with
  | nil => rfl
  | cons a tl =>
    have := hws a (List.mem_cons_self _ _)
    simp [endsWord, this]

/-- A declaration with a name: `parse` arrives at step (4) with the name as the token and with
class, type and array size set from the parts before it. -/
theorem parse_declaration (enumCastClass : List Char → Option EqVariableClass)
    (enumCastType : List Char → Option EqVariableType)
    (hsep : SeparateNames enumCastClass enumCastType)
    (lead : List Char) (cls typ : Option (List Char × List Char))
    (arr : Option (List Char × List Char × List Char × List Char)) (x after : List Char)
    (hlead : Blank lead)
    (hcls : ValidWord enumCastClass cls (optWord typ (optArray arr (x ++ after))))
    (htyp : ValidWord enumCastType typ (optArray arr (x ++ after)))
    (harr : ValidArray arr) (hx : Word x) (hafter : endsWord after = true)
    (hres : NameNotReserved enumCastClass enumCastType cls typ arr x) :
    parse enumCastClass enumCastType init
        (lead ++ optWord cls (optWord typ (optArray arr (x ++ after))))
      = parseName
          { m_class := classOfPart enumCastClass cls, m_type := typeOfPart enumCastType typ,
            m_arraySize := sizeOfPart arr, m_name := [] } x after := by
  rcases arr with _ | ⟨w3, ds, w4, w5⟩
  · simp only [optArray] at hcls htyp ⊢
    rw [parse_class_type enumCastClass enumCastType hsep lead cls typ (x ++ after) x after hlead
      hcls htyp (fun ws hws => get_word ws x after hws hx hafter) hx.1
      (fun h => hres.1 h rfl) (fun h1 h2 => hres.2 h1 h2 rfl)]
    rw [parseArraySize_word _ x after hx]
    rfl
  · simp only [optArray, bracketed] at hcls htyp ⊢
    rw [parse_class_type enumCastClass enumCastType hsep lead cls typ _ ['[']
      (w3 ++ (ds ++ (w4 ++ (']' :: (w5 ++ (x ++ after)))))) hlead hcls htyp
      (fun ws hws => get_bracket ws _ hws '[' (by decide)) (by simp)
      (fun _ => hsep.2.2) (fun _ _ => hsep.2.1)]
    rw [parseArraySize_bracketed _ w3 ds w4 w5 _ harr]
    rw [NEXT_OR_END_token _ _ x after _ (get_word w5 x after harr.2.2.2.2.2.2 hx hafter) hx.1]
    rfl

/-- A declaration without a name: `parse` returns with class, type and array size set. -/
theorem parse_declaration_nameless (enumCastClass : List Char → Option EqVariableClass)
    (enumCastType : List Char → Option EqVariableType)
    (hsep : SeparateNames enumCastClass enumCastType)
    (lead : List Char) (cls typ : Option (List Char × List Char))
    (arr : Option (List Char × List Char × List Char × List Char))
    (hlead : Blank lead)
    (hcls : ValidWord enumCastClass cls (optWord typ (optArray arr [])))
    (htyp : ValidWord enumCastType typ (optArray arr []))
    (harr : ValidArray arr) :
    parse enumCastClass enumCastType init (lead ++ optWord cls (optWord typ (optArray arr [])))
      = .ok { m_class := classOfPart enumCastClass cls, m_type := typeOfPart enumCastType typ,
              m_arraySize := sizeOfPart arr, m_name := [] } := by
  rcases arr with _ | ⟨w3, ds, w4, w5⟩
  · simp only [optArray] at hcls htyp ⊢
    rw [parse_class_type_only enumCastClass enumCastType hsep lead cls typ hlead hcls htyp]
    rfl
  · simp only [optArray, bracketed] at hcls htyp ⊢
    rw [parse_class_type enumCastClass enumCastType hsep lead cls typ _ ['[']
      (w3 ++ (ds ++ (w4 ++ (']' :: (w5 ++ []))))) hlead hcls htyp
      (fun ws hws => get_bracket ws _ hws '[' (by decide)) (by simp)
      (fun _ => hsep.2.2) (fun _ _ => hsep.2.1)]
    rw [parseArraySize_bracketed _ w3 ds w4 w5 _ harr]
    rw [List.append_nil, NEXT_OR_END_blank _ _ harr.2.2.2.2.2.2]
    rfl

/-- The name tables of the examples keep the parts of a declaration apart. -/
theorem Examples_separate : SeparateNames Examples.enumCastClass Examples.enumCastType := by
  refine ⟨?_, by rfl, by rfl⟩
  intro w h
  unfold lowercaseEnumCast at h ⊢
  unfold Examples.enumCastType at h
  split_ifs at h with h1 h2 h3 h4 h5 h6 h7 h8 h9
  · rw [h1]; rfl
  · rw [h2]; rfl
  · rw [h3]; rfl
  · rw [h4]; rfl
  · rw [h5]; rfl
  · rw [h6]; rfl
  · rw [h7]; rfl
  · rw [h8]; rfl
  · rw [h9]; rfl
  · exact absurd rfl h


/-- C27 (as the code has it): for name tables that keep the parts apart, whitespace `lead`, an
optional class word (any letter case), an optional type word, an optional array size `[n]` with
`0 < n ≤ INT_MAX` and a name `x` of plain characters, with any whitespace between the tokens
(none is needed next to a bracket) and after the name, the constructor `CqPrimvarToken(token)`
yields that class (uniform without a class word), that type, the array size `n` (1 without
`[n]`) and the name `x`, provided that `x` is not a type word when type and array size are left
out, and not a class word when the class is left out as well. -/
theorem CqPrimvarToken_parses_declaration
    (enumCastClass : List Char → Option EqVariableClass)
    (enumCastType : List Char → Option EqVariableType)
    (hsep : SeparateNames enumCastClass enumCastType)
    (lead : List Char) (cls typ : Option (List Char × List Char))
    (arr : Option (List Char × List Char × List Char × List Char)) (x after : List Char)
    (hlead : Blank lead)
    (hcls : ValidWord enumCastClass cls (optWord typ (optArray arr (x ++ after))))
    (htyp : ValidWord enumCastType typ (optArray arr (x ++ after)))
    (harr : ValidArray arr) (hx : Word x) (hafter : Blank after)
    (hres : NameNotReserved enumCastClass enumCastType cls typ arr x) :
    ofToken enumCastClass enumCastType
        (some (lead ++ optWord cls (optWord typ (optArray arr (x ++ after)))))
      = .ok { m_class := some ((classOfPart enumCastClass cls).getD .class_uniform),
              m_type := typeOfPart enumCastType typ,
              m_arraySize := sizeOfPart arr,
              m_name := x } := by
  unfold ofToken
  simp only []
  rw [parse_declaration enumCastClass enumCastType hsep lead cls typ arr x after hlead hcls htyp
    harr hx (endsWord_of_blank after hafter) hres]
  rw [parseName_word _ x after hx hafter]
  simp only []
  cases hc : classOfPart enumCastClass cls with
  | none => simp [hx.1]
  | some v => simp [hx.1]

/-- C27 at the text `Vertex FLOAT[3]P`: class vertex, type float, array size 3, name `P`. -/
theorem CqPrimvarToken_parses_declaration_witness :
    ofToken Examples.enumCastClass Examples.enumCastType
        (some ([] ++ optWord (some ("Vertex".toList, " ".toList))
          (optWord (some ("FLOAT".toList, []))
            (optArray (some ([], "3".toList, [], [])) ("P".toList ++ [])))))
      = .ok { m_class := some ((classOfPart Examples.enumCastClass
                (some ("Vertex".toList, " ".toList))).getD .class_uniform),
              m_type := typeOfPart Examples.enumCastType (some ("FLOAT".toList, [])),
              m_arraySize := sizeOfPart (some ([], "3".toList, [], [])),
              m_name := "P".toList } :=
  CqPrimvarToken_parses_declaration Examples.enumCastClass Examples.enumCastType
    Examples_separate [] (some ("Vertex".toList, " ".toList)) (some ("FLOAT".toList, []))
    (some ([], "3".toList, [], [])) "P".toList []
    (by unfold Blank; decide)
    ⟨⟨by decide, by decide⟩, by decide, by unfold Blank; decide, by rfl⟩
    ⟨⟨by decide, by decide⟩, by decide, by unfold Blank; decide, by rfl⟩
    ⟨by unfold Blank; decide, by decide, by decide, by decide, by decide,
      by unfold Blank; decide, by unfold Blank; decide⟩
    ⟨by decide, by decide⟩ (by unfold Blank; decide)
    ⟨(fun h => by cases h), (fun h => by cases h)⟩

/-- C27 fails as stated, in two ways.  The word `color` is a name of plain characters; alone,
with class, type and array size left out, it is taken for the type and the constructor raises
`XqParseError` for want of a name.  And the positive integer 4294967296 is above `INT_MAX`:
from `[4294967296] x` the constructor yields the array size 2147483647. -/
theorem CqPrimvarToken_reserved_name_counterexample :
    Word "color".toList ∧
      ofToken Examples.enumCastClass Examples.enumCastType (some "color".toList)
        = .error .expectedName ∧
      digitsValue "4294967296".toList = 4294967296 ∧
      ofToken Examples.enumCastClass Examples.enumCastType (some "[4294967296] x".toList)
        = .ok { m_class := some .class_uniform, m_type := none, m_arraySize := 2147483647,
                m_name := "x".toList } :=
  ⟨⟨by decide, by decide⟩, by rfl, by rfl, by rfl⟩


/-- Step (4) on a word either raises or stores the word as the name. -/
theorem parseName_cases (self : CqPrimvarToken) (x after : List Char) :
    (∃ e, parseName self x after = .error e) ∨
      parseName self x after = .ok { self with m_name := x } := by
  unfold parseName
  by_cases hb : x = [']']
  · exact Or.inl ⟨_, if_pos hb⟩
  · rw [if_neg hb]
    cases hg : CqPrimvarTokenizer.get after with
    | error e => exact Or.inl ⟨e, rfl⟩
    | ok r =>
      obtain ⟨t, p⟩ := r
      by_cases ht : t = []
      · exact Or.inr (by simp [ht])
      · exact Or.inl ⟨.tooManyTokens, by simp [ht]⟩

/-- C28: the constructor `CqPrimvarToken(token)` raises `XqParseError` when the token string
holds no name: a null pointer, or whitespace with an optional class word, type word and array
size and nothing else (the empty string among them).  The constructor
`CqPrimvarToken(typeToken, name)` gives on such strings a token whose name is the given name,
and raises when `typeToken` is a declaration with a name.  A declaration whose name is followed
by a further token (the tokenizer does not find an empty token after the name) is refused by
both constructors. -/
theorem CqPrimvarToken_name_errors
    (enumCastClass : List Char → Option EqVariableClass)
    (enumCastType : List Char → Option EqVariableType)
    (hsep : SeparateNames enumCastClass enumCastType) :
    ofToken enumCastClass enumCastType none = .error .expectedName ∧
    (∀ name, ofTypeToken enumCastClass enumCastType none name
      = .ok { m_class := some .class_uniform, m_type := none, m_arraySize := 1,
              m_name := name }) ∧
    (∀ (lead : List Char) (cls typ : Option (List Char × List Char))
        (arr : Option (List Char × List Char × List Char × List Char)),
      Blank lead → ValidWord enumCastClass cls (optWord typ (optArray arr [])) →
      ValidWord enumCastType typ (optArray arr []) → ValidArray arr →
      ofToken enumCastClass enumCastType
          (some (lead ++ optWord cls (optWord typ (optArray arr []))))
        = .error .expectedName ∧
      ∀ name, ofTypeToken enumCastClass enumCastType
          (some (lead ++ optWord cls (optWord typ (optArray arr [])))) name
        = .ok { m_class := some ((classOfPart enumCastClass cls).getD .class_uniform),
                m_type := typeOfPart enumCastType typ,
                m_arraySize := sizeOfPart arr,
                m_name := name }) ∧
    (∀ (lead : List Char) (cls typ : Option (List Char × List Char))
        (arr : Option (List Char × List Char × List Char × List Char)) (x after : List Char),
      Blank lead → ValidWord enumCastClass cls (optWord typ (optArray arr (x ++ after))) →
      ValidWord enumCastType typ (optArray arr (x ++ after)) → ValidArray arr →
      Word x → endsWord after = true →
      NameNotReserved enumCastClass enumCastType cls typ arr x →
      (∀ name, ∃ e, ofTypeToken enumCastClass enumCastType
          (some (lead ++ optWord cls (optWord typ (optArray arr (x ++ after))))) name
        = .error e) ∧
      ((∀ p, CqPrimvarTokenizer.get after ≠ .ok ([], p)) →
        ∃ e, ofToken enumCastClass enumCastType
          (some (lead ++ optWord cls (optWord typ (optArray arr (x ++ after)))))
        = .error e)) := by
  refine ⟨rfl, fun _ => rfl, ?_, ?_⟩
  · intro lead cls typ arr hlead hcls htyp harr
    have hp := parse_declaration_nameless enumCastClass enumCastType hsep lead cls typ arr
      hlead hcls htyp harr
    constructor
    · unfold ofToken
      simp only []
      rw [hp]
      simp only []
      cases hc : classOfPart enumCastClass cls with
      | none => simp
      | some v => simp
    · intro name
      unfold ofTypeToken
      simp only []
      rw [hp]
      simp only []
      cases hc : classOfPart enumCastClass cls with
      | none => simp
      | some v => simp
  · intro lead cls typ arr x after hlead hcls htyp harr hx hafter hres
    have hp := parse_declaration enumCastClass enumCastType hsep lead cls typ arr x after
      hlead hcls htyp harr hx hafter hres
    constructor
    · intro name
      unfold ofTypeToken
      simp only []
      rw [hp]
      rcases parseName_cases
        { m_class := classOfPart enumCastClass cls, m_type := typeOfPart enumCastType typ,
          m_arraySize := sizeOfPart arr, m_name := [] } x after with ⟨e, he⟩ | hok
      · rw [he]
        exact ⟨e, rfl⟩
      · rw [hok]
        exact ⟨.unexpectedName, by simp [hx.1]⟩
    · intro hmore
      unfold ofToken
      simp only []
      rw [hp]
      obtain ⟨e, he⟩ := parseName_more
        { m_class := classOfPart enumCastClass cls, m_type := typeOfPart enumCastType typ,
          m_arraySize := sizeOfPart arr, m_name := [] } x after hmore
      rw [he]
      exact ⟨e, rfl⟩

/-- C28 with the name tables of the examples: `vertex float` has no name, so the one-argument
constructor raises and the two-argument one takes the given name `Cs`; `float P` has a name, so
the two-argument constructor raises; `float P Q` has a token after the name, so the
one-argument constructor raises. -/
theorem CqPrimvarToken_name_errors_witness :
    (ofToken Examples.enumCastClass Examples.enumCastType
        (some ([] ++ optWord (some ("vertex".toList, " ".toList))
          (optWord (some ("float".toList, [])) (optArray none []))))
      = .error .expectedName ∧
    ofTypeToken Examples.enumCastClass Examples.enumCastType
        (some ([] ++ optWord (some ("vertex".toList, " ".toList))
          (optWord (some ("float".toList, [])) (optArray none [])))) "Cs".toList
      = .ok { m_class := some ((classOfPart Examples.enumCastClass
                (some ("vertex".toList, " ".toList))).getD .class_uniform),
              m_type := typeOfPart Examples.enumCastType (some ("float".toList, [])),
              m_arraySize := sizeOfPart none,
              m_name := "Cs".toList }) ∧
    (∃ e, ofTypeToken Examples.enumCastClass Examples.enumCastType
        (some ([] ++ optWord none (optWord (some ("float".toList, " ".toList))
          (optArray none ("P".toList ++ " Q".toList))))) "Cs".toList = .error e) ∧
    (∃ e, ofToken Examples.enumCastClass Examples.enumCastType
        (some ([] ++ optWord none (optWord (some ("float".toList, " ".toList))
          (optArray none ("P".toList ++ " Q".toList))))) = .error e) :=
  ⟨(((CqPrimvarToken_name_errors Examples.enumCastClass Examples.enumCastType
        Examples_separate).2.2.1 [] (some ("vertex".toList, " ".toList))
        (some ("float".toList, [])) none
        (by unfold Blank; decide)
        ⟨⟨by decide, by decide⟩, by decide, by unfold Blank; decide, by rfl⟩
        ⟨⟨by decide, by decide⟩, by decide, by unfold Blank; decide, by rfl⟩
        trivial).imp_right (fun h => h "Cs".toList)),
   ((CqPrimvarToken_name_errors Examples.enumCastClass Examples.enumCastType
        Examples_separate).2.2.2 [] none (some ("float".toList, " ".toList)) none
        "P".toList " Q".toList
        (by unfold Blank; decide) trivial
        ⟨⟨by decide, by decide⟩, by decide, by unfold Blank; decide, by rfl⟩
        trivial ⟨by decide, by decide⟩ (by rfl)
        ⟨(fun h => by cases h), (fun _ h => by cases h)⟩).1 "Cs".toList,
   ((CqPrimvarToken_name_errors Examples.enumCastClass Examples.enumCastType
        Examples_separate).2.2.2 [] none (some ("float".toList, " ".toList)) none
        "P".toList " Q".toList
        (by unfold Blank; decide) trivial
        ⟨⟨by decide, by decide⟩, by decide, by unfold Blank; decide, by rfl⟩
        trivial ⟨by decide, by decide⟩ (by rfl)
        ⟨(fun h => by cases h), (fun _ h => by cases h)⟩).2
      (by intro p h; cases h)⟩


/-- What holds of the object when `NEXT_OR_END` returns and of every result of the rest of
`parse` holds of the result. -/
theorem NEXT_OR_END_ok (P : CqPrimvarToken → Prop) (self : CqPrimvarToken) (pos : List Char)
    (k : List Char → List Char → Except XqParseError CqPrimvarToken) (r : CqPrimvarToken)
    (h0 : P self) (hk : ∀ tok pos1 r1, k tok pos1 = .ok r1 → P r1)
    (h : NEXT_OR_END self pos k = .ok r) : P r := by
  unfold NEXT_OR_END at h
  cases hg : CqPrimvarTokenizer.get pos with
  | error e => rw [hg] at h; cases h
  | ok q =>
    obtain ⟨tok, pos1⟩ := q
    rw [hg] at h
    simp only [] at h
    by_cases ht : tok = []
    · rw [if_pos ht] at h
      cases h
      exact h0
    · rw [if_neg ht] at h
      exact hk tok pos1 r h

theorem parseName_arraySize (self : CqPrimvarToken) (tok pos : List Char) (r : CqPrimvarToken)
    (h : parseName self tok pos = .ok r) : r.m_arraySize = self.m_arraySize := by
  rcases parseName_cases self tok pos with ⟨e, he⟩ | hok
  · rw [he] at h; cases h
  · rw [hok] at h; cases h; rfl

theorem parseArraySize_pos (self : CqPrimvarToken) (tok pos : List Char) (r : CqPrimvarToken)
    (h0 : 1 ≤ self.m_arraySize) (h : parseArraySize self tok pos = .ok r) :
    1 ≤ r.m_arraySize := by
  unfold parseArraySize at h
  by_cases hb : tok = ['[']
  · rw [if_pos hb] at h
    cases hg : CqPrimvarTokenizer.get pos with
    | error e => rw [hg] at h; cases h
    | ok q =>
      obtain ⟨tok1, pos1⟩ := q
      rw [hg] at h
      simp only [] at h
      by_cases h1 : tok1 = []
      · rw [if_pos h1] at h; cases h
      · rw [if_neg h1] at h
        by_cases h2 : (extractInt tok1).1 ≤ 0 ∨ (extractInt tok1).2 = false
        · rw [if_pos h2] at h; cases h
        · rw [if_neg h2] at h
          cases hg1 : CqPrimvarTokenizer.get pos1 with
          | error e => rw [hg1] at h; cases h
          | ok q1 =>
            obtain ⟨tok2, pos2⟩ := q1
            rw [hg1] at h
            simp only [] at h
            by_cases h3 : tok2 ≠ [']']
            · rw [if_pos h3] at h; cases h
            · rw [if_neg h3] at h
              have hp : (1 : Int) ≤ (extractInt tok1).1 := by
                have := not_or.mp h2
                omega
              refine NEXT_OR_END_ok (fun r => 1 ≤ r.m_arraySize) _ _ _ r hp ?_ h
              intro t p r1 hr1
              rw [parseName_arraySize _ _ _ _ hr1]
              exact hp
  · rw [if_neg hb] at h
    rw [parseName_arraySize _ _ _ _ h]
    exact h0

theorem parseType_pos (enumCastType : List Char → Option EqVariableType)
    (self : CqPrimvarToken) (tok pos : List Char) (r : CqPrimvarToken)
    (h0 : 1 ≤ self.m_arraySize) (h : parseType enumCastType self tok pos = .ok r) :
    1 ≤ r.m_arraySize := by
  unfold parseType at h
  by_cases hc : lowercaseEnumCast enumCastType tok ≠ none
  · rw [if_pos hc] at h
    exact NEXT_OR_END_ok (fun r => 1 ≤ r.m_arraySize) _ _ _ r (by exact h0)
      (fun t p r1 hr1 => parseArraySize_pos _ t p r1 (by exact h0) hr1) h
  · rw [if_neg hc] at h
    exact parseArraySize_pos _ tok pos r (by exact h0) h

theorem parse_pos (enumCastClass : List Char → Option EqVariableClass)
    (enumCastType : List Char → Option EqVariableType)
    (self : CqPrimvarToken) (tokenStr : List Char) (r : CqPrimvarToken)
    (h0 : 1 ≤ self.m_arraySize) (h : parse enumCastClass enumCastType self tokenStr = .ok r) :
    1 ≤ r.m_arraySize := by
  unfold parse at h
  refine NEXT_OR_END_ok (fun r => 1 ≤ r.m_arraySize) _ _ _ r h0 ?_ h
  intro tok pos r1 hr1
  simp only [] at hr1
  by_cases hc : lowercaseEnumCast enumCastClass tok ≠ none
  · rw [if_pos hc] at hr1
    exact NEXT_OR_END_ok (fun r => 1 ≤ r.m_arraySize) _ _ _ r1 (by exact h0)
      (fun t p r2 hr2 => parseType_pos enumCastType _ t p r2 (by exact h0) hr2) hr1
  · rw [if_neg hc] at hr1
    exact parseType_pos enumCastType _ tok pos r1 (by exact h0) hr1

/-- Every token that one of the two constructors builds has an array size of at least 1. -/
theorem CqPrimvarToken_arraySize_pos (enumCastClass : List Char → Option EqVariableClass)
    (enumCastType : List Char → Option EqVariableType) (token : Option (List Char))
    (name : List Char) (r : CqPrimvarToken)
    (h : ofToken enumCastClass enumCastType token = .ok r ∨
      ofTypeToken enumCastClass enumCastType token name = .ok r) : 1 ≤ r.m_arraySize := by
  have key : ∀ s, (match token with
      | some s => parse enumCastClass enumCastType init s
      | none => .ok init) = .ok s → 1 ≤ s.m_arraySize := by
    intro s hs
    cases token with
    | none => cases hs; decide
    | some t => exact parse_pos enumCastClass enumCastType init t s (by decide) hs
  rcases h with h | h
  · unfold ofToken at h
    split at h
    · cases h
    · rename_i s hm
      have hs := key s hm
      simp only [] at h
      split_ifs at h <;> cases h <;> exact hs
  · unfold ofTypeToken at h
    split at h
    · cases h
    · rename_i s hm
      have hs := key s hm
      simp only [] at h
      split_ifs at h <;> cases h <;> exact hs

/-- C29 does not hold of the code: the text between the brackets of `float [99999999999abc] x`
is not entirely a decimal integer, and no `XqParseError` is raised.  The digits give a value
above `INT_MAX`, so the extraction fails and stores `INT_MAX`; `in.get()` on the failed stream
gives `EOF`, which the check `in.get() != EOF` takes for the end of the token.  The constructor
yields the array size 2147483647. -/
theorem CqPrimvarToken_array_size_leftover :
    extractInt "99999999999abc".toList = (INT_MAX, true) ∧
      ofToken Examples.enumCastClass Examples.enumCastType
          (some "float [99999999999abc] x".toList)
        = .ok { m_class := some .class_uniform, m_type := some .type_float,
                m_arraySize := 2147483647, m_name := "x".toList } :=
  ⟨by rfl, by rfl⟩

/-! ### Dicing of points and normals -/

/-- Two upward loops with the same bounds keep a relation between their states that every pair
of rounds keeps. -/
theorem forUp_rel {σ τ : Type} (R : Int → σ → τ → Prop) (lo hi : Int) (hle : lo ≤ hi)
    (f : Int → σ → σ) (g : Int → τ → τ) (s : σ) (t : τ) (h0 : R lo s t)
    (hstep : ∀ i a b, lo ≤ i → i < hi → R i a b → R (i + 1) (f i a) (g i b)) :
    R hi (forUp lo hi f s) (forUp lo hi g t) := by
  have h := forUp_induction_idx (fun i (x : σ × τ) => R i x.1 x.2) lo hi hle
    (fun i (x : σ × τ) => (f i x.1, g i x.2)) (s, t) h0
    (fun i x h1 h2 hx => hstep i x.1 x.2 h1 h2 hx)
  rw [forUp_pair] at h
  exact h

theorem CqVector3D_neg_def (a : CqVector3D) : -a = ⟨-a.x, -a.y, -a.z⟩ := rfl

theorem CqVector3D_neg_neg (a : CqVector3D) : -(-a) = a := by
  cases a
  simp only [CqVector3D_neg_def, neg_neg]

theorem CqVector3D_neg_zero : -(0 : CqVector3D) = 0 := by
  show CqVector3D.mk (-0) (-0) (-0) = CqVector3D.mk 0 0 0
  simp only [neg_zero]

theorem diceOne_opposite (ops : VectorOps) (fuel : Nat) (S : CqSurfaceNURBS)
    (uDiceSize vDiceSize : Int) (iv iu : Int)
    (a b : Option (List CqVector3D × List CqVector3D))
    (h : OppositeBelow (iv * (uDiceSize + 1) + iu) a b) :
    OppositeBelow (iv * (uDiceSize + 1) + iu + 1)
      (diceOne ops fuel S EqOrientation.OrientationLH uDiceSize vDiceSize iv iu a)
      (diceOne ops fuel S EqOrientation.OrientationRH uDiceSize vDiceSize iv iu b) := by
  rcases h with ⟨ha, hb⟩ | ⟨pP, nL, nR, ha, hb, hlen, hlt, hge⟩
  · subst ha
    subst hb
    exact Or.inl ⟨rfl, rfl⟩
  · subst ha
    subst hb
    unfold diceOne
    simp only []
    cases hE : EvaluateWithNormal ops fuel S
        (sample S.m_auKnots S.m_cuVerts S.m_uOrder iu uDiceSize)
        (sample S.m_avKnots S.m_cvVerts S.m_vOrder iv vDiceSize) with
    | none => exact Or.inl ⟨rfl, rfl⟩
    | some r =>
      obtain ⟨N4, P⟩ := r
      refine Or.inr ⟨_, _, _, rfl, rfl, ?_, ?_, ?_⟩
      · rw [wr_length, wr_length]
        exact hlen
      · intro t ht
        simp only [if_true, if_false, reduceCtorEq]
        rw [rd_wr, rd_wr]
        by_cases htn : iv * (uDiceSize + 1) + iu = t
        · by_cases hin : 0 ≤ iv * (uDiceSize + 1) + iu ∧
              iv * (uDiceSize + 1) + iu < (nL.length : Int)
          · rw [if_pos ⟨htn, hin⟩, if_pos ⟨htn, hin.1, by rw [← hlen]; exact hin.2⟩]
            exact (CqVector3D_neg_neg _).symm
          · rw [if_neg (fun c => hin c.2), if_neg (fun c => hin ⟨c.2.1, by rw [hlen]; exact c.2.2⟩)]
            have e := hge t (by omega)
            by_cases h0 : 0 ≤ t
            · have hout : (nL.length : Int) ≤ t := by
                by_contra hc
                exact hin ⟨by omega, by omega⟩
              rw [rd_ge nL t hout, rd_ge nR t (by rw [← hlen]; exact hout)]
              exact CqVector3D_neg_zero.symm
            · rw [rd_neg nL t (by omega), rd_neg nR t (by omega)]
              exact CqVector3D_neg_zero.symm
        · rw [if_neg (fun c => htn c.1), if_neg (fun c => htn c.1)]
          exact hlt t (by omega)
      · intro t ht
        simp only [if_true, if_false, reduceCtorEq]
        rw [rd_wr_ne _ _ _ _ (by omega), rd_wr_ne _ _ _ _ (by omega)]
        exact hge t (by omega)

/-- C21: for every surface, every pair of dice sizes and every pair of grids `pP`, `pNormals`,
the run of `DicePointsAndNormals` with the attribute `Orientation` equal to `OrientationLH` and
the run with `OrientationRH` either both fail (a span lookup runs out of fuel) or both succeed
with the same points, and then the normal stored at every grid index
`igrid < (uDiceSize + 1) * (vDiceSize + 1)` in the first run is the negation of the normal stored
there in the second. -/
theorem DicePointsAndNormals_orientation (ops : VectorOps) (fuel : Nat) (S : CqSurfaceNURBS)
    (uDiceSize vDiceSize : Nat) (pP pNormals : List CqVector3D) :
    (DicePointsAndNormals ops fuel S EqOrientation.OrientationLH uDiceSize vDiceSize pP pNormals
        = none ∧
      DicePointsAndNormals ops fuel S EqOrientation.OrientationRH uDiceSize vDiceSize pP pNormals
        = none) ∨
    ∃ P NL NR,
      DicePointsAndNormals ops fuel S EqOrientation.OrientationLH uDiceSize vDiceSize pP pNormals
        = some (P, NL) ∧
      DicePointsAndNormals ops fuel S EqOrientation.OrientationRH uDiceSize vDiceSize pP pNormals
        = some (P, NR) ∧
      ∀ igrid : Nat, igrid < (uDiceSize + 1) * (vDiceSize + 1) →
        rd NL (igrid : Int) = -rd NR (igrid : Int) := by
  have key : OppositeBelow (((vDiceSize : Int) + 1) * ((uDiceSize : Int) + 1))
      (DicePointsAndNormals ops fuel S EqOrientation.OrientationLH uDiceSize vDiceSize pP
        pNormals)
      (DicePointsAndNormals ops fuel S EqOrientation.OrientationRH uDiceSize vDiceSize pP
        pNormals) := by
    unfold DicePointsAndNormals
    refine forUp_rel (fun iv a b => OppositeBelow (iv * ((uDiceSize : Int) + 1)) a b)
      0 ((vDiceSize : Int) + 1) (by omega) _ _ _ _ ?_ ?_
    · refine Or.inr ⟨pP, pNormals, pNormals, rfl, rfl, rfl, ?_, fun _ _ => rfl⟩
      intro t ht
      rw [rd_neg _ _ (by omega)]
      exact CqVector3D_neg_zero.symm
    · intro iv a b hiv1 hiv2 hab
      have h := forUp_rel
        (fun iu a b => OppositeBelow (iv * ((uDiceSize : Int) + 1) + iu) a b)
        0 ((uDiceSize : Int) + 1) (by omega)
        (diceOne ops fuel S EqOrientation.OrientationLH uDiceSize vDiceSize iv)
        (diceOne ops fuel S EqOrientation.OrientationRH uDiceSize vDiceSize iv) a b
        (by simpa using hab)
        (fun iu x y _ _ hxy => by
          have := diceOne_opposite ops fuel S uDiceSize vDiceSize iv iu x y hxy
          rw [add_assoc] at this
          exact this)
      have e : (iv + 1) * ((uDiceSize : Int) + 1)
          = iv * ((uDiceSize : Int) + 1) + ((uDiceSize : Int) + 1) := by ring
      rw [e]
      exact h
  rcases key with hn | ⟨P, NL, NR, h1, h2, _, hlt, _⟩
  · exact Or.inl hn
  · refine Or.inr ⟨P, NL, NR, h1, h2, ?_⟩
    intro igrid hi
    apply hlt
    have : ((igrid : Nat) : Int) < (((uDiceSize + 1) * (vDiceSize + 1) : Nat) : Int) := by
      exact_mod_cast hi
    push_cast at this
    linarith [mul_comm ((uDiceSize : Int) + 1) ((vDiceSize : Int) + 1)]

/-- C21 on the unit square (a bilinear NURBS patch) diced 1 x 1: both runs succeed with the same
points, and at the grid index 3 the normals are opposite. -/
theorem DicePointsAndNormals_orientation_witness :
    ∃ P NL NR,
      DicePointsAndNormals Examples.planarOps 10 (Examples.rect 1 1)
          EqOrientation.OrientationLH (1 : Nat) (1 : Nat) (List.replicate 4 0)
          (List.replicate 4 0) = some (P, NL) ∧
      DicePointsAndNormals Examples.planarOps 10 (Examples.rect 1 1)
          EqOrientation.OrientationRH (1 : Nat) (1 : Nat) (List.replicate 4 0)
          (List.replicate 4 0) = some (P, NR) ∧
      rd NL ((3 : Nat) : Int) = -rd NR ((3 : Nat) : Int) := by
  rcases DicePointsAndNormals_orientation Examples.planarOps 10 (Examples.rect 1 1) 1 1
    (List.replicate 4 0) (List.replicate 4 0) with h | ⟨P, NL, NR, h1, h2, h3⟩
  · exact absurd h.1 (by decide!)
  · exact ⟨P, NL, NR, h1, h2, h3 3 (by decide)⟩

/-! ### `Split`: the children -/

theorem RefineKnotU_base_members (fuel : Nat) (S T : CqSurfaceNURBS) (X : List ℚ)
    (h : RefineKnotU fuel S X = some T) :
    T.m_fDiceable = S.m_fDiceable ∧ T.m_SplitDir = S.m_SplitDir ∧
      T.m_EyeSplitCount = S.m_EyeSplitCount := by
  unfold RefineKnotU at h
  split_ifs at h with hX
  · cases h
    exact ⟨rfl, rfl, rfl⟩
  · simp only [] at h
    split at h
    · cases h
      exact ⟨rfl, rfl, rfl⟩
    · cases h

theorem RefineKnotV_base_members (fuel : Nat) (S T : CqSurfaceNURBS) (X : List ℚ)
    (h : RefineKnotV fuel S X = some T) :
    T.m_fDiceable = S.m_fDiceable ∧ T.m_SplitDir = S.m_SplitDir ∧
      T.m_EyeSplitCount = S.m_EyeSplitCount := by
  unfold RefineKnotV at h
  split_ifs at h with hX
  · cases h
    exact ⟨rfl, rfl, rfl⟩
  · simp only [] at h
    split at h
    · cases h
      exact ⟨rfl, rfl, rfl⟩
    · cases h

theorem SplitNURBS_base_members (fuel : Nat) (S : CqSurfaceNURBS) (dirflag : Bool)
    (r : CqSurfaceNURBS × CqSurfaceNURBS × CqSurfaceNURBS)
    (h : SplitNURBS fuel S dirflag = some r) :
    r.1.m_fDiceable = S.m_fDiceable ∧ r.1.m_SplitDir = S.m_SplitDir ∧
      r.1.m_EyeSplitCount = S.m_EyeSplitCount := by
  unfold SplitNURBS at h
  rcases Option.bind_eq_some.mp h with ⟨plan, _, h1⟩
  rcases Option.map_eq_some'.mp h1 with ⟨T, hT, hr⟩
  subst hr
  cases dirflag
  · exact RefineKnotV_base_members fuel S T _ hT
  · exact RefineKnotU_base_members fuel S T _ hT

theorem Subdivide_base_members (env : SurfaceEnv) (fuel : Nat) (S : CqSurfaceNURBS)
    (r : CqSurfaceNURBS × CqSurfaceNURBS × CqSurfaceNURBS)
    (h : uSubdivide env fuel S = some r ∨ vSubdivide env fuel S = some r) :
    r.1.m_fDiceable = S.m_fDiceable ∧ r.1.m_SplitDir = S.m_SplitDir ∧
      r.1.m_EyeSplitCount = S.m_EyeSplitCount := by
  rcases h with h | h
  · unfold uSubdivide at h
    rcases Option.map_eq_some'.mp h with ⟨q, hq, hr⟩
    subst hr
    exact SplitNURBS_base_members fuel S true q hq
  · unfold vSubdivide at h
    rcases Option.map_eq_some'.mp h with ⟨q, hq, hr⟩
    subst hr
    exact SplitNURBS_base_members fuel S false q hq

/-- The children of a surface that is not a patch mesh: when `Split` returns, it has appended
four children to `aSplits` if the surface is marked not diceable and two otherwise, the count it
returns is their number, and every child has `m_fDiceable` set and the `m_EyeSplitCount` of the
surface. -/
theorem Split_children (env : SurfaceEnv) (fuel : Nat) (S : CqSurfaceNURBS)
    (aSplits : List CqSurfaceNURBS) (n : Int) (out : List CqSurfaceNURBS) (T : CqSurfaceNURBS)
    (hmesh : S.m_fPatchMesh = false) (h : Split env fuel S aSplits = some (n, out, T)) :
    ∃ children : List CqSurfaceNURBS, out = aSplits ++ children ∧
      (children.length : Int) = n ∧
      children.length = (if S.m_fDiceable = false then 4 else 2) ∧
      ∀ c ∈ children, c.m_fDiceable = true ∧ c.m_EyeSplitCount = S.m_EyeSplitCount := by
  unfold Split at h
  rw [if_neg (by rw [hmesh]; exact Bool.false_ne_true)] at h
  rcases Option.bind_eq_some.mp h with ⟨r, hr, h1⟩
  have hb : r.1.m_fDiceable = S.m_fDiceable ∧ r.1.m_SplitDir = S.m_SplitDir ∧
      r.1.m_EyeSplitCount = S.m_EyeSplitCount := by
    apply Subdivide_base_members env fuel S r
    split_ifs at hr
    · exact Or.inl hr
    · exact Or.inr hr
  simp only [] at h1
  by_cases hd : r.1.m_fDiceable = false
  · rw [if_pos hd] at h1
    rcases Option.bind_eq_some.mp h1 with ⟨r1, _, h2⟩
    rcases Option.map_eq_some'.mp h2 with ⟨r2, _, h3⟩
    simp only [Prod.mk.injEq] at h3
    obtain ⟨hn, hout, _⟩ := h3
    refine ⟨[adopt2 r.1 r1.2.1, adopt2 r.1 r1.2.2, adopt2 r.1 r2.2.1, adopt2 r.1 r2.2.2],
      ?_, ?_, ?_, ?_⟩
    · rw [← hout]
      simp
    · rw [← hn]
      rfl
    · rw [if_pos (by rw [← hb.1]; exact hd)]
      rfl
    · intro c hc
      simp only [List.mem_cons, List.mem_singleton, List.not_mem_nil, or_false] at hc
      rcases hc with e | e | e | e <;> subst e <;> exact ⟨rfl, hb.2.2⟩
  · rw [if_neg hd] at h1
    simp only [Option.some.injEq, Prod.mk.injEq] at h1
    obtain ⟨hn, hout, _⟩ := h1
    refine ⟨[adopt r.1 r.2.1, adopt r.1 r.2.2], hout.symm, ?_, ?_, ?_⟩
    · rw [← hn]
      rfl
    · rw [if_neg (by rw [← hb.1]; exact hd)]
      rfl
    · intro c hc
      simp only [List.mem_cons, List.mem_singleton, List.not_mem_nil, or_false] at hc
      rcases hc with e | e <;> subst e <;> exact ⟨rfl, hb.2.2⟩

/-- C22 does not hold of the code where it says that a surface marked not diceable gets one
split in each axis.  The unit square with `m_fDiceable` false and `m_SplitDir = SplitDir_V` is
split in `u` (the first test is `m_SplitDir == SplitDir_U || !m_fDiceable`), and then each half
is split in `u` again (the second test takes `uSubdivide` when `m_SplitDir` is not `SplitDir_U`):
`Split` returns 4, and the four children are the quarters `[0, 1/4]`, `[1/4, 1/2]`, `[1/2, 3/4]`,
`[3/4, 1]` of the `u` range, each with the whole `v` range `[0, 1]`.  Every child has
`m_fDiceable` set and the eye split count 3 of the surface. -/
theorem Split_not_diceable_splits_u_twice :
    (Split Examples.plainEnv 20 Examples.crossing []).map (fun r => r.1) = some 4 ∧
    (Split Examples.plainEnv 20 Examples.crossing []).map
        (fun r => r.2.1.map (fun c => c.m_auKnots))
      = some [[0, 0, 1/4, 1/4], [1/4, 1/4, 1/2, 1/2], [1/2, 1/2, 3/4, 3/4], [3/4, 3/4, 1, 1]] ∧
    (Split Examples.plainEnv 20 Examples.crossing []).map
        (fun r => r.2.1.map (fun c => c.m_avKnots))
      = some [[0, 0, 1, 1], [0, 0, 1, 1], [0, 0, 1, 1], [0, 0, 1, 1]] ∧
    (Split Examples.plainEnv 20 Examples.crossing []).map
        (fun r => r.2.1.map (fun c => (c.m_fDiceable, c.m_EyeSplitCount)))
      = some [(true, 3), (true, 3), (true, 3), (true, 3)] := by
  refine ⟨?_, ?_, ?_, ?_⟩ <;> decide!

/-! ### `SplitNURBS`: the value that is inserted -/

/-- The span lookup returns for every value when the knot vector is non-decreasing and of the
right length. -/
theorem findSpan_total (knots : List ℚ) (n order : Nat) (u : ℚ) (fuel : Nat)
    (hs : knots.Sorted (· ≤ ·)) (hlen : knots.length = n + order) (hord : 1 ≤ order)
    (hfuel : n + 1 ≤ fuel) : ∃ i, findSpan fuel knots n order u = some i := by
  obtain ⟨h1, h2, h3⟩ := findSpan_spec knots n order u fuel hs hlen hord hfuel
  rcases le_or_lt (rd knots (n : Int)) u with hn | hn
  · exact ⟨_, h3 hn⟩
  · rcases le_or_lt u (rd knots ((order - 1 : Nat) : Int)) with ho | ho
    · exact ⟨_, h2 ho hn⟩
    · obtain ⟨i, hi, _⟩ := h1 ho hn
      exact ⟨i, hi⟩

/-- The loop `while (aKnots[middex + 1] < midVal) middex++` stops within the fuel when a knot
that is not below `midVal` comes soon enough. -/
theorem searchCreate_total (aKnots : List ℚ) (midVal : ℚ) :
    ∀ (fuel m : Nat), (∃ j : Nat, m ≤ j ∧ j < m + fuel ∧ ¬ rd aKnots ((j : Int) + 1) < midVal) →
      ∃ r, searchCreate aKnots midVal fuel m = some r := by
  intro fuel
  induction fuel with
  | zero =>
    intro m ⟨j, h1, h2, _⟩
    omega
  | succ d ih =>
    intro m ⟨j, h1, h2, h3⟩
    unfold searchCreate
    by_cases hm : rd aKnots ((m : Int) + 1) < midVal
    · rw [if_pos hm]
      apply ih
      refine ⟨j, ?_, by omega, h3⟩
      rcases Nat.eq_or_lt_of_le h1 with e | e
      · subst e
        exact absurd hm h3
      · omega
    · rw [if_neg hm]
      exact ⟨m, rfl⟩

theorem u32_of_lt (x : Nat) (h : x < 4294967296) : u32 (x : Int) = x := by
  unfold u32
  omega

theorem splitKnots_values (Order : Nat) (midVal : ℚ) (middex same : Nat)
    (h : same ≤ Order) : ∀ x ∈ (splitKnots Order midVal middex same).anewKnots, x = midVal := by
  intro x hx
  unfold splitKnots at hx
  simp only [] at hx
  have hx2 := List.eq_of_mem_replicate hx
  rcases Nat.lt_or_ge same Order with hlt | hge
  · rw [if_pos hlt] at hx2
    exact hx2
  · have e : u32 ((Order : Int) - same) = 0 := by
      have : same = Order := by omega
      rw [this]
      unfold u32
      simp
    rw [e] at hx
    simp at hx

/-- The search for the multiple knot returns when `midVal` is not above the last knot. -/
theorem splitSearch_total (fuel : Nat) (aKnots : List ℚ) (Order last : Nat) (midVal : ℚ)
    (middex0 : Nat) (hsl : 1 ≤ last) (hfuel : last ≤ fuel)
    (hmid : midVal ≤ rd aKnots (last : Int)) :
    ∃ plan, splitSearch fuel aKnots Order last midVal middex0 = some plan ∧
      (plan.same ≤ Order → ∀ x ∈ plan.anewKnots, x = midVal) := by
  unfold splitSearch
  simp only []
  have hc : ∃ r, searchCreate aKnots midVal fuel 0 = some r := by
    apply searchCreate_total
    refine ⟨last - 1, by omega, by omega, ?_⟩
    have e : ((last - 1 : Nat) : Int) + 1 = (last : Int) := by omega
    rw [e]
    exact not_lt.mpr hmid
  have aux : ∀ found : Nat × Nat × Nat, ∃ plan,
      (if found.1 ≤ 0 then
        (searchCreate aKnots midVal fuel 0).map (fun m => splitKnots Order midVal m 0)
      else some (splitKnots Order midVal found.2.1 found.2.2)) = some plan ∧
      (plan.same ≤ Order → ∀ x ∈ plan.anewKnots, x = midVal) := by
    intro found
    by_cases h1 : found.1 ≤ 0
    · rw [if_pos h1]
      obtain ⟨r, hr⟩ := hc
      rw [hr]
      exact ⟨_, rfl, fun h => splitKnots_values Order midVal r 0 h⟩
    · rw [if_neg h1]
      exact ⟨_, rfl, fun h => splitKnots_values Order midVal _ _ h⟩
  exact aux _

/-- C25 (as the code has it): for a surface whose knot vector in the direction of the split is
non-decreasing and of length `cVerts + Order`, `SplitNURBS` finds its plan and refines with the
knots of the plan; when the multiplicity `same` that it has counted is at most `Order`, every
knot that it inserts is `(aKnots[0] + aKnots[cVerts + Order - 1]) / 2`, the midpoint of the whole
knot vector.  This is the midpoint `(aKnots[Order - 1] + aKnots[cVerts]) / 2` of the active
range when the knot vector is clamped (`aKnots[0] = aKnots[Order - 1]` and
`aKnots[cVerts] = aKnots[cVerts + Order - 1]`).  The first part is `uSubdivide` (`dirflag` true),
the second `vSubdivide`. -/
theorem SplitNURBS_split_value (fuel : Nat) (S : CqSurfaceNURBS) :
    (S.m_auKnots.Sorted (· ≤ ·) → S.m_auKnots.length = S.m_cuVerts + S.m_uOrder →
      1 ≤ S.m_uOrder → 1 ≤ S.m_cuVerts → S.m_cuVerts + S.m_uOrder < 4294967296 →
      S.m_cuVerts + S.m_uOrder ≤ fuel →
      ∃ plan, splitPlan fuel S true = some plan ∧
        SplitNURBS fuel S true = (RefineKnotU fuel S plan.anewKnots).map (fun T =>
          (T, splitChildA T true (u32 plan.SplitPoint),
            splitChildB T true (u32 ((u32 plan.SplitPoint : Int) + 1)))) ∧
        (plan.same ≤ S.m_uOrder → ∀ x ∈ plan.anewKnots,
          x = (rd S.m_auKnots 0 + rd S.m_auKnots ((S.m_cuVerts + S.m_uOrder - 1 : Nat) : Int)) / 2
          ∧ (rd S.m_auKnots 0 = rd S.m_auKnots (S.uDegree : Int) →
              rd S.m_auKnots (S.m_cuVerts : Int)
                = rd S.m_auKnots ((S.m_cuVerts + S.m_uOrder - 1 : Nat) : Int) →
              x = (rd S.m_auKnots (S.uDegree : Int) + rd S.m_auKnots (S.m_cuVerts : Int)) / 2)))
    ∧
    (S.m_avKnots.Sorted (· ≤ ·) → S.m_avKnots.length = S.m_cvVerts + S.m_vOrder →
      1 ≤ S.m_vOrder → 1 ≤ S.m_cvVerts → S.m_cvVerts + S.m_vOrder < 4294967296 →
      S.m_cvVerts + S.m_vOrder ≤ fuel →
      ∃ plan, splitPlan fuel S false = some plan ∧
        SplitNURBS fuel S false = (RefineKnotV fuel S plan.anewKnots).map (fun T =>
          (T, splitChildA T false (u32 plan.SplitPoint),
            splitChildB T false (u32 ((u32 plan.SplitPoint : Int) + 1)))) ∧
        (plan.same ≤ S.m_vOrder → ∀ x ∈ plan.anewKnots,
          x = (rd S.m_avKnots 0 + rd S.m_avKnots ((S.m_cvVerts + S.m_vOrder - 1 : Nat) : Int)) / 2
          ∧ (rd S.m_avKnots 0 = rd S.m_avKnots (S.vDegree : Int) →
              rd S.m_avKnots (S.m_cvVerts : Int)
                = rd S.m_avKnots ((S.m_cvVerts + S.m_vOrder - 1 : Nat) : Int) →
              x = (rd S.m_avKnots (S.vDegree : Int) + rd S.m_avKnots (S.m_cvVerts : Int)) / 2)))
    := by
  have core : ∀ (K : List ℚ) (n o : Nat), K.Sorted (· ≤ ·) → K.length = n + o → 1 ≤ o →
      1 ≤ n → n + o < 4294967296 → n + o ≤ fuel →
      u32 ((n : Int) + o - 1) = n + o - 1 ∧
      (∃ i, findSpan fuel K n o ((rd K 0 + rd K ((n + o - 1 : Nat) : Int)) / 2) = some i) ∧
      ∀ middex0, ∃ plan,
        splitSearch fuel K o (n + o - 1) ((rd K 0 + rd K ((n + o - 1 : Nat) : Int)) / 2) middex0
          = some plan ∧
        (plan.same ≤ o → ∀ x ∈ plan.anewKnots,
          x = (rd K 0 + rd K ((n + o - 1 : Nat) : Int)) / 2) := by
    intro K n o hs hlen ho hn hb hf
    refine ⟨?_, findSpan_total K n o _ fuel hs hlen ho (by omega), ?_⟩
    · have e : (n : Int) + o - 1 = ((n + o - 1 : Nat) : Int) := by omega
      rw [e]
      exact u32_of_lt _ (by omega)
    · intro middex0
      apply splitSearch_total fuel K o (n + o - 1) _ middex0 (by omega) (by omega)
      have h0 : rd K ((0 : Nat) : Int) ≤ rd K ((n + o - 1 : Nat) : Int) :=
        rd_mono K hs (by omega) (by omega)
      have e0 : rd K 0 = rd K ((0 : Nat) : Int) := rfl
      rw [e0]
      linarith
  constructor
  · intro hs hlen ho hn hb hf
    obtain ⟨e, ⟨i, hi⟩, hplan⟩ := core S.m_auKnots S.m_cuVerts S.m_uOrder hs hlen ho hn hb hf
    obtain ⟨plan, hp, hv⟩ := hplan i
    have hsp : splitPlan fuel S true = some plan := by
      unfold splitPlan
      simp only [if_true, e]
      unfold FindSpanU
      rw [hi]
      exact hp
    refine ⟨plan, hsp, ?_, ?_⟩
    · unfold SplitNURBS
      rw [hsp]
      rfl
    · intro hsame x hx
      refine ⟨hv hsame x hx, ?_⟩
      intro c1 c2
      rw [hv hsame x hx, c1, ← c2]
  · intro hs hlen ho hn hb hf
    obtain ⟨e, ⟨i, hi⟩, hplan⟩ := core S.m_avKnots S.m_cvVerts S.m_vOrder hs hlen ho hn hb hf
    obtain ⟨plan, hp, hv⟩ := hplan i
    have hsp : splitPlan fuel S false = some plan := by
      unfold splitPlan
      simp only [Bool.false_eq_true, if_false, e]
      unfold FindSpanV
      rw [hi]
      exact hp
    refine ⟨plan, hsp, ?_, ?_⟩
    · unfold SplitNURBS
      rw [hsp]
      rfl
    · intro hsame x hx
      refine ⟨hv hsame x hx, ?_⟩
      intro c1 c2
      rw [hv hsame x hx, c1, ← c2]

/-- C25 on the bicubic patch, whose knot vectors `[0,0,0,0,1,1,1,1]` are clamped: the four knots
that `uSubdivide` inserts are `1/2`, the midpoint of the active range. -/
theorem SplitNURBS_split_value_witness :
    ∃ plan, splitPlan 20 Examples.bicubic true = some plan ∧
      SplitNURBS 20 Examples.bicubic true
        = (RefineKnotU 20 Examples.bicubic plan.anewKnots).map (fun T =>
          (T, splitChildA T true (u32 plan.SplitPoint),
            splitChildB T true (u32 ((u32 plan.SplitPoint : Int) + 1)))) ∧
      plan.anewKnots = [1/2, 1/2, 1/2, 1/2] ∧
      ∀ x ∈ plan.anewKnots,
        x = (rd Examples.bicubic.m_auKnots (Examples.bicubic.uDegree : Int)
          + rd Examples.bicubic.m_auKnots (Examples.bicubic.m_cuVerts : Int)) / 2 := by
  obtain ⟨plan, hp, hs, hv⟩ := (SplitNURBS_split_value 20 Examples.bicubic).1
    (by with_unfolding_all decide) (by decide) (by decide) (by decide) (by decide) (by decide)
  have hplan : plan = (⟨3, 0, 4, [1/2, 1/2, 1/2, 1/2], 3⟩ : SplitSearch) := by
    have h2 : splitPlan 20 Examples.bicubic true
        = some (⟨3, 0, 4, [1/2, 1/2, 1/2, 1/2], 3⟩ : SplitSearch) := by decide!
    rw [h2] at hp
    exact (Option.some.inj hp).symm
  refine ⟨plan, hp, hs, by rw [hplan], ?_⟩
  intro x hx
  exact ((hv (by rw [hplan]; decide)) x hx).2 (by decide!) (by decide!)

/-- C25 fails as stated on an unclamped knot vector: for the cubic curve on the knots
`[0,1,2,3,4,10,11,12]` the active range is `[U[3], U[4]] = [3, 4]` with the midpoint `7/2`,
and `SplitNURBS` with `dirflag` true inserts the knot `6 = (U[0] + U[7]) / 2` four times. -/
theorem SplitNURBS_split_value_counterexample :
    (splitPlan 20 Examples.lopsided true).map (fun plan => plan.anewKnots) = some [6, 6, 6, 6] ∧
      (rd Examples.lopsided.m_auKnots (Examples.lopsided.uDegree : Int)
        + rd Examples.lopsided.m_auKnots (Examples.lopsided.m_cuVerts : Int)) / 2 = 7 / 2 ∧
      (SplitNURBS 20 Examples.lopsided true).map (fun r => r.1.m_auKnots)
        = some [0, 1, 2, 3, 4, 6, 6, 6, 6, 10, 11, 12] := by
  refine ⟨by decide!, by decide!, by decide!⟩

/-! ### Patch meshes: the search for the split point -/

/-- The forward search does not move when the knot at its start is not the value. -/
theorem searchForward_stop (aKnots : List ℚ) (midVal : ℚ) (last : Nat) (d i same : Nat)
    (h : rd aKnots (i : Int) ≠ midVal) :
    searchForward aKnots midVal last d (i, same) = (i, same) := by
  cases d with
  | zero => rfl
  | succ d =>
    unfold searchForward
    rw [if_neg (fun c => h c.2)]

/-- The backward search runs down a run of the value to the knot before it. -/
theorem searchBackward_run (aKnots : List ℚ) (midVal : ℚ) (j : Nat)
    (hj : rd aKnots (j : Int) ≠ midVal) :
    ∀ (d a same : Nat), j ≤ a → a < 4294967296 → a - j ≤ d →
      (∀ t : Nat, j < t → t ≤ a → rd aKnots (t : Int) = midVal) →
      searchBackward aKnots midVal d (a, a + 1, same) = (j, j + 1, same + (a - j)) := by
  intro d
  induction d with
  | zero =>
    intro a same hja hb hd _
    have : a = j := by omega
    subst this
    simp [searchBackward]
  | succ d ih =>
    intro a same hja hb hd hrun
    unfold searchBackward
    rcases Nat.eq_or_lt_of_le hja with e | e
    · subst e
      rw [if_neg (fun c => hj c.2)]
      simp
    · have ha : rd aKnots (a : Int) = midVal := hrun a e (le_refl _)
      rw [if_pos ⟨by omega, ha⟩]
      have e1 : u32 (((a + 1 : Nat) : Int) - 1) = (a - 1) + 1 := by
        unfold u32
        omega
      simp only []
      rw [e1, ih (a - 1) (same + 1) (by omega) (by omega) (by omega)
        (fun t h1 h2 => hrun t h1 (by omega))]
      congr 2
      omega

/-- The loop `while (aKnots[middex + 1] < midVal) middex++` stops at the first knot that is not
below the value. -/
theorem searchCreate_first (aKnots : List ℚ) (midVal : ℚ) (j : Nat)
    (hj : ¬ rd aKnots ((j : Int) + 1) < midVal) :
    ∀ (d m : Nat), m ≤ j → j - m < d →
      (∀ t : Nat, m ≤ t → t < j → rd aKnots ((t : Int) + 1) < midVal) →
      searchCreate aKnots midVal d m = some j := by
  intro d
  induction d with
  | zero =>
    intro m _ hd _
    omega
  | succ d ih =>
    intro m hm hd hlow
    unfold searchCreate
    rcases Nat.eq_or_lt_of_le hm with e | e
    · subst e
      rw [if_neg hj]
    · rw [if_pos (hlow m (le_refl _) e)]
      exact ih (m + 1) (by omega) (by omega) (fun t h1 h2 => hlow t (by omega) h2)

/-- Below a knot that is strictly under the value and at or above the left end of the active
range, there is the knot before the run of the value. -/
theorem run_start (K : List ℚ) (hs : K.Sorted (· ≤ ·)) (s : ℚ) (lo i : Nat)
    (hi : i < K.length) (hlo : rd K (lo : Int) < s) (hle : rd K (i : Int) ≤ s) (hloi : lo ≤ i) :
    ∃ j : Nat, lo ≤ j ∧ j ≤ i ∧ rd K (j : Int) < s ∧
      ∀ t : Nat, j < t → t ≤ i → rd K (t : Int) = s := by
  have key : ∀ (d a : Nat), a - lo ≤ d → lo ≤ a → a ≤ i →
      (∀ t : Nat, a < t → t ≤ i → rd K (t : Int) = s) →
      ∃ j : Nat, lo ≤ j ∧ j ≤ i ∧ rd K (j : Int) < s ∧
        ∀ t : Nat, j < t → t ≤ i → rd K (t : Int) = s := by
    intro d
    induction d with
    | zero =>
      intro a hd h1 h2 hrun
      have : a = lo := by omega
      subst this
      exact ⟨a, le_refl _, h2, hlo, hrun⟩
    | succ d ih =>
      intro a hd h1 h2 hrun
      by_cases hlt : rd K (a : Int) < s
      · exact ⟨a, h1, h2, hlt, hrun⟩
      · have hle2 : rd K (a : Int) ≤ s := le_trans (rd_mono K hs h2 hi) hle
        have heq : rd K (a : Int) = s := le_antisymm hle2 (not_lt.mp hlt)
        have hne : a ≠ lo := by
          intro e
          subst e
          exact hlt hlo
        apply ih (a - 1) (by omega) (by omega) (by omega)
        intro t h3 h4
        rcases Nat.eq_or_lt_of_le (show a ≤ t by omega) with e | e
        · subst e
          exact heq
        · exact hrun t e h4
  exact key (i - lo) i (le_refl _) hloi (le_refl _) (fun t h1 h2 => by omega)


theorem u32_nat (x : Nat) (h : x < 4294967296) : u32 (x : Int) = x := by
  unfold u32
  omega

theorem splitKnots_fresh (o : Nat) (s : ℚ) (middex : Nat) (ho : 1 ≤ o)
    (hb : o < 4294967296) :
    (splitKnots o s middex 0).anewKnots = List.replicate o s ∧
      (splitKnots o s middex 0).SplitPoint = (middex : Int) := by
  have e : u32 ((o : Int) - ((0 : Nat) : Int)) = o := by
    unfold u32
    omega
  unfold splitKnots
  simp only [e, lt_irrefl, if_false]
  rw [if_pos (by omega)]
  exact ⟨rfl, trivial⟩

theorem splitKnots_found (o : Nat) (s : ℚ) (j m : Nat) (hm : 1 ≤ m) (hmo : m ≤ o)
    (hb : o < 4294967296) :
    (splitKnots o s (j + 1) m).anewKnots = List.replicate (o - m) s ∧
      (splitKnots o s (j + 1) m).SplitPoint = (j : Int) := by
  have e : u32 ((o : Int) - (m : Int)) = o - m := by
    unfold u32
    omega
  unfold splitKnots
  simp only [e]
  constructor
  · rcases Nat.eq_or_lt_of_le hmo with h | h
    · subst h
      simp
    · rw [if_pos h]
  · rw [if_pos (by omega)]
    push_cast
    ring

/-- The search of one round on a split value `s` strictly inside the active range of a
non-decreasing knot vector in which `s` occurs at most `o` times: the span lookup gives `i`, the
plan inserts `e` copies of `s`, and the split point `sp` is the index of the last knot below
`s`; after the insertion `s` fills the places `sp + 1 .. i + e`, at least `o` of them. -/
theorem splitSearch_spec (fuel : Nat) (K : List ℚ) (n o : Nat) (s : ℚ)
    (hs : K.Sorted (· ≤ ·)) (hlen : K.length = n + o) (ho : 1 ≤ o)
    (hb : n + o < 4294967296) (hfuel : n + o + 1 ≤ fuel)
    (hlo : rd K ((o - 1 : Nat) : Int) < s) (hhi : s < rd K (n : Int))
    (hmult : ∀ a b : Nat, a ≤ b → b < K.length → rd K (a : Int) = s → rd K (b : Int) = s →
      b - a + 1 ≤ o) :
    ∃ (i sp e : Nat) (plan : SplitSearch),
      findSpan fuel K n o s = some i ∧
      splitSearch fuel K o (n + o - 1) s i = some plan ∧
      plan.anewKnots = List.replicate e s ∧ plan.SplitPoint = (sp : Int) ∧
      o - 1 ≤ sp ∧ sp ≤ i ∧ i + 1 ≤ n ∧ rd K (sp : Int) < s ∧
      (∀ t : Nat, sp < t → t ≤ i → rd K (t : Int) = s) ∧ s < rd K ((i : Int) + 1) ∧
      e ≤ o ∧ o ≤ (i - sp) + e := by
  obtain ⟨h1, -, -⟩ := findSpan_spec K n o s fuel hs hlen ho (by omega)
  obtain ⟨i, hi, hoi, hin, hKi, hKi1, -⟩ := h1 hlo hhi
  obtain ⟨j, hoj, hji, hKj, hrun⟩ := run_start K hs s (o - 1) i (by omega) hlo hKi hoi
  have hi1 : ((i : Int) + 1) = ((i + 1 : Nat) : Int) := by push_cast; ring
  have hnext : ¬ rd K ((i : Int) + 1) < s := not_lt.mpr (le_of_lt hKi1)
  by_cases heq : rd K (i : Int) = s
  · -- the value is a knot
    have hjlt : j < i := by
      rcases Nat.eq_or_lt_of_le hji with e | e
      · subst e
        exact absurd heq (ne_of_lt hKj)
      · exact e
    have hfw : searchForward K s (n + o - 1) (n + o - 1) (i + 1, 1) = (i + 1, 1) := by
      apply searchForward_stop
      rw [← hi1]
      exact ne_of_gt hKi1
    have e1 : u32 ((i : Int) - 1) = i - 1 := by
      unfold u32
      omega
    have hbw := searchBackward_run K s j (ne_of_lt hKj) (i - 1) (i - 1) 1 (by omega) (by omega)
      (by omega) (fun t h1 h2 => hrun t h1 (by omega))
    have e2 : i - 1 + 1 = i := by omega
    rw [e2] at hbw
    by_cases hj0 : j ≤ 0
    · have hj00 : j = 0 := by omega
      subst hj00
      have hcr : searchCreate K s fuel 0 = some 0 := by
        apply searchCreate_first K s 0 _ fuel 0 (le_refl _) (by omega) (fun t h1 h2 => by omega)
        have := hrun 1 (by omega) (by omega)
        have e3 : ((0 : Nat) : Int) + 1 = ((1 : Nat) : Int) := by norm_num
        rw [e3, this]
        exact lt_irrefl _
      obtain ⟨p1, p2⟩ := splitKnots_fresh o s 0 ho (by omega)
      refine ⟨i, 0, o, splitKnots o s 0 0, hi, ?_, p1, p2, by omega, by omega, hin, hKj, hrun,
        hKi1, le_refl _, by omega⟩
      unfold splitSearch
      simp only [heq, if_true, hfw, e1, hbw]
      rw [if_pos (le_refl _), hcr]
      rfl
    · have hm : i - j ≤ o := by
        have := hmult (j + 1) i (by omega) (by omega) (hrun (j + 1) (by omega) (by omega)) heq
        omega
      have e3 : 1 + (i - 1 - j) = i - j := by omega
      obtain ⟨p1, p2⟩ := splitKnots_found o s j (i - j) (by omega) hm (by omega)
      refine ⟨i, j, o - (i - j), splitKnots o s (j + 1) (i - j), hi, ?_, p1, p2, hoj, hji, hin,
        hKj, hrun, hKi1, by omega, by omega⟩
      unfold splitSearch
      simp only [heq, if_true, hfw, e1, hbw, e3]
      rw [if_neg hj0]
  · -- the value is not a knot
    have hlt : rd K (i : Int) < s := lt_of_le_of_ne hKi heq
    have hji2 : j = i := by
      rcases Nat.eq_or_lt_of_le hji with e | e
      · exact e
      · exact absurd (hrun i e (le_refl _)) heq
    subst hji2
    have hcr : searchCreate K s fuel 0 = some j := by
      apply searchCreate_first K s j hnext fuel 0 (by omega) (by omega)
      intro t _ h2
      have e3 : ((t : Int) + 1) = ((t + 1 : Nat) : Int) := by push_cast; ring
      rw [e3]
      exact lt_of_le_of_lt (rd_mono K hs (by omega) (by omega)) hlt
    obtain ⟨p1, p2⟩ := splitKnots_fresh o s j ho (by omega)
    refine ⟨j, j, o, splitKnots o s j 0, hi, ?_, p1, p2, hoj, le_refl _, hin, hlt, hrun, hKi1,
      le_refl _, by omega⟩
    unfold splitSearch
    simp only [heq, if_false]
    rw [if_pos (le_refl _), hcr]
    rfl

/-! ### Patch meshes: one round of refinement -/

/-- Copies of a value inserted after the last knot that is not above it keep the order. -/
theorem insAt_sorted_at (K : List ℚ) (hs : K.Sorted (· ≤ ·)) (s : ℚ) (pos e : Nat)
    (hpos : pos ≤ K.length)
    (hlow : ∀ t : Nat, t < pos → rd K (t : Int) ≤ s)
    (hhigh : ∀ t : Nat, pos ≤ t → t < K.length → s ≤ rd K (t : Int)) :
    (insAt K pos e s).Sorted (· ≤ ·) := by
  apply sorted_of_rd
  intro a b hab hb
  rw [insAt_length] at hb
  rw [rd_insAt K pos e s hpos a, rd_insAt K pos e s hpos b]
  have eb : (b : Int) - e = ((b - e : Nat) : Int) ∨ b < pos + e := by omega
  have ea : (a : Int) - e = ((a - e : Nat) : Int) ∨ a < pos + e := by omega
  by_cases ha1 : a < pos
  · simp only [ha1, if_true]
    by_cases hb1 : b < pos
    · simp only [hb1, if_true]
      exact rd_mono K hs (by omega) (by omega)
    · simp only [hb1, if_false]
      by_cases hb2 : b < pos + e
      · simp only [hb2, if_true]
        exact hlow a ha1
      · simp only [hb2, if_false]
        rcases eb with e1 | e1
        · rw [e1]
          exact rd_mono K hs (by omega) (by omega)
        · exact absurd e1 hb2
  · have hb1 : ¬ b < pos := by omega
    simp only [ha1, hb1, if_false]
    by_cases ha2 : a < pos + e
    · simp only [ha2, if_true]
      by_cases hb2 : b < pos + e
      · simp only [hb2, if_true]
        exact le_refl _
      · simp only [hb2, if_false]
        rcases eb with e1 | e1
        · rw [e1]
          exact hhigh (b - e) (by omega) (by omega)
        · exact absurd e1 hb2
    · have hb2 : ¬ b < pos + e := by omega
      simp only [ha2, hb2, if_false]
      rcases eb with e1 | e1
      · rcases ea with e2 | e2
        · rw [e1, e2]
          exact rd_mono K hs (by omega) (by omega)
        · exact absurd e2 ha2
      · exact absurd e1 hb2

/-- A non-decreasing permutation of the knots and of `e` copies of `s` is the knot vector with
the copies inserted after the last knot that is not above `s`. -/
theorem sorted_perm_insAt (K K1 : List ℚ) (hs : K.Sorted (· ≤ ·)) (hs1 : K1.Sorted (· ≤ ·))
    (s : ℚ) (pos e : Nat) (hp : K1.Perm (K ++ List.replicate e s)) (hpos : pos ≤ K.length)
    (hlow : ∀ t : Nat, t < pos → rd K (t : Int) ≤ s)
    (hhigh : ∀ t : Nat, pos ≤ t → t < K.length → s ≤ rd K (t : Int)) :
    K1 = insAt K pos e s :=
  List.eq_of_perm_of_sorted (hp.trans (insAt_perm K pos e s).symm) hs1
    (insAt_sorted_at K hs s pos e hpos hlow hhigh)

theorem RefineKnotV_eq (fuel : Nat) (S : CqSurfaceNURBS) (X : List ℚ)
    (hsU : S.m_avKnots.Sorted (· ≤ ·)) (hlen : S.m_avKnots.length = S.m_cvVerts + S.m_vOrder)
    (hord : 1 ≤ S.m_vOrder) (hcu : 1 ≤ S.m_cvVerts) (hfuel : S.m_cvVerts + 1 ≤ fuel)
    (hX : X ≠ []) (hsX : X.Sorted (· ≤ ·))
    (hin : ∀ x ∈ X, rd S.m_avKnots (S.vDegree : Int) ≤ x ∧ x ≤ rd S.m_avKnots (S.m_cvVerts : Int)) :
    ∃ (a b0 : Nat) (knots : List ℚ),
      knots.Sorted (· ≤ ·) ∧ knots.Perm (S.m_avKnots ++ X) ∧
      RefineKnotV fuel S X = some { S with
        m_cvVerts := S.m_cvVerts + X.length
        m_avKnots := knots
        P := refineValuesV blend knots S.m_avKnots X a ((b0 : Int) + 1) S.vDegree
          ((S.m_cvVerts : Int) - 1) ((X.length : Int) - 1) S.m_cuVerts (S.m_cvVerts + X.length) S.P
        m_aUserParams := S.m_aUserParams.map (refineParamV knots S.m_avKnots X a ((b0 : Int) + 1)
          S.vDegree ((S.m_cvVerts : Int) - 1) ((X.length : Int) - 1) S.m_cuVerts
          (S.m_cvVerts + X.length)) } := by
  have hXl : 1 ≤ X.length := by
    rcases X with _ | ⟨x, t⟩
    · exact absurd rfl hX
    · simp
  have h0 := hin (rd X ((0 : Nat) : Int)) (rd_mem X 0 (by omega))
  have hr := hin (rd X ((X.length - 1 : Nat) : Int)) (rd_mem X (X.length - 1) (by omega))
  have h0r : rd X ((0 : Nat) : Int) ≤ rd X ((X.length - 1 : Nat) : Int) :=
    rd_mono X hsX (by omega) (by omega)
  unfold vDegree at h0 hr
  obtain ⟨a, ha, han, haA, -, hmono⟩ := findSpan_in_range S.m_avKnots hsU S.m_cvVerts S.m_vOrder
    hlen hord hcu fuel hfuel _ h0.1 h0.2
  obtain ⟨b0, hb0, hab⟩ := hmono _ h0r hr.2
  obtain ⟨b0', hb0', hbn, -, hbB, -⟩ := findSpan_in_range S.m_avKnots hsU S.m_cvVerts S.m_vOrder
    hlen hord hcu fuel hfuel _ hr.1 hr.2
  rw [hb0] at hb0'
  cases hb0'
  have hspec := refineKnots_spec S.m_avKnots X hsU hsX a (b0 + 1) (S.m_vOrder - 1) hXl
    (by omega) (by omega) haA hbB
  have e1 : ((X.length - 1 : Nat) : Int) = (X.length : Int) - 1 := by omega
  have e2 : ((b0 + 1 : Nat) : Int) = (b0 : Int) + 1 := by omega
  have e3 : ((S.m_avKnots.length : Int) - 1)
      = ((S.m_cvVerts : Int) - 1) + ((S.m_vOrder - 1 : Nat) : Int) + 1 := by omega
  have e4 : S.m_avKnots.length + X.length = S.m_cvVerts + X.length + S.m_vOrder := by omega
  have e5 : ((X.length : Int) - 1 + 1 + ((S.m_cvVerts : Int) - 1) + 1).toNat
      = S.m_cvVerts + X.length := by omega
  rw [e2, e3, e4] at hspec
  rw [e1] at hb0
  rw [Nat.cast_zero] at ha
  refine ⟨a, b0, _, hspec.1, hspec.2, ?_⟩
  unfold RefineKnotV
  rw [if_neg (by omega)]
  simp only [FindSpanV, vDegree, ha, hb0, e5]

theorem refineParamV_other (knots avHold X : List ℚ) (a b p n r : Int) (cu cv : Nat)
    (q : CqParameter) (h : q.Class ≠ EqVariableClass.class_vertex) :
    refineParamV knots avHold X a b p n r cu cv q = q := by
  unfold refineParamV
  rw [if_neg h]

theorem refineParamV_class (knots avHold X : List ℚ) (a b p n r : Int) (cu cv : Nat)
    (q : CqParameter) : (refineParamV knots avHold X a b p n r cu cv q).Class = q.Class := by
  unfold refineParamV
  split <;> rfl

/-- A map that leaves the class of every parameter and every varying parameter as it is leaves
the list of the varying parameters as it is. -/
theorem filter_varying_map (f : CqParameter → CqParameter) (hc : ∀ q, (f q).Class = q.Class)
    (hv : ∀ q, q.Class ≠ EqVariableClass.class_vertex → f q = q) (l : List CqParameter) :
    (l.map f).filter (fun q => q.Class = EqVariableClass.class_varying)
      = l.filter (fun q => q.Class = EqVariableClass.class_varying) := by
  induction l with
  | nil => rfl
  | cons x t ih =>
    simp only [List.map_cons, List.filter_cons, hc]
    by_cases hx : x.Class = EqVariableClass.class_varying
    · have : f x = x := hv x (by rw [hx]; decide)
      simp only [hx, decide_True, if_true, this, ih]
    · simp only [hx, decide_False, ih]
      rfl

theorem sample_lt (K0 : List ℚ) (n0 o segs : Nat) (hseg : 1 ≤ segs)
    (hr : rd K0 ((o - 1 : Nat) : Int) < rd K0 (n0 : Int)) (ho : 1 ≤ o) (j1 j2 : Nat)
    (h : j1 < j2) : sample K0 n0 o j1 segs < sample K0 n0 o j2 segs := by
  unfold sample
  have e : ((o : Int) - 1) = ((o - 1 : Nat) : Int) := by omega
  rw [e]
  have hpos : (0 : ℚ) < rd K0 (n0 : Int) - rd K0 ((o - 1 : Nat) : Int) := by linarith
  have hs : (0 : ℚ) < ((segs : Int) : ℚ) := by exact_mod_cast hseg
  have hj : (((j1 : Int) : ℚ)) / ((segs : Int) : ℚ) < (((j2 : Int) : ℚ)) / ((segs : Int) : ℚ) := by
    apply div_lt_div_of_pos_right _ hs
    exact_mod_cast h
  nlinarith

theorem sample_zero (K0 : List ℚ) (n0 o segs : Nat) (ho : 1 ≤ o) :
    sample K0 n0 o (0 : Nat) segs = rd K0 ((o - 1 : Nat) : Int) := by
  unfold sample
  have e : ((o : Int) - 1) = ((o - 1 : Nat) : Int) := by omega
  rw [e]
  simp

theorem sample_last (K0 : List ℚ) (n0 o segs : Nat) (ho : 1 ≤ o) (hseg : 1 ≤ segs) :
    sample K0 n0 o segs segs = rd K0 (n0 : Int) := by
  unfold sample
  have e : ((o : Int) - 1) = ((o - 1 : Nat) : Int) := by omega
  rw [e]
  have hs : ((segs : Int) : ℚ) ≠ 0 := by
    have : (0 : ℚ) < ((segs : Int) : ℚ) := by exact_mod_cast hseg
    exact ne_of_gt this
  rw [div_self hs]
  ring

/-- One round keeps the invariant of the direction: the split value of round `k` is searched
in `K`, `e` copies of it are inserted after the span `i`, and the split point is stored. -/
theorem MeshInv_round (K0 : List ℚ) (n0 o segs : Nat) (k : Nat) (K : List ℚ) (n : Nat)
    (L : List Int) (sp : Nat → Nat) (hseg : 1 ≤ segs) (ho : 1 ≤ o)
    (hr : rd K0 ((o - 1 : Nat) : Int) < rd K0 (n0 : Int))
    (hk1 : 1 ≤ k) (hk2 : k < segs) (hinv : MeshInv K0 n0 o segs k K n L sp)
    (i spk e : Nat) (h1 : o - 1 ≤ spk) (h2 : spk ≤ i) (h3 : i + 1 ≤ n)
    (h4 : rd K (spk : Int) < sample K0 n0 o k segs)
    (h5 : ∀ t : Nat, spk < t → t ≤ i → rd K (t : Int) = sample K0 n0 o k segs)
    (h6 : sample K0 n0 o k segs < rd K ((i : Int) + 1)) (h7 : e ≤ o) (h8 : o ≤ (i - spk) + e) :
    MeshInv K0 n0 o segs (k + 1) (insAt K (i + 1) e (sample K0 n0 o k segs)) (n + e)
      (wr L k (spk : Int)) (fun j => if j = k then spk else sp j) := by
  obtain ⟨cs, cl, cn, ca, cb, cL, cm, cp⟩ := hinv
  have hpos : i + 1 ≤ K.length := by omega
  have hi1 : ((i : Int) + 1) = ((i + 1 : Nat) : Int) := by push_cast; ring
  rw [hi1] at h6
  have hlow : ∀ t : Nat, t < i + 1 → rd K (t : Int) ≤ sample K0 n0 o k segs := by
    intro t ht
    rcases Nat.lt_or_ge spk t with c | c
    · exact le_of_eq (h5 t c (by omega))
    · exact le_trans (rd_mono K cs c (by omega)) (le_of_lt h4)
  have hhigh : ∀ t : Nat, i + 1 ≤ t → t < K.length → sample K0 n0 o k segs < rd K (t : Int) :=
    fun t ht1 ht2 => lt_of_lt_of_le h6 (rd_mono K cs ht1 ht2)
  have hrd : ∀ t : Nat, rd (insAt K (i + 1) e (sample K0 n0 o k segs)) (t : Int)
      = if t < i + 1 then rd K (t : Int) else if t < i + 1 + e then sample K0 n0 o k segs
        else rd K ((t : Int) - e) := fun t => rd_insAt K (i + 1) e _ hpos t
  have hsame : ∀ t : Nat, t ≤ i → rd (insAt K (i + 1) e (sample K0 n0 o k segs)) (t : Int)
      = rd K (t : Int) := by
    intro t ht
    rw [hrd, if_pos (by omega)]
  have hrun : ∀ t : Nat, spk < t → t ≤ i + e →
      rd (insAt K (i + 1) e (sample K0 n0 o k segs)) (t : Int) = sample K0 n0 o k segs := by
    intro t ht1 ht2
    rw [hrd]
    by_cases c : t < i + 1
    · rw [if_pos c]
      exact h5 t ht1 (by omega)
    · rw [if_neg c, if_pos (by omega)]
  refine ⟨?_, ?_, ?_, ?_, ?_, ?_, ?_, ?_⟩
  · exact insAt_sorted_at K cs _ (i + 1) e hpos hlow
      (fun t ht1 ht2 => le_of_lt (hhigh t ht1 ht2))
  · rw [insAt_length]
    omega
  · have : (k + 1 - 1) * o = (k - 1) * o + o := by
      have : k + 1 - 1 = (k - 1) + 1 := by omega
      rw [this]
      ring
    omega
  · rw [hsame (o - 1) (by omega)]
    exact ca
  · rw [hrd, if_neg (by omega), if_neg (by omega)]
    have : ((n + e : Nat) : Int) - e = (n : Int) := by omega
    rw [this]
    exact cb
  · unfold wr
    split
    · rw [List.length_set]
      exact cL
    · exact cL
  · intro j hj1 hj2 a b hab hb ha2 hb2
    rw [insAt_length] at hb
    have hgt : sample K0 n0 o k segs < sample K0 n0 o j segs :=
      sample_lt K0 n0 o segs hseg hr ho k j (by omega)
    have key : ∀ t : Nat, t < K.length + e →
        rd (insAt K (i + 1) e (sample K0 n0 o k segs)) (t : Int) = sample K0 n0 o j segs →
        i + 1 + e ≤ t ∧ rd K ((t - e : Nat) : Int) = sample K0 n0 o j segs := by
      intro t ht hval
      rw [hrd] at hval
      by_cases c1 : t < i + 1
      · rw [if_pos c1] at hval
        have := hlow t c1
        rw [hval] at this
        exact absurd hgt (not_lt.mpr this)
      · rw [if_neg c1] at hval
        by_cases c2 : t < i + 1 + e
        · rw [if_pos c2] at hval
          rw [hval] at hgt
          exact absurd hgt (lt_irrefl _)
        · rw [if_neg c2] at hval
          have e1 : (t : Int) - e = ((t - e : Nat) : Int) := by omega
          rw [e1] at hval
          exact ⟨by omega, hval⟩
    obtain ⟨ka, va⟩ := key a (by omega) ha2
    obtain ⟨kb, vb⟩ := key b hb hb2
    have := cm j (by omega) hj2 (a - e) (b - e) (by omega) (by omega) va vb
    omega
  · intro j hj1 hj2
    by_cases hjk : j = k
    · subst hjk
      simp only [if_true]
      refine ⟨?_, ?_, ?_, h1, by omega, ?_⟩
      · rw [rd_wr_same _ _ _ (by omega) (by omega)]
      · exact hrun (spk + 1) (by omega) (by omega)
      · exact hrun (spk + o) (by omega) (by omega)
      · intro j2 c1 c2
        omega
    · obtain ⟨p1, p2, p3, p4, p5, p6⟩ := cp j hj1 (by omega)
      have hle : sp j + o ≤ spk := by
        by_contra hc
        have hlt2 : sample K0 n0 o j segs < sample K0 n0 o k segs :=
          sample_lt K0 n0 o segs hseg hr ho j k (by omega)
        have hge : sample K0 n0 o k segs ≤ rd K ((sp j + o : Nat) : Int) := by
          rcases Nat.lt_or_ge i (sp j + o) with c | c
          · exact le_of_lt (hhigh (sp j + o) (by omega) (by omega))
          · exact le_of_eq (h5 (sp j + o) (by omega) c).symm
        rw [p3] at hge
        exact absurd hlt2 (not_lt.mpr hge)
      simp only [hjk, if_false]
      refine ⟨?_, ?_, ?_, p4, by omega, ?_⟩
      · rw [rd_wr_ne _ _ _ _ (by omega)]
        exact p1
      · rw [hsame (sp j + 1) (by omega)]
        exact p2
      · rw [hsame (sp j + o) (by omega)]
        exact p3
      · intro j2 c1 c2
        by_cases hj2k : j2 = k
        · subst hj2k
          simp only [if_true]
          exact hle
        · simp only [hj2k, if_false]
          exact p6 j2 c1 (by omega)

theorem sample_congr (K K0 : List ℚ) (n n0 o : Nat) (ho : 1 ≤ o) (j segs : Int)
    (ha : rd K ((o - 1 : Nat) : Int) = rd K0 ((o - 1 : Nat) : Int))
    (hb : rd K (n : Int) = rd K0 (n0 : Int)) : sample K n o j segs = sample K0 n0 o j segs := by
  unfold sample
  have e : ((o : Int) - 1) = ((o - 1 : Nat) : Int) := by omega
  rw [e, ha, hb]

theorem sorted_replicate (e : Nat) (s : ℚ) : (List.replicate e s).Sorted (· ≤ ·) := by
  induction e with
  | zero => exact List.sorted_nil
  | succ d ih =>
    rw [List.replicate_succ]
    refine List.sorted_cons.mpr ⟨?_, ih⟩
    intro b hb
    rw [List.eq_of_mem_replicate hb]

/-- One round of the first loop of `SubdivideSegments` on a surface in the state `MeshInv`: it
returns, the state after it is `MeshInv` for the next round, and the members of the `v`
direction and the user parameters of class varying are as before. -/
theorem segmentSplitU_round (fuel : Nat) (K0 : List ℚ) (n0 o segs k : Nat)
    (T : CqSurfaceNURBS) (L : List Int) (sp : Nat → Nat) (hseg : 1 ≤ segs) (ho : 1 ≤ o)
    (hr : rd K0 ((o - 1 : Nat) : Int) < rd K0 (n0 : Int)) (hk1 : 1 ≤ k) (hk2 : k < segs)
    (hinv : MeshInv K0 n0 o segs k T.m_auKnots T.m_cuVerts L sp) (hord : T.m_uOrder = o)
    (hb : n0 + segs * o + o < 4294967296) (hfuel : n0 + segs * o + o + 1 ≤ fuel) :
    ∃ (T1 : CqSurfaceNURBS) (L1 : List Int) (sp1 : Nat → Nat),
      segmentSplitU fuel segs k (some (T, L)) = some (T1, L1) ∧
      MeshInv K0 n0 o segs (k + 1) T1.m_auKnots T1.m_cuVerts L1 sp1 ∧ T1.m_uOrder = o ∧
      T1.m_avKnots = T.m_avKnots ∧ T1.m_cvVerts = T.m_cvVerts ∧ T1.m_vOrder = T.m_vOrder ∧
      T1.m_aUserParams.filter (fun q => q.Class = EqVariableClass.class_varying)
        = T.m_aUserParams.filter (fun q => q.Class = EqVariableClass.class_varying) := by
  subst hord
  have hord : T.m_uOrder = T.m_uOrder := rfl
  have hinv0 := hinv
  obtain ⟨cs, cl, cn, ca, cb, cL, cm, cp⟩ := hinv
  have hko : (k - 1) * T.m_uOrder + T.m_uOrder ≤ segs * T.m_uOrder := by
    have : (k - 1) * T.m_uOrder + T.m_uOrder = k * T.m_uOrder := by
      have : k = (k - 1) + 1 := by omega
      nth_rewrite 2 [this]
      ring
    rw [this]
    exact Nat.mul_le_mul_right T.m_uOrder (by omega)
  have hsam : sample T.m_auKnots T.m_cuVerts T.m_uOrder (k : Int) (segs : Int)
      = sample K0 n0 T.m_uOrder k segs := by
    exact sample_congr _ _ _ _ _ ho _ _ ca cb
  have hlo : rd T.m_auKnots ((T.m_uOrder - 1 : Nat) : Int) < sample K0 n0 T.m_uOrder k segs := by
    rw [ca, ← sample_zero K0 n0 T.m_uOrder segs ho]
    exact sample_lt K0 n0 T.m_uOrder segs hseg hr ho 0 k (by omega)
  have hhi : sample K0 n0 T.m_uOrder k segs < rd T.m_auKnots (T.m_cuVerts : Int) := by
    rw [cb, ← sample_last K0 n0 T.m_uOrder segs ho hseg]
    exact sample_lt K0 n0 T.m_uOrder segs hseg hr ho k segs hk2
  obtain ⟨i, spk, e, plan, f1, f2, f3, f4, g1, g2, g3, g4, g5, g6, g7, g8⟩ :=
    splitSearch_spec fuel T.m_auKnots T.m_cuVerts T.m_uOrder (sample K0 n0 T.m_uOrder k segs) cs cl ho
      (by omega) (by omega) hlo hhi (cm k (le_refl k) hk2)
  have hnext := MeshInv_round K0 n0 T.m_uOrder segs k T.m_auKnots T.m_cuVerts L sp hseg ho hr hk1 hk2
    hinv0 i spk e g1 g2 g3 g4 g5 g6 g7 g8
  have hlast : u32 ((T.m_cuVerts : Int) + (T.m_uOrder : Int) - 1) = T.m_cuVerts + T.m_uOrder - 1 := by
    have : ((T.m_cuVerts : Int) + (T.m_uOrder : Int) - 1) = ((T.m_cuVerts + T.m_uOrder - 1 : Nat) : Int) := by
      omega
    rw [this]
    exact u32_nat _ (by omega)
  have hbody : segmentSplitU fuel segs k (some (T, L))
      = (RefineKnotU fuel T plan.anewKnots).map (fun T1 => (T1, wr L k plan.SplitPoint)) := by
    unfold segmentSplitU
    simp only [Option.some_bind, hsam, FindSpanU, f1, hlast, f2]
  rw [hbody, f3, f4]
  rcases Nat.eq_zero_or_pos e with he | he
  · subst he
    rw [insAt_zero] at hnext
    refine ⟨T, _, (fun j => if j = k then spk else sp j), ?_, hnext, rfl, rfl, rfl, rfl, rfl⟩
    unfold RefineKnotU
    simp
  · have hi1 : ((i : Int) + 1) = ((i + 1 : Nat) : Int) := by push_cast; ring
    rw [hi1] at g6
    have hlow : ∀ t : Nat, t < i + 1 → rd T.m_auKnots (t : Int) ≤ sample K0 n0 T.m_uOrder k segs := by
      intro t ht
      rcases Nat.lt_or_ge spk t with c | c
      · exact le_of_eq (g5 t c (by omega))
      · exact le_trans (rd_mono _ cs c (by omega)) (le_of_lt g4)
    have hhigh : ∀ t : Nat, i + 1 ≤ t → t < T.m_auKnots.length →
        sample K0 n0 T.m_uOrder k segs ≤ rd T.m_auKnots (t : Int) :=
      fun t ht1 ht2 => le_of_lt (lt_of_lt_of_le g6 (rd_mono _ cs ht1 ht2))
    obtain ⟨a, b0, knots, k1, k2, k3⟩ := RefineKnotU_eq fuel T
      (List.replicate e (sample K0 n0 T.m_uOrder k segs)) cs cl (by omega) (by omega)
      (by omega) (by
        intro hc
        have := congrArg List.length hc
        simp at this
        omega) (sorted_replicate _ _) (by
        intro x hx
        rw [List.eq_of_mem_replicate hx]
        unfold uDegree
        exact ⟨le_of_lt hlo, le_of_lt hhi⟩)
    have hk : knots = insAt T.m_auKnots (i + 1) e (sample K0 n0 T.m_uOrder k segs) :=
      sorted_perm_insAt _ _ cs k1 _ (i + 1) e k2 (by omega) hlow hhigh
    rw [k3]
    simp only [Option.map_some']
    refine ⟨_, _, (fun j => if j = k then spk else sp j), rfl, ?_, rfl, rfl, rfl, rfl, ?_⟩
    · simp only [List.length_replicate]
      rw [hk]
      exact hnext
    · exact filter_varying_map _ (fun q => refineParamU_class _ _ _ _ _ _ _ _ _ _ q)
        (fun q h => refineParamU_other _ _ _ _ _ _ _ _ _ _ q h) _

/-- One round of the second loop of `SubdivideSegments` on a surface in the state `MeshInv`: it
returns, the state after it is `MeshInv` for the next round, and the members of the `u`
direction and the user parameters of class varying are as before. -/
theorem segmentSplitV_round (fuel : Nat) (K0 : List ℚ) (n0 o segs k : Nat)
    (T : CqSurfaceNURBS) (L : List Int) (sp : Nat → Nat) (hseg : 1 ≤ segs) (ho : 1 ≤ o)
    (hr : rd K0 ((o - 1 : Nat) : Int) < rd K0 (n0 : Int)) (hk1 : 1 ≤ k) (hk2 : k < segs)
    (hinv : MeshInv K0 n0 o segs k T.m_avKnots T.m_cvVerts L sp) (hord : T.m_vOrder = o)
    (hb : n0 + segs * o + o < 4294967296) (hfuel : n0 + segs * o + o + 1 ≤ fuel) :
    ∃ (T1 : CqSurfaceNURBS) (L1 : List Int) (sp1 : Nat → Nat),
      segmentSplitV fuel segs k (some (T, L)) = some (T1, L1) ∧
      MeshInv K0 n0 o segs (k + 1) T1.m_avKnots T1.m_cvVerts L1 sp1 ∧ T1.m_vOrder = o ∧
      T1.m_auKnots = T.m_auKnots ∧ T1.m_cuVerts = T.m_cuVerts ∧ T1.m_uOrder = T.m_uOrder ∧
      T1.m_aUserParams.filter (fun q => q.Class = EqVariableClass.class_varying)
        = T.m_aUserParams.filter (fun q => q.Class = EqVariableClass.class_varying) := by
  subst hord
  have hord : T.m_vOrder = T.m_vOrder := rfl
  have hinv0 := hinv
  obtain ⟨cs, cl, cn, ca, cb, cL, cm, cp⟩ := hinv
  have hko : (k - 1) * T.m_vOrder + T.m_vOrder ≤ segs * T.m_vOrder := by
    have : (k - 1) * T.m_vOrder + T.m_vOrder = k * T.m_vOrder := by
      have : k = (k - 1) + 1 := by omega
      nth_rewrite 2 [this]
      ring
    rw [this]
    exact Nat.mul_le_mul_right T.m_vOrder (by omega)
  have hsam : sample T.m_avKnots T.m_cvVerts T.m_vOrder (k : Int) (segs : Int)
      = sample K0 n0 T.m_vOrder k segs := by
    exact sample_congr _ _ _ _ _ ho _ _ ca cb
  have hlo : rd T.m_avKnots ((T.m_vOrder - 1 : Nat) : Int) < sample K0 n0 T.m_vOrder k segs := by
    rw [ca, ← sample_zero K0 n0 T.m_vOrder segs ho]
    exact sample_lt K0 n0 T.m_vOrder segs hseg hr ho 0 k (by omega)
  have hhi : sample K0 n0 T.m_vOrder k segs < rd T.m_avKnots (T.m_cvVerts : Int) := by
    rw [cb, ← sample_last K0 n0 T.m_vOrder segs ho hseg]
    exact sample_lt K0 n0 T.m_vOrder segs hseg hr ho k segs hk2
  obtain ⟨i, spk, e, plan, f1, f2, f3, f4, g1, g2, g3, g4, g5, g6, g7, g8⟩ :=
    splitSearch_spec fuel T.m_avKnots T.m_cvVerts T.m_vOrder (sample K0 n0 T.m_vOrder k segs) cs cl ho
      (by omega) (by omega) hlo hhi (cm k (le_refl k) hk2)
  have hnext := MeshInv_round K0 n0 T.m_vOrder segs k T.m_avKnots T.m_cvVerts L sp hseg ho hr hk1 hk2
    hinv0 i spk e g1 g2 g3 g4 g5 g6 g7 g8
  have hlast : u32 ((T.m_cvVerts : Int) + (T.m_vOrder : Int) - 1) = T.m_cvVerts + T.m_vOrder - 1 := by
    have : ((T.m_cvVerts : Int) + (T.m_vOrder : Int) - 1) = ((T.m_cvVerts + T.m_vOrder - 1 : Nat) : Int) := by
      omega
    rw [this]
    exact u32_nat _ (by omega)
  have hbody : segmentSplitV fuel segs k (some (T, L))
      = (RefineKnotV fuel T plan.anewKnots).map (fun T1 => (T1, wr L k plan.SplitPoint)) := by
    unfold segmentSplitV
    simp only [Option.some_bind, hsam, FindSpanV, f1, hlast, f2]
  rw [hbody, f3, f4]
  rcases Nat.eq_zero_or_pos e with he | he
  · subst he
    rw [insAt_zero] at hnext
    refine ⟨T, _, (fun j => if j = k then spk else sp j), ?_, hnext, rfl, rfl, rfl, rfl, rfl⟩
    unfold RefineKnotV
    simp
  · have hi1 : ((i : Int) + 1) = ((i + 1 : Nat) : Int) := by push_cast; ring
    rw [hi1] at g6
    have hlow : ∀ t : Nat, t < i + 1 → rd T.m_avKnots (t : Int) ≤ sample K0 n0 T.m_vOrder k segs := by
      intro t ht
      rcases Nat.lt_or_ge spk t with c | c
      · exact le_of_eq (g5 t c (by omega))
      · exact le_trans (rd_mono _ cs c (by omega)) (le_of_lt g4)
    have hhigh : ∀ t : Nat, i + 1 ≤ t → t < T.m_avKnots.length →
        sample K0 n0 T.m_vOrder k segs ≤ rd T.m_avKnots (t : Int) :=
      fun t ht1 ht2 => le_of_lt (lt_of_lt_of_le g6 (rd_mono _ cs ht1 ht2))
    obtain ⟨a, b0, knots, k1, k2, k3⟩ := RefineKnotV_eq fuel T
      (List.replicate e (sample K0 n0 T.m_vOrder k segs)) cs cl (by omega) (by omega)
      (by omega) (by
        intro hc
        have := congrArg List.length hc
        simp at this
        omega) (sorted_replicate _ _) (by
        intro x hx
        rw [List.eq_of_mem_replicate hx]
        unfold vDegree
        exact ⟨le_of_lt hlo, le_of_lt hhi⟩)
    have hk : knots = insAt T.m_avKnots (i + 1) e (sample K0 n0 T.m_vOrder k segs) :=
      sorted_perm_insAt _ _ cs k1 _ (i + 1) e k2 (by omega) hlow hhigh
    rw [k3]
    simp only [Option.map_some']
    refine ⟨_, _, (fun j => if j = k then spk else sp j), rfl, ?_, rfl, rfl, rfl, rfl, ?_⟩
    · simp only [List.length_replicate]
      rw [hk]
      exact hnext
    · exact filter_varying_map _ (fun q => refineParamV_class _ _ _ _ _ _ _ _ _ _ q)
        (fun q h => refineParamV_other _ _ _ _ _ _ _ _ _ _ q h) _

theorem rd_replicate_zero (n : Nat) (i : Int) : rd (List.replicate n (0 : Int)) i = 0 := by
  unfold rd
  split
  · rw [List.getD_eq_getElem?_getD]
    by_cases h : i.toNat < n
    · simp [List.getElem?_replicate, h]
    · simp [List.getElem?_replicate, h]
  · rfl

/-- The state in which a direction enters its refinement loop. -/
theorem MeshInv_init (K0 : List ℚ) (n0 o segs : Nat) (hs : K0.Sorted (· ≤ ·))
    (hlen : K0.length = n0 + o)
    (hm : ∀ j : Nat, 1 ≤ j → j < segs → ∀ a b : Nat, a ≤ b → b < K0.length →
      rd K0 (a : Int) = sample K0 n0 o j segs → rd K0 (b : Int) = sample K0 n0 o j segs →
      b - a + 1 ≤ o) :
    MeshInv K0 n0 o segs 1 K0 n0 (List.replicate ((segs : Int) + 1).toNat 0) (fun _ => 0) := by
  refine ⟨hs, hlen, by omega, rfl, rfl, ?_, hm, ?_⟩
  · rw [List.length_replicate]
    omega
  · intro j h1 h2
    omega

/-- The first loop of `SubdivideSegments` returns, in the state `MeshInv` of the round
`segs`. -/
theorem segmentLoopU (fuel : Nat) (segs : Nat) (T0 : CqSurfaceNURBS) (hseg : 1 ≤ segs)
    (ho : 1 ≤ T0.m_uOrder)
    (hr : rd T0.m_auKnots ((T0.m_uOrder - 1 : Nat) : Int) < rd T0.m_auKnots (T0.m_cuVerts : Int))
    (hs : T0.m_auKnots.Sorted (· ≤ ·)) (hlen : T0.m_auKnots.length = T0.m_cuVerts + T0.m_uOrder)
    (hm : ∀ j : Nat, 1 ≤ j → j < segs → ∀ a b : Nat, a ≤ b → b < T0.m_auKnots.length →
      rd T0.m_auKnots (a : Int) = sample T0.m_auKnots T0.m_cuVerts T0.m_uOrder j segs →
      rd T0.m_auKnots (b : Int) = sample T0.m_auKnots T0.m_cuVerts T0.m_uOrder j segs →
      b - a + 1 ≤ T0.m_uOrder)
    (hb : T0.m_cuVerts + segs * T0.m_uOrder + T0.m_uOrder < 4294967296)
    (hfuel : T0.m_cuVerts + segs * T0.m_uOrder + T0.m_uOrder + 1 ≤ fuel) :
    ∃ (T : CqSurfaceNURBS) (L : List Int) (sp : Nat → Nat),
      forUp 1 segs (segmentSplitU fuel segs)
        (some (T0, List.replicate ((segs : Int) + 1).toNat 0)) = some (T, L) ∧
      MeshInv T0.m_auKnots T0.m_cuVerts T0.m_uOrder segs segs T.m_auKnots T.m_cuVerts L sp ∧
      T.m_uOrder = T0.m_uOrder ∧ T.m_avKnots = T0.m_avKnots ∧ T.m_cvVerts = T0.m_cvVerts ∧
      T.m_vOrder = T0.m_vOrder ∧
      T.m_aUserParams.filter (fun q => q.Class = EqVariableClass.class_varying)
        = T0.m_aUserParams.filter (fun q => q.Class = EqVariableClass.class_varying) := by
  have h := forUp_induction_idx
    (fun (i : Int) (st : Option (CqSurfaceNURBS × List Int)) =>
      ∃ (k : Nat) (T : CqSurfaceNURBS) (L : List Int) (sp : Nat → Nat), i = (k : Int) ∧
        st = some (T, L) ∧
        MeshInv T0.m_auKnots T0.m_cuVerts T0.m_uOrder segs k T.m_auKnots T.m_cuVerts L sp ∧
        T.m_uOrder = T0.m_uOrder ∧ T.m_avKnots = T0.m_avKnots ∧ T.m_cvVerts = T0.m_cvVerts ∧
        T.m_vOrder = T0.m_vOrder ∧
        T.m_aUserParams.filter (fun q => q.Class = EqVariableClass.class_varying)
          = T0.m_aUserParams.filter (fun q => q.Class = EqVariableClass.class_varying))
    1 (segs : Int) (by omega) (segmentSplitU fuel segs)
    (some (T0, List.replicate ((segs : Int) + 1).toNat 0))
    ⟨1, T0, _, (fun _ => 0), rfl, rfl, MeshInv_init _ _ _ _ hs hlen hm, rfl, rfl, rfl, rfl, rfl⟩
    (by
      intro i st hi1 hi2 ⟨k, T, L, sp, e1, e2, e3, e4, e5, e6, e7, e8⟩
      subst e2
      subst e1
      obtain ⟨T1, L1, sp1, r1, r2, r3, r4, r5, r6, r7⟩ :=
        segmentSplitU_round fuel T0.m_auKnots T0.m_cuVerts T0.m_uOrder segs k T L sp hseg ho hr
          (by omega) (by omega) e3 e4 hb hfuel
      exact ⟨k + 1, T1, L1, sp1, by push_cast; ring, r1, r2, r3, r4.trans e5, r5.trans e6,
        r6.trans e7, r7.trans e8⟩)
  obtain ⟨k, T, L, sp, e1, e2, e3, e4, e5, e6, e7, e8⟩ := h
  have : k = segs := by omega
  subst this
  exact ⟨T, L, sp, e2, e3, e4, e5, e6, e7, e8⟩

/-- The second loop of `SubdivideSegments` returns, in the state `MeshInv` of the round
`segs`. -/
theorem segmentLoopV (fuel : Nat) (segs : Nat) (T0 : CqSurfaceNURBS) (hseg : 1 ≤ segs)
    (ho : 1 ≤ T0.m_vOrder)
    (hr : rd T0.m_avKnots ((T0.m_vOrder - 1 : Nat) : Int) < rd T0.m_avKnots (T0.m_cvVerts : Int))
    (hs : T0.m_avKnots.Sorted (· ≤ ·)) (hlen : T0.m_avKnots.length = T0.m_cvVerts + T0.m_vOrder)
    (hm : ∀ j : Nat, 1 ≤ j → j < segs → ∀ a b : Nat, a ≤ b → b < T0.m_avKnots.length →
      rd T0.m_avKnots (a : Int) = sample T0.m_avKnots T0.m_cvVerts T0.m_vOrder j segs →
      rd T0.m_avKnots (b : Int) = sample T0.m_avKnots T0.m_cvVerts T0.m_vOrder j segs →
      b - a + 1 ≤ T0.m_vOrder)
    (hb : T0.m_cvVerts + segs * T0.m_vOrder + T0.m_vOrder < 4294967296)
    (hfuel : T0.m_cvVerts + segs * T0.m_vOrder + T0.m_vOrder + 1 ≤ fuel) :
    ∃ (T : CqSurfaceNURBS) (L : List Int) (sp : Nat → Nat),
      forUp 1 segs (segmentSplitV fuel segs)
        (some (T0, List.replicate ((segs : Int) + 1).toNat 0)) = some (T, L) ∧
      MeshInv T0.m_avKnots T0.m_cvVerts T0.m_vOrder segs segs T.m_avKnots T.m_cvVerts L sp ∧
      T.m_vOrder = T0.m_vOrder ∧ T.m_auKnots = T0.m_auKnots ∧ T.m_cuVerts = T0.m_cuVerts ∧
      T.m_uOrder = T0.m_uOrder ∧
      T.m_aUserParams.filter (fun q => q.Class = EqVariableClass.class_varying)
        = T0.m_aUserParams.filter (fun q => q.Class = EqVariableClass.class_varying) := by
  have h := forUp_induction_idx
    (fun (i : Int) (st : Option (CqSurfaceNURBS × List Int)) =>
      ∃ (k : Nat) (T : CqSurfaceNURBS) (L : List Int) (sp : Nat → Nat), i = (k : Int) ∧
        st = some (T, L) ∧
        MeshInv T0.m_avKnots T0.m_cvVerts T0.m_vOrder segs k T.m_avKnots T.m_cvVerts L sp ∧
        T.m_vOrder = T0.m_vOrder ∧ T.m_auKnots = T0.m_auKnots ∧ T.m_cuVerts = T0.m_cuVerts ∧
        T.m_uOrder = T0.m_uOrder ∧
        T.m_aUserParams.filter (fun q => q.Class = EqVariableClass.class_varying)
          = T0.m_aUserParams.filter (fun q => q.Class = EqVariableClass.class_varying))
    1 (segs : Int) (by omega) (segmentSplitV fuel segs)
    (some (T0, List.replicate ((segs : Int) + 1).toNat 0))
    ⟨1, T0, _, (fun _ => 0), rfl, rfl, MeshInv_init _ _ _ _ hs hlen hm, rfl, rfl, rfl, rfl, rfl⟩
    (by
      intro i st hi1 hi2 ⟨k, T, L, sp, e1, e2, e3, e4, e5, e6, e7, e8⟩
      subst e2
      subst e1
      obtain ⟨T1, L1, sp1, r1, r2, r3, r4, r5, r6, r7⟩ :=
        segmentSplitV_round fuel T0.m_avKnots T0.m_cvVerts T0.m_vOrder segs k T L sp hseg ho hr
          (by omega) (by omega) e3 e4 hb hfuel
      exact ⟨k + 1, T1, L1, sp1, by push_cast; ring, r1, r2, r3, r4.trans e5, r5.trans e6,
        r6.trans e7, r7.trans e8⟩)
  obtain ⟨k, T, L, sp, e1, e2, e3, e4, e5, e6, e7, e8⟩ := h
  have : k = segs := by omega
  subst this
  exact ⟨T, L, sp, e2, e3, e4, e5, e6, e7, e8⟩

theorem rd_eq_getAt {α : Type} [Zero α] (a : List α) (i : Int) : rd a i = getAt 0 a i := rfl

theorem patchAt_eq_getAt (S : List CqSurfaceNURBS) (i : Int) : patchAt S i = getAt fresh S i :=
  rfl

theorem setPatch_eq_wr (S : List CqSurfaceNURBS) (i : Int) (v : CqSurfaceNURBS) :
    setPatch S i v = wr S i v := rfl

theorem getAt_wr {α : Type} (d : α) (a : List α) (i j : Int) (v : α) :
    getAt d (wr a i v) j
      = if j = i ∧ 0 ≤ i ∧ i < a.length then v else getAt d a j := by
  by_cases hc : j = i ∧ 0 ≤ i ∧ i < a.length
  · rw [if_pos hc]
    obtain ⟨e, h0, h1⟩ := hc
    subst e
    have : j.toNat < a.length := by omega
    simp [getAt, wr, h0, this, List.getD_eq_getElem?_getD]
  · rw [if_neg hc]
    unfold getAt wr
    by_cases hj : 0 ≤ j
    · by_cases hi : 0 ≤ i
      · rw [if_pos hj, if_pos hj, if_pos hi]
        rw [List.getD_eq_getElem?_getD, List.getD_eq_getElem?_getD, List.getElem?_set]
        by_cases e : i.toNat = j.toNat
        · have e2 : j = i := by omega
          have : ¬ j.toNat < a.length := by
            intro h
            exact hc ⟨e2, hi, by omega⟩
          rw [if_pos e, e, if_neg this, List.getElem?_eq_none (by omega)]
        · rw [if_neg e]
      · rw [if_neg hi]
    · rw [if_neg hj, if_neg hj]


/-- A loop that carries the offset of the next segment along with its state: the offset of
round `u` is `o0` for `u = 0` and `next (u - 1)` later. -/
theorem forUp_offset {α : Type} (n : Nat) (next : Int → Int) (F : Int → Int → α → α) (a : α)
    (o0 : Int) :
    forUp 0 n (fun u (st : α × Int) => (F u st.2 st.1, next u)) (a, o0)
      = (forUp 0 n (fun u s => F u (if u = 0 then o0 else next (u - 1)) s) a,
          if n = 0 then o0 else next ((n : Int) - 1)) := by
  induction n with
  | zero =>
    rw [forUp_empty _ _ _ _ (by simp), forUp_empty _ _ _ _ (by simp)]
    simp
  | succ d ih =>
    have e : (((d + 1 : Nat) : Int)) = (d : Int) + 1 := by push_cast; ring
    rw [e, forUp_succ _ _ _ _ (by omega), forUp_succ _ _ _ _ (by omega), ih]
    have h1 : (d : Int) + 1 - 1 = d := by ring
    simp only [h1, Nat.succ_ne_zero, if_false]
    congr 1
    by_cases hd : d = 0
    · subst hd
      simp
    · have : ¬ ((d : Int) = 0) := by omega
      simp only [hd, this, if_false]

/-- A loop that stores at the places `base`, ..., `base + n - 1` a value made from the round
and from what the place holds. -/
theorem forUp_wr_at {α : Type} (d : α) (n : Nat) (base : Int) (h : Int → α → α) (S : List α)
    (hb : 0 ≤ base) (hlen : base + n ≤ S.length) :
    (forUp 0 n (fun u S1 => wr S1 (base + u) (h u (getAt d S1 (base + u)))) S).length
        = S.length ∧
      ∀ t : Int, getAt d (forUp 0 n (fun u S1 => wr S1 (base + u)
          (h u (getAt d S1 (base + u)))) S) t
        = if base ≤ t ∧ t < base + n then h (t - base) (getAt d S t) else getAt d S t := by
  have key := forUp_induction_idx
    (fun (i : Int) (R : List α) => R.length = S.length ∧ ∀ t : Int, getAt d R t
        = if base ≤ t ∧ t < base + i then h (t - base) (getAt d S t) else getAt d S t)
    0 (n : Int) (by omega) (fun u S1 => wr S1 (base + u) (h u (getAt d S1 (base + u)))) S
    ⟨rfl, by
      intro t
      have : ¬ (base ≤ t ∧ t < base + 0) := by omega
      rw [if_neg this]⟩
    (by
      intro i R hi1 hi2 ⟨l1, l2⟩
      refine ⟨by rw [wr_length, l1], ?_⟩
      intro t
      rw [getAt_wr]
      by_cases e : t = base + i
      · subst e
        have c1 : (base + i = base + i ∧ 0 ≤ base + i ∧ base + i < (R.length : Int)) := by
          omega
        have c2 : base ≤ base + i ∧ base + i < base + (i + 1) := by omega
        have c3 : ¬ (base ≤ base + i ∧ base + i < base + i) := by omega
        rw [if_pos c1, if_pos c2, l2, if_neg c3]
        have : base + i - base = i := by ring
        rw [this]
      · have c1 : ¬ (t = base + i ∧ 0 ≤ base + i ∧ base + i < (R.length : Int)) := by
          omega
        rw [if_neg c1, l2]
        by_cases c : base ≤ t ∧ t < base + i
        · have c2 : base ≤ t ∧ t < base + (i + 1) := by omega
          rw [if_pos c, if_pos c2]
        · have c2 : ¬ (base ≤ t ∧ t < base + (i + 1)) := by omega
          rw [if_neg c, if_neg c2])
  exact key

/-- A double loop that stores, row after row, at the place `v * nu + u` a value made from `u`,
`v` and what the place holds. -/
theorem forUp_grid {α : Type} (d : α) (nu nv : Nat) (h : Int → Int → α → α) (S : List α)
    (hlen : S.length = nu * nv) :
    (forUp 0 nv (fun v S0 => forUp 0 nu (fun u S1 =>
        wr S1 (v * nu + u) (h u v (getAt d S1 (v * nu + u)))) S0) S).length = nu * nv ∧
      ∀ u v : Nat, u < nu → v < nv →
        getAt d (forUp 0 nv (fun v S0 => forUp 0 nu (fun u S1 =>
          wr S1 (v * nu + u) (h u v (getAt d S1 (v * nu + u)))) S0) S) ((v : Int) * nu + u)
        = h u v (getAt d S ((v : Int) * nu + u)) := by
  have key := forUp_induction_idx
    (fun (i : Int) (R : List α) => R.length = nu * nv ∧
      (∀ u v : Nat, u < nu → (v : Int) < i →
        getAt d R ((v : Int) * nu + u) = h u v (getAt d S ((v : Int) * nu + u))) ∧
      ∀ t : Int, i * nu ≤ t → getAt d R t = getAt d S t)
    0 (nv : Int) (by omega)
    (fun v S0 => forUp 0 nu (fun u S1 =>
        wr S1 (v * nu + u) (h u v (getAt d S1 (v * nu + u)))) S0) S
    ⟨hlen, by intro u v _ hv; omega, fun _ _ => rfl⟩
    (by
      intro i R hi1 hi2 ⟨l1, l2, l3⟩
      have hin : i * nu + nu ≤ (nu : Int) * nv := by nlinarith
      obtain ⟨w1, w2⟩ := forUp_wr_at d nu (i * nu) (fun u x => h u i x) R
        (by positivity) (by rw [l1]; push_cast; linarith)
      refine ⟨by rw [w1, l1], ?_, ?_⟩
      · intro u v hu hv
        rw [w2]
        by_cases e : (v : Int) = i
        · subst e
          have c : (v : Int) * nu ≤ (v : Int) * nu + u ∧ (v : Int) * nu + u < (v : Int) * nu + nu := by
            omega
          rw [if_pos c, l3 _ (by omega)]
          have : (v : Int) * nu + u - (v : Int) * nu = u := by ring
          rw [this]
        · have hv2 : (v : Int) + 1 ≤ i := by omega
          have : (v : Int) * nu + nu ≤ i * nu := by nlinarith
          have c : ¬ (i * nu ≤ (v : Int) * nu + u ∧ (v : Int) * nu + u < i * nu + nu) := by
            omega
          rw [if_neg c]
          exact l2 u v hu (by omega)
      · intro t ht
        rw [w2]
        have : (i + 1) * (nu : Int) = i * nu + nu := by ring
        have c : ¬ (i * nu ≤ t ∧ t < i * nu + nu) := by omega
        rw [if_neg c]
        exact l3 t (by nlinarith))
  exact ⟨key.1, fun u v hu hv => key.2.1 u v hu (by exact_mod_cast hv)⟩

theorem rd_nil {α : Type} [Zero α] (i : Int) : rd ([] : List α) i = 0 := by
  unfold rd
  split <;> rfl

/-- What the patch of one segment of `SubdivideSegments` holds: the orders of the surface, the
numbers of control points from the offsets and the ends, the knots from the offsets on, and the
block of the control net. -/
theorem segmentPatch_spec (T : CqSurfaceNURBS) (uOffset vOffset uEnd vEnd : Int) (cU cV : Nat)
    (hU : uEnd + 1 - uOffset = cU) (hV : vEnd + 1 - vOffset = cV)
    (hbU : cU < 4294967296) (hbV : cV < 4294967296) :
    (segmentPatch T uOffset vOffset uEnd vEnd).m_cuVerts = cU ∧
    (segmentPatch T uOffset vOffset uEnd vEnd).m_cvVerts = cV ∧
    (segmentPatch T uOffset vOffset uEnd vEnd).m_uOrder = T.m_uOrder ∧
    (segmentPatch T uOffset vOffset uEnd vEnd).m_vOrder = T.m_vOrder ∧
    (segmentPatch T uOffset vOffset uEnd vEnd).m_auKnots.length = cU + T.m_uOrder ∧
    (segmentPatch T uOffset vOffset uEnd vEnd).m_avKnots.length = cV + T.m_vOrder ∧
    (∀ t : Nat, t < cU + T.m_uOrder →
      rd (segmentPatch T uOffset vOffset uEnd vEnd).m_auKnots (t : Int)
        = rd T.m_auKnots (uOffset + t)) ∧
    (∀ t : Nat, t < cV + T.m_vOrder →
      rd (segmentPatch T uOffset vOffset uEnd vEnd).m_avKnots (t : Int)
        = rd T.m_avKnots (vOffset + t)) ∧
    (segmentPatch T uOffset vOffset uEnd vEnd).P.length = cU * cV ∧
    (∀ i j : Nat, i < cV → j < cU →
      rd (segmentPatch T uOffset vOffset uEnd vEnd).P ((i : Int) * cU + j)
        = rd T.P ((vOffset + i) * T.m_cuVerts + uOffset + j)) ∧
    (segmentPatch T uOffset vOffset uEnd vEnd).m_aUserParams.filter
      (fun q => q.Class = EqVariableClass.class_varying) = [] := by
  have eU : u32 (uEnd + 1 - uOffset) = cU := by
    rw [hU]
    exact u32_nat _ hbU
  have eV : u32 (vEnd + 1 - vOffset) = cV := by
    rw [hV]
    exact u32_nat _ hbV
  have eU2 : uEnd - uOffset + 1 = (cU : Int) := by omega
  have eV2 : vEnd - vOffset + 1 = (cV : Int) := by omega
  have kU := forUp_wr_fill ((T.m_uOrder + cU : Nat) : Int)
    (fun i => rd T.m_auKnots (uOffset + i)) (resize ([] : List ℚ) (cU + T.m_uOrder))
    (by rw [resize_length]; omega)
  have kV := forUp_wr_fill ((T.m_vOrder + cV : Nat) : Int)
    (fun i => rd T.m_avKnots (vOffset + i)) (resize ([] : List ℚ) (cV + T.m_vOrder))
    (by rw [resize_length]; omega)
  have kP := forUp_grid (0 : CqVector4D) cU cV
    (fun u v _ => rd T.P ((vOffset + v) * T.m_cuVerts + uOffset + u))
    (resize ([] : List CqVector4D) (cU * cV)) (resize_length _ _)
  unfold segmentPatch
  simp only [Init, fresh, eU, eV, eU2, eV2, copyKnots]
  refine ⟨trivial, trivial, trivial, trivial, ?_, ?_, ?_, ?_, ?_, ?_, ?_⟩
  · rw [kU.1, resize_length]
  · rw [kV.1, resize_length]
  · intro t ht
    exact kU.2 t (by omega) (by omega)
  · intro t ht
    exact kV.2 t (by omega) (by omega)
  · exact kP.1
  · intro i j hi hj
    exact kP.2 j i hj hi
  · rw [List.nil_append, List.filter_eq_nil_iff]
    intro q hq
    rw [List.mem_map] at hq
    obtain ⟨q0, h0, rfl⟩ := hq
    have := (List.mem_filter.mp h0).2
    simp only [decide_eq_true_eq] at this ⊢
    rw [this]
    decide

/-- In a non-decreasing vector the places that hold a value are a run no longer than the number
of times the value occurs. -/
theorem run_le_count (K : List ℚ) (hs : K.Sorted (· ≤ ·)) (s : ℚ) (a b : Nat) (hab : a ≤ b)
    (hb : b < K.length) (ha1 : rd K (a : Int) = s) (hb1 : rd K (b : Int) = s) :
    b - a + 1 ≤ K.count s := by
  have hsub : ((K.drop a).take (b - a + 1)).Sublist K :=
    (List.take_sublist _ _).trans (List.drop_sublist _ _)
  have hlen : ((K.drop a).take (b - a + 1)).length = b - a + 1 := by
    rw [List.length_take, List.length_drop]
    omega
  have hrep : (K.drop a).take (b - a + 1) = List.replicate (b - a + 1) s := by
    rw [List.eq_replicate_iff]
    refine ⟨hlen, ?_⟩
    intro x hx
    obtain ⟨t, ht, rfl⟩ := List.mem_iff_getElem.mp hx
    rw [hlen] at ht
    rw [List.getElem_take, List.getElem_drop]
    have h1 := rd_mono K hs (i := a) (j := a + t) (by omega) (by omega)
    have h2 := rd_mono K hs (i := a + t) (j := b) (by omega) (by omega)
    rw [ha1] at h1
    rw [hb1] at h2
    rw [rd_nat_lt K (a + t) (by omega)] at h1 h2
    exact le_antisymm h2 h1
  have := hsub.count_le s
  rw [hrep, List.count_replicate_self] at this
  exact this

theorem segmentRow_eq (T : CqSurfaceNURBS) (uSP : List Int) (nu : Nat) (vPatch vOffset vEnd : Int)
    (S : List CqSurfaceNURBS) :
    (segmentRow T uSP nu vPatch vOffset vEnd S).1
      = forUp 0 nu (fun u S1 => wr S1 (vPatch * nu + u)
          (segmentPatch T (if u = 0 then 0 else rd uSP u + 1) vOffset (rd uSP (u + 1)) vEnd))
          S := by
  have h := forUp_offset nu (fun u => rd uSP (u + 1) + 1)
    (fun u off s => setPatch s (vPatch * nu + u) (segmentPatch T off vOffset (rd uSP (u + 1)) vEnd))
    S 0
  have e : segmentRow T uSP nu vPatch vOffset vEnd S
      = forUp 0 nu (fun u (st : List CqSurfaceNURBS × Int) =>
          ((fun u off s => setPatch s (vPatch * nu + u)
            (segmentPatch T off vOffset (rd uSP (u + 1)) vEnd)) u st.2 st.1,
            (fun u => rd uSP (u + 1) + 1) u)) (S, 0) := rfl
  rw [e, h]
  simp only [sub_add_cancel, setPatch_eq_wr]

/-- The patches that the loops over the segments of `SubdivideSegments` store: the patch of the
segment `(iu, iv)` is at the place `iv * nu + iu`; its offsets are `0` for the first segment and
one past the end of the segment before for the others. -/
theorem segmentPatches_spec (T : CqSurfaceNURBS) (uSP vSP : List Int) (nu nv : Nat)
    (S : List CqSurfaceNURBS) (hlen : S.length = nu * nv) :
    (segmentPatches T uSP vSP nu nv S).length = nu * nv ∧
    ∀ iu iv : Nat, iu < nu → iv < nv →
      patchAt (segmentPatches T uSP vSP nu nv S) ((iv : Int) * nu + iu)
        = segmentPatch T (if (iu : Int) = 0 then 0 else rd uSP iu + 1)
            (if (iv : Int) = 0 then 0 else rd vSP iv + 1) (rd uSP ((iu : Int) + 1))
            (rd vSP ((iv : Int) + 1)) := by
  have h := forUp_offset nv (fun v => rd vSP (v + 1) + 1)
    (fun v off s => (segmentRow T uSP nu v off (rd vSP (v + 1)) s).1) S 0
  have e : segmentPatches T uSP vSP nu nv S
      = (forUp 0 nv (fun v (st : List CqSurfaceNURBS × Int) =>
          ((fun v off s => (segmentRow T uSP nu v off (rd vSP (v + 1)) s).1) v st.2 st.1,
            (fun v => rd vSP (v + 1) + 1) v)) (S, 0)).1 := rfl
  rw [e, h]
  simp only [sub_add_cancel, segmentRow_eq]
  have g := forUp_grid fresh nu nv
    (fun u v _ => segmentPatch T (if u = 0 then 0 else rd uSP u + 1)
      (if v = 0 then 0 else rd vSP v + 1) (rd uSP (u + 1)) (rd vSP (v + 1))) S hlen
  exact ⟨g.1, fun iu iv hu hv => g.2 iu iv hu hv⟩

/-- The patches after the loops of `SubdivideSegments` over the user parameters of class
varying: each patch has got the corner values of its segment at the end of its parameters. -/
theorem segmentCorners_spec (T : CqSurfaceNURBS) (nu nv : Nat) (S : List CqSurfaceNURBS)
    (hlen : S.length = nu * nv) :
    (segmentCorners T nu nv S).length = nu * nv ∧
    ∀ iu iv : Nat, iu < nu → iv < nv →
      patchAt (segmentCorners T nu nv S) ((iv : Int) * nu + iu)
        = { patchAt S ((iv : Int) * nu + iu) with
            m_aUserParams := (patchAt S ((iv : Int) * nu + iu)).m_aUserParams ++
              (T.m_aUserParams.filter
                (fun q => q.Class = EqVariableClass.class_varying)).map
                (cornerParam nu iu iv) } := by
  have g := forUp_grid fresh nu nv
    (fun u v x => { x with
      m_aUserParams := x.m_aUserParams ++
        (T.m_aUserParams.filter (fun q => q.Class = EqVariableClass.class_varying)).map
          (cornerParam nu u v) }) S hlen
  exact ⟨g.1, fun iu iv hu hv => g.2 iu iv hu hv⟩

theorem offsets_sum (off c : Nat → Nat) (n : Nat) (h0 : off 0 = 0)
    (h : ∀ i : Nat, i < n → off i + c i = off (i + 1)) :
    ∑ i in Finset.range n, c i = off n := by
  induction n with
  | zero => simp [h0]
  | succ d ih =>
    rw [Finset.sum_range_succ, ih (fun i hi => h i (by omega)), h d (by omega)]

theorem offsets_unique (off : Nat → Nat) (n : Nat) (h0 : off 0 = 0)
    (hmono : ∀ i : Nat, i < n → off i ≤ off (i + 1)) (a : Nat) (ha : a < off n) :
    ∃! i : Nat, i < n ∧ off i ≤ a ∧ a < off (i + 1) := by
  have mono : ∀ i j : Nat, i ≤ j → j ≤ n → off i ≤ off j := by
    intro i j hij hj
    induction j with
    | zero =>
      have : i = 0 := by omega
      rw [this]
    | succ d ih =>
      rcases Nat.eq_or_lt_of_le hij with e | e
      · rw [e]
      · exact le_trans (ih (by omega) (by omega)) (hmono d (by omega))
  have ex : ∀ m : Nat, m ≤ n → a < off m → ∃ i : Nat, i < m ∧ off i ≤ a ∧ a < off (i + 1) := by
    intro m
    induction m with
    | zero =>
      intro _ h
      rw [h0] at h
      omega
    | succ d ih =>
      intro hd h
      by_cases c : a < off d
      · obtain ⟨i, h1, h2, h3⟩ := ih (by omega) c
        exact ⟨i, by omega, h2, h3⟩
      · exact ⟨d, by omega, by omega, h⟩
  obtain ⟨i, h1, h2, h3⟩ := ex n (le_refl n) ha
  refine ⟨i, ⟨h1, h2, h3⟩, ?_⟩
  intro j ⟨j1, j2, j3⟩
  by_contra hne
  rcases Nat.lt_or_gt_of_ne hne with c | c
  · have := mono (j + 1) i (by omega) (by omega)
    omega
  · have := mono (i + 1) j (by omega) (by omega)
    omega

/-- The segments of a direction after its refinement loop: with the end of the last segment
stored, the offsets and the ends that the loops over the patches read are those of a chain
`off 0 = 0 ≤ off 1 ≤ ... ≤ off segs = n`, and the knots at the two ends of the active range
of segment `i` are the split values `i` and `i + 1`. -/
theorem MeshInv_segments (K0 : List ℚ) (n0 o segs : Nat) (K : List ℚ) (n : Nat) (L : List Int)
    (sp : Nat → Nat) (hseg : 1 ≤ segs) (ho : 1 ≤ o)
    (hinv : MeshInv K0 n0 o segs segs K n L sp) :
    ∃ off : Nat → Nat, off 0 = 0 ∧ off segs = n ∧ ∀ i : Nat, i < segs →
      (if (i : Int) = 0 then 0 else rd (wr L segs ((n : Int) - 1)) i + 1) = (off i : Int) ∧
      rd (wr L segs ((n : Int) - 1)) ((i : Int) + 1) + 1 = (off (i + 1) : Int) ∧
      off i ≤ off (i + 1) ∧ off (i + 1) ≤ n ∧
      rd K ((off i : Int) + ((o : Int) - 1)) = sample K0 n0 o i segs ∧
      rd K (off (i + 1) : Int) = sample K0 n0 o ((i + 1 : Nat) : Int) segs := by
  obtain ⟨cs, cl, cn, ca, cb, cL, cm, cp⟩ := hinv
  have hoff : ∀ j : Nat, 1 ≤ j → j ≤ segs →
      rd (wr L segs ((n : Int) - 1)) (j : Int) + 1
        = ((if j = segs then n else sp j + 1 : Nat) : Int) := by
    intro j h1 h2
    by_cases e : j = segs
    · subst e
      rw [rd_wr_same _ _ _ (by omega) (by omega), if_pos rfl]
      ring
    · rw [rd_wr_ne _ _ _ _ (by omega), if_neg e, (cp j h1 (by omega)).1]
      push_cast
      ring
  refine ⟨fun i => if i = 0 then 0 else if i = segs then n else sp i + 1, by simp, ?_, ?_⟩
  · have : segs ≠ 0 := by omega
    simp [this]
  · intro i hi
    have e1 : ((i : Int) + 1) = ((i + 1 : Nat) : Int) := by push_cast; ring
    have hne : i + 1 ≠ 0 := by omega
    simp only [hne, if_false]
    rw [e1, hoff (i + 1) (by omega) (by omega)]
    by_cases hz : i = 0
    · subst hz
      have e2 : (((0 : Nat) : Int) + ((o : Int) - 1)) = ((o - 1 : Nat) : Int) := by omega
      have e0 : (0 + 1 : Nat) = 1 := rfl
      rw [e0]
      have e3 : (if 1 = segs then n else sp 1 + 1) ≤ n := by
        by_cases e : 1 = segs
        · rw [if_pos e]
        · rw [if_neg e]
          have := (cp 1 (le_refl 1) (by omega)).2.2.2.2.1
          omega
      refine ⟨by simp, rfl, by simp, e3, ?_, ?_⟩
      · rw [if_pos rfl, e2, ca]
        exact (sample_zero K0 n0 o segs ho).symm
      · by_cases e : 1 = segs
        · rw [if_pos e, cb, e]
          exact (sample_last K0 n0 o segs ho hseg).symm
        · rw [if_neg e]
          exact (cp 1 (le_refl 1) (by omega)).2.1
    · have hzi : ¬ ((i : Int) = 0) := by omega
      have his : i ≠ segs := by omega
      obtain ⟨p1, p2, p3, p4, p5, p6⟩ := cp i (by omega) hi
      simp only [hz, hzi, his, if_false]
      rw [hoff i (by omega) (by omega), if_neg his]
      refine ⟨rfl, trivial, ?_, ?_, ?_, ?_⟩
      · by_cases e : i + 1 = segs
        · rw [if_pos e]
          omega
        · rw [if_neg e]
          have := p6 (i + 1) (by omega) (by omega)
          omega
      · by_cases e : i + 1 = segs
        · rw [if_pos e]
        · rw [if_neg e]
          have := (cp (i + 1) (by omega) (by omega)).2.2.2.2.1
          omega
      · have e2 : (((sp i + 1 : Nat) : Int) + ((o : Int) - 1)) = ((sp i + o : Nat) : Int) := by
          omega
        rw [e2]
        exact p3
      · by_cases e : i + 1 = segs
        · rw [if_pos e, cb, e]
          exact (sample_last K0 n0 o segs ho hseg).symm
        · rw [if_neg e]
          exact (cp (i + 1) (by omega) (by omega)).2.1

/-- The hypotheses of the refinement loop of a direction from `Splittable`. -/
theorem Splittable_runs (K : List ℚ) (n o segs : Nat) (h : Splittable K n o segs) :
    rd K ((o - 1 : Nat) : Int) < rd K (n : Int) ∧
    ∀ j : Nat, 1 ≤ j → j < segs → ∀ a b : Nat, a ≤ b → b < K.length →
      rd K (a : Int) = sample K n o j segs → rd K (b : Int) = sample K n o j segs →
      b - a + 1 ≤ o := by
  obtain ⟨h1, h2, h3, h4, h5, h6, h7⟩ := h
  have e : ((o : Int) - 1) = ((o - 1 : Nat) : Int) := by omega
  rw [e] at h5
  refine ⟨h5, ?_⟩
  intro j hj1 hj2 a b hab hb ha1 hb1
  exact le_trans (run_le_count K h1 _ a b hab hb ha1 hb1) (h6 j hj2 hj1)

/-- What `SubdivideSegments` returns for a patch mesh whose knot vectors can be cut: the refined
surface `T` and `uSegs * vSegs` patches; the patch of the segment `(iu, iv)` is the patch that
`segmentPatch` makes for the offsets `uOff iu`, `vOff iv` and the ends `uOff (iu + 1) - 1`,
`vOff (iv + 1) - 1`, followed by the corner values of the parameters of class varying. -/
theorem SubdivideSegments_patches (fuel : Nat) (T0 : CqSurfaceNURBS) (uSegs vSegs : Nat)
    (hu : Splittable T0.m_auKnots T0.m_cuVerts T0.m_uOrder uSegs)
    (hv : Splittable T0.m_avKnots T0.m_cvVerts T0.m_vOrder vSegs)
    (hfu : T0.m_cuVerts + uSegs * T0.m_uOrder + T0.m_uOrder + 1 ≤ fuel)
    (hfv : T0.m_cvVerts + vSegs * T0.m_vOrder + T0.m_vOrder + 1 ≤ fuel) :
    ∃ (T : CqSurfaceNURBS) (S : List CqSurfaceNURBS) (uOff vOff : Nat → Nat),
      SubdivideSegments fuel T0 uSegs vSegs = some (T, S) ∧ S.length = uSegs * vSegs ∧
      T.m_uOrder = T0.m_uOrder ∧ T.m_vOrder = T0.m_vOrder ∧
      T.m_cuVerts < 4294967296 ∧ T.m_cvVerts < 4294967296 ∧
      uOff 0 = 0 ∧ uOff uSegs = T.m_cuVerts ∧ vOff 0 = 0 ∧ vOff vSegs = T.m_cvVerts ∧
      (∀ i : Nat, i < uSegs → uOff i ≤ uOff (i + 1) ∧ uOff (i + 1) ≤ T.m_cuVerts ∧
        rd T.m_auKnots ((uOff i : Int) + ((T0.m_uOrder : Int) - 1))
          = sample T0.m_auKnots T0.m_cuVerts T0.m_uOrder i uSegs ∧
        rd T.m_auKnots (uOff (i + 1) : Int)
          = sample T0.m_auKnots T0.m_cuVerts T0.m_uOrder ((i + 1 : Nat) : Int) uSegs) ∧
      (∀ i : Nat, i < vSegs → vOff i ≤ vOff (i + 1) ∧ vOff (i + 1) ≤ T.m_cvVerts ∧
        rd T.m_avKnots ((vOff i : Int) + ((T0.m_vOrder : Int) - 1))
          = sample T0.m_avKnots T0.m_cvVerts T0.m_vOrder i vSegs ∧
        rd T.m_avKnots (vOff (i + 1) : Int)
          = sample T0.m_avKnots T0.m_cvVerts T0.m_vOrder ((i + 1 : Nat) : Int) vSegs) ∧
      ∀ iu iv : Nat, iu < uSegs → iv < vSegs →
        patchAt S ((iv : Int) * uSegs + iu)
          = { segmentPatch T (uOff iu) (vOff iv) ((uOff (iu + 1) : Int) - 1)
                ((vOff (iv + 1) : Int) - 1) with
              m_aUserParams :=
                (segmentPatch T (uOff iu) (vOff iv) ((uOff (iu + 1) : Int) - 1)
                  ((vOff (iv + 1) : Int) - 1)).m_aUserParams ++
                (T0.m_aUserParams.filter
                  (fun q => q.Class = EqVariableClass.class_varying)).map
                  (cornerParam uSegs iu iv) } := by
  obtain ⟨hrU, hmU⟩ := Splittable_runs _ _ _ _ hu
  obtain ⟨hrV, hmV⟩ := Splittable_runs _ _ _ _ hv
  obtain ⟨u1, u2, u3, u4, -, -, u7⟩ := hu
  obtain ⟨v1, v2, v3, v4, -, -, v7⟩ := hv
  obtain ⟨Tu, Lu, spu, ru1, ru2, ru3, ru4, ru5, ru6, ru7⟩ :=
    segmentLoopU fuel uSegs T0 u4 u3 hrU u1 u2 hmU u7 hfu
  obtain ⟨T, Lv, spv, rv1, rv2, rv3, rv4, rv5, rv6, rv7⟩ :=
    segmentLoopV fuel vSegs Tu v4 (by rw [ru6]; exact v3) (by rw [ru4, ru5, ru6]; exact hrV)
      (by rw [ru4]; exact v1) (by rw [ru4, ru5, ru6]; exact v2)
      (by rw [ru4, ru5, ru6]; exact hmV) (by rw [ru5, ru6]; exact v7)
      (by rw [ru5, ru6]; exact hfv)
  rw [← rv4, ← rv5] at ru2
  rw [ru4, ru5, ru6] at rv2
  obtain ⟨uOff, a1, a2, a3⟩ := MeshInv_segments _ _ _ _ _ _ _ _ u4 u3 ru2
  obtain ⟨vOff, b1, b2, b3⟩ := MeshInv_segments _ _ _ _ _ _ _ _ v4 v3 rv2
  have hS0 : (List.replicate ((uSegs : Int) * (vSegs : Int)).toNat fresh).length
      = uSegs * vSegs := by
    rw [List.length_replicate, ← Nat.cast_mul, Int.toNat_natCast]
  obtain ⟨p1, p2⟩ := segmentPatches_spec T (wr Lu uSegs ((T.m_cuVerts : Int) - 1))
    (wr Lv vSegs ((T.m_cvVerts : Int) - 1)) uSegs vSegs _ hS0
  obtain ⟨c1, c2⟩ := segmentCorners_spec T uSegs vSegs _ p1
  have hcu : T.m_cuVerts ≤ T0.m_cuVerts + (uSegs - 1) * T0.m_uOrder := ru2.2.2.1
  have hcv : T.m_cvVerts ≤ T0.m_cvVerts + (vSegs - 1) * T0.m_vOrder := rv2.2.2.1
  have hmu : (uSegs - 1) * T0.m_uOrder ≤ uSegs * T0.m_uOrder :=
    Nat.mul_le_mul_right _ (by omega)
  have hmv : (vSegs - 1) * T0.m_vOrder ≤ vSegs * T0.m_vOrder :=
    Nat.mul_le_mul_right _ (by omega)
  refine ⟨T, _, uOff, vOff, ?_, c1, rv6.trans ru3, rv3.trans ru6, by omega, by omega, a1, a2,
    b1, b2, ?_, ?_, ?_⟩
  · unfold SubdivideSegments
    simp only [ru1, Option.some_bind, rv1, Option.map_some']
  · intro i hi
    obtain ⟨-, -, q3, q4, q5, q6⟩ := a3 i hi
    exact ⟨q3, q4, q5, q6⟩
  · intro i hi
    obtain ⟨-, -, q3, q4, q5, q6⟩ := b3 i hi
    exact ⟨q3, q4, q5, q6⟩
  · intro iu iv hiu hiv
    obtain ⟨q1, q2, -, -, -, -⟩ := a3 iu hiu
    obtain ⟨s1, s2, -, -, -, -⟩ := b3 iv hiv
    have e1 : rd (wr Lu uSegs ((T.m_cuVerts : Int) - 1)) ((iu : Int) + 1)
        = (uOff (iu + 1) : Int) - 1 := by omega
    have e2 : rd (wr Lv vSegs ((T.m_cvVerts : Int) - 1)) ((iv : Int) + 1)
        = (vOff (iv + 1) : Int) - 1 := by omega
    rw [c2 iu iv hiu hiv, p2 iu iv hiu hiv, q1, s1, e1, e2, rv7, ru7]

theorem sample_slice (K : List ℚ) (n o : Nat) (i segs : Int) :
    sample K n o i segs
      = rd K ((o : Int) - 1) + (i : ℚ) / (segs : ℚ) * (rd K (n : Int) - rd K ((o : Int) - 1)) := by
  unfold sample
  ring

/-- C23: for a patch mesh with `uSegs` x `vSegs` segments whose two knot vectors can be cut
(`Splittable`: non-decreasing, of length `cVerts + order`, with a non-empty active range and no
inner split value occurring more than `order` times) `SubdivideSegments` returns, with the
refined surface `T`, exactly `uSegs * vSegs` patches.  The numbers of control points of the
patches of a row sum to `T.m_cuVerts` and those of a column to `T.m_cvVerts`; with the offsets
`uOff`, `vOff` of the segments every column `a` and every row `b` of the refined net lies in
exactly one segment, and the patch `(iu, iv)` holds the block of the refined net from its
offsets on.  Each knot vector of a patch has as many knots as control points plus order, and
the active range of the patch `(iu, iv)` is slice `iu` of the `uSegs` equal slices of the
active `u` range of the mesh, times slice `iv` of the `vSegs` equal slices of its `v` range. -/
theorem SubdivideSegments_tiles (fuel : Nat) (T0 : CqSurfaceNURBS) (uSegs vSegs : Nat)
    (hu : Splittable T0.m_auKnots T0.m_cuVerts T0.m_uOrder uSegs)
    (hv : Splittable T0.m_avKnots T0.m_cvVerts T0.m_vOrder vSegs)
    (hfu : T0.m_cuVerts + uSegs * T0.m_uOrder + T0.m_uOrder + 1 ≤ fuel)
    (hfv : T0.m_cvVerts + vSegs * T0.m_vOrder + T0.m_vOrder + 1 ≤ fuel) :
    ∃ (T : CqSurfaceNURBS) (S : List CqSurfaceNURBS) (uOff vOff : Nat → Nat),
      SubdivideSegments fuel T0 uSegs vSegs = some (T, S) ∧ S.length = uSegs * vSegs ∧
      (∀ iv : Nat, iv < vSegs →
        ∑ iu in Finset.range uSegs, (patchAt S ((iv : Int) * uSegs + iu)).m_cuVerts
          = T.m_cuVerts) ∧
      (∀ iu : Nat, iu < uSegs →
        ∑ iv in Finset.range vSegs, (patchAt S ((iv : Int) * uSegs + iu)).m_cvVerts
          = T.m_cvVerts) ∧
      (∀ a : Nat, a < T.m_cuVerts → ∃! iu : Nat, iu < uSegs ∧ uOff iu ≤ a ∧ a < uOff (iu + 1)) ∧
      (∀ b : Nat, b < T.m_cvVerts → ∃! iv : Nat, iv < vSegs ∧ vOff iv ≤ b ∧ b < vOff (iv + 1)) ∧
      ∀ (iu iv : Nat) (p : CqSurfaceNURBS), iu < uSegs → iv < vSegs →
        p = patchAt S ((iv : Int) * uSegs + iu) →
        uOff iu + p.m_cuVerts = uOff (iu + 1) ∧ vOff iv + p.m_cvVerts = vOff (iv + 1) ∧
        p.P.length = p.m_cuVerts * p.m_cvVerts ∧
        (∀ i j : Nat, i < p.m_cvVerts → j < p.m_cuVerts →
          rd p.P ((i : Int) * p.m_cuVerts + j)
            = rd T.P (((vOff iv + i : Nat) : Int) * T.m_cuVerts + ((uOff iu + j : Nat) : Int))) ∧
        p.m_uOrder = T0.m_uOrder ∧ p.m_vOrder = T0.m_vOrder ∧
        p.m_auKnots.length = p.m_cuVerts + p.m_uOrder ∧
        p.m_avKnots.length = p.m_cvVerts + p.m_vOrder ∧
        rd p.m_auKnots ((p.m_uOrder : Int) - 1)
          = rd T0.m_auKnots ((T0.m_uOrder : Int) - 1) + (iu : ℚ) / (uSegs : ℚ)
            * (rd T0.m_auKnots (T0.m_cuVerts : Int) - rd T0.m_auKnots ((T0.m_uOrder : Int) - 1)) ∧
        rd p.m_auKnots (p.m_cuVerts : Int)
          = rd T0.m_auKnots ((T0.m_uOrder : Int) - 1) + ((iu : ℚ) + 1) / (uSegs : ℚ)
            * (rd T0.m_auKnots (T0.m_cuVerts : Int) - rd T0.m_auKnots ((T0.m_uOrder : Int) - 1)) ∧
        rd p.m_avKnots ((p.m_vOrder : Int) - 1)
          = rd T0.m_avKnots ((T0.m_vOrder : Int) - 1) + (iv : ℚ) / (vSegs : ℚ)
            * (rd T0.m_avKnots (T0.m_cvVerts : Int) - rd T0.m_avKnots ((T0.m_vOrder : Int) - 1)) ∧
        rd p.m_avKnots (p.m_cvVerts : Int)
          = rd T0.m_avKnots ((T0.m_vOrder : Int) - 1) + ((iv : ℚ) + 1) / (vSegs : ℚ)
            * (rd T0.m_avKnots (T0.m_cvVerts : Int) - rd T0.m_avKnots ((T0.m_vOrder : Int) - 1)) := by
  obtain ⟨T, S, uOff, vOff, r1, r2, r3, r4, r5, r6, a1, a2, b1, b2, ha, hb, hp⟩ :=
    SubdivideSegments_patches fuel T0 uSegs vSegs hu hv hfu hfv
  have hoU : 1 ≤ T0.m_uOrder := hu.2.2.1
  have hoV : 1 ≤ T0.m_vOrder := hv.2.2.1
  have facts : ∀ (iu iv : Nat), iu < uSegs → iv < vSegs →
      ∃ cU cV : Nat, uOff iu + cU = uOff (iu + 1) ∧ vOff iv + cV = vOff (iv + 1) ∧
        cU < 4294967296 ∧ cV < 4294967296 ∧
        (uOff (iu + 1) : Int) - 1 + 1 - (uOff iu : Int) = cU ∧
        (vOff (iv + 1) : Int) - 1 + 1 - (vOff iv : Int) = cV := by
    intro iu iv hiu hiv
    obtain ⟨x1, x2, -, -⟩ := ha iu hiu
    obtain ⟨y1, y2, -, -⟩ := hb iv hiv
    exact ⟨uOff (iu + 1) - uOff iu, vOff (iv + 1) - vOff iv, by omega, by omega, by omega,
      by omega, by omega, by omega⟩
  have hcu : ∀ (iu iv : Nat), iu < uSegs → iv < vSegs →
      uOff iu + (patchAt S ((iv : Int) * uSegs + iu)).m_cuVerts = uOff (iu + 1) ∧
      vOff iv + (patchAt S ((iv : Int) * uSegs + iu)).m_cvVerts = vOff (iv + 1) := by
    intro iu iv hiu hiv
    obtain ⟨cU, cV, f1, f2, f3, f4, f5, f6⟩ := facts iu iv hiu hiv
    obtain ⟨s1, s2, -⟩ := segmentPatch_spec T (uOff iu) (vOff iv) ((uOff (iu + 1) : Int) - 1)
      ((vOff (iv + 1) : Int) - 1) cU cV f5 f6 f3 f4
    have e1 : (patchAt S ((iv : Int) * uSegs + iu)).m_cuVerts = cU := by
      rw [hp iu iv hiu hiv]
      exact s1
    have e2 : (patchAt S ((iv : Int) * uSegs + iu)).m_cvVerts = cV := by
      rw [hp iu iv hiu hiv]
      exact s2
    rw [e1, e2]
    exact ⟨f1, f2⟩
  refine ⟨T, S, uOff, vOff, r1, r2, ?_, ?_, ?_, ?_, ?_⟩
  · intro iv hiv
    rw [← a2]
    exact offsets_sum uOff _ uSegs a1 (fun i hi => (hcu i iv hi hiv).1)
  · intro iu hiu
    rw [← b2]
    exact offsets_sum vOff _ vSegs b1 (fun i hi => (hcu iu i hiu hi).2)
  · intro a h
    exact offsets_unique uOff uSegs a1 (fun i hi => (ha i hi).1) a (by rw [a2]; exact h)
  · intro b h
    exact offsets_unique vOff vSegs b1 (fun i hi => (hb i hi).1) b (by rw [b2]; exact h)
  · intro iu iv p hiu hiv hpe
    obtain ⟨cU, cV, f1, f2, f3, f4, f5, f6⟩ := facts iu iv hiu hiv
    obtain ⟨s1, s2, s3, s4, s5, s6, s7, s8, s9, s10, -⟩ :=
      segmentPatch_spec T (uOff iu) (vOff iv) ((uOff (iu + 1) : Int) - 1)
        ((vOff (iv + 1) : Int) - 1) cU cV f5 f6 f3 f4
    obtain ⟨-, -, x3, x4⟩ := ha iu hiu
    obtain ⟨-, -, y3, y4⟩ := hb iv hiv
    have e1 : p.m_cuVerts = cU := by rw [hpe, hp iu iv hiu hiv]; exact s1
    have e2 : p.m_cvVerts = cV := by rw [hpe, hp iu iv hiu hiv]; exact s2
    have e3 : p.m_uOrder = T0.m_uOrder := by rw [hpe, hp iu iv hiu hiv]; exact s3.trans r3
    have e4 : p.m_vOrder = T0.m_vOrder := by rw [hpe, hp iu iv hiu hiv]; exact s4.trans r4
    have e5 : p.m_auKnots = (segmentPatch T (uOff iu) (vOff iv) ((uOff (iu + 1) : Int) - 1)
        ((vOff (iv + 1) : Int) - 1)).m_auKnots := by rw [hpe, hp iu iv hiu hiv]
    have e6 : p.m_avKnots = (segmentPatch T (uOff iu) (vOff iv) ((uOff (iu + 1) : Int) - 1)
        ((vOff (iv + 1) : Int) - 1)).m_avKnots := by rw [hpe, hp iu iv hiu hiv]
    have e7 : p.P = (segmentPatch T (uOff iu) (vOff iv) ((uOff (iu + 1) : Int) - 1)
        ((vOff (iv + 1) : Int) - 1)).P := by rw [hpe, hp iu iv hiu hiv]
    rw [e1, e2, e3, e4, e5, e6, e7]
    rw [r3] at s5 s7
    rw [r4] at s6 s8
    refine ⟨f1, f2, s9, ?_, rfl, rfl, s5, s6, ?_, ?_, ?_, ?_⟩
    · intro i j hi hj
      rw [s10 i j hi hj]
      congr 1
      push_cast
      ring
    · have := s7 (T0.m_uOrder - 1) (by omega)
      have c : ((T0.m_uOrder - 1 : Nat) : Int) = (T0.m_uOrder : Int) - 1 := by omega
      rw [c] at this
      rw [this, x3, sample_slice]
      push_cast
      ring
    · have := s7 cU (by omega)
      have c : (uOff iu : Int) + (cU : Int) = ((uOff (iu + 1) : Nat) : Int) := by omega
      rw [this, c, x4, sample_slice]
      push_cast
      ring
    · have := s8 (T0.m_vOrder - 1) (by omega)
      have c : ((T0.m_vOrder - 1 : Nat) : Int) = (T0.m_vOrder : Int) - 1 := by omega
      rw [c] at this
      rw [this, y3, sample_slice]
      push_cast
      ring
    · have := s8 cV (by omega)
      have c : (vOff iv : Int) + (cV : Int) = ((vOff (iv + 1) : Nat) : Int) := by omega
      rw [this, c, y4, sample_slice]
      push_cast
      ring

theorem mesh23_u : Splittable Examples.mesh23.m_auKnots Examples.mesh23.m_cuVerts
    Examples.mesh23.m_uOrder 2 := by
  unfold Splittable
  refine ⟨by decide!, by decide, by decide, by decide, by decide!, by decide!, by decide⟩

theorem mesh23_v : Splittable Examples.mesh23.m_avKnots Examples.mesh23.m_cvVerts
    Examples.mesh23.m_vOrder 3 := by
  unfold Splittable
  refine ⟨by decide!, by decide, by decide, by decide, by decide!, by decide!, by decide⟩

/-- Witness for C23: the 3 x 4 bilinear mesh with 2 x 3 segments gives 6 patches. -/
theorem SubdivideSegments_tiles_witness :
    Splittable Examples.mesh23.m_auKnots Examples.mesh23.m_cuVerts Examples.mesh23.m_uOrder 2 ∧
    Splittable Examples.mesh23.m_avKnots Examples.mesh23.m_cvVerts Examples.mesh23.m_vOrder 3 ∧
    (SubdivideSegments 16 Examples.mesh23 2 3).map (fun r => r.2.length) = some 6 := by
  refine ⟨mesh23_u, mesh23_v, ?_⟩
  obtain ⟨T, S, uOff, vOff, h1, h2, -⟩ := SubdivideSegments_tiles 16 Examples.mesh23
    (2 : Nat) (3 : Nat) mesh23_u mesh23_v (by decide) (by decide)
  have e : SubdivideSegments 16 Examples.mesh23 2 3 = some (T, S) := h1
  rw [e, Option.map_some', h2]

theorem wr_four {α : Type} [Zero α] (l : List α) (a b c d : α) :
    wr (wr (wr (wr (resize l 4) 0 a) 1 b) 2 c) 3 d = [a, b, c, d] := by
  have h := resize_length l 4
  match hl : resize l 4, h with
  | [w, x, y, z], _ => rfl

/-- The values that `cornerParam` stores are the four corners of the lattice. -/
theorem cornerParam_eq (nuSegs irow icol : Int) (q : CqParameter) :
    cornerParam nuSegs irow icol q
      = { q with values := q.values.fourCorners nuSegs irow icol } := by
  obtain ⟨c, v⟩ := q
  unfold cornerParam
  cases v <;>
    simp only [ParamValues.SetSize, ParamValues.SetValue, ParamValues.fourCorners,
      fourCorners, latticeAt, wr_four, add_assoc]

theorem fourCorners_shared {α : Type} [Zero α] (nuSegs irow icol : Int) (l : List α) :
    rd (fourCorners nuSegs irow icol l) 1 = rd (fourCorners nuSegs (irow + 1) icol l) 0 ∧
    rd (fourCorners nuSegs irow icol l) 3 = rd (fourCorners nuSegs (irow + 1) icol l) 2 ∧
    rd (fourCorners nuSegs irow icol l) 2 = rd (fourCorners nuSegs irow (icol + 1) l) 0 ∧
    rd (fourCorners nuSegs irow icol l) 3 = rd (fourCorners nuSegs irow (icol + 1) l) 1 :=
  ⟨rfl, rfl, rfl, rfl⟩

theorem ParamValues_shared (nuSegs irow icol : Int) (v : ParamValues) :
    (v.fourCorners nuSegs irow icol).sameAt 1 (v.fourCorners nuSegs (irow + 1) icol) 0 ∧
    (v.fourCorners nuSegs irow icol).sameAt 3 (v.fourCorners nuSegs (irow + 1) icol) 2 ∧
    (v.fourCorners nuSegs irow icol).sameAt 2 (v.fourCorners nuSegs irow (icol + 1)) 0 ∧
    (v.fourCorners nuSegs irow icol).sameAt 3 (v.fourCorners nuSegs irow (icol + 1)) 1 := by
  cases v <;> simp only [ParamValues.fourCorners, ParamValues.sameAt] <;>
    first
    | exact fourCorners_shared nuSegs irow icol _
    | exact ⟨trivial, trivial, trivial, trivial⟩

theorem filter_varying_corners (nuSegs irow icol : Int) (pre l : List CqParameter)
    (hpre : pre.filter (fun q => q.Class = EqVariableClass.class_varying) = []) :
    (pre ++ (l.filter (fun q => q.Class = EqVariableClass.class_varying)).map
        (cornerParam nuSegs irow icol)).filter
      (fun q => q.Class = EqVariableClass.class_varying)
      = (l.filter (fun q => q.Class = EqVariableClass.class_varying)).map
          (fun q => { q with values := q.values.fourCorners nuSegs irow icol }) := by
  rw [List.filter_append, hpre, List.nil_append]
  have e : cornerParam nuSegs irow icol
      = fun q => { q with values := q.values.fourCorners nuSegs irow icol } := by
    funext q
    exact cornerParam_eq nuSegs irow icol q
  rw [e, List.filter_eq_self]
  intro q hq
  rw [List.mem_map] at hq
  obtain ⟨q0, h0, rfl⟩ := hq
  have := (List.mem_filter.mp h0).2
  simpa using this

theorem forall2_map_same {α β : Type} (R : β → β → Prop) (f g : α → β) (l : List α)
    (h : ∀ a, R (f a) (g a)) : List.Forall₂ R (l.map f) (l.map g) := by
  induction l with
  | nil => exact List.Forall₂.nil
  | cons x t ih => exact List.Forall₂.cons (h x) ih

theorem fourCorners_size (nuSegs irow icol : Int) (v : ParamValues) :
    (v.fourCorners nuSegs irow icol).Size = 4 := by
  cases v <;> rfl

/-- C24: for a patch mesh with `uSegs` x `vSegs` segments whose knot vectors can be cut,
`SubdivideSegments` returns, and the user parameters of class varying of the patch of the
segment `(irow, icol)` are those of the mesh, in their order, each with exactly four values: of
its values, read as a lattice with `uSegs + 1` entries per row (the entry `(i, j)` at the
subscript `j * (uSegs + 1) + i`), the entries `(irow, icol)`, `(irow + 1, icol)`,
`(irow, icol + 1)`, `(irow + 1, icol + 1)` in that order.  So the values 1 and 3 of a patch are
the values 0 and 2 of its neighbour in `u`, and its values 2 and 3 are the values 0 and 1 of
its neighbour in `v`, parameter by parameter. -/
theorem SubdivideSegments_varying_corners (fuel : Nat) (T0 : CqSurfaceNURBS) (uSegs vSegs : Nat)
    (hu : Splittable T0.m_auKnots T0.m_cuVerts T0.m_uOrder uSegs)
    (hv : Splittable T0.m_avKnots T0.m_cvVerts T0.m_vOrder vSegs)
    (hfu : T0.m_cuVerts + uSegs * T0.m_uOrder + T0.m_uOrder + 1 ≤ fuel)
    (hfv : T0.m_cvVerts + vSegs * T0.m_vOrder + T0.m_vOrder + 1 ≤ fuel) :
    ∃ (T : CqSurfaceNURBS) (S : List CqSurfaceNURBS),
      SubdivideSegments fuel T0 uSegs vSegs = some (T, S) ∧
      ∀ irow icol : Nat, irow < uSegs → icol < vSegs →
        (patchAt S ((icol : Int) * uSegs + irow)).m_aUserParams.filter
            (fun q => q.Class = EqVariableClass.class_varying)
          = (T0.m_aUserParams.filter (fun q => q.Class = EqVariableClass.class_varying)).map
              (fun q => { q with values := q.values.fourCorners uSegs irow icol }) ∧
        (∀ q : CqParameter, q ∈ (patchAt S ((icol : Int) * uSegs + irow)).m_aUserParams.filter
            (fun q => q.Class = EqVariableClass.class_varying) → q.values.Size = 4) ∧
        (irow + 1 < uSegs →
          List.Forall₂ (fun a b : CqParameter =>
              a.values.sameAt 1 b.values 0 ∧ a.values.sameAt 3 b.values 2)
            ((patchAt S ((icol : Int) * uSegs + irow)).m_aUserParams.filter
              (fun q => q.Class = EqVariableClass.class_varying))
            ((patchAt S ((icol : Int) * uSegs + ((irow + 1 : Nat) : Int))).m_aUserParams.filter
              (fun q => q.Class = EqVariableClass.class_varying))) ∧
        (icol + 1 < vSegs →
          List.Forall₂ (fun a b : CqParameter =>
              a.values.sameAt 2 b.values 0 ∧ a.values.sameAt 3 b.values 1)
            ((patchAt S ((icol : Int) * uSegs + irow)).m_aUserParams.filter
              (fun q => q.Class = EqVariableClass.class_varying))
            ((patchAt S (((icol + 1 : Nat) : Int) * uSegs + irow)).m_aUserParams.filter
              (fun q => q.Class = EqVariableClass.class_varying))) := by
  obtain ⟨T, S, uOff, vOff, r1, r2, r3, r4, r5, r6, a1, a2, b1, b2, ha, hb, hp⟩ :=
    SubdivideSegments_patches fuel T0 uSegs vSegs hu hv hfu hfv
  have key : ∀ irow icol : Nat, irow < uSegs → icol < vSegs →
      (patchAt S ((icol : Int) * uSegs + irow)).m_aUserParams.filter
          (fun q => q.Class = EqVariableClass.class_varying)
        = (T0.m_aUserParams.filter (fun q => q.Class = EqVariableClass.class_varying)).map
            (fun q => { q with values := q.values.fourCorners uSegs irow icol }) := by
    intro irow icol hi hj
    obtain ⟨x1, x2, -, -⟩ := ha irow hi
    obtain ⟨y1, y2, -, -⟩ := hb icol hj
    have hpre := (segmentPatch_spec T (uOff irow) (vOff icol) ((uOff (irow + 1) : Int) - 1)
      ((vOff (icol + 1) : Int) - 1) (uOff (irow + 1) - uOff irow) (vOff (icol + 1) - vOff icol)
      (by omega) (by omega) (by omega) (by omega)).2.2.2.2.2.2.2.2.2.2
    rw [hp irow icol hi hj]
    exact filter_varying_corners uSegs irow icol _ _ hpre
  refine ⟨T, S, r1, ?_⟩
  intro irow icol hi hj
  refine ⟨key irow icol hi hj, ?_, ?_, ?_⟩
  · intro q hq
    rw [key irow icol hi hj, List.mem_map] at hq
    obtain ⟨q0, -, rfl⟩ := hq
    exact fourCorners_size _ _ _ _
  · intro h
    rw [key irow icol hi hj, key (irow + 1) icol h hj]
    refine forall2_map_same _ _ _ _ (fun q => ?_)
    have e1 : (((irow + 1 : Nat) : Int)) = (irow : Int) + 1 := by push_cast; ring
    rw [e1]
    obtain ⟨s1, s2, -, -⟩ := ParamValues_shared uSegs irow icol q.values
    exact ⟨s1, s2⟩
  · intro h
    rw [key irow icol hi hj, key irow (icol + 1) hi h]
    refine forall2_map_same _ _ _ _ (fun q => ?_)
    have e2 : (((icol + 1 : Nat) : Int)) = (icol : Int) + 1 := by push_cast; ring
    rw [e2]
    obtain ⟨-, -, s3, s4⟩ := ParamValues_shared uSegs irow icol q.values
    exact ⟨s3, s4⟩

/-- Witness for C24: of the lattice `0, 1, ..., 11` of the 2 x 3 mesh the patch of the segment
`(1, 1)` gets the values `4, 5, 7, 8`. -/
theorem SubdivideSegments_varying_corners_witness :
    Splittable Examples.mesh23.m_auKnots Examples.mesh23.m_cuVerts Examples.mesh23.m_uOrder 2 ∧
    Splittable Examples.mesh23.m_avKnots Examples.mesh23.m_cvVerts Examples.mesh23.m_vOrder 3 ∧
    (SubdivideSegments 16 Examples.mesh23 2 3).map (fun r =>
        ((patchAt r.2 3).m_aUserParams.filter
          (fun q => q.Class = EqVariableClass.class_varying)).map (fun q => q.values))
      = some [.type_float [4, 5, 7, 8]] := by
  refine ⟨mesh23_u, mesh23_v, ?_⟩
  obtain ⟨T, S, h1, h2⟩ := SubdivideSegments_varying_corners 16 Examples.mesh23
    (2 : Nat) (3 : Nat) mesh23_u mesh23_v (by decide) (by decide)
  have e : SubdivideSegments 16 Examples.mesh23 2 3 = some (T, S) := h1
  have h3 := (h2 1 1 (by decide) (by decide)).1
  have e3 : (((1 : Nat) : Int) * ((2 : Nat) : Int) + ((1 : Nat) : Int)) = 3 := by decide
  rw [e3] at h3
  rw [e, Option.map_some', h3]
  decide!

/-! ### The work loop: termination -/

theorem Vec3_ext (a b : Vec3) (hx : a.x = b.x) (hy : a.y = b.y) (hz : a.z = b.z) : a = b := by
  cases a
  cases b
  simp only [Vec3.mk.injEq]
  exact ⟨hx, hy, hz⟩

theorem Vec3_add_x (a b : Vec3) : (a + b).x = a.x + b.x := rfl
theorem Vec3_add_y (a b : Vec3) : (a + b).y = a.y + b.y := rfl
theorem Vec3_add_z (a b : Vec3) : (a + b).z = a.z + b.z := rfl
theorem Vec3_sub_x (a b : Vec3) : (a - b).x = a.x - b.x := rfl
theorem Vec3_sub_y (a b : Vec3) : (a - b).y = a.y - b.y := rfl
theorem Vec3_sub_z (a b : Vec3) : (a - b).z = a.z - b.z := rfl
theorem Vec3_smul_x (c : ℚ) (a : Vec3) : (c • a).x = c * a.x := rfl
theorem Vec3_smul_y (c : ℚ) (a : Vec3) : (c • a).y = c * a.y := rfl
theorem Vec3_smul_z (c : ℚ) (a : Vec3) : (c • a).z = c * a.z := rfl

theorem normSq_nonneg (a : Vec3) : 0 ≤ a.normSq := by
  unfold Vec3.normSq
  nlinarith [mul_self_nonneg a.x, mul_self_nonneg a.y, mul_self_nonneg a.z]

/-- The corner of a patch at the middle of a side in `u` is the midpoint of the corners. -/
theorem bilerp_half_u (a b c d : Vec3) (u0 u1 v : ℚ) :
    bilerp a b c d ((1 / 2 : ℚ) * (u0 + u1)) v
      = (1 / 2 : ℚ) • bilerp a b c d u0 v + (1 / 2 : ℚ) • bilerp a b c d u1 v := by
  apply Vec3_ext <;>
    simp only [bilerp, Vec3_add_x, Vec3_add_y, Vec3_add_z, Vec3_smul_x, Vec3_smul_y,
      Vec3_smul_z] <;> ring

theorem bilerp_half_v (a b c d : Vec3) (u v0 v1 : ℚ) :
    bilerp a b c d u ((1 / 2 : ℚ) * (v0 + v1))
      = (1 / 2 : ℚ) • bilerp a b c d u v0 + (1 / 2 : ℚ) • bilerp a b c d u v1 := by
  apply Vec3_ext <;>
    simp only [bilerp, Vec3_add_x, Vec3_add_y, Vec3_add_z, Vec3_smul_x, Vec3_smul_y,
      Vec3_smul_z] <;> ring

/-- Half a side has a quarter of the squared length. -/
theorem normSq_half (a b : Vec3) :
    (((1 / 2 : ℚ) • a + (1 / 2 : ℚ) • b) - a).normSq = (b - a).normSq / 4 ∧
    (b - ((1 / 2 : ℚ) • a + (1 / 2 : ℚ) • b)).normSq = (b - a).normSq / 4 := by
  constructor <;>
    simp only [Vec3.normSq, Vec3_add_x, Vec3_add_y, Vec3_add_z, Vec3_smul_x, Vec3_smul_y,
      Vec3_smul_z, Vec3_sub_x, Vec3_sub_y, Vec3_sub_z] <;> ring

/-- The segment between the midpoints of two sides is no longer than the longer of the two
other sides. -/
theorem normSq_mid (a b c d : Vec3) :
    (((1 / 2 : ℚ) • c + (1 / 2 : ℚ) • d) - ((1 / 2 : ℚ) • a + (1 / 2 : ℚ) • b)).normSq
      ≤ Max.max (c - a).normSq (d - b).normSq := by
  have h : (((1 / 2 : ℚ) • c + (1 / 2 : ℚ) • d) - ((1 / 2 : ℚ) • a + (1 / 2 : ℚ) • b)).normSq
      ≤ ((c - a).normSq + (d - b).normSq) / 2 := by
    simp only [Vec3.normSq, Vec3_add_x, Vec3_add_y, Vec3_add_z, Vec3_smul_x, Vec3_smul_y,
      Vec3_smul_z, Vec3_sub_x, Vec3_sub_y, Vec3_sub_z]
    nlinarith [sq_nonneg ((c.x - a.x) - (d.x - b.x)), sq_nonneg ((c.y - a.y) - (d.y - b.y)),
      sq_nonneg ((c.z - a.z) - (d.z - b.z))]
  have h1 := le_max_left (c - a).normSq (d - b).normSq
  have h2 := le_max_right (c - a).normSq (d - b).normSq
  linarith

theorem bound_quarter (x1 x2 y1 y2 p1 p2 q1 q2 : ℚ) (hp1 : p1 = x1 / 4) (hp2 : p2 = x2 / 4)
    (hq1 : q1 ≤ Max.max y1 y2) (hq2 : q2 ≤ Max.max y1 y2) (h1 : 0 ≤ x1) :
    Max.max p1 p2 * Max.max q1 q2 ≤ Max.max x1 x2 * Max.max y1 y2 / 4 := by
  have e : Max.max p1 p2 = Max.max x1 x2 / 4 := by
    rw [hp1, hp2]
    rcases le_total x1 x2 with h | h
    · rw [max_eq_right h, max_eq_right (by linarith)]
    · rw [max_eq_left h, max_eq_left (by linarith)]
  have hX : 0 ≤ Max.max x1 x2 := le_trans h1 (le_max_left _ _)
  have hq : Max.max q1 q2 ≤ Max.max y1 y2 := max_le hq1 hq2
  rw [e]
  have := mul_le_mul_of_nonneg_left hq (by linarith : (0 : ℚ) ≤ Max.max x1 x2 / 4)
  linarith

theorem bound_quarter_right (x1 x2 y1 y2 p1 p2 q1 q2 : ℚ) (hq1 : q1 = y1 / 4)
    (hq2 : q2 = y2 / 4) (hp1 : p1 ≤ Max.max x1 x2) (hp2 : p2 ≤ Max.max x1 x2) (h1 : 0 ≤ y1) :
    Max.max p1 p2 * Max.max q1 q2 ≤ Max.max x1 x2 * Max.max y1 y2 / 4 := by
  have := bound_quarter y1 y2 x1 x2 q1 q2 p1 p2 hq1 hq2 hp1 hp2 h1
  linarith [mul_comm (Max.max p1 p2) (Max.max q1 q2), mul_comm (Max.max x1 x2) (Max.max y1 y2)]

/-- The two children of a split in `u` have at most a quarter of the measure of the patch, for a
product `Vec3 * Mat4` that maps the midpoint of two points to the midpoint of their images. -/
theorem sizeBound_split_u (xform : Vec3 → Mat4 → Vec3) (M : Mat4)
    (hx : ∀ p q : Vec3, xform ((1 / 2 : ℚ) • p + (1 / 2 : ℚ) • q) M
      = (1 / 2 : ℚ) • xform p M + (1 / 2 : ℚ) • xform q M) (g : Patch) :
    Patch.sizeBound xform
        ⟨g.m_vars, g.m_uMin, (1 / 2 : ℚ) * (g.m_uMin + g.m_uMax), g.m_vMin, g.m_vMax⟩ M
      ≤ g.sizeBound xform M / 4 ∧
    Patch.sizeBound xform
        ⟨g.m_vars, (1 / 2 : ℚ) * (g.m_uMin + g.m_uMax), g.m_uMax, g.m_vMin, g.m_vMax⟩ M
      ≤ g.sizeBound xform M / 4 := by
  simp only [Patch.sizeBound, Patch.getCorners, bilerp_half_u, hx]
  constructor
  · exact bound_quarter _ _ _ _ _ _ _ _ (normSq_half _ _).1 (normSq_half _ _).1
      (le_max_left _ _) (normSq_mid _ _ _ _) (normSq_nonneg _)
  · exact bound_quarter _ _ _ _ _ _ _ _ (normSq_half _ _).2 (normSq_half _ _).2
      (normSq_mid _ _ _ _) (le_max_right _ _) (normSq_nonneg _)

/-- The two children of a split in `v` have at most a quarter of the measure of the patch. -/
theorem sizeBound_split_v (xform : Vec3 → Mat4 → Vec3) (M : Mat4)
    (hx : ∀ p q : Vec3, xform ((1 / 2 : ℚ) • p + (1 / 2 : ℚ) • q) M
      = (1 / 2 : ℚ) • xform p M + (1 / 2 : ℚ) • xform q M) (g : Patch) :
    Patch.sizeBound xform
        ⟨g.m_vars, g.m_uMin, g.m_uMax, g.m_vMin, (1 / 2 : ℚ) * (g.m_vMin + g.m_vMax)⟩ M
      ≤ g.sizeBound xform M / 4 ∧
    Patch.sizeBound xform
        ⟨g.m_vars, g.m_uMin, g.m_uMax, (1 / 2 : ℚ) * (g.m_vMin + g.m_vMax), g.m_vMax⟩ M
      ≤ g.sizeBound xform M / 4 := by
  simp only [Patch.sizeBound, Patch.getCorners, bilerp_half_v, hx]
  constructor
  · exact bound_quarter_right _ _ _ _ _ _ _ _ (normSq_half _ _).1 (normSq_half _ _).1
      (le_max_left _ _) (normSq_mid _ _ _ _) (normSq_nonneg _)
  · exact bound_quarter_right _ _ _ _ _ _ _ _ (normSq_half _ _).2 (normSq_half _ _).2
      (normSq_mid _ _ _ _) (le_max_right _ _) (normSq_nonneg _)

theorem mul_le_of_sq (s t a b G : ℚ) (h1 : s * s ≤ a)
    (h2 : t * t ≤ b) (hab : a * b ≤ G * G) (hG : 0 ≤ G) : s * t ≤ G := by
  by_contra hc
  push_neg at hc
  have ha : 0 ≤ a := le_trans (mul_self_nonneg s) h1
  have h3 : (s * s) * (t * t) ≤ a * b := mul_le_mul h1 h2 (mul_self_nonneg t) ha
  have h4 : G * G < (s * t) * (s * t) := by nlinarith
  nlinarith

/-- A patch whose measure is small against the grid size is diced: with a `sqrt` whose square
is at most `C` times its argument, `C * C * sizeBound ≤ G * G` gives `lu * lv ≤ G`. -/
theorem lu_lv_le (sqrt : ℚ → ℚ) (C : ℚ) (hC : 0 ≤ C)
    (hs1 : ∀ x : ℚ, 0 ≤ x → sqrt x * sqrt x ≤ C * x) (xform : Vec3 → Mat4 → Vec3) (M : Mat4)
    (g : Patch) (G : ℚ) (hG : 0 ≤ G) (h : C * C * g.sizeBound xform M ≤ G * G) :
    g.lu sqrt xform M * g.lv sqrt xform M ≤ G := by
  simp only [Patch.lu, Patch.lv, Patch.sizeBound, Vec3.length] at h ⊢
  generalize xform g.getCorners.1 M = a at h ⊢
  generalize xform g.getCorners.2.1 M = b at h ⊢
  generalize xform g.getCorners.2.2.1 M = c at h ⊢
  generalize xform g.getCorners.2.2.2 M = d at h ⊢
  have e1 : ∀ v : Vec3, v.x * v.x + v.y * v.y + v.z * v.z = v.normSq := fun _ => rfl
  simp only [e1]
  have n1 := normSq_nonneg (b - a)
  have n2 := normSq_nonneg (d - c)
  have n3 := normSq_nonneg (c - a)
  have n4 := normSq_nonneg (d - b)
  have X1 := le_max_left (b - a).normSq (d - c).normSq
  have X2 := le_max_right (b - a).normSq (d - c).normSq
  have Y1 := le_max_left (c - a).normSq (d - b).normSq
  have Y2 := le_max_right (c - a).normSq (d - b).normSq
  generalize Max.max (b - a).normSq (d - c).normSq = X at h X1 X2
  generalize Max.max (c - a).normSq (d - b).normSq = Y at h Y1 Y2
  have hab : (C * X) * (C * Y) ≤ G * G := by linarith
  have key : ∀ x y : ℚ, 0 ≤ x → x ≤ X → 0 ≤ y → y ≤ Y → sqrt x * sqrt y ≤ G := by
    intro x y hx0 hx hy0 hy
    exact mul_le_of_sq _ _ _ _ G
      (le_trans (hs1 x hx0) (mul_le_mul_of_nonneg_left hx hC))
      (le_trans (hs1 y hy0) (mul_le_mul_of_nonneg_left hy hC)) hab hG
  have k1 := key _ _ n1 X1 n3 Y1
  have k2 := key _ _ n1 X1 n4 Y2
  have k3 := key _ _ n2 X2 n3 Y1
  have k4 := key _ _ n2 X2 n4 Y2
  nlinarith

/-- What `Patch::tessellate` does to the queue: nothing when the patch is diced, and otherwise
two children are pushed, each with at most a quarter of the measure of the patch; the options
stay. -/
theorem tessellate_queue (sqrt : ℚ → ℚ) (xform : Vec3 → Mat4 → Vec3) (M : Mat4)
    (hx : ∀ p q : Vec3, xform ((1 / 2 : ℚ) • p + (1 / 2 : ℚ) • q) M
      = (1 / 2 : ℚ) • xform p M + (1 / 2 : ℚ) • xform q M)
    (g : Patch) (tessCtx : TessellationContext) (opts : Options) (rest : List Patch)
    (ho : tessCtx.options = opts) (hr : tessCtx.pushed = rest) :
    (g.tessellate sqrt xform M tessCtx).options = opts ∧
    (g.lu sqrt xform M * g.lv sqrt xform M ≤ ((opts.gridSize * opts.gridSize : Int) : ℚ) →
      (g.tessellate sqrt xform M tessCtx).pushed = rest) ∧
    (¬ (g.lu sqrt xform M * g.lv sqrt xform M ≤ ((opts.gridSize * opts.gridSize : Int) : ℚ)) →
      ∃ c1 c2 : Patch, (g.tessellate sqrt xform M tessCtx).pushed = (rest ++ [c1]) ++ [c2] ∧
        c1.sizeBound xform M ≤ g.sizeBound xform M / 4 ∧
        c2.sizeBound xform M ≤ g.sizeBound xform M / 4) := by
  subst ho
  subst hr
  refine ⟨?_, ?_, ?_⟩
  · unfold Patch.tessellate
    simp only []
    split
    · rfl
    · simp only [TessellationContext.invokeTessellator, Patch.split]
      split <;> rfl
  · intro h
    unfold Patch.tessellate
    simp only [h, if_true]
    rfl
  · intro h
    unfold Patch.tessellate
    simp only [h, if_false, TessellationContext.invokeTessellator, Patch.split]
    by_cases hd : g.lu sqrt xform M > g.lv sqrt xform M
    · simp only [hd, decide_True, if_true]
      exact ⟨_, _, rfl, (sizeBound_split_u xform M hx g).1,
        (sizeBound_split_u xform M hx g).2⟩
    · simp only [hd, decide_False, if_false]
      exact ⟨_, _, rfl, (sizeBound_split_v xform M hx g).1,
        (sizeBound_split_v xform M hx g).2⟩

theorem run_pop (sqrt : ℚ → ℚ) (xform : Vec3 → Mat4 → Vec3) (M : Mat4) (fuel : Nat)
    (tessCtx : TessellationContext) (rest : List Patch) (g : Patch)
    (h : tessCtx.pushed = rest ++ [g]) :
    TessellationContext.run sqrt xform M (fuel + 1) tessCtx
      = TessellationContext.run sqrt xform M fuel
          (g.tessellate sqrt xform M { tessCtx with pushed := rest }) := by
  rw [TessellationContext.run]
  simp only [h, List.getLast?_concat, List.dropLast_concat]

/-- The work loop disposes of the patch on top of the queue and of all the pieces it is split
into, and leaves the rest of the queue as it is. -/
theorem run_drains_patch (sqrt : ℚ → ℚ) (C : ℚ) (hC : 0 ≤ C)
    (hs1 : ∀ x : ℚ, 0 ≤ x → sqrt x * sqrt x ≤ C * x) (xform : Vec3 → Mat4 → Vec3) (M : Mat4)
    (hx : ∀ p q : Vec3, xform ((1 / 2 : ℚ) • p + (1 / 2 : ℚ) • q) M
      = (1 / 2 : ℚ) • xform p M + (1 / 2 : ℚ) • xform q M)
    (opts : Options) (n : Nat) :
    ∀ (g : Patch) (tessCtx : TessellationContext) (rest : List Patch),
      C * C * g.sizeBound xform M
        ≤ ((opts.gridSize * opts.gridSize : Int) : ℚ) * ((opts.gridSize * opts.gridSize : Int) : ℚ)
          * 4 ^ n →
      tessCtx.pushed = rest ++ [g] → tessCtx.options = opts →
      ∃ (k : Nat) (ctx1 : TessellationContext), ctx1.pushed = rest ∧ ctx1.options = opts ∧
        ∀ fuel : Nat, TessellationContext.run sqrt xform M (k + fuel) tessCtx
          = TessellationContext.run sqrt xform M fuel ctx1 := by
  have hG : (0 : ℚ) ≤ ((opts.gridSize * opts.gridSize : Int) : ℚ) := by
    exact_mod_cast mul_self_nonneg opts.gridSize
  have diced : ∀ (g : Patch) (tessCtx : TessellationContext) (rest : List Patch),
      tessCtx.pushed = rest ++ [g] → tessCtx.options = opts →
      g.lu sqrt xform M * g.lv sqrt xform M ≤ ((opts.gridSize * opts.gridSize : Int) : ℚ) →
      ∃ (k : Nat) (ctx1 : TessellationContext), ctx1.pushed = rest ∧ ctx1.options = opts ∧
        ∀ fuel : Nat, TessellationContext.run sqrt xform M (k + fuel) tessCtx
          = TessellationContext.run sqrt xform M fuel ctx1 := by
    intro g tessCtx rest hq ho hd
    obtain ⟨t1, t2, -⟩ := tessellate_queue sqrt xform M hx g { tessCtx with pushed := rest }
      opts rest ho rfl
    refine ⟨1, _, t2 hd, t1, ?_⟩
    intro fuel
    rw [Nat.add_comm, run_pop sqrt xform M fuel tessCtx rest g hq]
  induction n with
  | zero =>
    intro g tessCtx rest hb hq ho
    exact diced g tessCtx rest hq ho
      (lu_lv_le sqrt C hC hs1 xform M g _ hG (by simpa using hb))
  | succ n ih =>
    intro g tessCtx rest hb hq ho
    by_cases hd : g.lu sqrt xform M * g.lv sqrt xform M
        ≤ ((opts.gridSize * opts.gridSize : Int) : ℚ)
    · exact diced g tessCtx rest hq ho hd
    · obtain ⟨t1, -, t3⟩ := tessellate_queue sqrt xform M hx g { tessCtx with pushed := rest }
        opts rest ho rfl
      obtain ⟨c1, c2, p1, p2, p3⟩ := t3 hd
      have hCC : 0 ≤ C * C := mul_self_nonneg C
      have b1 : C * C * c1.sizeBound xform M
          ≤ ((opts.gridSize * opts.gridSize : Int) : ℚ)
            * ((opts.gridSize * opts.gridSize : Int) : ℚ) * 4 ^ n := by
        have := mul_le_mul_of_nonneg_left p2 hCC
        rw [pow_succ] at hb
        linarith
      have b2 : C * C * c2.sizeBound xform M
          ≤ ((opts.gridSize * opts.gridSize : Int) : ℚ)
            * ((opts.gridSize * opts.gridSize : Int) : ℚ) * 4 ^ n := by
        have := mul_le_mul_of_nonneg_left p3 hCC
        rw [pow_succ] at hb
        linarith
      obtain ⟨k2, ctx2, q1, q2, q3⟩ := ih c2 _ (rest ++ [c1]) b2 p1 t1
      obtain ⟨k1, ctx3, r1, r2, r3⟩ := ih c1 ctx2 rest b1 q1 q2
      refine ⟨1 + k2 + k1, ctx3, r1, r2, ?_⟩
      intro fuel
      have e : 1 + k2 + k1 + fuel = (k2 + (k1 + fuel)) + 1 := by omega
      rw [e, run_pop sqrt xform M _ tessCtx rest g hq, q3, r3]

/-- The work loop empties every queue. -/
theorem run_drains_queue (sqrt : ℚ → ℚ) (C : ℚ) (hC : 0 ≤ C)
    (hs1 : ∀ x : ℚ, 0 ≤ x → sqrt x * sqrt x ≤ C * x) (xform : Vec3 → Mat4 → Vec3) (M : Mat4)
    (hx : ∀ p q : Vec3, xform ((1 / 2 : ℚ) • p + (1 / 2 : ℚ) • q) M
      = (1 / 2 : ℚ) • xform p M + (1 / 2 : ℚ) • xform q M)
    (opts : Options) (hg : 0 < opts.gridSize) (queue : List Patch) :
    ∀ tessCtx : TessellationContext, tessCtx.pushed = queue → tessCtx.options = opts →
      ∃ (fuel : Nat) (ctx1 : TessellationContext),
        TessellationContext.run sqrt xform M fuel tessCtx = some ctx1 ∧ ctx1.pushed = [] := by
  induction queue using List.reverseRecOn with
  | nil =>
    intro tessCtx hq _
    refine ⟨0, tessCtx, ?_, hq⟩
    rw [TessellationContext.run, if_pos hq]
  | append_singleton rest g ih =>
    intro tessCtx hq ho
    have hG : (1 : ℚ) ≤ ((opts.gridSize * opts.gridSize : Int) : ℚ) := by
      have : (1 : Int) ≤ opts.gridSize * opts.gridSize := by nlinarith
      exact_mod_cast this
    obtain ⟨n, hn⟩ := pow_unbounded_of_one_lt (C * C * g.sizeBound xform M)
      (by norm_num : (1 : ℚ) < 4)
    have h4 : (0 : ℚ) < 4 ^ n := by positivity
    have hb : C * C * g.sizeBound xform M
        ≤ ((opts.gridSize * opts.gridSize : Int) : ℚ)
          * ((opts.gridSize * opts.gridSize : Int) : ℚ) * 4 ^ n := by
      have : (1 : ℚ) ≤ ((opts.gridSize * opts.gridSize : Int) : ℚ)
          * ((opts.gridSize * opts.gridSize : Int) : ℚ) := by nlinarith
      nlinarith
    obtain ⟨k, ctx1, c1, c2, c3⟩ :=
      run_drains_patch sqrt C hC hs1 xform M hx opts n g tessCtx rest hb hq ho
    obtain ⟨fuel, ctx2, d1, d2⟩ := ih ctx1 c1 c2
    exact ⟨k + fuel, ctx2, by rw [c3, d1], d2⟩

theorem sqrtUpTo_sq (k n : Nat) : Examples.sqrtUpTo k n * Examples.sqrtUpTo k n ≤ n := by
  induction k with
  | zero => simp [Examples.sqrtUpTo]
  | succ k ih =>
    unfold Examples.sqrtUpTo
    split
    · assumption
    · exact ih

theorem sqrtFloor_sq (x : ℚ) (hx : 0 ≤ x) :
    Examples.sqrtFloor x * Examples.sqrtFloor x ≤ 1 * x := by
  unfold Examples.sqrtFloor
  have h1 : ((Examples.sqrtUpTo ⌊x⌋.toNat ⌊x⌋.toNat * Examples.sqrtUpTo ⌊x⌋.toNat ⌊x⌋.toNat : Nat) : ℚ)
      ≤ ((⌊x⌋.toNat : Nat) : ℚ) := by
    exact_mod_cast sqrtUpTo_sq _ _
  have h2 : ((⌊x⌋.toNat : Nat) : ℚ) = ((⌊x⌋ : Int) : ℚ) := by
    have : 0 ≤ ⌊x⌋ := Int.floor_nonneg.mpr hx
    have e : ((⌊x⌋.toNat : Nat) : Int) = ⌊x⌋ := Int.toNat_of_nonneg this
    exact_mod_cast e
  have h3 : ((⌊x⌋ : Int) : ℚ) ≤ x := Int.floor_le x
  push_cast at h1
  linarith

/-- Once the work loop has returned, more fuel gives the same result. -/
theorem run_more_fuel (sqrt : ℚ → ℚ) (xform : Vec3 → Mat4 → Vec3) (M : Mat4) (fuel : Nat) :
    ∀ (tessCtx ctx1 : TessellationContext),
      TessellationContext.run sqrt xform M fuel tessCtx = some ctx1 →
      ∀ more : Nat, TessellationContext.run sqrt xform M (fuel + more) tessCtx = some ctx1 := by
  induction fuel with
  | zero =>
    intro tessCtx ctx1 h more
    rw [TessellationContext.run] at h
    split at h
    · rename_i he
      cases more with
      | zero => rw [TessellationContext.run, if_pos he]; exact h
      | succ m =>
        rw [Nat.zero_add, TessellationContext.run]
        simp only [he, List.getLast?_nil]
        exact h
    · cases h
  | succ fuel ih =>
    intro tessCtx ctx1 h more
    have e : fuel + 1 + more = (fuel + more) + 1 := by omega
    rw [e, TessellationContext.run]
    rw [TessellationContext.run] at h
    split
    · rename_i hn
      simp only [hn] at h
      exact h
    · rename_i g hg
      simp only [hg] at h
      exact ih _ _ h more

/-- The work loop in exact arithmetic.  The loop `run()` (pop the piece of geometry pushed last
and invoke its `Patch::tessellate`, until the queue is empty) empties every queue of bilinear
patches after finitely many pops, for every grid size above 0, when the arithmetic is exact
and the split transform keeps midpoints: there is an amount of fuel from which on the loop
returns, with an empty queue.  All that is used of `sqrt` and of the product `Vec3 * Mat4` is
that the square of `sqrt x` is at most `C * x` for a constant `C` (for the square root itself
`C = 1`), and that the product with the split transform maps the midpoint of two points to the
midpoint of their images, as every affine map does.  On `float` values the loop need not
return (section "The work loop on `float` values"). -/
theorem run_terminates (sqrt : ℚ → ℚ) (C : ℚ) (hC : 0 ≤ C)
    (hs : ∀ x : ℚ, 0 ≤ x → sqrt x * sqrt x ≤ C * x) (xform : Vec3 → Mat4 → Vec3)
    (splitTrans : Mat4)
    (hx : ∀ p q : Vec3, xform ((1 / 2 : ℚ) • p + (1 / 2 : ℚ) • q) splitTrans
      = (1 / 2 : ℚ) • xform p splitTrans + (1 / 2 : ℚ) • xform q splitTrans)
    (tessCtx : TessellationContext) (hg : 0 < tessCtx.options.gridSize) :
    ∃ (fuel : Nat) (ctx1 : TessellationContext), ctx1.pushed = [] ∧
      ∀ more : Nat,
        TessellationContext.run sqrt xform splitTrans (fuel + more) tessCtx = some ctx1 := by
  obtain ⟨fuel, ctx1, h1, h2⟩ := run_drains_queue sqrt C hC hs xform splitTrans hx
    tessCtx.options hg tessCtx.pushed tessCtx rfl rfl
  exact ⟨fuel, ctx1, h2, run_more_fuel sqrt xform splitTrans fuel tessCtx ctx1 h1⟩

/-- The work loop in exact arithmetic on the square `[0, 2] x [0, 2]` with the grid size 1,
the identity as the product with the split transform and the integer square root: the loop
returns, and it does so after 7 pops, with 4 grids pushed. -/
theorem run_terminates_witness :
    (∀ x : ℚ, 0 ≤ x → Examples.sqrtFloor x * Examples.sqrtFloor x ≤ 1 * x) ∧
    (∃ (fuel : Nat) (ctx1 : TessellationContext), ctx1.pushed = [] ∧
      ∀ more : Nat, TessellationContext.run Examples.sqrtFloor (fun v _ => v) ⟨[]⟩
        (fuel + more) Examples.queue2 = some ctx1) ∧
    (TessellationContext.run Examples.sqrtFloor (fun v _ => v) ⟨[]⟩ 7 Examples.queue2).map
        (fun c => (c.pushed, c.grids.length)) = some ([], 4) ∧
    (TessellationContext.run Examples.sqrtFloor (fun v _ => v) ⟨[]⟩ 6 Examples.queue2) = none :=
  ⟨sqrtFloor_sq,
    run_terminates Examples.sqrtFloor 1 (by norm_num) sqrtFloor_sq (fun v _ => v) ⟨[]⟩
      (fun _ _ => rfl) Examples.queue2 (by decide),
    by decide!, by decide!⟩

/-- C34 fails on the code: `ClampV` is not the mirror of `ClampU`.  On the 4 x 3 net of
`unclamped` (the point of column `c` and row `r` is `(c, r, 0, 1)`, V = `[0,1,2,3,4]`, order 2)
each of the two insertions of `ClampV` adds one knot (`n1 = n2 = 1`), the untrimmed net has the
five rows `y = 0, 0, 1, 2, 2`, and the three rows that remain are `y = 0, 0, 1`: the loop over
the rows runs to `m_cvVerts - n2` with `m_cvVerts` already reduced, so only row 0 is copied
from row `0 + n1`, and the rows 1 and 2 keep what the rows 1 and 2 of the untrimmed net held.
Rows copied from row `index + n1` would be `y = 0, 1, 2`, which is what the transpose of `ClampU`
on the transpose gives. -/
theorem ClampV_copies_too_few_rows :
    (InsertKnotV Examples.unclamped 1 1).2 = 1 ∧
    (InsertKnotV (InsertKnotV Examples.unclamped 1 1).1 3 1).2 = 1 ∧
    (InsertKnotV (InsertKnotV Examples.unclamped 1 1).1 3 1).1.P.map (fun q => q.y)
      = [0, 0, 0, 0, 0, 0, 0, 0, 1, 1, 1, 1, 2, 2, 2, 2, 2, 2, 2, 2] ∧
    (ClampV Examples.unclamped).m_cvVerts = 3 ∧
    (ClampV Examples.unclamped).P.map (fun q => q.y) = [0, 0, 0, 0, 0, 0, 0, 0, 1, 1, 1, 1] ∧
    (ClampU Examples.unclamped.transpose).transpose.P.map (fun q => q.y)
      = [0, 0, 0, 0, 1, 1, 1, 1, 2, 2, 2, 2] ∧
    (ClampV Examples.unclamped).m_avKnots
      = (ClampU Examples.unclamped.transpose).transpose.m_avKnots ∧
    ClampV Examples.unclamped ≠ (ClampU Examples.unclamped.transpose).transpose := by
  refine ⟨by decide!, by decide!, by decide!, by decide!, by decide!, by decide!, by decide!,
    by decide!⟩

theorem mem_collect (lo hi : Int) (f : Int → List Access) (i : Int) (x : Access)
    (h1 : lo ≤ i) (h2 : i < hi) (hx : x ∈ f i) : x ∈ collect lo hi f := by
  have key := forUp_induction_idx (fun (j : Int) (acc : List Access) => i < j → x ∈ acc)
    lo hi (by omega) (fun i acc => acc ++ f i) [] (by intro h; omega)
    (by
      intro j acc hj1 hj2 ih hlt
      by_cases e : i = j
      · subst e
        exact List.mem_append_right _ hx
      · exact List.mem_append_left _ (ih (by omega)))
  exact key h2

/-- C37 fails on the code: whenever `InsertKnotU` inserts (the knot vector having `m_cuVerts +
m_uOrder` entries before the call), the loop "copy after the insertion point up to the end"
(nurbs.cpp 435-436) runs `i` up to the NEW size of `m_auKnots` and stores at `i + r`: its last
round stores at the subscript `size - 1 + r`, which is not below the size `m_cuVerts + m_uOrder`
of the vector after the call. -/
theorem InsertKnotU_writes_past_knots (S : CqSurfaceNURBS) (u : ℚ) (r : Int)
    (hlen : S.m_auKnots.length = S.m_cuVerts + S.m_uOrder)
    (hins : 0 < (InsertKnotU S u r).2) :
    (⟨KnotArray.m_auKnots,
        (((InsertKnotU S u r).1.m_cuVerts + (InsertKnotU S u r).1.m_uOrder : Nat) : Int) - 1
          + (InsertKnotU S u r).2⟩ : Access) ∈ InsertKnotU_accesses S u r ∧
    ((arrayLength (InsertKnotU S u r).1 S.P.length KnotArray.m_auKnots : Nat) : Int)
      ≤ (((InsertKnotU S u r).1.m_cuVerts + (InsertKnotU S u r).1.m_uOrder : Nat) : Int) - 1
          + (InsertKnotU S u r).2 := by
  refine ⟨?_, by simp only [arrayLength]; omega⟩
  have hk := (lastKnotLE_bounds S.m_auKnots u).2
  obtain ⟨f1, -, f3, -, f5, -⟩ := InsertKnotU_fields S u r hlen
  rw [f3, f5]
  rw [f1] at hins ⊢
  unfold insertCount at hins ⊢
  unfold InsertKnotU_accesses
  by_cases h1 : u < rd S.m_auKnots S.uDegree ∨ u > rd S.m_auKnots S.m_cuVerts
  · rw [if_pos h1] at hins
    exact absurd hins (lt_irrefl _)
  · simp only [h1, if_false] at hins ⊢
    generalize adjustInsertions r
      (knotMultiplicity S.m_auKnots (lastKnotLE S.m_auKnots u) u) S.uDegree = r1 at hins ⊢
    have h2 : ¬ r1 ≤ 0 := by omega
    rw [if_neg h2]
    apply List.mem_append_left
    apply List.mem_append_right
    have e : ((r1.toNat : Nat) : Int) = r1 := Int.toNat_of_nonneg (by omega)
    refine mem_collect _ _ _ (((S.m_cuVerts : Int) + r1 + S.m_uOrder) - 1) _ (by omega)
      (by omega) ?_
    simp only [List.mem_cons, Access.mk.injEq, true_and]
    left
    push_cast
    rw [e]

/-- Witness for C37: on the bicubic patch `InsertKnotU(1/2, 1)` inserts one knot; the accesses
that are not below the length of their array are the store at `m_auKnots[9]` (length 9), and,
in the last row, the store at `P()[20]` (length 20) and the read of `aCPHold[16]` (length 16),
both from the loop of the line 448, which runs `i` up to the new `m_cuVerts`. -/
theorem InsertKnotU_writes_past_knots_witness :
    0 < (InsertKnotU Examples.bicubic (1 / 2) 1).2 ∧
    ((⟨KnotArray.m_auKnots,
        (((InsertKnotU Examples.bicubic (1 / 2) 1).1.m_cuVerts
          + (InsertKnotU Examples.bicubic (1 / 2) 1).1.m_uOrder : Nat) : Int) - 1
          + (InsertKnotU Examples.bicubic (1 / 2) 1).2⟩ : Access)
        ∈ InsertKnotU_accesses Examples.bicubic (1 / 2) 1 ∧
      ((arrayLength (InsertKnotU Examples.bicubic (1 / 2) 1).1 Examples.bicubic.P.length
          KnotArray.m_auKnots : Nat) : Int)
        ≤ (((InsertKnotU Examples.bicubic (1 / 2) 1).1.m_cuVerts
          + (InsertKnotU Examples.bicubic (1 / 2) 1).1.m_uOrder : Nat) : Int) - 1
          + (InsertKnotU Examples.bicubic (1 / 2) 1).2) ∧
    (InsertKnotU_accesses Examples.bicubic (1 / 2) 1).filter (fun a =>
        decide (a.index < 0 ∨
          ((arrayLength (InsertKnotU Examples.bicubic (1 / 2) 1).1 16 a.array : Nat) : Int)
            ≤ a.index))
      = [⟨KnotArray.m_auKnots, 9⟩, ⟨KnotArray.P, 20⟩, ⟨KnotArray.aCPHold, 16⟩] :=
  ⟨by decide!,
    InsertKnotU_writes_past_knots Examples.bicubic (1 / 2) 1 (by decide) (by decide!),
    by decide!⟩

theorem rd_replicate {α : Type} [Zero α] (n : Nat) (i : Int) :
    rd (List.replicate n (0 : α)) i = 0 := by
  unfold rd
  split
  · rw [List.getD_eq_getElem?_getD]
    by_cases h : i.toNat < n
    · simp [List.getElem?_replicate, h]
    · simp [List.getElem?_replicate, h]
  · rfl

/-- The loops of the block for `s` store below the counter `i` only, and `i` advances by
`cuSegments + 1` per row: what lies at or above `i` is as `SetSize` left it. -/
theorem defaultS_untouched (env : DefaultsEnv) (a b : Nat) (ha : env.cuSegments = (a : Int))
    (hb : env.cvSegments = (b : Int)) (t : Int) (ht : (b : Int) * ((a : Int) + 1) ≤ t) :
    rd (defaultS env) t = 0 := by
  have inner : ∀ (c : Int) (st : List ℚ × Int),
      (∀ t : Int, st.2 ≤ t → rd st.1 t = 0) →
      ∀ (x : List ℚ × Int), x = forUp 0 (env.cuSegments + 1) (fun r (st1 : List ℚ × Int) =>
        (wr st1.1 st1.2
          (env.BilinearEvaluate (rd env.pTC 0) (rd env.pTC 2) (rd env.pTC 4) (rd env.pTC 6)
            ((1 / (env.cuSegments : ℚ)) * (r : ℚ)) ((1 / (env.cvSegments : ℚ) + 1) * (c : ℚ))),
          st1.2 + 1)) st →
      x.2 = st.2 + ((a : Int) + 1) ∧ ∀ t : Int, x.2 ≤ t → rd x.1 t = 0 := by
    intro c st h0 x hx
    have key := forUp_induction_idx
      (fun (i : Int) (y : List ℚ × Int) => y.2 = st.2 + i ∧ ∀ t : Int, y.2 ≤ t → rd y.1 t = 0)
      0 (env.cuSegments + 1) (by rw [ha]; omega)
      (fun r (st1 : List ℚ × Int) =>
        (wr st1.1 st1.2
          (env.BilinearEvaluate (rd env.pTC 0) (rd env.pTC 2) (rd env.pTC 4) (rd env.pTC 6)
            ((1 / (env.cuSegments : ℚ)) * (r : ℚ)) ((1 / (env.cvSegments : ℚ) + 1) * (c : ℚ))),
          st1.2 + 1)) st ⟨by ring, h0⟩
      (by
        intro i y _ _ ⟨h1, h2⟩
        refine ⟨by simp only [h1]; ring, ?_⟩
        intro t ht
        simp only at ht ⊢
        rw [rd_wr_ne _ _ _ _ (by omega)]
        exact h2 t (by omega))
    rw [hx]
    rw [ha] at key ⊢
    exact key
  have outer := forUp_induction_idx
    (fun (c : Int) (y : List ℚ × Int) => y.2 = c * ((a : Int) + 1) ∧
      ∀ t : Int, y.2 ≤ t → rd y.1 t = 0)
    0 env.cvSegments (by rw [hb]; omega)
    (fun c (st : List ℚ × Int) =>
      forUp 0 (env.cuSegments + 1) (fun r (st1 : List ℚ × Int) =>
        (wr st1.1 st1.2
          (env.BilinearEvaluate (rd env.pTC 0) (rd env.pTC 2) (rd env.pTC 4) (rd env.pTC 6)
            ((1 / (env.cuSegments : ℚ)) * (r : ℚ)) ((1 / (env.cvSegments : ℚ) + 1) * (c : ℚ))),
          st1.2 + 1)) st)
    (resize ([] : List ℚ) env.cVarying, 0)
    ⟨by ring, by
      intro t _
      unfold resize
      simp only [List.take_nil, List.nil_append, List.length_nil, Nat.sub_zero]
      exact rd_replicate _ _⟩
    (by
      intro c y _ _ ⟨h1, h2⟩
      obtain ⟨k1, k2⟩ := inner c y h2 _ rfl
      refine ⟨by rw [k1, h1]; ring, k2⟩)
  have e : defaultS env = (forUp 0 env.cvSegments (fun c (st : List ℚ × Int) =>
      forUp 0 (env.cuSegments + 1) (fun r (st1 : List ℚ × Int) =>
        (wr st1.1 st1.2
          (env.BilinearEvaluate (rd env.pTC 0) (rd env.pTC 2) (rd env.pTC 4) (rd env.pTC 6)
            ((1 / (env.cuSegments : ℚ)) * (r : ℚ)) ((1 / (env.cvSegments : ℚ) + 1) * (c : ℚ))),
          st1.2 + 1)) st) (resize ([] : List ℚ) env.cVarying, 0)).1 := rfl
  rw [e]
  exact outer.2 t (by rw [outer.1, hb]; exact ht)

/-- C40 fails on the code: for one segment in each direction and the texture coordinates
`(0,0)`, `(1,0)`, `(0,1)`, `(1,1)` the call creates `s = [0, 1, 0, 0]` and `t = [0, 0, 0, 0]`.
The loops over `c` stop at `cvSegments()` instead of `cvSegments() + 1`, so the last row of the
lattice keeps the zeros of `SetSize`: the lattice corners 2 and 3 are not the texture
coordinates `(0, 1)` and `(1, 1)`.  With two segments the last row of three values is zero in
the same way. -/
theorem SetDefaultPrimitiveVariables_last_row_unset :
    (SetDefaultPrimitiveVariables Examples.unitDefaults true).s = some [0, 1, 0, 0] ∧
    (SetDefaultPrimitiveVariables Examples.unitDefaults true).t = some [0, 0, 0, 0] ∧
    rd Examples.unitDefaults.pTC 4 = 0 ∧ rd Examples.unitDefaults.pTC 5 = 1 ∧
    rd Examples.unitDefaults.pTC 6 = 1 ∧ rd Examples.unitDefaults.pTC 7 = 1 ∧
    (SetDefaultPrimitiveVariables Examples.twoByTwoDefaults true).s
      = some [0, 1 / 2, 1, 0, 1 / 2, 1, 0, 0, 0] ∧
    (SetDefaultPrimitiveVariables Examples.twoByTwoDefaults true).t
      = some [0, 0, 0, 1 / 2, 1 / 2, 1 / 2, 0, 0, 0] := by
  refine ⟨by decide!, by decide!, by decide!, by decide!, by decide!, by decide!, by decide!,
    by decide!⟩

/-- C38 fails on the code: for the square with the sides `1/2` (identity as the product with the
split transform, grid size 256) the estimates are `lu = lv = 1/2`, `lu * lv ≤ gridSize²`, and
`Patch::tessellate` hands `SurfaceDicer(1, 1)` to the context: `nu - 1 = nv - 1 = 0`, the
divisors of `du` and `dv` in `Patch::dice`, and the grid pushed has `nu = nv = 1`. -/
theorem Patch_tessellate_dices_one_by_one :
    Examples.halfSquare.lu Examples.sqrtRat (fun v _ => v) ⟨[]⟩ = 1 / 2 ∧
    Examples.halfSquare.lv Examples.sqrtRat (fun v _ => v) ⟨[]⟩ = 1 / 2 ∧
    (Examples.halfSquare.tessellate Examples.sqrtRat (fun v _ => v) ⟨[]⟩
      { pushed := [] }).invoked = [Tessellator.SurfaceDicer 1 1] ∧
    ((Examples.halfSquare.tessellate Examples.sqrtRat (fun v _ => v) ⟨[]⟩
      { pushed := [] }).grids.map (fun g => (g.nu, g.nv))) = [(1, 1)] ∧
    ((1 : Int) - 1 = 0) := by
  refine ⟨by decide!, by decide!, by decide!, by decide!, by decide⟩

/-- C35 fails on the code for `InsertKnotU` (and with it `InsertKnotV`, `ClampU`, `ClampV`,
which have no statement on the user parameters either): a call that inserts at least one knot
leaves every user parameter as it was, while `m_cuVerts` grows and `P` is resized.  So a
vertex-class parameter that had `m_cuVerts * m_cvVerts` elements before the call does not have
the new `m_cuVerts * m_cvVerts` elements after it, while `P` does. -/
theorem InsertKnotU_vertex_params_not_resized (S : CqSurfaceNURBS) (u : ℚ) (r : Int)
    (q : CqParameter) (hlen : S.m_auKnots.length = S.m_cuVerts + S.m_uOrder)
    (hcv : 0 < S.m_cvVerts) (hins : 0 < (InsertKnotU S u r).2)
    (hq : q ∈ S.m_aUserParams) (hc : q.Class = EqVariableClass.class_vertex)
    (hs : q.values.Size = S.m_cuVerts * S.m_cvVerts) :
    q ∈ (InsertKnotU S u r).1.m_aUserParams ∧
    (InsertKnotU S u r).1.P.length
      = (InsertKnotU S u r).1.m_cuVerts * (InsertKnotU S u r).1.m_cvVerts ∧
    q.values.Size
      < (InsertKnotU S u r).1.m_cuVerts * (InsertKnotU S u r).1.m_cvVerts := by
  have _ := hc
  obtain ⟨-, -, f3, -, -, f6, -, -, f9, f10⟩ := InsertKnotU_fields S u r hlen
  refine ⟨by rw [f9]; exact hq, by rw [f10 hins, f6], ?_⟩
  rw [hs, f3, f6]
  nlinarith

/-- Witness for C35: the degree-1 curve `shaded` carries a vertex float of two elements;
`InsertKnotU(1/2, 1)` inserts one knot, after which `m_cuVerts * m_cvVerts = 3`, `P` has three
elements and the vertex float and the vertex colour still have two. -/
theorem InsertKnotU_vertex_params_not_resized_witness :
    (0 < (InsertKnotU Examples.shaded (1 / 2) 1).2 ∧
      (⟨EqVariableClass.class_vertex, ParamValues.type_float [0, 2]⟩ : CqParameter)
        ∈ Examples.shaded.m_aUserParams) ∧
    ((⟨EqVariableClass.class_vertex, ParamValues.type_float [0, 2]⟩ : CqParameter)
        ∈ (InsertKnotU Examples.shaded (1 / 2) 1).1.m_aUserParams ∧
      (InsertKnotU Examples.shaded (1 / 2) 1).1.P.length
        = (InsertKnotU Examples.shaded (1 / 2) 1).1.m_cuVerts
          * (InsertKnotU Examples.shaded (1 / 2) 1).1.m_cvVerts ∧
      (ParamValues.type_float [0, 2]).Size
        < (InsertKnotU Examples.shaded (1 / 2) 1).1.m_cuVerts
          * (InsertKnotU Examples.shaded (1 / 2) 1).1.m_cvVerts) ∧
    (InsertKnotU Examples.shaded (1 / 2) 1).1.m_cuVerts
      * (InsertKnotU Examples.shaded (1 / 2) 1).1.m_cvVerts = 3 ∧
    (InsertKnotU Examples.shaded (1 / 2) 1).1.P.length = 3 ∧
    (InsertKnotU Examples.shaded (1 / 2) 1).1.m_aUserParams.map (fun q => q.values.Size)
      = [2, 2, 2] :=
  ⟨⟨by decide!, by decide!⟩,
    InsertKnotU_vertex_params_not_resized Examples.shaded (1 / 2) 1
      ⟨EqVariableClass.class_vertex, ParamValues.type_float [0, 2]⟩ (by decide) (by decide)
      (by decide!) (by decide!) rfl (by decide),
    by decide!, by decide!, by decide!⟩

/-- C32 fails on a well-formed surface: the cubic curve `Examples.repeatedLeft` (knots
`0,1,2,3,3,4,5,6,7`, where `U[uDegree] = U[uDegree + 1] = 3`).  After `ClampU` and `ClampV` the
U knots are `2,3,3,3,3,4,4,4,4`, which are not clamped at the left end; at the corner
`(U[uDegree], V[vDegree]) = (3, 0)` of the active domain `FindSpanU` returns the span 3, which
has length zero (`U[3] = U[4]`), the first division of `BasisFunctions` is by
`right[1] + left[1] = 0`, and the value of the surface differs from the corner control point
`(2, 0, 0, 1)` (with the quotient by zero taken as 0, all four basis values and the point
are 0). -/
theorem Clamp_corner_not_interpolated :
    (ClampV (ClampU Examples.repeatedLeft)).m_auKnots = [2, 3, 3, 3, 3, 4, 4, 4, 4] ∧
      (ClampV (ClampU Examples.repeatedLeft)).m_avKnots = [0, 1] ∧
      (ClampV (ClampU Examples.repeatedLeft)).m_cuVerts = 5 ∧
      (ClampV (ClampU Examples.repeatedLeft)).m_cvVerts = 1 ∧
      (ClampV (ClampU Examples.repeatedLeft)).m_uOrder = 4 ∧
      (ClampV (ClampU Examples.repeatedLeft)).m_vOrder = 1 ∧
      rd (ClampV (ClampU Examples.repeatedLeft)).m_auKnots
        (ClampV (ClampU Examples.repeatedLeft)).uDegree = 3 ∧
      rd (ClampV (ClampU Examples.repeatedLeft)).m_avKnots
        (ClampV (ClampU Examples.repeatedLeft)).vDegree = 0 ∧
      FindSpanU 20 (ClampV (ClampU Examples.repeatedLeft)) 3 = some 3 ∧
      rd (ClampV (ClampU Examples.repeatedLeft)).m_auKnots 3
        = rd (ClampV (ClampU Examples.repeatedLeft)).m_auKnots 4 ∧
      basisDenominator 3 3 (ClampV (ClampU Examples.repeatedLeft)).m_auKnots 4
        (List.replicate 4 0) 1 0 = 0 ∧
      BasisFunctions 3 3 (ClampV (ClampU Examples.repeatedLeft)).m_auKnots 4
        (List.replicate 4 0) = [0, 0, 0, 0] ∧
      CP (ClampV (ClampU Examples.repeatedLeft)) 0 0 = ⟨2, 0, 0, 1⟩ ∧
      Evaluate 20 (ClampV (ClampU Examples.repeatedLeft)) 3 0 = some ⟨0, 0, 0, 0⟩ ∧
      Evaluate 20 (ClampV (ClampU Examples.repeatedLeft)) 3 0
        ≠ some (CP (ClampV (ClampU Examples.repeatedLeft)) 0 0) := by
  decide!

theorem basisN_outside (u : ℚ) (i : Nat) (U : List ℚ) (d : Nat) (r : Int)
    (h : r < 0 ∨ (d : Int) < r) : basisN u i U d r = 0 := by
  cases d with
  | zero =>
    unfold basisN
    rw [if_neg (by omega)]
  | succ d =>
    unfold basisN
    rw [if_neg (by push_cast at h; omega)]

/-- The entries of `left` and `right` during round `j` of the outer loop of `BasisFunctions`. -/
theorem basisStateAt_left_right (u : ℚ) (i : Nat) (U : List ℚ) (k : Nat) (N : List ℚ)
    (j r : Nat) (hj : 1 ≤ j) (hjk : j + 1 ≤ k) (t : Int) (h1 : 1 ≤ t) (h2 : t ≤ j) :
    rd (basisStateAt u i U k N j r).left t = u - rd U (i + 1 - t) ∧
      rd (basisStateAt u i U k N j r).right t = rd U (i + t) - u := by
  obtain ⟨hl, hrr, h⟩ := basisOuter_loop_left_right u i U k N j hj (by omega)
  unfold basisStateAt
  simp only []
  obtain ⟨e1, e2⟩ := basisInner_loop_left_right j r
    { forUp 1 j (basisOuter u i U)
        { N := wr N 0 1, left := List.replicate k 0, right := List.replicate k 0, saved := 0 }
      with left := wr (forUp 1 j (basisOuter u i U)
        { N := wr N 0 1, left := List.replicate k 0, right := List.replicate k 0,
          saved := 0 }).left j (u - rd U (i + 1 - j)),
           right := wr (forUp 1 j (basisOuter u i U)
        { N := wr N 0 1, left := List.replicate k 0, right := List.replicate k 0,
          saved := 0 }).right j (rd U (i + j) - u), saved := 0 }
  rw [e1, e2]
  by_cases htj : t = j
  · subst htj
    rw [rd_wr_same _ _ _ (by omega) (by omega), rd_wr_same _ _ _ (by omega) (by omega)]
    exact ⟨rfl, rfl⟩
  · rw [rd_wr_ne _ _ _ _ (fun e => htj e.symm), rd_wr_ne _ _ _ _ (fun e => htj e.symm)]
    exact h t h1 (by omega)

/-- The state of `BasisFunctions` at the start of the inner loop of round `j`. -/
theorem basisStateAt_zero (u : ℚ) (i : Nat) (U : List ℚ) (k : Nat) (N : List ℚ) (j : Nat) :
    (basisStateAt u i U k N j 0).N = (forUp 1 j (basisOuter u i U)
        { N := wr N 0 1, left := List.replicate k 0, right := List.replicate k 0,
          saved := 0 }).N ∧
      (basisStateAt u i U k N j 0).saved = 0 := by
  unfold basisStateAt
  simp only []
  have e : ((0 : Nat) : Int) = 0 := rfl
  rw [e, forUp_empty _ _ _ _ (le_refl _)]
  exact ⟨rfl, rfl⟩

/-- The inner loop of `BasisFunctions`, round `j` of the outer loop: when `N` holds the functions
of degree `j - 1` on entry, after `r` rounds the entries below `r` hold the functions of degree
`j`, the others are unchanged, and `saved` is the first term of the next function. -/
theorem basisStateAt_inner (u : ℚ) (i : Nat) (U : List ℚ) (k : Nat) (N : List ℚ)
    (j : Nat) (hj : 1 ≤ j) (hjk : j + 1 ≤ k)
    (hlen : (forUp 1 j (basisOuter u i U)
        { N := wr N 0 1, left := List.replicate k 0, right := List.replicate k 0,
          saved := 0 }).N.length = N.length) (hNk : k ≤ N.length)
    (hN : ∀ t : Int, 0 ≤ t → t < j → rd (forUp 1 j (basisOuter u i U)
        { N := wr N 0 1, left := List.replicate k 0, right := List.replicate k 0,
          saved := 0 }).N t = basisN u i U (j - 1) t) :
    ∀ r : Nat, r ≤ j →
      (basisStateAt u i U k N j r).N.length = N.length ∧
      (∀ t : Int, 0 ≤ t → t < r → rd (basisStateAt u i U k N j r).N t = basisN u i U j t) ∧
      (∀ t : Int, r ≤ t → t < j →
        rd (basisStateAt u i U k N j r).N t = basisN u i U (j - 1) t) ∧
      (basisStateAt u i U k N j r).saved
        = (u - rd U ((i : Int) - j + r))
            * (basisN u i U (j - 1) ((r : Int) - 1)
                / (rd U ((i : Int) + r) - rd U ((i : Int) - j + r))) := by
  intro r
  induction r with
  | zero =>
    intro _
    obtain ⟨e1, e2⟩ := basisStateAt_zero u i U k N j
    rw [e1, e2]
    refine ⟨hlen, fun t h0 h1 => by omega, fun t h0 h1 => hN t (by omega) h1, ?_⟩
    rw [basisN_outside u i U (j - 1) _ (Or.inl (by norm_num))]
    simp
  | succ r ih =>
    intro hr
    obtain ⟨il, i1, i2, i3⟩ := ih (by omega)
    rw [basisStateAt_succ]
    obtain ⟨lr1, _⟩ := basisStateAt_left_right u i U k N j r hj hjk ((j : Int) - r)
      (by omega) (by omega)
    obtain ⟨_, lr2⟩ := basisStateAt_left_right u i U k N j r hj hjk ((r : Int) + 1)
      (by omega) (by omega)
    unfold basisInner
    simp only []
    refine ⟨by rw [wr_length]; exact il, ?_, ?_, ?_⟩
    · intro t h0 h1
      by_cases htr : t = r
      · subst htr
        rw [rd_wr_same _ _ _ (by omega) (by rw [il]; omega)]
        rw [i3, lr1, lr2, i2 r (le_refl _) (by omega)]
        obtain ⟨d, hd⟩ : ∃ d, j = d + 1 := ⟨j - 1, by omega⟩
        subst hd
        conv_rhs => unfold basisN
        rw [if_pos (by constructor <;> omega)]
        simp only [Nat.add_sub_cancel]
        have a1 : (i : Int) - ((d + 1 : Nat) : Int) + r = (i : Int) - ((d : Int) + 1) + r := by
          push_cast; ring
        have a2 : (i : Int) + 1 - (((d + 1 : Nat) : Int) - r) = (i : Int) - (d : Int) + r := by
          push_cast; ring
        have a3 : (i : Int) + ((r : Int) + 1) = (i : Int) + r + 1 := by ring
        rw [a1, a2, a3]
        have a4 : rd U ((i : Int) + r + 1) - u + (u - rd U ((i : Int) - (d : Int) + r))
            = rd U ((i : Int) + r + 1) - rd U ((i : Int) - (d : Int) + r) := by ring
        rw [a4]
      · rw [rd_wr_ne _ _ _ _ (fun e => htr e.symm)]
        exact i1 t h0 (by push_cast at h1; omega)
    · intro t h0 h1
      rw [rd_wr_ne _ _ _ _ (by push_cast at h0; omega)]
      exact i2 t (by push_cast at h0; omega) h1
    · rw [lr1, i2 r (le_refl _) (by omega)]
      have a1 : (i : Int) + 1 - ((j : Int) - r) = (i : Int) - j + ((r + 1 : Nat) : Int) := by
        push_cast; ring
      have a2 : (i : Int) + ((r + 1 : Nat) : Int) = (i : Int) + r + 1 := by push_cast; ring
      have a3 : (((r + 1 : Nat) : Int) - 1) = (r : Int) := by push_cast; ring
      rw [lr2, a3, a2, ← a1]
      have a5 : (i : Int) + ((r : Int) + 1) = (i : Int) + r + 1 := by ring
      have a4 : rd U ((i : Int) + r + 1) - u + (u - rd U ((i : Int) + 1 - ((j : Int) - r)))
          = rd U ((i : Int) + r + 1) - rd U ((i : Int) + 1 - ((j : Int) - r)) := by ring
      rw [a5, a4]

/-- After the rounds `1 .. j - 1` of the outer loop of `BasisFunctions`, `N` holds the values of
the Cox-de Boor functions of degree `j - 1`. -/
theorem basisOuter_loop_N (u : ℚ) (i : Nat) (U : List ℚ) (k : Nat) (N : List ℚ)
    (hN : k ≤ N.length) (j : Nat) (hj : 1 ≤ j) (hjk : j ≤ k) :
    (forUp 1 j (basisOuter u i U)
        { N := wr N 0 1, left := List.replicate k 0, right := List.replicate k 0,
          saved := 0 }).N.length = N.length ∧
      ∀ t : Int, 0 ≤ t → t < j → rd (forUp 1 j (basisOuter u i U)
        { N := wr N 0 1, left := List.replicate k 0, right := List.replicate k 0,
          saved := 0 }).N t = basisN u i U (j - 1) t := by
  induction j with
  | zero => omega
  | succ j ih =>
    by_cases hj0 : j = 0
    · subst hj0
      have e : (((0 + 1 : Nat)) : Int) = 1 := rfl
      rw [e, forUp_empty _ _ _ _ (le_refl _)]
      refine ⟨by rw [wr_length], ?_⟩
      intro t h0 h1
      have ht : t = 0 := by omega
      subst ht
      rw [rd_wr_same _ _ _ (le_refl _) (by omega)]
      unfold basisN
      simp
    · obtain ⟨hl, hv⟩ := ih (by omega) (by omega)
      obtain ⟨il, i1, i2, i3⟩ := basisStateAt_inner u i U k N j (by omega) (by omega) hl hN hv j
        (le_refl _)
      have e : (((j + 1 : Nat)) : Int) = (j : Int) + 1 := by push_cast; ring
      rw [e, forUp_succ _ _ _ _ (by omega), basisStateAt_outer]
      simp only []
      refine ⟨by rw [wr_length]; exact il, ?_⟩
      intro t h0 h1
      simp only [Nat.add_sub_cancel]
      by_cases htj : t = j
      · subst htj
        rw [rd_wr_same _ _ _ (by omega) (by rw [il]; omega), i3]
        obtain ⟨d, hd⟩ : ∃ d, j = d + 1 := ⟨j - 1, by omega⟩
        subst hd
        conv_rhs => unfold basisN
        rw [if_pos (by constructor <;> push_cast <;> omega)]
        simp only [Nat.add_sub_cancel]
        rw [basisN_outside u i U d ((d + 1 : Nat) : Int) (Or.inr (by push_cast; omega))]
        have a1 : (i : Int) - ((d + 1 : Nat) : Int) + ((d + 1 : Nat) : Int)
            = (i : Int) - ((d : Int) + 1) + ((d + 1 : Nat) : Int) := by push_cast; ring
        rw [a1]
        simp
      · rw [rd_wr_ne _ _ _ _ (fun e => htj e.symm)]
        exact i1 t h0 (by omega)

/-- `BasisFunctions(u, i, U, k, N)` leaves in `N[r]` the value of the Cox-de Boor function of
degree `k - 1` with the local index `r`. -/
theorem BasisFunctions_eq_basisN (u : ℚ) (i : Nat) (U : List ℚ) (k : Nat) (N : List ℚ)
    (hN : k ≤ N.length) (hk : 1 ≤ k) :
    (BasisFunctions u i U k N).length = N.length ∧
      ∀ r : Int, 0 ≤ r → r < k → rd (BasisFunctions u i U k N) r = basisN u i U (k - 1) r :=
  basisOuter_loop_N u i U k N hN k hk (le_refl _)

/-- Reads of a non-decreasing vector at whole subscripts inside it are ordered. -/
theorem rd_le_of_le (U : List ℚ) (hU : U.Sorted (· ≤ ·)) (a b : Int) (h0 : 0 ≤ a) (hab : a ≤ b)
    (hb : b < U.length) : rd U a ≤ rd U b := by
  have ea : a = ((a.toNat : Nat) : Int) := by omega
  have eb : b = ((b.toNat : Nat) : Int) := by omega
  rw [ea, eb]
  exact rd_mono U hU (by omega) (by omega)

/-- The sum of the first `n` entries of a vector, as a sum over the subscripts. -/
theorem sum_take_eq (L : List ℚ) (n : Nat) (hn : n ≤ L.length) :
    (L.take n).sum = ∑ r in Finset.range n, rd L (r : Int) := by
  induction n with
  | zero => simp
  | succ n ih =>
    rw [Finset.sum_range_succ, ← ih (by omega), List.sum_take_succ L n (by omega),
      rd_nat_lt L n (by omega)]

/-- On a span `U[i] < U[i + 1]` of a non-decreasing knot vector, for `U[i] ≤ u ≤ U[i + 1]`, the
Cox-de Boor functions of each degree `d ≤ i` (with `i + d < |U|`) are non-negative and sum
to 1. -/
theorem basisN_partition (u : ℚ) (i : Nat) (U : List ℚ) (hU : U.Sorted (· ≤ ·))
    (hspan : rd U (i : Int) < rd U ((i : Int) + 1))
    (hu1 : rd U (i : Int) ≤ u) (hu2 : u ≤ rd U ((i : Int) + 1)) :
    ∀ d : Nat, d ≤ i → i + d < U.length →
      (∀ r : Int, 0 ≤ basisN u i U d r) ∧
        ∑ r in Finset.range (d + 1), basisN u i U d (r : Int) = 1 := by
  intro d
  induction d with
  | zero =>
    intro _ _
    constructor
    · intro r
      unfold basisN
      split <;> norm_num
    · simp [basisN]
  | succ d ih =>
    intro hd hlen
    obtain ⟨hpos, hsum⟩ := ih (by omega) (by omega)
    have hden : ∀ r : Int, 0 ≤ r → r ≤ d →
        0 < rd U ((i : Int) + r + 1) - rd U ((i : Int) - (d : Int) + r) := by
      intro r h0 h1
      have h3 : rd U ((i : Int) - (d : Int) + r) ≤ rd U (i : Int) :=
        rd_le_of_le U hU _ _ (by omega) (by omega) (by omega)
      have h4 : rd U ((i : Int) + 1) ≤ rd U ((i : Int) + r + 1) :=
        rd_le_of_le U hU _ _ (by omega) (by omega) (by omega)
      linarith
    constructor
    · intro r
      unfold basisN
      split
      · rename_i hr
        apply add_nonneg
        · by_cases hr0 : r = 0
          · subst hr0
            rw [basisN_outside u i U d _ (Or.inl (by norm_num))]
            simp
          · apply mul_nonneg
            · have h3 : rd U ((i : Int) - ((d : Int) + 1) + r) ≤ rd U (i : Int) :=
                rd_le_of_le U hU _ _ (by omega) (by omega) (by omega)
              linarith
            · apply div_nonneg (hpos _)
              have h5 := hden (r - 1) (by omega) (by omega)
              have e1 : (i : Int) + (r - 1) + 1 = (i : Int) + r := by ring
              have e2 : (i : Int) - (d : Int) + (r - 1) = (i : Int) - ((d : Int) + 1) + r := by
                ring
              rw [e1, e2] at h5
              exact le_of_lt h5
        · by_cases hrd : r = (d : Int) + 1
          · subst hrd
            rw [basisN_outside u i U d _ (Or.inr (by omega))]
            simp
          · apply mul_nonneg
            · have h4 : rd U ((i : Int) + 1) ≤ rd U ((i : Int) + r + 1) :=
                rd_le_of_le U hU _ _ (by omega) (by omega) (by omega)
              linarith
            · exact div_nonneg (hpos _) (le_of_lt (hden r (by omega) (by omega)))
      · exact le_refl _
    · have hstep : ∀ r : Nat, r ∈ Finset.range (d + 1 + 1) →
          basisN u i U (d + 1) (r : Int)
            = (u - rd U ((i : Int) - ((d : Int) + 1) + r))
                * (basisN u i U d ((r : Int) - 1)
                    / (rd U ((i : Int) + r) - rd U ((i : Int) - ((d : Int) + 1) + r)))
              + (rd U ((i : Int) + r + 1) - u)
                * (basisN u i U d r
                    / (rd U ((i : Int) + r + 1) - rd U ((i : Int) - (d : Int) + r))) := by
        intro r hr
        rw [Finset.mem_range] at hr
        conv_lhs => unfold basisN
        rw [if_pos (by constructor <;> omega)]
      rw [Finset.sum_congr rfl hstep, Finset.sum_add_distrib, Finset.sum_range_succ',
        Finset.sum_range_succ _ (d + 1)]
      rw [basisN_outside u i U d (((0 : Nat) : Int) - 1) (Or.inl (by norm_num)),
        basisN_outside u i U d ((d + 1 : Nat) : Int) (Or.inr (by push_cast; omega))]
      simp only [zero_div, mul_zero, add_zero]
      rw [← Finset.sum_add_distrib, ← hsum]
      apply Finset.sum_congr rfl
      intro r hr
      rw [Finset.mem_range] at hr
      have h5 := hden r (by omega) (by omega)
      have e1 : (((r + 1 : Nat) : Int) - 1) = (r : Int) := by push_cast; ring
      have e2 : (i : Int) + ((r + 1 : Nat) : Int) = (i : Int) + r + 1 := by push_cast; ring
      have e3 : (i : Int) - ((d : Int) + 1) + ((r + 1 : Nat) : Int) = (i : Int) - (d : Int) + r := by
        push_cast; ring
      rw [e1, e2, e3]
      field_simp
      ring

/-- C36: for a non-decreasing knot vector `U`, an order `k ≥ 1`, a span index `i` with
`k - 1 ≤ i`, `i + k ≤ |U|` and `U[i] < U[i + 1]`, and a parameter `U[i] ≤ u ≤ U[i + 1]`, the
`k` values that `BasisFunctions(u, i, U, k, N)` writes into `N` (a vector of at least `k`
entries) are all non-negative and their sum is exactly 1. -/
theorem BasisFunctions_partition_of_unity (u : ℚ) (i : Nat) (U : List ℚ) (k : Nat)
    (N : List ℚ) (hU : U.Sorted (· ≤ ·)) (hN : k ≤ N.length) (hk : 1 ≤ k) (hi : k - 1 ≤ i)
    (hlen : i + k ≤ U.length) (hspan : rd U (i : Int) < rd U ((i : Int) + 1))
    (hu1 : rd U (i : Int) ≤ u) (hu2 : u ≤ rd U ((i : Int) + 1)) :
    (∀ r : Int, 0 ≤ r → r < k → 0 ≤ rd (BasisFunctions u i U k N) r) ∧
      ((BasisFunctions u i U k N).take k).sum = 1 := by
  obtain ⟨hl, hv⟩ := BasisFunctions_eq_basisN u i U k N hN hk
  obtain ⟨hpos, hsum⟩ := basisN_partition u i U hU hspan hu1 hu2 (k - 1) hi (by omega)
  constructor
  · intro r h0 h1
    rw [hv r h0 h1]
    exact hpos r
  · rw [sum_take_eq _ _ (by omega)]
    have e : k - 1 + 1 = k := by omega
    rw [e] at hsum
    rw [← hsum]
    apply Finset.sum_congr rfl
    intro r hr
    rw [Finset.mem_range] at hr
    exact hv r (by omega) (by omega)

/-- C36 at the cubic span `i = 3` of the knot vector `0,0,0,0,1,2,2,2,2`, `u = 1/2`. -/
theorem BasisFunctions_partition_of_unity_witness :
    (∀ r : Int, 0 ≤ r → r < (4 : Nat) →
        0 ≤ rd (BasisFunctions (1/2) 3 [0, 0, 0, 0, 1, 2, 2, 2, 2] 4 [0, 0, 0, 0]) r) ∧
      ((BasisFunctions (1/2) 3 [0, 0, 0, 0, 1, 2, 2, 2, 2] 4 [0, 0, 0, 0]).take 4).sum = 1 :=
  BasisFunctions_partition_of_unity (1/2) 3 [0, 0, 0, 0, 1, 2, 2, 2, 2] 4 [0, 0, 0, 0]
    (by simp [List.Sorted]) (by decide) (by decide) (by decide) (by decide) (by decide!)
    (by decide!) (by decide!)

/-- What the first child of `SplitNURBS` in the `u` direction holds: the first `sp + 1` columns
of the refined net, the first `sp + 1 + m_uOrder` knots, and the `v` knots. -/
theorem splitChildA_u_spec (T : CqSurfaceNURBS) (sp : Nat) (hb : sp + 1 < 4294967296) :
    (splitChildA T true sp).m_cuVerts = sp + 1 ∧
    (splitChildA T true sp).m_cvVerts = T.m_cvVerts ∧
    (splitChildA T true sp).m_uOrder = T.m_uOrder ∧
    (splitChildA T true sp).m_vOrder = T.m_vOrder ∧
    (splitChildA T true sp).m_auKnots.length = sp + 1 + T.m_uOrder ∧
    (splitChildA T true sp).m_avKnots.length = T.m_cvVerts + T.m_vOrder ∧
    (∀ t : Nat, t < sp + 1 + T.m_uOrder →
      rd (splitChildA T true sp).m_auKnots (t : Int) = rd T.m_auKnots (t : Int)) ∧
    (∀ t : Nat, t < T.m_cvVerts + T.m_vOrder →
      rd (splitChildA T true sp).m_avKnots (t : Int) = rd T.m_avKnots (t : Int)) ∧
    (splitChildA T true sp).P.length = (sp + 1) * T.m_cvVerts ∧
    (∀ i j : Nat, i < T.m_cvVerts → j < sp + 1 →
      rd (splitChildA T true sp).P ((i : Int) * ((sp + 1 : Nat) : Int) + j)
        = rd T.P ((i : Int) * T.m_cuVerts + j)) := by
  have eU : u32 ((sp : Int) + 1) = sp + 1 := by
    have : (sp : Int) + 1 = ((sp + 1 : Nat) : Int) := by push_cast; ring
    rw [this]
    exact u32_nat _ hb
  have kU := forUp_wr_fill ((T.m_uOrder + (sp + 1) : Nat) : Int)
    (fun i => rd T.m_auKnots (0 + i)) (resize ([] : List ℚ) (sp + 1 + T.m_uOrder))
    (by rw [resize_length]; omega)
  have kV := forUp_wr_fill ((T.m_vOrder + T.m_cvVerts : Nat) : Int)
    (fun i => rd T.m_avKnots (0 + i)) (resize ([] : List ℚ) (T.m_cvVerts + T.m_vOrder))
    (by rw [resize_length]; omega)
  have kP := forUp_grid (0 : CqVector4D) (sp + 1) T.m_cvVerts
    (fun u v _ => rd T.P (v * T.m_cuVerts + u))
    (resize ([] : List CqVector4D) ((sp + 1) * T.m_cvVerts)) (resize_length _ _)
  unfold splitChildA
  simp only [Init, fresh, eU, if_true, copyKnots, copyBlock]
  refine ⟨trivial, trivial, trivial, trivial, ?_, ?_, ?_, ?_, ?_, ?_⟩
  · rw [kU.1, resize_length]
  · rw [kV.1, resize_length]
  · intro t ht
    rw [kU.2 t (by omega) (by omega)]
    simp only [zero_add]
  · intro t ht
    rw [kV.2 t (by omega) (by omega)]
    simp only [zero_add]
  · exact kP.1
  · intro i j hi hj
    exact kP.2 j i hj hi

/-- What the second child of `SplitNURBS` in the `u` direction holds: the columns of the
refined net from `sp1` on, the knots from `sp1` on, and the `v` knots. -/
theorem splitChildB_u_spec (T : CqSurfaceNURBS) (sp1 cB : Nat) (hT : T.m_cuVerts = sp1 + cB)
    (hb : cB < 4294967296) :
    (splitChildB T true sp1).m_cuVerts = cB ∧
    (splitChildB T true sp1).m_cvVerts = T.m_cvVerts ∧
    (splitChildB T true sp1).m_uOrder = T.m_uOrder ∧
    (splitChildB T true sp1).m_vOrder = T.m_vOrder ∧
    (splitChildB T true sp1).m_auKnots.length = cB + T.m_uOrder ∧
    (splitChildB T true sp1).m_avKnots.length = T.m_cvVerts + T.m_vOrder ∧
    (∀ t : Nat, t < cB + T.m_uOrder →
      rd (splitChildB T true sp1).m_auKnots (t : Int) = rd T.m_auKnots ((sp1 : Int) + t)) ∧
    (∀ t : Nat, t < T.m_cvVerts + T.m_vOrder →
      rd (splitChildB T true sp1).m_avKnots (t : Int) = rd T.m_avKnots (t : Int)) ∧
    (splitChildB T true sp1).P.length = cB * T.m_cvVerts ∧
    (∀ i j : Nat, i < T.m_cvVerts → j < cB →
      rd (splitChildB T true sp1).P ((i : Int) * (cB : Int) + j)
        = rd T.P ((i : Int) * T.m_cuVerts + ((j : Int) + sp1))) := by
  have eU : u32 ((T.m_cuVerts : Int) - sp1) = cB := by
    have : (T.m_cuVerts : Int) - sp1 = ((cB : Nat) : Int) := by omega
    rw [this]
    exact u32_nat _ hb
  have kU := forUp_wr_fill ((T.m_uOrder + cB : Nat) : Int)
    (fun i => rd T.m_auKnots ((sp1 : Int) + i)) (resize ([] : List ℚ) (cB + T.m_uOrder))
    (by rw [resize_length]; omega)
  have kV := forUp_wr_fill ((T.m_vOrder + T.m_cvVerts : Nat) : Int)
    (fun i => rd T.m_avKnots (0 + i)) (resize ([] : List ℚ) (T.m_cvVerts + T.m_vOrder))
    (by rw [resize_length]; omega)
  have kP := forUp_grid (0 : CqVector4D) cB T.m_cvVerts
    (fun u v _ => rd T.P (v * T.m_cuVerts + (u + sp1)))
    (resize ([] : List CqVector4D) (cB * T.m_cvVerts)) (resize_length _ _)
  unfold splitChildB
  simp only [Init, fresh, eU, if_true, copyKnots, copyBlock]
  refine ⟨trivial, trivial, trivial, trivial, ?_, ?_, ?_, ?_, ?_, ?_⟩
  · rw [kU.1, resize_length]
  · rw [kV.1, resize_length]
  · intro t ht
    rw [kU.2 t (by omega) (by omega)]
  · intro t ht
    rw [kV.2 t (by omega) (by omega)]
    simp only [zero_add]
  · exact kP.1
  · intro i j hi hj
    exact kP.2 j i hj hi

/-- `RefineKnotU` with `e` copies of a value `s` of the active range, `i + 1` being the place
behind the last knot that is not above `s`: it returns, the new knot vector is the old one with
the copies inserted at `i + 1`, there are `e` more columns, and the members of the `v` direction
stay. -/
theorem RefineKnotU_replicate (fuel : Nat) (S : CqSurfaceNURBS) (s : ℚ) (i e : Nat)
    (hs : S.m_auKnots.Sorted (· ≤ ·)) (hlen : S.m_auKnots.length = S.m_cuVerts + S.m_uOrder)
    (ho : 1 ≤ S.m_uOrder) (hcu : 1 ≤ S.m_cuVerts) (hfuel : S.m_cuVerts + 1 ≤ fuel)
    (hin : rd S.m_auKnots (S.uDegree : Int) ≤ s ∧ s ≤ rd S.m_auKnots (S.m_cuVerts : Int))
    (hi : i + 1 ≤ S.m_auKnots.length)
    (hlow : ∀ t : Nat, t < i + 1 → rd S.m_auKnots (t : Int) ≤ s)
    (hhigh : ∀ t : Nat, i + 1 ≤ t → t < S.m_auKnots.length → s ≤ rd S.m_auKnots (t : Int)) :
    ∃ T : CqSurfaceNURBS, RefineKnotU fuel S (List.replicate e s) = some T ∧
      T.m_auKnots = insAt S.m_auKnots (i + 1) e s ∧ T.m_cuVerts = S.m_cuVerts + e ∧
      T.m_cvVerts = S.m_cvVerts ∧ T.m_uOrder = S.m_uOrder ∧ T.m_vOrder = S.m_vOrder ∧
      T.m_avKnots = S.m_avKnots := by
  rcases Nat.eq_zero_or_pos e with he | he
  · subst he
    refine ⟨S, ?_, by rw [insAt_zero], rfl, rfl, rfl, rfl, rfl⟩
    unfold RefineKnotU
    simp
  · obtain ⟨a, b0, knots, k1, k2, k3⟩ := RefineKnotU_eq fuel S (List.replicate e s) hs hlen ho
      hcu hfuel (by
        intro hc
        have := congrArg List.length hc
        simp at this
        omega) (sorted_replicate _ _) (by
        intro x hx
        rw [List.eq_of_mem_replicate hx]
        exact hin)
    have hk : knots = insAt S.m_auKnots (i + 1) e s :=
      sorted_perm_insAt _ _ hs k1 _ (i + 1) e k2 hi hlow hhigh
    refine ⟨_, k3, hk, ?_, rfl, rfl, rfl, rfl⟩
    simp only [List.length_replicate]

/-- C39: for a surface whose U knot vector is non-decreasing, has `m_cuVerts + m_uOrder`
entries, is clamped (the first `m_uOrder` knots are equal and so are the last `m_uOrder`), has
a non-empty active range, and in which no value strictly inside the active range occurs more
than `m_uOrder` times (the V knot vector having `m_cvVerts + m_vOrder` entries, the sizes
staying inside `TqUint`), `SplitNURBS` with `dirflag = true` returns: the surface itself is
refined with `e ≤ m_uOrder` copies of the split value `s = (U[0] + U[last]) / 2`, and the
children `A` and `B` satisfy `A.cuVerts + B.cuVerts = ` the refined `cuVerts`; each child's U
knot vector has its `cuVerts + uOrder` entries; the last `uOrder` knots of `A` and the first
`uOrder` knots of `B` are `s`; the control points of `A` are the first `A.cuVerts` columns of
the refined net and those of `B` the remaining columns; both children have the V knot vector
and the `cvVerts` of the parent. -/
theorem SplitNURBS_u_children (fuel : Nat) (S : CqSurfaceNURBS)
    (hs : S.m_auKnots.Sorted (· ≤ ·)) (hlen : S.m_auKnots.length = S.m_cuVerts + S.m_uOrder)
    (hvlen : S.m_avKnots.length = S.m_cvVerts + S.m_vOrder) (ho : 1 ≤ S.m_uOrder)
    (hcl : rd S.m_auKnots 0 = rd S.m_auKnots ((S.m_uOrder - 1 : Nat) : Int))
    (hcr : rd S.m_auKnots (S.m_cuVerts : Int)
      = rd S.m_auKnots ((S.m_cuVerts + S.m_uOrder - 1 : Nat) : Int))
    (hrange : rd S.m_auKnots ((S.m_uOrder - 1 : Nat) : Int) < rd S.m_auKnots (S.m_cuVerts : Int))
    (hmult : ∀ (v : ℚ) (a b : Nat), rd S.m_auKnots ((S.m_uOrder - 1 : Nat) : Int) < v →
      v < rd S.m_auKnots (S.m_cuVerts : Int) → a ≤ b → b < S.m_auKnots.length →
      rd S.m_auKnots (a : Int) = v → rd S.m_auKnots (b : Int) = v → b - a + 1 ≤ S.m_uOrder)
    (hb : S.m_cuVerts + S.m_uOrder + S.m_uOrder < 4294967296)
    (hfuel : S.m_cuVerts + S.m_uOrder + 1 ≤ fuel) :
    ∃ (T A B : CqSurfaceNURBS) (e : Nat),
      SplitNURBS fuel S true = some (T, A, B) ∧
      e ≤ S.m_uOrder ∧
      RefineKnotU fuel S (List.replicate e
        ((rd S.m_auKnots 0 + rd S.m_auKnots ((S.m_cuVerts + S.m_uOrder - 1 : Nat) : Int)) / 2))
        = some T ∧
      T.m_cuVerts = S.m_cuVerts + e ∧
      A.m_cuVerts + B.m_cuVerts = T.m_cuVerts ∧ 1 ≤ A.m_cuVerts ∧ 1 ≤ B.m_cuVerts ∧
      A.m_uOrder = S.m_uOrder ∧ B.m_uOrder = S.m_uOrder ∧
      A.m_auKnots.length = A.m_cuVerts + A.m_uOrder ∧
      B.m_auKnots.length = B.m_cuVerts + B.m_uOrder ∧
      (∀ t : Nat, A.m_cuVerts ≤ t → t < A.m_cuVerts + A.m_uOrder → rd A.m_auKnots (t : Int)
        = (rd S.m_auKnots 0 + rd S.m_auKnots ((S.m_cuVerts + S.m_uOrder - 1 : Nat) : Int)) / 2) ∧
      (∀ t : Nat, t < B.m_uOrder → rd B.m_auKnots (t : Int)
        = (rd S.m_auKnots 0 + rd S.m_auKnots ((S.m_cuVerts + S.m_uOrder - 1 : Nat) : Int)) / 2) ∧
      A.P.length = A.m_cuVerts * A.m_cvVerts ∧ B.P.length = B.m_cuVerts * B.m_cvVerts ∧
      (∀ row col : Nat, row < S.m_cvVerts → col < A.m_cuVerts →
        rd A.P ((row : Int) * A.m_cuVerts + col) = rd T.P ((row : Int) * T.m_cuVerts + col)) ∧
      (∀ row col : Nat, row < S.m_cvVerts → col < B.m_cuVerts →
        rd B.P ((row : Int) * B.m_cuVerts + col)
          = rd T.P ((row : Int) * T.m_cuVerts + ((A.m_cuVerts : Int) + col))) ∧
      A.m_avKnots = S.m_avKnots ∧ B.m_avKnots = S.m_avKnots ∧
      A.m_cvVerts = S.m_cvVerts ∧ B.m_cvVerts = S.m_cvVerts := by
  have hmid0 : (rd S.m_auKnots 0 + rd S.m_auKnots ((S.m_cuVerts + S.m_uOrder - 1 : Nat) : Int)) / 2
      = (rd S.m_auKnots ((S.m_uOrder - 1 : Nat) : Int) + rd S.m_auKnots (S.m_cuVerts : Int)) / 2 := by
    rw [hcl, ← hcr]
  generalize hsdef :
    (rd S.m_auKnots 0 + rd S.m_auKnots ((S.m_cuVerts + S.m_uOrder - 1 : Nat) : Int)) / 2 = s
  rw [hsdef] at hmid0
  have hlo : rd S.m_auKnots ((S.m_uOrder - 1 : Nat) : Int) < s := by rw [hmid0]; linarith
  have hhi : s < rd S.m_auKnots (S.m_cuVerts : Int) := by rw [hmid0]; linarith
  obtain ⟨i, sp, e, plan, f1, f2, f3, f4, g1, g2, g3, g4, g5, g6, g7, g8⟩ :=
    splitSearch_spec fuel S.m_auKnots S.m_cuVerts S.m_uOrder s hs hlen ho (by omega) (by omega)
      hlo hhi (hmult s · · hlo hhi)
  have hlast : u32 ((S.m_cuVerts : Int) + (S.m_uOrder : Int) - 1)
      = S.m_cuVerts + S.m_uOrder - 1 := by
    have : ((S.m_cuVerts : Int) + (S.m_uOrder : Int) - 1)
        = ((S.m_cuVerts + S.m_uOrder - 1 : Nat) : Int) := by omega
    rw [this]
    exact u32_nat _ (by omega)
  have hplan : splitPlan fuel S true = some plan := by
    unfold splitPlan
    simp only [if_true, hlast, hsdef, FindSpanU, f1, Option.some_bind, f2]
  have hi1 : ((i : Int) + 1) = ((i + 1 : Nat) : Int) := by push_cast; ring
  rw [hi1] at g6
  have hlow : ∀ t : Nat, t < i + 1 → rd S.m_auKnots (t : Int) ≤ s := by
    intro t ht
    rcases Nat.lt_or_ge sp t with c | c
    · exact le_of_eq (g5 t c (by omega))
    · exact le_trans (rd_mono _ hs c (by omega)) (le_of_lt g4)
  have hhigh : ∀ t : Nat, i + 1 ≤ t → t < S.m_auKnots.length → s ≤ rd S.m_auKnots (t : Int) :=
    fun t ht1 ht2 => le_of_lt (lt_of_lt_of_le g6 (rd_mono _ hs ht1 ht2))
  obtain ⟨T, r1, r2, r3, r4, r5, r6, r7⟩ := RefineKnotU_replicate fuel S s i e hs hlen ho
    (by omega) (by omega) ⟨le_of_lt hlo, le_of_lt hhi⟩ (by omega) hlow hhigh
  have hsp : u32 plan.SplitPoint = sp := by
    rw [f4]
    exact u32_nat _ (by omega)
  have hsp1 : u32 ((sp : Int) + 1) = sp + 1 := by
    have : (sp : Int) + 1 = ((sp + 1 : Nat) : Int) := by push_cast; ring
    rw [this]
    exact u32_nat _ (by omega)
  have hsplit : SplitNURBS fuel S true
      = some (T, splitChildA T true sp, splitChildB T true (sp + 1)) := by
    unfold SplitNURBS
    simp only [hplan, Option.some_bind, if_true, f3, r1, Option.map_some', hsp, hsp1]
  obtain ⟨a1, a2, a3, a4, a5, a6, a7, a8, a9, a10⟩ := splitChildA_u_spec T sp (by omega)
  obtain ⟨b1, b2, b3, b4, b5, b6, b7, b8, b9, b10⟩ := splitChildB_u_spec T (sp + 1)
    (S.m_cuVerts + e - (sp + 1)) (by rw [r3]; omega) (by omega)
  have hknot : ∀ t : Nat, sp < t → t ≤ i + e → rd T.m_auKnots (t : Int) = s := by
    intro t h1 h2
    rw [r2, rd_insAt _ _ _ _ (by omega)]
    by_cases c1 : t < i + 1
    · rw [if_pos c1]
      exact g5 t h1 (by omega)
    · rw [if_neg c1, if_pos (by omega)]
  refine ⟨T, splitChildA T true sp, splitChildB T true (sp + 1), e, hsplit, g7, r1, r3, ?_, ?_,
    ?_, ?_, ?_, ?_, ?_, ?_, ?_, ?_, ?_, ?_, ?_, ?_, ?_, ?_, ?_⟩
  · rw [a1, b1, r3]; omega
  · rw [a1]; omega
  · rw [b1]; omega
  · rw [a3, r5]
  · rw [b3, r5]
  · rw [a5, a1, a3]
  · rw [b5, b1, b3]
  · intro t h1 h2
    rw [a1] at h1 h2
    rw [a3, r5] at h2
    rw [a7 t (by rw [r5]; omega)]
    exact hknot t (by omega) (by omega)
  · intro t h1
    rw [b3, r5] at h1
    rw [b7 t (by rw [r5]; omega)]
    have e1 : ((sp + 1 : Nat) : Int) + (t : Int) = ((sp + 1 + t : Nat) : Int) := by
      push_cast; ring
    rw [e1]
    exact hknot _ (by omega) (by omega)
  · rw [a9, a1, a2]
  · rw [b9, b1, b2]
  · intro row col h1 h2
    rw [a1] at h2 ⊢
    exact a10 row col (by rw [r4]; exact h1) h2
  · intro row col h1 h2
    rw [b1] at h2 ⊢
    rw [a1, b10 row col (by rw [r4]; exact h1) h2]
    congr 2
    push_cast
    ring
  · apply list_ext_rd
    · rw [a6, r4, r6, hvlen]
    · intro t ht
      rw [a6] at ht
      rw [a8 t ht, r7]
  · apply list_ext_rd
    · rw [b6, r4, r6, hvlen]
    · intro t ht
      rw [b6] at ht
      rw [b8 t ht, r7]
  · rw [a2, r4]
  · rw [b2, r4]

/-- C39 on the bicubic patch (U knots `0,0,0,0,1,1,1,1`): the split value is `1/2`, four copies
are inserted, the refined net has 8 columns and each child gets 4. -/
theorem SplitNURBS_u_children_witness :
    (∃ (T A B : CqSurfaceNURBS) (e : Nat),
      SplitNURBS 20 Examples.bicubic true = some (T, A, B) ∧
      e ≤ Examples.bicubic.m_uOrder ∧
      RefineKnotU 20 Examples.bicubic (List.replicate e
        ((rd Examples.bicubic.m_auKnots 0 + rd Examples.bicubic.m_auKnots
          ((Examples.bicubic.m_cuVerts + Examples.bicubic.m_uOrder - 1 : Nat) : Int)) / 2))
        = some T ∧
      T.m_cuVerts = Examples.bicubic.m_cuVerts + e ∧
      A.m_cuVerts + B.m_cuVerts = T.m_cuVerts ∧ 1 ≤ A.m_cuVerts ∧ 1 ≤ B.m_cuVerts ∧
      A.m_uOrder = Examples.bicubic.m_uOrder ∧ B.m_uOrder = Examples.bicubic.m_uOrder ∧
      A.m_auKnots.length = A.m_cuVerts + A.m_uOrder ∧
      B.m_auKnots.length = B.m_cuVerts + B.m_uOrder ∧
      (∀ t : Nat, A.m_cuVerts ≤ t → t < A.m_cuVerts + A.m_uOrder → rd A.m_auKnots (t : Int)
        = (rd Examples.bicubic.m_auKnots 0 + rd Examples.bicubic.m_auKnots
          ((Examples.bicubic.m_cuVerts + Examples.bicubic.m_uOrder - 1 : Nat) : Int)) / 2) ∧
      (∀ t : Nat, t < B.m_uOrder → rd B.m_auKnots (t : Int)
        = (rd Examples.bicubic.m_auKnots 0 + rd Examples.bicubic.m_auKnots
          ((Examples.bicubic.m_cuVerts + Examples.bicubic.m_uOrder - 1 : Nat) : Int)) / 2) ∧
      A.P.length = A.m_cuVerts * A.m_cvVerts ∧ B.P.length = B.m_cuVerts * B.m_cvVerts ∧
      (∀ row col : Nat, row < Examples.bicubic.m_cvVerts → col < A.m_cuVerts →
        rd A.P ((row : Int) * A.m_cuVerts + col) = rd T.P ((row : Int) * T.m_cuVerts + col)) ∧
      (∀ row col : Nat, row < Examples.bicubic.m_cvVerts → col < B.m_cuVerts →
        rd B.P ((row : Int) * B.m_cuVerts + col)
          = rd T.P ((row : Int) * T.m_cuVerts + ((A.m_cuVerts : Int) + col))) ∧
      A.m_avKnots = Examples.bicubic.m_avKnots ∧ B.m_avKnots = Examples.bicubic.m_avKnots ∧
      A.m_cvVerts = Examples.bicubic.m_cvVerts ∧ B.m_cvVerts = Examples.bicubic.m_cvVerts) ∧
    (SplitNURBS 20 Examples.bicubic true).map (fun r =>
        (r.1.m_cuVerts, r.2.1.m_cuVerts, r.2.2.m_cuVerts, r.2.1.m_auKnots, r.2.2.m_auKnots))
      = some (8, 4, 4, [0, 0, 0, 0, 1 / 2, 1 / 2, 1 / 2, 1 / 2],
          [1 / 2, 1 / 2, 1 / 2, 1 / 2, 1, 1, 1, 1]) :=
  ⟨SplitNURBS_u_children 20 Examples.bicubic (by with_unfolding_all decide) (by decide)
    (by decide) (by decide) (by decide!) (by decide!) (by decide!)
    (by
      intro v a b h1 h2 hab hb ha _
      have h3 : rd Examples.bicubic.m_auKnots ((Examples.bicubic.m_uOrder - 1 : Nat) : Int) = 0 := by
        decide!
      have h4 : rd Examples.bicubic.m_auKnots (Examples.bicubic.m_cuVerts : Int) = 1 := by decide!
      rw [h3] at h1
      rw [h4] at h2
      have hl : Examples.bicubic.m_auKnots.length = 8 := by decide
      rw [hl] at hb
      have key : ∀ t : Nat, t < 8 → rd Examples.bicubic.m_auKnots (t : Int) = 0 ∨
          rd Examples.bicubic.m_auKnots (t : Int) = 1 := by
        intro t ht
        interval_cases t <;> decide!
      rcases key a (by omega) with c | c
      · rw [c] at ha
        rw [← ha] at h1
        exact absurd h1 (lt_irrefl _)
      · rw [c] at ha
        rw [← ha] at h2
        exact absurd h2 (lt_irrefl _))
    (by decide) (by decide),
   by decide!⟩

theorem IsGrid_replicate (rows cols : Nat) :
    IsGrid (List.replicate rows (List.replicate cols 0)) rows cols := by
  refine ⟨by simp, ?_⟩
  intro t ht
  rw [List.getD_eq_getElem?_getD, List.getElem?_replicate, if_pos ht]
  simp

theorem IsGrid_wr2 (m : List (List ℚ)) (rows cols : Nat) (h : IsGrid m rows cols) (i j : Int)
    (v : ℚ) : IsGrid (wr2 m i j v) rows cols := by
  obtain ⟨h1, h2⟩ := h
  unfold wr2
  split
  · refine ⟨by rw [List.length_set]; exact h1, ?_⟩
    intro t ht
    rw [List.getD_eq_getElem?_getD, List.getElem?_set]
    by_cases e : i.toNat = t
    · rw [if_pos e]
      have ht2 : i.toNat < m.length := by omega
      rw [if_pos ht2]
      simp only [Option.getD_some]
      rw [wr_length]
      exact h2 i.toNat (by omega)
    · rw [if_neg e, ← List.getD_eq_getElem?_getD]
      exact h2 t ht
  · exact ⟨h1, h2⟩

/-- Reading a vector of vectors after a store. -/
theorem rd2_wr2 (m : List (List ℚ)) (rows cols : Nat) (h : IsGrid m rows cols) (i j : Int)
    (v : ℚ) (a b : Int) :
    rd2 (wr2 m i j v) a b
      = if a = i ∧ b = j ∧ 0 ≤ i ∧ i < rows ∧ 0 ≤ j ∧ j < cols then v else rd2 m a b := by
  obtain ⟨h1, h2⟩ := h
  by_cases hc : a = i ∧ b = j ∧ 0 ≤ i ∧ i < rows ∧ 0 ≤ j ∧ j < cols
  · rw [if_pos hc]
    obtain ⟨e1, e2, hi, hir, hj, hjc⟩ := hc
    subst e1
    subst e2
    have hlen := h2 a.toNat (by omega)
    have hr : a.toNat < m.length := by omega
    unfold rd2 wr2
    rw [if_pos hi, if_pos hi, List.getD_eq_getElem?_getD, List.getElem?_set, if_pos rfl,
      if_pos hr]
    simp only [Option.getD_some]
    exact rd_wr_same _ _ _ hj (by rw [hlen]; exact hjc)
  · rw [if_neg hc]
    unfold rd2
    by_cases ha : 0 ≤ a
    · rw [if_pos ha, if_pos ha]
      unfold wr2
      by_cases hi : 0 ≤ i
      · rw [if_pos hi, List.getD_eq_getElem?_getD, List.getElem?_set]
        by_cases e : i.toNat = a.toNat
        · have eai : a = i := by omega
          subst eai
          rw [if_pos e]
          by_cases hr : a.toNat < m.length
          · rw [if_pos hr]
            simp only [Option.getD_some]
            have hlen := h2 a.toNat (by omega)
            by_cases ebj : b = j
            · subst ebj
              have hb : ¬ (0 ≤ b ∧ b < cols) := by
                intro hb
                exact hc ⟨rfl, rfl, hi, by omega, hb.1, hb.2⟩
              unfold wr
              by_cases hb0 : 0 ≤ b
              · rw [if_pos hb0, List.set_eq_of_length_le (by rw [hlen]; omega)]
              · rw [if_neg hb0]
            · rw [rd_wr_ne _ _ _ _ (fun e2 => ebj e2.symm)]
          · rw [if_neg hr, List.getD_eq_getElem?_getD, List.getElem?_eq_none (by omega)]
        · rw [if_neg e, List.getD_eq_getElem?_getD]
      · rw [if_neg hi]
    · rw [if_neg ha, if_neg ha]

/-- The inner loop of the first loop nest of `DersBasisFunctions`, round `j = d + 1` of the outer
loop: when the column `d` of `ndu` holds the functions of degree `d`, the loop stores the knot
differences in the row `d + 1` and the functions of degree `d + 1` in the column `d + 1` (both
up to the subscript `d`), and leaves the first term of the last function in `saved`. -/
theorem dersInner_loop (u : ℚ) (i : Nat) (U : List ℚ) (k : Nat) (d : Nat) (hd : d + 1 < k)
    (st : DersState) (hg : IsGrid st.ndu k k)
    (hl : ∀ t : Int, 1 ≤ t → t ≤ (d : Int) + 1 →
      rd st.left t = u - rd U ((i : Int) + 1 - t) ∧ rd st.right t = rd U ((i : Int) + t) - u)
    (hup : ∀ r : Int, 0 ≤ r → r ≤ d → rd2 st.ndu r d = basisN u i U d r)
    (hs : st.saved = 0) :
    ∀ r : Nat, r ≤ d + 1 →
      IsGrid (forUp 0 r (dersInner ((d : Int) + 1)) st).ndu k k ∧
      (forUp 0 r (dersInner ((d : Int) + 1)) st).left = st.left ∧
      (forUp 0 r (dersInner ((d : Int) + 1)) st).right = st.right ∧
      (forUp 0 r (dersInner ((d : Int) + 1)) st).a = st.a ∧
      (forUp 0 r (dersInner ((d : Int) + 1)) st).ders = st.ders ∧
      (∀ a b : Int, ¬ (a = (d : Int) + 1 ∧ 0 ≤ b ∧ b < r) → ¬ (b = (d : Int) + 1 ∧ 0 ≤ a ∧ a < r) →
        rd2 (forUp 0 r (dersInner ((d : Int) + 1)) st).ndu a b = rd2 st.ndu a b) ∧
      (∀ t : Int, 0 ≤ t → t < r →
        rd2 (forUp 0 r (dersInner ((d : Int) + 1)) st).ndu t ((d : Int) + 1)
          = basisN u i U (d + 1) t ∧
        rd2 (forUp 0 r (dersInner ((d : Int) + 1)) st).ndu ((d : Int) + 1) t
          = rd U ((i : Int) + t + 1) - rd U ((i : Int) - (d : Int) + t)) ∧
      (forUp 0 r (dersInner ((d : Int) + 1)) st).saved
        = (u - rd U ((i : Int) - ((d : Int) + 1) + r))
            * (basisN u i U d ((r : Int) - 1)
                / (rd U ((i : Int) + r) - rd U ((i : Int) - ((d : Int) + 1) + r))) := by
  intro r
  induction r with
  | zero =>
    intro _
    have e : ((0 : Nat) : Int) = 0 := rfl
    rw [e, forUp_empty _ _ _ _ (le_refl _)]
    refine ⟨hg, rfl, rfl, rfl, rfl, fun _ _ _ _ => rfl, fun t h0 h1 => by omega, ?_⟩
    rw [hs, basisN_outside u i U d _ (Or.inl (by norm_num))]
    simp
  | succ r ih =>
    intro hr
    obtain ⟨ig, il, ir, ia, id, ifr, iv, isv⟩ := ih (by omega)
    have e : (((r + 1 : Nat)) : Int) = (r : Int) + 1 := by push_cast; ring
    rw [e, forUp_succ _ _ _ _ (by omega)]
    generalize forUp 0 (r : Int) (dersInner ((d : Int) + 1)) st = s at ig il ir ia id ifr iv isv ⊢
    obtain ⟨lr1, _⟩ := hl ((d : Int) + 1 - r) (by omega) (by omega)
    obtain ⟨_, lr2⟩ := hl ((r : Int) + 1) (by omega) (by omega)
    have g1 := IsGrid_wr2 s.ndu k k ig ((d : Int) + 1) r
      (rd s.right ((r : Int) + 1) + rd s.left ((d : Int) + 1 - r))
    have den : rd2 (wr2 s.ndu ((d : Int) + 1) r
        (rd s.right ((r : Int) + 1) + rd s.left ((d : Int) + 1 - r))) ((d : Int) + 1) r
        = rd U ((i : Int) + r + 1) - rd U ((i : Int) - (d : Int) + r) := by
      rw [rd2_wr2 _ k k ig, if_pos ⟨rfl, rfl, by omega, by omega, by omega, by omega⟩, il, ir,
        lr1, lr2]
      have a2 : (i : Int) + 1 - ((d : Int) + 1 - r) = (i : Int) - (d : Int) + r := by ring
      have a3 : (i : Int) + ((r : Int) + 1) = (i : Int) + r + 1 := by ring
      rw [a2, a3]
      ring
    have num : rd2 (wr2 s.ndu ((d : Int) + 1) r
        (rd s.right ((r : Int) + 1) + rd s.left ((d : Int) + 1 - r))) r ((d : Int) + 1 - 1)
        = basisN u i U d r := by
      rw [rd2_wr2 _ k k ig, if_neg (by
        intro hc
        omega)]
      have a1 : (d : Int) + 1 - 1 = d := by ring
      rw [a1, ifr _ _ (by
        intro hc
        omega) (by
        intro hc
        omega)]
      exact hup r (by omega) (by omega)
    unfold dersInner
    simp only []
    rw [den, num]
    refine ⟨IsGrid_wr2 _ k k g1 _ _ _, il, ir, ia, id, ?_, ?_, ?_⟩
    · intro a b h1 h2
      rw [rd2_wr2 _ k k g1, if_neg (by
        intro hc
        apply h2
        refine ⟨hc.2.1, ?_, ?_⟩ <;> omega)]
      rw [rd2_wr2 _ k k ig, if_neg (by
        intro hc
        apply h1
        refine ⟨hc.1, ?_, ?_⟩ <;> omega)]
      exact ifr a b (by
        intro hc
        apply h1
        refine ⟨hc.1, hc.2.1, ?_⟩
        omega) (by
        intro hc
        apply h2
        refine ⟨hc.1, hc.2.1, ?_⟩
        omega)
    · intro t h0 h1
      by_cases htr : t = r
      · subst htr
        constructor
        · rw [rd2_wr2 _ k k g1, if_pos ⟨rfl, rfl, by omega, by omega, by omega, by omega⟩]
          rw [isv, ir, lr2]
          conv_rhs => unfold basisN
          rw [if_pos (by constructor <;> omega)]
          have a3 : (i : Int) + ((r : Int) + 1) = (i : Int) + r + 1 := by ring
          rw [a3]
        · rw [rd2_wr2 _ k k g1, if_neg (by
            intro hc
            omega)]
          exact den
      · have h2 : t < r := by omega
        obtain ⟨v1, v2⟩ := iv t h0 h2
        constructor
        · rw [rd2_wr2 _ k k g1, if_neg (by
            intro hc
            omega)]
          rw [rd2_wr2 _ k k ig, if_neg (by
            intro hc
            omega)]
          exact v1
        · rw [rd2_wr2 _ k k g1, if_neg (by
            intro hc
            omega)]
          rw [rd2_wr2 _ k k ig, if_neg (by
            intro hc
            omega)]
          exact v2
    · rw [il, lr1]
      have a1 : (i : Int) + 1 - ((d : Int) + 1 - r) = (i : Int) - ((d : Int) + 1) + ((r : Int) + 1) := by
        ring
      have a2 : (i : Int) + ((r : Int) + 1) = (i : Int) + r + 1 := by ring
      have a3 : (r : Int) + 1 - 1 = (r : Int) := by ring
      have a4 : (i : Int) - (d : Int) + r = (i : Int) - ((d : Int) + 1) + ((r : Int) + 1) := by
        ring
      rw [a3, a2, a1, a4]

/-- The first loop nest of `DersBasisFunctions`: after the rounds `1 .. j - 1` of the outer loop
the columns below `j` of `ndu` hold the Cox-de Boor functions (column `d`, rows `0 .. d`, the
functions of degree `d`) and the rows below `j` the knot differences (row `d`, columns
`0 .. d - 1`). -/
theorem dersOuter_loop (u : ℚ) (i : Nat) (U : List ℚ) (k : Nat) (st0 : DersState)
    (hg : IsGrid st0.ndu k k) (h00 : rd2 st0.ndu 0 0 = 1) (hl0 : st0.left.length = k)
    (hr0 : st0.right.length = k) :
    ∀ j : Nat, 1 ≤ j → j ≤ k →
      IsGrid (forUp 1 j (dersOuter u i U) st0).ndu k k ∧
      (forUp 1 j (dersOuter u i U) st0).left.length = k ∧
      (forUp 1 j (dersOuter u i U) st0).right.length = k ∧
      (forUp 1 j (dersOuter u i U) st0).a = st0.a ∧
      (forUp 1 j (dersOuter u i U) st0).ders = st0.ders ∧
      (∀ t : Int, 1 ≤ t → t < j →
        rd (forUp 1 j (dersOuter u i U) st0).left t = u - rd U ((i : Int) + 1 - t) ∧
        rd (forUp 1 j (dersOuter u i U) st0).right t = rd U ((i : Int) + t) - u) ∧
      (∀ dg : Nat, dg < j → ∀ r : Int, 0 ≤ r → r ≤ dg →
        rd2 (forUp 1 j (dersOuter u i U) st0).ndu r dg = basisN u i U dg r) ∧
      (∀ dg : Nat, 1 ≤ dg → dg < j → ∀ r : Int, 0 ≤ r → r < dg →
        rd2 (forUp 1 j (dersOuter u i U) st0).ndu dg r
          = rd U ((i : Int) + r + 1) - rd U ((i : Int) + 1 - dg + r)) := by
  intro j
  induction j with
  | zero =>
    intro h
    omega
  | succ j ih =>
    intro _ hjk
    by_cases hj0 : j = 0
    · subst hj0
      have e : (((0 + 1 : Nat)) : Int) = 1 := rfl
      rw [e, forUp_empty _ _ _ _ (le_refl _)]
      refine ⟨hg, hl0, hr0, rfl, rfl, fun t h1 h2 => by omega, ?_, fun dg h1 h2 => by omega⟩
      intro dg hdg r h0 h1
      have e1 : dg = 0 := by omega
      subst e1
      have e2 : r = 0 := by
        have : r ≤ 0 := h1
        omega
      subst e2
      rw [show (((0 : Nat) : Int)) = 0 from rfl, h00]
      unfold basisN
      simp
    · obtain ⟨ig, ill, irl, ia, id, ilr, iup, ilo⟩ := ih (by omega) (by omega)
      obtain ⟨d, hd⟩ : ∃ d, j = d + 1 := ⟨j - 1, by omega⟩
      subst hd
      have e : (((d + 1 + 1 : Nat)) : Int) = ((d + 1 : Nat) : Int) + 1 := by push_cast; ring
      rw [e, forUp_succ _ _ _ _ (by omega)]
      generalize forUp 1 ((d + 1 : Nat) : Int) (dersOuter u i U) st0 = s
        at ig ill irl ia id ilr iup ilo ⊢
      have ec : ((d + 1 : Nat) : Int) = (d : Int) + 1 := by push_cast; ring
      rw [ec] at ilr ⊢
      have hl : ∀ t : Int, 1 ≤ t → t ≤ (d : Int) + 1 →
          rd (wr s.left ((d : Int) + 1) (u - rd U ((i : Int) + 1 - ((d : Int) + 1)))) t
            = u - rd U ((i : Int) + 1 - t) ∧
          rd (wr s.right ((d : Int) + 1) (rd U ((i : Int) + ((d : Int) + 1)) - u)) t
            = rd U ((i : Int) + t) - u := by
        intro t h1 h2
        by_cases htj : t = (d : Int) + 1
        · subst htj
          rw [rd_wr_same _ _ _ (by omega) (by omega), rd_wr_same _ _ _ (by omega) (by omega)]
          exact ⟨rfl, rfl⟩
        · rw [rd_wr_ne _ _ _ _ (fun e => htj e.symm), rd_wr_ne _ _ _ _ (fun e => htj e.symm)]
          exact ilr t h1 (by omega)
      obtain ⟨ng, nl, nr, na, nd, nfr, nv, nsv⟩ := dersInner_loop u i U k d (by omega)
        { s with left := wr s.left ((d : Int) + 1) (u - rd U ((i : Int) + 1 - ((d : Int) + 1))),
                 right := wr s.right ((d : Int) + 1) (rd U ((i : Int) + ((d : Int) + 1)) - u),
                 saved := 0 }
        ig hl (fun r h0 h1 => iup d (by omega) r h0 h1) rfl (d + 1) (le_refl _)
      rw [ec] at nv nfr nsv ng nl nr na nd
      unfold dersOuter
      simp only []
      generalize forUp 0 ((d : Int) + 1) (dersInner ((d : Int) + 1))
        { s with left := wr s.left ((d : Int) + 1) (u - rd U ((i : Int) + 1 - ((d : Int) + 1))),
                 right := wr s.right ((d : Int) + 1) (rd U ((i : Int) + ((d : Int) + 1)) - u),
                 saved := 0 } = s2 at ng nl nr na nd nfr nv nsv ⊢
      simp only [] at nl nr na nd nfr
      refine ⟨IsGrid_wr2 _ k k ng _ _ _, by rw [nl, wr_length]; exact ill,
        by rw [nr, wr_length]; exact irl, by rw [na]; exact ia, by rw [nd]; exact id, ?_, ?_, ?_⟩
      · intro t h1 h2
        rw [nl, nr]
        exact hl t h1 (by omega)
      · intro dg hdg r h0 h1
        rw [rd2_wr2 _ k k ng]
        by_cases c : dg = d + 1
        · subst c
          by_cases c2 : r = (d : Int) + 1
          · subst c2
            rw [if_pos ⟨rfl, by push_cast; ring, by omega, by omega, by omega, by omega⟩, nsv]
            conv_rhs => unfold basisN
            rw [if_pos (by constructor <;> omega)]
            rw [basisN_outside u i U d ((d : Int) + 1) (Or.inr (by omega))]
            simp
          · rw [if_neg (by
              intro hc
              exact c2 hc.1)]
            have := (nv r h0 (by push_cast at h1; omega)).1
            rw [← ec] at this
            exact this
        · rw [if_neg (by
            intro hc
            have := hc.2.1
            omega)]
          rw [nfr _ _ (by
            intro hc
            omega) (by
            intro hc
            omega)]
          exact iup dg (by omega) r h0 h1
      · intro dg hdg1 hdg r h0 h1
        rw [rd2_wr2 _ k k ng, if_neg (by
          intro hc
          omega)]
        by_cases c : dg = d + 1
        · subst c
          rw [ec, (nv r h0 (by push_cast at h1; omega)).2]
          have a1 : (i : Int) + 1 - ((d : Int) + 1) + r = (i : Int) - (d : Int) + r := by ring
          rw [a1]
        · rw [nfr _ _ (by
            intro hc
            omega) (by
            intro hc
            omega)]
          exact ilo dg hdg1 (by omega) r h0 h1

/-- A loop that stores in the row `row` of a vector of vectors, at the places `0 .. n - 1`, a
value made from the place and from what it holds. -/
theorem forUp_wr2_row (D0 : List (List ℚ)) (rows cols : Nat) (hg : IsGrid D0 rows cols)
    (row : Int) (h0 : 0 ≤ row) (h1 : row < rows) (h : Int → ℚ → ℚ) (n : Nat) (hn : n ≤ cols) :
    IsGrid (forUp 0 n (fun j D => wr2 D row j (h j (rd2 D row j))) D0) rows cols ∧
      ∀ a b : Int, rd2 (forUp 0 n (fun j D => wr2 D row j (h j (rd2 D row j))) D0) a b
        = if a = row ∧ 0 ≤ b ∧ b < n then h b (rd2 D0 a b) else rd2 D0 a b := by
  have key := forUp_induction_idx
    (fun (m : Int) (D : List (List ℚ)) => IsGrid D rows cols ∧
      ∀ a b : Int, rd2 D a b = if a = row ∧ 0 ≤ b ∧ b < m then h b (rd2 D0 a b) else rd2 D0 a b)
    0 (n : Int) (by omega) (fun j D => wr2 D row j (h j (rd2 D row j))) D0
    ⟨hg, by
      intro a b
      rw [if_neg (by
        intro hc
        omega)]⟩
    (by
      intro m D hm1 hm2 ⟨ig, iv⟩
      refine ⟨IsGrid_wr2 _ _ _ ig _ _ _, ?_⟩
      intro a b
      rw [rd2_wr2 _ rows cols ig]
      by_cases c : a = row ∧ b = m
      · obtain ⟨c1, c2⟩ := c
        subst c1
        subst c2
        rw [if_pos ⟨rfl, rfl, h0, h1, by omega, by omega⟩, if_pos ⟨rfl, by omega, by omega⟩,
          iv, if_neg (by
            intro hc
            omega)]
      · rw [if_neg (by
          intro hc
          exact c ⟨hc.1, hc.2.1⟩), iv]
        by_cases c3 : a = row ∧ 0 ≤ b ∧ b < m
        · rw [if_pos c3, if_pos ⟨c3.1, c3.2.1, by omega⟩]
        · rw [if_neg c3, if_neg (by
            intro hc
            apply c3
            refine ⟨hc.1, hc.2.1, ?_⟩
            have : b ≠ m := fun e => c ⟨hc.1, e⟩
            omega)])
  exact key

theorem forUp_one {σ : Type} (lo : Int) (body : Int → σ → σ) (st : σ) :
    forUp lo (lo + 1) body st = body lo st := by
  rw [forUp_succ _ _ _ _ (le_refl _), forUp_empty _ _ _ _ (le_refl _)]

/-- The body of the loop over the basis functions in `DersBasisFunctions` for `n = 1`: the round
`r` stores in `ders[1][r]` the sum of `a[1][0] * ndu[r - 1][p - 1]` (when `r ≥ 1`) and
`a[1][1] * ndu[r][p - 1]` (when `r ≤ p - 1`), where `a[1][0] = 1 / ndu[p][r - 1]` and
`a[1][1] = -1 / ndu[p][r]`. -/
theorem dersRow_one (p r : Int) (k : Nat) (st : DersState) (hp : p = (k : Int) - 1)
    (hr0 : 0 ≤ r) (hrp : r ≤ p) (ha : IsGrid st.a 2 k) (hd : IsGrid st.ders 2 k) :
    (dersRow p 1 r st).ndu = st.ndu ∧ IsGrid (dersRow p 1 r st).a 2 k ∧
      IsGrid (dersRow p 1 r st).ders 2 k ∧
      ∀ a b : Int, rd2 (dersRow p 1 r st).ders a b
        = if a = 1 ∧ b = r then
            (if 1 ≤ r then 1 / rd2 st.ndu (p - 1 + 1) (r - 1) * rd2 st.ndu (r - 1) (p - 1) else 0)
              + (if r ≤ p - 1 then -1 / rd2 st.ndu (p - 1 + 1) r * rd2 st.ndu r (p - 1) else 0)
          else rd2 st.ders a b := by
  have g0 := IsGrid_wr2 st.a 2 k ha 0 0 1
  have r00 : rd2 (wr2 st.a 0 0 1) 0 0 = 1 := by
    rw [rd2_wr2 _ 2 k ha, if_pos ⟨rfl, rfl, le_refl _, by norm_num, le_refl _, by omega⟩]
  unfold dersRow
  simp only []
  rw [forUp_one]
  unfold dersDeriv
  simp only []
  have hj1 : (if r - 1 ≥ -1 then (1 : Int) else -(r - 1)) = 1 := if_pos (by omega)
  have hj2 : (if r - 1 ≤ p - 1 then (1 : Int) - 1 else p - r) = 0 := by
    rw [if_pos (by omega)]
    rfl
  rw [hj1, hj2, forUp_empty _ _ _ _ (by norm_num)]
  by_cases c1 : r ≥ 1
  · have g1 := IsGrid_wr2 _ 2 k g0 1 0 (rd2 (wr2 st.a 0 0 1) 0 0 / rd2 st.ndu (p - 1 + 1) (r - 1))
    have r10 : rd2 (wr2 (wr2 st.a 0 0 1) 1 0
        (rd2 (wr2 st.a 0 0 1) 0 0 / rd2 st.ndu (p - 1 + 1) (r - 1))) 1 0
        = 1 / rd2 st.ndu (p - 1 + 1) (r - 1) := by
      rw [rd2_wr2 _ 2 k g0, if_pos ⟨rfl, rfl, by norm_num, by norm_num, le_refl _, by omega⟩, r00]
    have r00b : rd2 (wr2 (wr2 st.a 0 0 1) 1 0
        (rd2 (wr2 st.a 0 0 1) 0 0 / rd2 st.ndu (p - 1 + 1) (r - 1))) 0 (1 - 1) = 1 := by
      rw [rd2_wr2 _ 2 k g0, if_neg (by
        intro hc
        have := hc.1
        omega)]
      exact r00
    by_cases c2 : r ≤ p - 1
    · simp only [c1, c2, if_true]
      have g2 := IsGrid_wr2 _ 2 k g1 1 1 (-rd2 (wr2 (wr2 st.a 0 0 1) 1 0
        (rd2 (wr2 st.a 0 0 1) 0 0 / rd2 st.ndu (p - 1 + 1) (r - 1))) 0 (1 - 1)
          / rd2 st.ndu (p - 1 + 1) r)
      refine ⟨trivial, g2, IsGrid_wr2 _ 2 k hd _ _ _, ?_⟩
      intro a b
      rw [rd2_wr2 _ 2 k hd]
      by_cases c3 : a = 1 ∧ b = r
      · rw [if_pos ⟨c3.1, c3.2, by norm_num, by norm_num, hr0, by omega⟩, if_pos c3]
        rw [r10, rd2_wr2 _ 2 k g1,
          if_pos ⟨rfl, rfl, by norm_num, by norm_num, by norm_num, by omega⟩, r00b]
      · rw [if_neg (by
          intro hc
          exact c3 ⟨hc.1, hc.2.1⟩), if_neg c3]
    · simp only [c1, c2, if_true, if_false]
      refine ⟨trivial, g1, IsGrid_wr2 _ 2 k hd _ _ _, ?_⟩
      intro a b
      rw [rd2_wr2 _ 2 k hd]
      by_cases c3 : a = 1 ∧ b = r
      · rw [if_pos ⟨c3.1, c3.2, by norm_num, by norm_num, hr0, by omega⟩, if_pos c3,
          r10, add_zero]
      · rw [if_neg (by
          intro hc
          exact c3 ⟨hc.1, hc.2.1⟩), if_neg c3]
  · have c1b : ¬ (1 ≤ r) := c1
    by_cases c2 : r ≤ p - 1
    · simp only [c1, c2, if_true, if_false]
      have g2 := IsGrid_wr2 _ 2 k g0 1 1 (-rd2 (wr2 st.a 0 0 1) 0 (1 - 1)
          / rd2 st.ndu (p - 1 + 1) r)
      refine ⟨trivial, g2, IsGrid_wr2 _ 2 k hd _ _ _, ?_⟩
      intro a b
      rw [rd2_wr2 _ 2 k hd]
      by_cases c3 : a = 1 ∧ b = r
      · rw [if_pos ⟨c3.1, c3.2, by norm_num, by norm_num, hr0, by omega⟩, if_pos c3]
        rw [rd2_wr2 _ 2 k g0, if_pos ⟨rfl, rfl, by norm_num, by norm_num, by norm_num, by omega⟩]
        have : rd2 (wr2 st.a 0 0 1) 0 (1 - 1) = 1 := r00
        rw [this]
      · rw [if_neg (by
          intro hc
          exact c3 ⟨hc.1, hc.2.1⟩), if_neg c3]
    · simp only [c1, c2, if_false]
      refine ⟨trivial, g0, IsGrid_wr2 _ 2 k hd _ _ _, ?_⟩
      intro a b
      rw [rd2_wr2 _ 2 k hd]
      by_cases c3 : a = 1 ∧ b = r
      · rw [if_pos ⟨c3.1, c3.2, by norm_num, by norm_num, hr0, by omega⟩, if_pos c3,
          add_zero]
      · rw [if_neg (by
          intro hc
          exact c3 ⟨hc.1, hc.2.1⟩), if_neg c3]

/-- The loop over the basis functions of `DersBasisFunctions` for `n = 1`. -/
theorem dersRow_loop_one (p : Int) (k : Nat) (st : DersState) (hp : p = (k : Int) - 1)
    (hk : 1 ≤ k) (ha : IsGrid st.a 2 k) (hd : IsGrid st.ders 2 k) :
    IsGrid (forUp 0 (p + 1) (dersRow p 1) st).ders 2 k ∧
      ∀ a b : Int, rd2 (forUp 0 (p + 1) (dersRow p 1) st).ders a b
        = if a = 1 ∧ 0 ≤ b ∧ b < p + 1 then
            (if 1 ≤ b then 1 / rd2 st.ndu (p - 1 + 1) (b - 1) * rd2 st.ndu (b - 1) (p - 1) else 0)
              + (if b ≤ p - 1 then -1 / rd2 st.ndu (p - 1 + 1) b * rd2 st.ndu b (p - 1) else 0)
          else rd2 st.ders a b := by
  have key := forUp_induction_idx
    (fun (m : Int) (s : DersState) => s.ndu = st.ndu ∧ IsGrid s.a 2 k ∧ IsGrid s.ders 2 k ∧
      ∀ a b : Int, rd2 s.ders a b
        = if a = 1 ∧ 0 ≤ b ∧ b < m then
            (if 1 ≤ b then 1 / rd2 st.ndu (p - 1 + 1) (b - 1) * rd2 st.ndu (b - 1) (p - 1) else 0)
              + (if b ≤ p - 1 then -1 / rd2 st.ndu (p - 1 + 1) b * rd2 st.ndu b (p - 1) else 0)
          else rd2 st.ders a b)
    0 (p + 1) (by omega) (dersRow p 1) st
    ⟨rfl, ha, hd, by
      intro a b
      rw [if_neg (by
        intro hc
        omega)]⟩
    (by
      intro m s hm1 hm2 ⟨i1, i2, i3, i4⟩
      obtain ⟨n1, n2, n3, n4⟩ := dersRow_one p m k s hp hm1 (by omega) i2 i3
      refine ⟨by rw [n1, i1], n2, n3, ?_⟩
      intro a b
      rw [n4, i1]
      by_cases c : a = 1 ∧ b = m
      · obtain ⟨c1, c2⟩ := c
        rw [c1, c2]
        rw [if_pos (show (1 : Int) = 1 ∧ m = m from ⟨rfl, rfl⟩),
          if_pos (show (1 : Int) = 1 ∧ 0 ≤ m ∧ m < m + 1 from ⟨rfl, by omega, by omega⟩)]
      · rw [if_neg c, i4]
        by_cases c3 : a = 1 ∧ 0 ≤ b ∧ b < m
        · rw [if_pos c3,
            if_pos (show a = 1 ∧ 0 ≤ b ∧ b < m + 1 from ⟨c3.1, c3.2.1, by omega⟩)]
        · have c4 : ¬ (a = 1 ∧ 0 ≤ b ∧ b < m + 1) := by
            intro hc
            apply c3
            refine ⟨hc.1, hc.2.1, ?_⟩
            have : b ≠ m := fun e => c ⟨hc.1, e⟩
            omega
          rw [if_neg c3, if_neg c4])
  exact ⟨key.2.2.1, key.2.2.2⟩

/-- The loop over the basis functions of `DersBasisFunctions` for `n = 0` leaves `ders`. -/
theorem dersRow_loop_zero (p hi : Int) (st : DersState) :
    (forUp 0 hi (dersRow p 0) st).ders = st.ders := by
  apply forUp_induction (fun (s : DersState) => s.ders = st.ders) 0 hi (dersRow p 0) st rfl
  intro m s _ _ ih
  unfold dersRow
  simp only []
  rw [forUp_empty _ _ _ _ (by norm_num)]
  exact ih

/-- The row 0 of the result of `DersBasisFunctions` for `n = 0` and `n = 1`: the values of the
Cox-de Boor functions of degree `k - 1`. -/
theorem DersBasisFunctions_row_zero (u : ℚ) (i : Nat) (U : List ℚ) (k n : Nat) (hk : 1 ≤ k)
    (hn : n ≤ 1) (j : Int) (hj0 : 0 ≤ j) (hjk : j < k) :
    rd2 (DersBasisFunctions u i U k n) 0 j = basisN u i U (k - 1) j := by
  have hk1 : (k : Int) - 1 + 1 = ((k : Nat) : Int) := by ring
  have hg0 : IsGrid (wr2 (List.replicate k (List.replicate k (0 : ℚ))) 0 0 1) k k :=
    IsGrid_wr2 _ k k (IsGrid_replicate k k) 0 0 1
  have h00 : rd2 (wr2 (List.replicate k (List.replicate k (0 : ℚ))) 0 0 1) 0 0 = 1 := by
    rw [rd2_wr2 _ k k (IsGrid_replicate k k),
      if_pos ⟨rfl, rfl, le_refl _, by omega, le_refl _, by omega⟩]
  obtain ⟨f1, -, -, f4, f5, -, f7, -⟩ := dersOuter_loop u i U k
    { ndu := wr2 (List.replicate k (List.replicate k 0)) 0 0 1,
      left := List.replicate k 0, right := List.replicate k 0, saved := 0,
      a := List.replicate 2 (List.replicate k 0),
      ders := List.replicate (n + 1) (List.replicate k 0),
      s1 := 0, s2 := 1, d := 0, r := 0 } hg0 h00 (by simp) (by simp) k hk (le_refl _)
  have hload := forUp_wr2_row (List.replicate (n + 1) (List.replicate k (0 : ℚ))) (n + 1) k
    (IsGrid_replicate (n + 1) k) 0 (le_refl _) (by omega)
  unfold DersBasisFunctions
  simp only [hk1]
  generalize forUp 1 (k : Int) (dersOuter u i U)
    { ndu := wr2 (List.replicate k (List.replicate k 0)) 0 0 1,
      left := List.replicate k 0, right := List.replicate k 0, saved := 0,
      a := List.replicate 2 (List.replicate k 0),
      ders := List.replicate (n + 1) (List.replicate k 0),
      s1 := 0, s2 := 1, d := 0, r := 0 } = st1 at f1 f4 f5 f7 ⊢
  rw [f5]
  obtain ⟨l1, l2⟩ := hload (fun j _ => rd2 st1.ndu j ((k : Int) - 1)) k (le_refl _)
  have hval : rd2 (forUp 0 (k : Int) (fun j ders => wr2 ders 0 j (rd2 st1.ndu j ((k : Int) - 1)))
      (List.replicate (n + 1) (List.replicate k 0))) 0 j = basisN u i U (k - 1) j := by
    rw [l2, if_pos ⟨rfl, hj0, hjk⟩]
    have e : (k : Int) - 1 = ((k - 1 : Nat) : Int) := by omega
    rw [e]
    exact f7 (k - 1) (by omega) j hj0 (by omega)
  rcases Nat.eq_zero_or_pos n with h0 | h0
  · subst h0
    have e0 : (((0 : Nat) : Int) + 1) = 1 := by norm_num
    rw [e0, forUp_empty 1 1 _ _ (le_refl _)]
    simp only [Nat.cast_zero]
    rw [dersRow_loop_zero]
    exact hval
  · have h1 : n = 1 := by omega
    subst h1
    have e1 : (((1 : Nat) : Int) + 1) = 1 + 1 := by norm_num
    rw [e1, forUp_one]
    simp only [Nat.cast_one]
    unfold dersScale
    simp only [hk1]
    have ga : IsGrid st1.a 2 k := by
      rw [f4]
      exact IsGrid_replicate 2 k
    obtain ⟨r1, r2⟩ := dersRow_loop_one ((k : Int) - 1) k
      { st1 with ders := (forUp 0 (k : Int)
          (fun j ders => wr2 ders 0 j (rd2 st1.ndu j ((k : Int) - 1)))
          (List.replicate (1 + 1) (List.replicate k 0))) } rfl hk ga l1
    rw [hk1] at r1 r2
    obtain ⟨s1, s2⟩ := forUp_wr2_row _ 2 k r1 1 (by norm_num) (by norm_num)
      (fun _ x => x * ((((k : Int) - 1 : Int)) : ℚ)) k (le_refl _)
    rw [s2, if_neg (by
      intro hc
      have := hc.1
      omega), r2, if_neg (by
      intro hc
      have := hc.1
      omega)]
    exact hval

/-- The row 1 of the result of `DersBasisFunctions` for `n = 1`: the derivative formula on the
functions of degree `k - 2`. -/
theorem DersBasisFunctions_row_one (u : ℚ) (i : Nat) (U : List ℚ) (k : Nat) (hk : 1 ≤ k)
    (r : Int) (hr0 : 0 ≤ r) (hrk : r < k) :
    rd2 (DersBasisFunctions u i U k 1) 1 r = basisDeriv u i U (k - 1) r := by
  have hk1 : (k : Int) - 1 + 1 = ((k : Nat) : Int) := by ring
  have hg0 : IsGrid (wr2 (List.replicate k (List.replicate k (0 : ℚ))) 0 0 1) k k :=
    IsGrid_wr2 _ k k (IsGrid_replicate k k) 0 0 1
  have h00 : rd2 (wr2 (List.replicate k (List.replicate k (0 : ℚ))) 0 0 1) 0 0 = 1 := by
    rw [rd2_wr2 _ k k (IsGrid_replicate k k),
      if_pos ⟨rfl, rfl, le_refl _, by omega, le_refl _, by omega⟩]
  obtain ⟨f1, -, -, f4, f5, -, f7, f8⟩ := dersOuter_loop u i U k
    { ndu := wr2 (List.replicate k (List.replicate k 0)) 0 0 1,
      left := List.replicate k 0, right := List.replicate k 0, saved := 0,
      a := List.replicate 2 (List.replicate k 0),
      ders := List.replicate (1 + 1) (List.replicate k 0),
      s1 := 0, s2 := 1, d := 0, r := 0 } hg0 h00 (by simp) (by simp) k hk (le_refl _)
  have hload := forUp_wr2_row (List.replicate (1 + 1) (List.replicate k (0 : ℚ))) (1 + 1) k
    (IsGrid_replicate (1 + 1) k) 0 (le_refl _) (by omega)
  unfold DersBasisFunctions
  simp only [hk1]
  generalize forUp 1 (k : Int) (dersOuter u i U)
    { ndu := wr2 (List.replicate k (List.replicate k 0)) 0 0 1,
      left := List.replicate k 0, right := List.replicate k 0, saved := 0,
      a := List.replicate 2 (List.replicate k 0),
      ders := List.replicate (1 + 1) (List.replicate k 0),
      s1 := 0, s2 := 1, d := 0, r := 0 } = st1 at f1 f4 f5 f7 f8 ⊢
  rw [f5]
  obtain ⟨l1, l2⟩ := hload (fun j _ => rd2 st1.ndu j ((k : Int) - 1)) k (le_refl _)
  have e1 : (((1 : Nat) : Int) + 1) = 1 + 1 := by norm_num
  rw [e1, forUp_one]
  simp only [Nat.cast_one]
  unfold dersScale
  simp only [hk1]
  have ga : IsGrid st1.a 2 k := by
    rw [f4]
    exact IsGrid_replicate 2 k
  obtain ⟨r1, r2⟩ := dersRow_loop_one ((k : Int) - 1) k
    { st1 with ders := (forUp 0 (k : Int)
        (fun j ders => wr2 ders 0 j (rd2 st1.ndu j ((k : Int) - 1)))
        (List.replicate (1 + 1) (List.replicate k 0))) } rfl hk ga l1
  rw [hk1] at r1 r2
  obtain ⟨s1, s2⟩ := forUp_wr2_row _ 2 k r1 1 (by norm_num) (by norm_num)
    (fun _ x => x * ((((k : Int) - 1 : Int)) : ℚ)) k (le_refl _)
  rw [s2, if_pos ⟨rfl, hr0, hrk⟩, r2, if_pos ⟨rfl, hr0, hrk⟩]
  simp only []
  rcases Nat.eq_or_lt_of_le hk with hk0 | hk0
  · subst hk0
    simp [basisDeriv]
  · obtain ⟨d, hd⟩ : ∃ d, k = d + 2 := ⟨k - 2, by omega⟩
    subst hd
    have ep : ((d + 2 : Nat) : Int) - 1 = (d : Int) + 1 := by push_cast; ring
    have ep1 : (d : Int) + 1 - 1 + 1 = ((d + 1 : Nat) : Int) := by push_cast; ring
    have ep2 : (d : Int) + 1 - 1 = ((d : Nat) : Int) := by ring
    rw [ep, ep1, ep2]
    have ed : d + 2 - 1 = d + 1 := by omega
    rw [ed]
    unfold basisDeriv
    have t1 : (if 1 ≤ r then 1 / rd2 st1.ndu ((d + 1 : Nat) : Int) (r - 1)
          * rd2 st1.ndu (r - 1) (d : Int) else 0)
        = basisN u i U d (r - 1)
          / (rd U ((i : Int) + r) - rd U ((i : Int) - ((d : Int) + 1) + r)) := by
      by_cases c : 1 ≤ r
      · rw [if_pos c, f8 (d + 1) (by omega) (by omega) (r - 1) (by omega) (by push_cast; omega),
          f7 d (by omega) (r - 1) (by omega) (by push_cast at hrk; omega)]
        have a1 : (i : Int) + (r - 1) + 1 = (i : Int) + r := by ring
        have a2 : (i : Int) + 1 - ((d + 1 : Nat) : Int) + (r - 1)
            = (i : Int) - ((d : Int) + 1) + r := by push_cast; ring
        rw [a1, a2]
        ring
      · rw [if_neg c, basisN_outside u i U d _ (Or.inl (by omega))]
        simp
    have t2 : (if r ≤ (d : Int) then -1 / rd2 st1.ndu ((d + 1 : Nat) : Int) r
          * rd2 st1.ndu r (d : Int) else 0)
        = - (basisN u i U d r
          / (rd U ((i : Int) + r + 1) - rd U ((i : Int) - (d : Int) + r))) := by
      by_cases c : r ≤ (d : Int)
      · rw [if_pos c, f8 (d + 1) (by omega) (by omega) r hr0 (by push_cast; omega),
          f7 d (by omega) r hr0 c]
        have a2 : (i : Int) + 1 - ((d + 1 : Nat) : Int) + r = (i : Int) - (d : Int) + r := by
          push_cast; ring
        rw [a2]
        ring
      · rw [if_neg c, basisN_outside u i U d _ (Or.inr (by omega))]
        simp
    rw [t1, t2]
    push_cast
    ring

theorem deriv_step_alg (u a a1 b b1 T0 T1 T2 e : ℚ) (h1 : b1 - a ≠ 0) (h2 : b - a1 ≠ 0) :
    1 * (((u - a) * T2 + (b1 - u) * T1) / (b1 - a))
        + (u - a) * ((e + 1) * (T2 - T1) / (b1 - a))
      + (-1 * (((u - a1) * T1 + (b - u) * T0) / (b - a1))
        + (b - u) * ((e + 1) * (T1 - T0) / (b - a1)))
      = (e + 1 + 1) * (((u - a) * T2 + (b1 - u) * T1) / (b1 - a)
          - ((u - a1) * T1 + (b - u) * T0) / (b - a1)) := by
  field_simp
  ring

theorem basisN_succ (u : ℚ) (i : Nat) (U : List ℚ) (d : Nat) (r : Int)
    (h : 0 ≤ r ∧ r ≤ (d : Int) + 1) :
    basisN u i U (d + 1) r
      = (u - rd U ((i : Int) - ((d : Int) + 1) + r))
          * (basisN u i U d (r - 1) / (rd U ((i : Int) + r) - rd U ((i : Int) - ((d : Int) + 1) + r)))
        + (rd U ((i : Int) + r + 1) - u)
          * (basisN u i U d r / (rd U ((i : Int) + r + 1) - rd U ((i : Int) - (d : Int) + r))) := by
  conv_lhs => unfold basisN
  rw [if_pos h]

/-- On a span `U[i] < U[i + 1]` of a non-decreasing knot vector, the Cox-de Boor function of
degree `d ≤ i` (with `i + d < |U|`) and local index `r`, as a function of the parameter, has the
derivative given by the derivative formula, at every `u`. -/
theorem basisN_hasDerivAt (i : Nat) (U : List ℚ) (hU : U.Sorted (· ≤ ·))
    (hspan : rd U (i : Int) < rd U ((i : Int) + 1)) :
    ∀ d : Nat, d ≤ i → i + d < U.length → ∀ (r : Int) (u : ℚ),
      HasDerivAt (fun x => basisN x i U d r) (basisDeriv u i U d r) u := by
  intro d
  induction d with
  | zero =>
    intro _ _ r u
    have e : (fun x => basisN x i U 0 r) = fun _ => (if r = 0 then (1 : ℚ) else 0) := by
      funext x
      unfold basisN
      rfl
    rw [e]
    unfold basisDeriv
    exact hasDerivAt_const u _
  | succ d ih =>
    intro hd hlen r u
    have ihd := ih (by omega) (by omega)
    by_cases hr : 0 ≤ r ∧ r ≤ (d : Int) + 1
    · have hden : ∀ t : Int, 0 ≤ t → t ≤ d →
          rd U ((i : Int) + t + 1) - rd U ((i : Int) - (d : Int) + t) ≠ 0 := by
        intro t h0 h1
        have h3 : rd U ((i : Int) - (d : Int) + t) ≤ rd U (i : Int) :=
          rd_le_of_le U hU _ _ (by omega) (by omega) (by omega)
        have h4 : rd U ((i : Int) + 1) ≤ rd U ((i : Int) + t + 1) :=
          rd_le_of_le U hU _ _ (by omega) (by omega) (by omega)
        have : 0 < rd U ((i : Int) + t + 1) - rd U ((i : Int) - (d : Int) + t) := by linarith
        exact ne_of_gt this
      have hfun : (fun x => basisN x i U (d + 1) r) = fun x =>
          (x - rd U ((i : Int) - ((d : Int) + 1) + r))
            * (basisN x i U d (r - 1)
                / (rd U ((i : Int) + r) - rd U ((i : Int) - ((d : Int) + 1) + r)))
          + (rd U ((i : Int) + r + 1) - x)
            * (basisN x i U d r / (rd U ((i : Int) + r + 1) - rd U ((i : Int) - (d : Int) + r))) := by
        funext x
        conv_lhs => unfold basisN
        rw [if_pos hr]
      rw [hfun]
      have h1 : HasDerivAt (fun x : ℚ => x - rd U ((i : Int) - ((d : Int) + 1) + r)) 1 u :=
        (hasDerivAt_id u).sub_const _
      have h2 := (ihd (r - 1) u).div_const
        (rd U ((i : Int) + r) - rd U ((i : Int) - ((d : Int) + 1) + r))
      have h4 : HasDerivAt (fun x : ℚ => rd U ((i : Int) + r + 1) - x) (-1) u :=
        (hasDerivAt_id u).const_sub _
      have h5 := (ihd r u).div_const (rd U ((i : Int) + r + 1) - rd U ((i : Int) - (d : Int) + r))
      have h6 := (h1.mul h2).add (h4.mul h5)
      refine h6.congr_deriv ?_
      clear h1 h2 h4 h5 h6 hfun ihd ih
      conv_rhs => unfold basisDeriv
      simp only []
      cases d with
      | zero =>
        simp only [basisDeriv]
        push_cast
        ring_nf
      | succ e =>
        simp only [Nat.cast_add, Nat.cast_one] at hden hr ⊢
        simp only [basisDeriv]
        by_cases c0 : r = 0
        · subst c0
          rw [basisN_outside u i U (e + 1) (0 - 1) (Or.inl (by norm_num)),
            basisN_outside u i U e (0 - 1 - 1) (Or.inl (by norm_num)),
            basisN_outside u i U e (0 - 1) (Or.inl (by norm_num))]
          rw [basisN_succ u i U e 0 ⟨le_refl _, by omega⟩,
            basisN_outside u i U e (0 - 1) (Or.inl (by norm_num))]
          simp only [zero_div, mul_zero, sub_zero, zero_add, add_zero, zero_sub]
          ring_nf
        · by_cases c1 : r = (e : Int) + 1 + 1
          · subst c1
            rw [basisN_outside u i U (e + 1) ((e : Int) + 1 + 1) (Or.inr (by push_cast; omega)),
              basisN_outside u i U e ((e : Int) + 1 + 1) (Or.inr (by omega)),
              basisN_outside u i U e ((e : Int) + 1 + 1 - 1) (Or.inr (by omega))]
            rw [basisN_succ u i U e ((e : Int) + 1 + 1 - 1) ⟨by omega, by omega⟩,
              basisN_outside u i U e ((e : Int) + 1 + 1 - 1) (Or.inr (by omega))]
            simp only [zero_div, mul_zero, sub_zero, zero_add, add_zero, zero_sub]
            ring_nf
          · have hr1 : 1 ≤ r ∧ r ≤ (e : Int) + 1 := by
              obtain ⟨ha, hb⟩ := hr
              omega
            have n1 : basisN u i U (e + 1) (r - 1)
                = (u - rd U ((i : Int) - ((e : Int) + 1) + (r - 1)))
                    * (basisN u i U e (r - 1 - 1)
                      / (rd U ((i : Int) + (r - 1)) - rd U ((i : Int) - ((e : Int) + 1) + (r - 1))))
                  + (rd U ((i : Int) + (r - 1) + 1) - u)
                    * (basisN u i U e (r - 1)
                      / (rd U ((i : Int) + (r - 1) + 1) - rd U ((i : Int) - (e : Int) + (r - 1)))) := by
              exact basisN_succ u i U e (r - 1) ⟨by omega, by omega⟩
            have n2 : basisN u i U (e + 1) r
                = (u - rd U ((i : Int) - ((e : Int) + 1) + r))
                    * (basisN u i U e (r - 1)
                      / (rd U ((i : Int) + r) - rd U ((i : Int) - ((e : Int) + 1) + r)))
                  + (rd U ((i : Int) + r + 1) - u)
                    * (basisN u i U e r
                      / (rd U ((i : Int) + r + 1) - rd U ((i : Int) - (e : Int) + r))) := by
              exact basisN_succ u i U e r ⟨by omega, by omega⟩
            rw [n1, n2]
            have x1 : (i : Int) - ((e : Int) + 1) + (r - 1) = (i : Int) - ((e : Int) + 1 + 1) + r := by
              ring
            have x2 : (i : Int) + (r - 1) + 1 = (i : Int) + r := by ring
            have x3 : (i : Int) - (e : Int) + (r - 1) = (i : Int) - ((e : Int) + 1) + r := by ring
            rw [x1, x2, x3]
            have d1 := hden (r - 1) (by omega) (by omega)
            have d2 := hden r (by omega) (by omega)
            have y2 : (i : Int) - ((e : Int) + 1) + (r - 1) = (i : Int) - ((e : Int) + 1 + 1) + r := by
              ring
            rw [x2, y2] at d1
            generalize rd U ((i : Int) - ((e : Int) + 1 + 1) + r) = a at d1 ⊢
            generalize rd U ((i : Int) + r) = b1 at d1 ⊢
            generalize rd U ((i : Int) - ((e : Int) + 1) + r) = a1 at d2 ⊢
            generalize rd U ((i : Int) + r + 1) = b at d2 ⊢
            generalize basisN u i U e (r - 1 - 1) / (rd U ((i : Int) + (r - 1)) - a) = T2
            generalize basisN u i U e (r - 1) / (b1 - a1) = T1
            generalize basisN u i U e r / (b - rd U ((i : Int) - (e : Int) + r)) = T0
            exact deriv_step_alg u a a1 b b1 T0 T1 T2 (e : ℚ) d1 d2
    · have e : (fun x => basisN x i U (d + 1) r) = fun _ => (0 : ℚ) := by
        funext x
        conv_lhs => unfold basisN
        rw [if_neg hr]
      rw [e]
      have e2 : basisDeriv u i U (d + 1) r = 0 := by
        simp only [basisDeriv]
        have hr2 : r < 0 ∨ (d : Int) + 1 < r := by
          by_contra hc
          push_neg at hc
          exact hr hc
        rcases hr2 with c | c
        · rw [basisN_outside u i U d (r - 1) (Or.inl (by omega)),
            basisN_outside u i U d r (Or.inl c)]
          simp
        · rw [basisN_outside u i U d (r - 1) (Or.inr (by omega)),
            basisN_outside u i U d r (Or.inr (by omega))]
          simp
      rw [e2]
      exact hasDerivAt_const u _

/-- C31: for a non-decreasing knot vector `U`, an order `k ≥ 1` and a span index `i` with
`k - 1 ≤ i`, `i + k ≤ |U|` and `U[i] < U[i + 1]`, for every `u` and for `n = 0` and `n = 1`, the
row `ders[0]` of `DersBasisFunctions(u, i, U, k, n, ders)` holds the values `N[j]`
(`0 ≤ j < k`) that `BasisFunctions(u, i, U, k, N)` computes, and for `n = 1` the entry
`ders[1][j]` is the derivative at `u` of the `j`-th basis polynomial of the span, that is of
the function `x ↦ N[j]` of `BasisFunctions(x, i, U, k, N)` with the span `i` held fixed. -/
theorem DersBasisFunctions_spec (u : ℚ) (i : Nat) (U : List ℚ) (k : Nat) (N : List ℚ)
    (hU : U.Sorted (· ≤ ·)) (hk : 1 ≤ k) (hi : k - 1 ≤ i) (hlen : i + k ≤ U.length)
    (hspan : rd U (i : Int) < rd U ((i : Int) + 1)) (hN : k ≤ N.length) :
    (∀ n : Nat, n ≤ 1 → ∀ j : Int, 0 ≤ j → j < k →
      rd2 (DersBasisFunctions u i U k n) 0 j = rd (BasisFunctions u i U k N) j) ∧
    (∀ j : Int, 0 ≤ j → j < k →
      HasDerivAt (fun x => rd (BasisFunctions x i U k N) j)
        (rd2 (DersBasisFunctions u i U k 1) 1 j) u) := by
  constructor
  · intro n hn j hj0 hjk
    rw [DersBasisFunctions_row_zero u i U k n hk hn j hj0 hjk,
      (BasisFunctions_eq_basisN u i U k N hN hk).2 j hj0 hjk]
  · intro j hj0 hjk
    have e : (fun x => rd (BasisFunctions x i U k N) j) = fun x => basisN x i U (k - 1) j := by
      funext x
      exact (BasisFunctions_eq_basisN x i U k N hN hk).2 j hj0 hjk
    rw [e, DersBasisFunctions_row_one u i U k hk j hj0 hjk]
    exact basisN_hasDerivAt i U hU hspan (k - 1) hi (by omega) j u

/-- C31 at the cubic span `i = 3` of the knot vector `0,0,0,0,1,2,2,2,2`, `u = 1/2`: the values
are `1/8, 19/32, 1/4, 1/32` and the derivatives `-3/4, -3/16, 3/4, 3/16`. -/
theorem DersBasisFunctions_spec_witness :
    ((∀ n : Nat, n ≤ 1 → ∀ j : Int, 0 ≤ j → j < (4 : Nat) →
        rd2 (DersBasisFunctions (1 / 2) 3 [0, 0, 0, 0, 1, 2, 2, 2, 2] 4 n) 0 j
          = rd (BasisFunctions (1 / 2) 3 [0, 0, 0, 0, 1, 2, 2, 2, 2] 4 [0, 0, 0, 0]) j) ∧
      (∀ j : Int, 0 ≤ j → j < (4 : Nat) →
        HasDerivAt (fun x => rd (BasisFunctions x 3 [0, 0, 0, 0, 1, 2, 2, 2, 2] 4 [0, 0, 0, 0]) j)
          (rd2 (DersBasisFunctions (1 / 2) 3 [0, 0, 0, 0, 1, 2, 2, 2, 2] 4 1) 1 j) (1 / 2))) ∧
    DersBasisFunctions (1 / 2) 3 [0, 0, 0, 0, 1, 2, 2, 2, 2] 4 1
      = [[1 / 8, 19 / 32, 1 / 4, 1 / 32], [-3 / 4, -3 / 16, 3 / 4, 3 / 16]] ∧
    BasisFunctions (1 / 2) 3 [0, 0, 0, 0, 1, 2, 2, 2, 2] 4 [0, 0, 0, 0]
      = [1 / 8, 19 / 32, 1 / 4, 1 / 32] :=
  ⟨DersBasisFunctions_spec (1 / 2) 3 [0, 0, 0, 0, 1, 2, 2, 2, 2] 4 [0, 0, 0, 0]
    (by simp [List.Sorted]) (by decide) (by decide) (by decide) (by decide!) (by decide),
   by decide!, by decide!⟩

theorem colIdx_lt (A N : Nat) (x c : Int) (hx0 : 0 ≤ x) (hx : x < N) (hc0 : 0 ≤ c)
    (hc : c < A) : 0 ≤ x * A + c ∧ x * A + c < ((A * N : Nat) : Int) := by
  constructor
  · positivity
  · push_cast
    nlinarith

theorem rowIdx_lt (A N : Nat) (x c : Int) (hx0 : 0 ≤ x) (hx : x < N) (hc0 : 0 ≤ c)
    (hc : c < A) : 0 ≤ c * N + x ∧ c * N + x < ((N * A : Nat) : Int) := by
  constructor
  · positivity
  · push_cast
    nlinarith

theorem colIdx_inj (A : Nat) (x y c : Int) (hc0 : 0 ≤ c) (hc : c < A)
    (h : x * A + c = y * A + c) : x = y := by
  have hA : (0 : Int) < A := by omega
  have h1 : x * A = y * A := by omega
  exact Int.eq_of_mul_eq_mul_right (by omega) h1

theorem forUp_split {σ : Type} (lo mid hi : Int) (body : Int → σ → σ) (st : σ) (h1 : lo ≤ mid)
    (h2 : mid ≤ hi) :
    forUp lo hi body st = forUp mid hi body (forUp lo mid body st) := by
  have key : ∀ d : Nat, forUp lo (mid + d) body st
      = forUp mid (mid + d) body (forUp lo mid body st) := by
    intro d
    induction d with
    | zero =>
      simp only [Nat.cast_zero, add_zero]
      rw [forUp_empty mid mid _ _ (le_refl _)]
    | succ d ih =>
      have e : mid + ((d + 1 : Nat) : Int) = mid + d + 1 := by push_cast; ring
      rw [e, forUp_succ _ _ _ _ (by omega), forUp_succ _ _ _ _ (by omega), ih]
  have := key (hi - mid).toNat
  have e : mid + (((hi - mid).toNat : Nat) : Int) = hi := by omega
  rw [e] at this
  exact this

theorem Mirrored_mono (A N : Nat) (c : Int) (Pv0 Pu0 : List CqVector4D) (W W1 : Int → Prop)
    (Pv Pu : List CqVector4D) (h : Mirrored A N c Pv0 Pu0 W Pv Pu)
    (hw : ∀ x : Int, 0 ≤ x → x < N → W1 x → W x) : Mirrored A N c Pv0 Pu0 W1 Pv Pu := by
  obtain ⟨h1, h2, h3, h4, h5⟩ := h
  exact ⟨h1, h2, fun x hx0 hx hw1 => h3 x hx0 hx (hw x hx0 hx hw1), h4, h5⟩

/-- Both sides store the same point at the place `y` of the line. -/
theorem Mirrored_wr (A N : Nat) (c : Int) (Pv0 Pu0 : List CqVector4D) (W : Int → Prop)
    (Pv Pu : List CqVector4D) (h : Mirrored A N c Pv0 Pu0 W Pv Pu) (hc0 : 0 ≤ c) (hc : c < A)
    (y : Int) (hy0 : 0 ≤ y) (hy : y < N) (g : CqVector4D) :
    Mirrored A N c Pv0 Pu0 (fun x => W x ∨ x = y) (wr Pv (y * A + c) g) (wr Pu (c * N + y) g) := by
  obtain ⟨h1, h2, h3, h4, h5⟩ := h
  obtain ⟨b1, b2⟩ := colIdx_lt A N y c hy0 hy hc0 hc
  obtain ⟨b3, b4⟩ := rowIdx_lt A N y c hy0 hy hc0 hc
  refine ⟨by rw [wr_length, h1], by rw [wr_length, h2], ?_, ?_, ?_⟩
  · intro x hx0 hx hw
    by_cases e : x = y
    · subst e
      rw [rd_wr_same _ _ _ b1 (by rw [h1]; exact b2), rd_wr_same _ _ _ b3 (by rw [h2]; exact b4)]
    · rw [rd_wr_ne _ _ _ _ (fun e2 => e (colIdx_inj A x y c hc0 hc e2.symm)),
        rd_wr_ne _ _ _ _ (by omega)]
      rcases hw with hw | hw
      · exact h3 x hx0 hx hw
      · exact absurd hw e
  · intro t ht
    rw [rd_wr_ne _ _ _ _ (fun e => ht y e.symm)]
    exact h4 t ht
  · intro t ht
    rw [rd_wr_ne _ _ _ _ (by omega)]
    exact h5 t ht

/-- The side of `InsertKnotU` stores behind the end of the line. -/
theorem Mirrored_stray (A N : Nat) (c : Int) (Pv0 Pu0 : List CqVector4D) (W : Int → Prop)
    (Pv Pu : List CqVector4D) (h : Mirrored A N c Pv0 Pu0 W Pv Pu)
    (y : Int) (hy : (N : Int) ≤ y) (g : CqVector4D) :
    Mirrored A N c Pv0 Pu0 W Pv (wr Pu (c * N + y) g) := by
  obtain ⟨h1, h2, h3, h4, h5⟩ := h
  refine ⟨h1, by rw [wr_length, h2], ?_, h4, ?_⟩
  · intro x hx0 hx hw
    rw [rd_wr_ne _ _ _ _ (by omega)]
    exact h3 x hx0 hx hw
  · intro t ht
    rw [rd_wr_ne _ _ _ _ (by omega)]
    exact h5 t ht

/-- Two loops that store the same points at the places `f i` of the line. -/
theorem Mirrored_loop (A N : Nat) (c : Int) (Pv0 Pu0 : List CqVector4D) (W : Int → Prop)
    (hc0 : 0 ≤ c) (hc : c < A) (lo hi : Int) (f fv fu : Int → Int)
    (gv gu : Int → CqVector4D)
    (hf : ∀ i : Int, lo ≤ i → i < hi →
      0 ≤ f i ∧ f i < N ∧ fv i = f i * A + c ∧ fu i = c * N + f i ∧ gv i = gu i)
    (Pv Pu : List CqVector4D) (h : Mirrored A N c Pv0 Pu0 W Pv Pu) :
    Mirrored A N c Pv0 Pu0 (fun x => W x ∨ ∃ i : Int, lo ≤ i ∧ i < hi ∧ x = f i)
      (forUp lo hi (fun i P => wr P (fv i) (gv i)) Pv)
      (forUp lo hi (fun i P => wr P (fu i) (gu i)) Pu) := by
  by_cases hle : lo ≤ hi
  · apply forUp_rel
      (fun (idx : Int) (a b : List CqVector4D) =>
        Mirrored A N c Pv0 Pu0 (fun x => W x ∨ ∃ i : Int, lo ≤ i ∧ i < idx ∧ x = f i) a b)
      lo hi hle
    · apply Mirrored_mono _ _ _ _ _ _ _ _ _ h
      intro x _ _ hw
      rcases hw with hw | ⟨i, h1, h2, _⟩
      · exact hw
      · omega
    · intro i a b hi1 hi2 hm
      obtain ⟨f1, f2, f3, f4, f5⟩ := hf i hi1 hi2
      rw [f3, f4, f5]
      apply Mirrored_mono _ _ _ _ _ _ _ _ _ (Mirrored_wr A N c Pv0 Pu0 _ a b hm hc0 hc (f i) f1 f2 (gu i))
      intro x _ _ hw
      rcases hw with hw | ⟨j, h1, h2, h3⟩
      · exact Or.inl (Or.inl hw)
      · by_cases e : j = i
        · subst e
          exact Or.inr h3
        · exact Or.inl (Or.inr ⟨j, h1, by omega, h3⟩)
  · rw [forUp_empty _ _ _ _ (by omega), forUp_empty _ _ _ _ (by omega)]
    apply Mirrored_mono _ _ _ _ _ _ _ _ _ h
    intro x _ _ hw
    rcases hw with hw | ⟨i, h1, h2, _⟩
    · exact hw
    · omega

/-- A loop in which the side of `InsertKnotU` stores behind the end of the line only. -/
theorem Mirrored_stray_loop (A N : Nat) (c : Int) (Pv0 Pu0 : List CqVector4D) (W : Int → Prop)
    (lo hi : Int) (fu : Int → Int) (gu : Int → CqVector4D)
    (hf : ∀ i : Int, lo ≤ i → i < hi → ∃ y : Int, (N : Int) ≤ y ∧ fu i = c * N + y)
    (Pv Pu : List CqVector4D) (h : Mirrored A N c Pv0 Pu0 W Pv Pu) :
    Mirrored A N c Pv0 Pu0 W Pv (forUp lo hi (fun i P => wr P (fu i) (gu i)) Pu) := by
  apply forUp_induction (fun (b : List CqVector4D) => Mirrored A N c Pv0 Pu0 W Pv b) lo hi _ Pu h
  intro i s h1 h2 hm
  obtain ⟨y, hy, e⟩ := hf i h1 h2
  rw [e]
  exact Mirrored_stray A N c Pv0 Pu0 W Pv s hm y hy (gu i)

/-- The two copy loops at the head of the loop body of `InsertKnotV` / `InsertKnotU`: the
places up to `k - p` and from `k - s + r` on hold the same points on both sides. -/
theorem mirror_copy (holdV holdU : List CqVector4D) (A m N : Nat) (k s r p c : Int)
    (hN : (N : Int) = m + r) (hc0 : 0 ≤ c) (hc : c < A) (hpk : p ≤ k) (hr1 : 1 ≤ r)
    (hrs : r + s ≤ p + 1) (hks : k - s < m)
    (hH : ∀ i : Int, 0 ≤ i → i < m → rd holdV (i * A + c) = rd holdU (c * m + i))
    (Pv0 Pu0 Pv Pu : List CqVector4D) (W : Int → Prop)
    (h : Mirrored A N c Pv0 Pu0 W Pv Pu) :
    Mirrored A N c Pv0 Pu0 (fun x => x ≤ k - p ∨ k - s + r ≤ x)
      (forUp (k - s) m (fun i P => wr P ((i + r) * A + c) (rd holdV (i * A + c)))
        (forUp 0 (k - p + 1) (fun i P => wr P (i * A + c) (rd holdV (i * A + c))) Pv))
      (forUp (k - s) N (fun i P => wr P (c * N + i + r) (rd holdU (c * m + i)))
        (forUp 0 (k - p + 1) (fun i P => wr P (c * N + i) (rd holdU (c * m + i))) Pu)) := by
  have s1 := Mirrored_loop A N c Pv0 Pu0 W hc0 hc 0 (k - p + 1) (fun i => i)
    (fun i => i * A + c) (fun i => c * N + i)
    (fun i => rd holdV (i * A + c)) (fun i => rd holdU (c * m + i))
    (fun i h1 h2 => ⟨h1, by beta_reduce; omega, rfl, rfl, hH i h1 (by omega)⟩) Pv Pu h
  have s2 := Mirrored_loop A N c Pv0 Pu0 _ hc0 hc (k - s) m (fun i => i + r)
    (fun i => (i + r) * A + c) (fun i => c * N + i + r)
    (fun i => rd holdV (i * A + c)) (fun i => rd holdU (c * m + i))
    (fun i h1 h2 => ⟨by beta_reduce; omega, by beta_reduce; omega, rfl, by beta_reduce; ring,
      hH i (by omega) h2⟩) _ _ s1
  have s3 := Mirrored_stray_loop A N c Pv0 Pu0 _ m N (fun i => c * N + i + r)
    (fun i => rd holdU (c * m + i))
    (fun i h1 h2 => ⟨i + r, by omega, by ring⟩) _ _ s2
  rw [← forUp_split _ _ _ _ _ (by omega) (by omega)] at s3
  apply Mirrored_mono _ _ _ _ _ _ _ _ _ s3
  intro x hx0 hx hw
  rcases hw with hw | hw
  · exact Or.inl (Or.inr ⟨x, hx0, by omega, rfl⟩)
  · exact Or.inr ⟨x - r, by omega, by omega, by ring⟩

/-- The loop that saves the points of the line in `R` gives the same `R` on both sides. -/
theorem mirror_save (holdV holdU : List CqVector4D) (A m : Nat) (k s p c : Int)
    (hpk : p ≤ k) (hks : k - s < m)
    (hH : ∀ i : Int, 0 ≤ i → i < m → rd holdV (i * A + c) = rd holdU (c * m + i))
    (R : List CqVector4D) :
    forUp 0 (p - s + 1) (fun i R => wr R i (rd holdV ((k - p + i) * A + c))) R
      = forUp 0 (p - s + 1) (fun i R => wr R i (rd holdU (c * m + k - p + i))) R := by
  by_cases hle : (0 : Int) ≤ p - s + 1
  · apply forUp_rel (fun (_ : Int) (a b : List CqVector4D) => a = b) 0 (p - s + 1) hle _ _ R R rfl
    intro i a b h1 h2 hab
    rw [hab, hH (k - p + i) (by omega) (by omega)]
    have e : c * (m : Int) + (k - p + i) = c * m + k - p + i := by ring
    rw [e]
  · rw [forUp_empty _ _ _ _ (by omega), forUp_empty _ _ _ _ (by omega)]

/-- The loop "insert the knot `r` times" of `InsertKnotV` / `InsertKnotU` on the line `c`: both
sides end with the same `R` and `L = k - p + r`, and the places that the loop stores hold the
same points. -/
theorem mirror_blend (knots : List ℚ) (v : ℚ) (A m N : Nat) (k s r p c : Int)
    (hN : (N : Int) = m + r) (hc0 : 0 ≤ c) (hc : c < A) (hpk : p ≤ k) (hr1 : 1 ≤ r)
    (hrs : r + s ≤ p + 1) (hks : k - s < m)
    (Pv0 Pu0 Pv Pu R : List CqVector4D)
    (h : Mirrored A N c Pv0 Pu0 (fun x => x ≤ k - p ∨ k - s + r ≤ x) Pv Pu) :
    (forUp 1 (r + 1) (fun j (acc : List CqVector4D × List CqVector4D × Int) =>
        let L := k - p + j
        let R := forUp 0 (p - j - s + 1) (insertBlend knots v k L) acc.2.1
        let Pa := wr acc.1 (L * A + c) (rd R 0)
        let Pb := if p - j - s > 0 then wr Pa ((k + r - j - s) * A + c) (rd R (p - j - s)) else Pa
        (Pb, R, L)) (Pv, R, (0 : Int))).2
      = (forUp 1 (r + 1) (fun j (acc : List CqVector4D × List CqVector4D × Int) =>
        let L := k - p + j
        let R := forUp 0 (p - j - s + 1) (insertBlend knots v k L) acc.2.1
        let Pa := wr acc.1 (c * N + L) (rd R 0)
        let Pb := if p - j - s > 0 then wr Pa (c * N + k + r - j - s) (rd R (p - j - s)) else Pa
        (Pb, R, L)) (Pu, R, (0 : Int))).2 ∧
    (forUp 1 (r + 1) (fun j (acc : List CqVector4D × List CqVector4D × Int) =>
        let L := k - p + j
        let R := forUp 0 (p - j - s + 1) (insertBlend knots v k L) acc.2.1
        let Pa := wr acc.1 (L * A + c) (rd R 0)
        let Pb := if p - j - s > 0 then wr Pa ((k + r - j - s) * A + c) (rd R (p - j - s)) else Pa
        (Pb, R, L)) (Pv, R, (0 : Int))).2.2 = k - p + r ∧
    Mirrored A N c Pv0 Pu0
      (fun x => x ≤ k - p + r ∨ k - s + r ≤ x ∨
        ∃ j : Int, 1 ≤ j ∧ j ≤ r ∧ p - j - s > 0 ∧ x = k + r - j - s)
      (forUp 1 (r + 1) (fun j (acc : List CqVector4D × List CqVector4D × Int) =>
        let L := k - p + j
        let R := forUp 0 (p - j - s + 1) (insertBlend knots v k L) acc.2.1
        let Pa := wr acc.1 (L * A + c) (rd R 0)
        let Pb := if p - j - s > 0 then wr Pa ((k + r - j - s) * A + c) (rd R (p - j - s)) else Pa
        (Pb, R, L)) (Pv, R, (0 : Int))).1
      (forUp 1 (r + 1) (fun j (acc : List CqVector4D × List CqVector4D × Int) =>
        let L := k - p + j
        let R := forUp 0 (p - j - s + 1) (insertBlend knots v k L) acc.2.1
        let Pa := wr acc.1 (c * N + L) (rd R 0)
        let Pb := if p - j - s > 0 then wr Pa (c * N + k + r - j - s) (rd R (p - j - s)) else Pa
        (Pb, R, L)) (Pu, R, (0 : Int))).1 := by
  have key := forUp_rel
    (fun (j : Int) (a b : List CqVector4D × List CqVector4D × Int) =>
      a.2 = b.2 ∧ (1 < j → a.2.2 = k - p + (j - 1)) ∧
      Mirrored A N c Pv0 Pu0
        (fun x => x ≤ k - p + (j - 1) ∨ k - s + r ≤ x ∨
          ∃ j1 : Int, 1 ≤ j1 ∧ j1 < j ∧ p - j1 - s > 0 ∧ x = k + r - j1 - s) a.1 b.1)
    1 (r + 1) (by omega)
    (fun j (acc : List CqVector4D × List CqVector4D × Int) =>
        let L := k - p + j
        let R := forUp 0 (p - j - s + 1) (insertBlend knots v k L) acc.2.1
        let Pa := wr acc.1 (L * A + c) (rd R 0)
        let Pb := if p - j - s > 0 then wr Pa ((k + r - j - s) * A + c) (rd R (p - j - s)) else Pa
        (Pb, R, L))
    (fun j (acc : List CqVector4D × List CqVector4D × Int) =>
        let L := k - p + j
        let R := forUp 0 (p - j - s + 1) (insertBlend knots v k L) acc.2.1
        let Pa := wr acc.1 (c * N + L) (rd R 0)
        let Pb := if p - j - s > 0 then wr Pa (c * N + k + r - j - s) (rd R (p - j - s)) else Pa
        (Pb, R, L))
    (Pv, R, (0 : Int)) (Pu, R, (0 : Int))
    ⟨rfl, fun hj => absurd hj (lt_irrefl _), by
      apply Mirrored_mono _ _ _ _ _ _ _ _ _ h
      intro x _ _ hw
      rcases hw with hw | hw | ⟨j1, h1, h2, _⟩
      · exact Or.inl (by omega)
      · exact Or.inr hw
      · omega⟩
    (by
      intro j a b hj1 hj2 ⟨e1, _, hm⟩
      simp only []
      have e2 : a.2.1 = b.2.1 := by rw [e1]
      rw [e2]
      have ma := Mirrored_wr A N c Pv0 Pu0 _ a.1 b.1 hm hc0 hc (k - p + j) (by omega) (by omega)
        (rd (forUp 0 (p - j - s + 1) (insertBlend knots v k (k - p + j)) b.2.1) 0)
      by_cases hc2 : p - j - s > 0
      · rw [if_pos hc2, if_pos hc2]
        have mb := Mirrored_wr A N c Pv0 Pu0 _ _ _ ma hc0 hc (k + r - j - s) (by omega) (by omega)
          (rd (forUp 0 (p - j - s + 1) (insertBlend knots v k (k - p + j)) b.2.1) (p - j - s))
        have e3 : c * (N : Int) + (k + r - j - s) = c * N + k + r - j - s := by ring
        rw [e3] at mb
        refine ⟨rfl, fun _ => by ring, ?_⟩
        apply Mirrored_mono _ _ _ _ _ _ _ _ _ mb
        intro x _ _ hw
        rcases hw with hw | hw | ⟨j1, h1, h2, h3, h4⟩
        · by_cases e : x = k - p + j
          · exact Or.inl (Or.inr e)
          · exact Or.inl (Or.inl (Or.inl (by omega)))
        · exact Or.inl (Or.inl (Or.inr (Or.inl hw)))
        · by_cases e : j1 = j
          · subst e
            exact Or.inr h4
          · exact Or.inl (Or.inl (Or.inr (Or.inr ⟨j1, h1, by omega, h3, h4⟩)))
      · rw [if_neg hc2, if_neg hc2]
        refine ⟨rfl, fun _ => by ring, ?_⟩
        apply Mirrored_mono _ _ _ _ _ _ _ _ _ ma
        intro x _ _ hw
        rcases hw with hw | hw | ⟨j1, h1, h2, h3, h4⟩
        · by_cases e : x = k - p + j
          · exact Or.inr e
          · exact Or.inl (Or.inl (by omega))
        · exact Or.inl (Or.inr (Or.inl hw))
        · by_cases e : j1 = j
          · subst e
            exact absurd h3 hc2
          · exact Or.inl (Or.inr (Or.inr ⟨j1, h1, by omega, h3, h4⟩)))
  obtain ⟨k1, k2, k3⟩ := key
  refine ⟨k1, ?_, ?_⟩
  · rw [k2 (by omega)]
    ring
  · apply Mirrored_mono _ _ _ _ _ _ _ _ _ k3
    intro x _ _ hw
    rcases hw with hw | hw | ⟨j1, h1, h2, h3, h4⟩
    · exact Or.inl (by omega)
    · exact Or.inr (Or.inl hw)
    · exact Or.inr (Or.inr ⟨j1, h1, by omega, h3, h4⟩)

/-- The loop body of `InsertKnotV` for the column `c` and the loop body of `InsertKnotU` for the
row `c` of the transposed net: when the old points of the line agree, both leave the same `R`,
every place of the line holds the same point on both sides, the other columns (in the net of
`InsertKnotV`) and the rows before `c` (in the net of `InsertKnotU`) are untouched. -/
theorem mirror_line (knots : List ℚ) (holdV holdU : List CqVector4D) (v : ℚ) (A m N : Nat)
    (k s r p c : Int) (hN : (N : Int) = m + r) (hc0 : 0 ≤ c) (hc : c < A) (hpk : p ≤ k)
    (hr1 : 1 ≤ r) (hrs : r + s ≤ p + 1) (hks : k - s < m)
    (hH : ∀ i : Int, 0 ≤ i → i < m → rd holdV (i * A + c) = rd holdU (c * m + i))
    (Pv Pu R : List CqVector4D) (hPv : Pv.length = A * N) (hPu : Pu.length = N * A) :
    (insertColV knots holdV v m A k s r p c (Pv, R)).2
        = (insertRowU knots holdU v m N k s r p c (Pu, R)).2 ∧
      Mirrored A N c Pv Pu (fun _ => True)
        (insertColV knots holdV v m A k s r p c (Pv, R)).1
        (insertRowU knots holdU v m N k s r p c (Pu, R)).1 := by
  have m0 : Mirrored A N c Pv Pu (fun _ => False) Pv Pu :=
    ⟨hPv, hPu, fun _ _ _ hf => absurd hf id, fun _ _ => rfl, fun _ _ => rfl⟩
  have s12 := mirror_copy holdV holdU A m N k s r p c hN hc0 hc hpk hr1 hrs hks hH Pv Pu Pv Pu _ m0
  have sR := mirror_save holdV holdU A m k s p c hpk hks hH R
  obtain ⟨b1, b2, b3⟩ := mirror_blend knots v A m N k s r p c hN hc0 hc hpk hr1 hrs hks Pv Pu _ _
    (forUp 0 (p - s + 1) (fun i R => wr R i (rd holdV ((k - p + i) * A + c))) R) s12
  unfold insertColV insertRowU
  simp only []
  rw [← sR, ← b1, b2]
  refine ⟨rfl, ?_⟩
  have s4 := Mirrored_loop A N c Pv Pu _ hc0 hc (k - p + r + 1) (k - s) (fun i => i)
    (fun i => i * A + c) (fun i => c * N + i)
    (fun i => rd (forUp 1 (r + 1) (fun j (acc : List CqVector4D × List CqVector4D × Int) =>
        let L := k - p + j
        let R := forUp 0 (p - j - s + 1) (insertBlend knots v k L) acc.2.1
        let Pa := wr acc.1 (L * A + c) (rd R 0)
        let Pb := if p - j - s > 0 then wr Pa ((k + r - j - s) * A + c) (rd R (p - j - s)) else Pa
        (Pb, R, L))
      (forUp (k - s) m (fun i P => wr P ((i + r) * A + c) (rd holdV (i * A + c)))
        (forUp 0 (k - p + 1) (fun i P => wr P (i * A + c) (rd holdV (i * A + c))) Pv),
       forUp 0 (p - s + 1) (fun i R => wr R i (rd holdV ((k - p + i) * A + c))) R,
       (0 : Int))).2.1 (i - (k - p + r)))
    (fun i => rd (forUp 1 (r + 1) (fun j (acc : List CqVector4D × List CqVector4D × Int) =>
        let L := k - p + j
        let R := forUp 0 (p - j - s + 1) (insertBlend knots v k L) acc.2.1
        let Pa := wr acc.1 (L * A + c) (rd R 0)
        let Pb := if p - j - s > 0 then wr Pa ((k + r - j - s) * A + c) (rd R (p - j - s)) else Pa
        (Pb, R, L))
      (forUp (k - s) m (fun i P => wr P ((i + r) * A + c) (rd holdV (i * A + c)))
        (forUp 0 (k - p + 1) (fun i P => wr P (i * A + c) (rd holdV (i * A + c))) Pv),
       forUp 0 (p - s + 1) (fun i R => wr R i (rd holdV ((k - p + i) * A + c))) R,
       (0 : Int))).2.1 (i - (k - p + r)))
    (fun i h1 h2 => ⟨by beta_reduce; omega, by beta_reduce; omega, rfl, rfl, rfl⟩) _ _ b3
  apply Mirrored_mono _ _ _ _ _ _ _ _ _ s4
  intro x hx0 hx _
  by_cases c1 : x ≤ k - p + r
  · exact Or.inl (Or.inl c1)
  · by_cases c2 : x < k - s
    · exact Or.inr ⟨x, by omega, c2, rfl⟩
    · by_cases c3 : k - s + r ≤ x
      · exact Or.inl (Or.inr (Or.inl c3))
      · exact Or.inl (Or.inr (Or.inr ⟨k + r - s - x, by omega, by omega, by omega, by ring⟩))

theorem colIdx_ne (A : Nat) (x y c c1 : Int) (hc0 : 0 ≤ c) (hc : c < A) (h0 : 0 ≤ c1)
    (h1 : c1 < A) (hne : c1 ≠ c) : x * A + c1 ≠ y * A + c := by
  intro h
  have hA : (0 : Int) < A := by omega
  have e1 := (cell_div_mod x A (x * A + c1) hA (by omega) (by omega)).2
  have e2 := (cell_div_mod y A (y * A + c) hA (by omega) (by omega)).2
  rw [h, e2] at e1
  omega

theorem rd_map_range {α : Type} [Zero α] (n : Nat) (f : Nat → α) (t : Nat) (h : t < n) :
    rd ((List.range n).map f) (t : Int) = f t := by
  rw [rd_nat_lt _ _ (by simp; exact h)]
  simp

/-- The loops over the columns of `InsertKnotV` and over the rows of `InsertKnotU` on the
transposed net end with nets that are transposes of each other. -/
theorem mirror_lines (knots : List ℚ) (holdV holdU : List CqVector4D) (v : ℚ) (A m N : Nat)
    (k s r p : Int) (hN : (N : Int) = m + r) (hpk : p ≤ k)
    (hr1 : 1 ≤ r) (hrs : r + s ≤ p + 1) (hks : k - s < m)
    (hH : ∀ c i : Int, 0 ≤ c → c < A → 0 ≤ i → i < m →
      rd holdV (i * A + c) = rd holdU (c * m + i))
    (Pv Pu R : List CqVector4D) (hPv : Pv.length = A * N) (hPu : Pu.length = N * A) :
    (forUp 0 A (insertColV knots holdV v m A k s r p) (Pv, R)).1.length = A * N ∧
      (forUp 0 A (insertRowU knots holdU v m N k s r p) (Pu, R)).1.length = N * A ∧
      ∀ c x : Int, 0 ≤ c → c < A → 0 ≤ x → x < N →
        rd (forUp 0 A (insertColV knots holdV v m A k s r p) (Pv, R)).1 (x * A + c)
          = rd (forUp 0 A (insertRowU knots holdU v m N k s r p) (Pu, R)).1 (c * N + x) := by
  have key := forUp_rel
    (fun (cc : Int) (a b : List CqVector4D × List CqVector4D) =>
      a.2 = b.2 ∧ a.1.length = A * N ∧ b.1.length = N * A ∧
      ∀ c x : Int, 0 ≤ c → c < cc → 0 ≤ x → x < N → rd a.1 (x * A + c) = rd b.1 (c * N + x))
    0 (A : Int) (by omega)
    (insertColV knots holdV v m A k s r p) (insertRowU knots holdU v m N k s r p)
    (Pv, R) (Pu, R)
    ⟨rfl, hPv, hPu, fun c x h0 h1 _ _ => by omega⟩
    (by
      intro cc a b h1 h2 ⟨e1, l1, l2, hrel⟩
      obtain ⟨Pa, Ra⟩ := a
      obtain ⟨Pb, Rb⟩ := b
      simp only [] at e1 l1 l2 hrel
      subst e1
      obtain ⟨q1, q2, q3, q4, q5, q6⟩ := mirror_line knots holdV holdU v A m N k s r p cc hN h1 h2
        hpk hr1 hrs hks (fun i hi0 hi => hH cc i h1 h2 hi0 hi) Pa Pb Ra l1 l2
      refine ⟨q1, q2, q3, ?_⟩
      intro c x hc0 hc hx0 hx
      by_cases e : c = cc
      · subst e
        exact q4 x hx0 hx trivial
      · have hlt : c < cc := by omega
        rw [q5 (x * A + c) (fun y => colIdx_ne A x y cc c h1 h2 hc0 (by omega) e),
          q6 (c * N + x) (by nlinarith)]
        exact hrel c x hc0 hlt hx0 hx)
  obtain ⟨-, k2, k3, k4⟩ := key
  exact ⟨k2, k3, fun c x hc0 hc hx0 hx => k4 c x hc0 hc hx0 hx⟩

/-- What `InsertKnotU` / `InsertKnotV` know of their numbers when they insert into a
non-decreasing knot vector: `p ≤ k`, `1 ≤ r`, `r + s ≤ p + 1` and `k - s < n`. -/
theorem insert_facts (K : List ℚ) (hs : K.Sorted (· ≤ ·)) (m q : Nat)
    (hlen : K.length = m + q) (hq : 1 ≤ q) (v : ℚ) (r : Int)
    (hg : ¬ (v < rd K ((q - 1 : Nat) : Int) ∨ v > rd K (m : Int)))
    (hr : ¬ adjustInsertions r (knotMultiplicity K (lastKnotLE K v) v) ((q - 1 : Nat) : Int) ≤ 0) :
    ((q - 1 : Nat) : Int) ≤ lastKnotLE K v ∧
    1 ≤ adjustInsertions r (knotMultiplicity K (lastKnotLE K v) v) ((q - 1 : Nat) : Int) ∧
    adjustInsertions r (knotMultiplicity K (lastKnotLE K v) v) ((q - 1 : Nat) : Int)
      + knotMultiplicity K (lastKnotLE K v) v ≤ ((q - 1 : Nat) : Int) + 1 ∧
    lastKnotLE K v - knotMultiplicity K (lastKnotLE K v) v < m := by
  push_neg at hg
  obtain ⟨g1, g2⟩ := hg
  have hb := lastKnotLE_bounds K v
  have hpk : ((q - 1 : Nat) : Int) ≤ lastKnotLE K v :=
    lastKnotLE_max K hs v (q - 1) (by omega) g1
  have hkk : lastKnotLE K v = (((lastKnotLE K v).toNat : Nat) : Int) := by omega
  have hkv : rd K (lastKnotLE K v) ≤ v := by
    rw [hkk]
    exact lastKnotLE_le K v _ (by omega)
  refine ⟨hpk, by omega, ?_, ?_⟩
  · unfold adjustInsertions
    split <;> omega
  · unfold knotMultiplicity
    by_cases hc : v ≤ rd K (lastKnotLE K v)
    · rw [if_pos hc]
      have rb := runLength_bounds K (lastKnotLE K v).toNat
      by_cases hle : runLength K (lastKnotLE K v).toNat ≤ ((lastKnotLE K v).toNat : Int)
      · have h1 := runLength_stop K (lastKnotLE K v).toNat hle
        rw [← hkk] at h1
        have h2 : rd K (lastKnotLE K v - runLength K (lastKnotLE K v).toNat + 1)
            ≤ rd K (lastKnotLE K v) :=
          rd_le_of_le K hs _ _ (by omega) (by omega) (by omega)
        by_contra hcon
        have h3 : rd K (m : Int) ≤ rd K (lastKnotLE K v - runLength K (lastKnotLE K v).toNat) :=
          rd_le_of_le K hs _ _ (by omega) (by omega) (by omega)
        linarith
      · omega
    · rw [if_neg hc]
      by_contra hcon
      have h3 : rd K (m : Int) ≤ rd K (lastKnotLE K v) :=
        rd_le_of_le K hs _ _ (by omega) (by omega) (by omega)
      have : rd K (lastKnotLE K v) < v := not_le.mp hc
      linarith

/-- The points of the transposed net. -/
theorem rd_transpose (S : CqSurfaceNURBS) (c i : Int) (hc0 : 0 ≤ c) (hc : c < S.m_cuVerts)
    (hi0 : 0 ≤ i) (hi : i < S.m_cvVerts) :
    rd S.transpose.P (c * S.m_cvVerts + i) = rd S.P (i * S.m_cuVerts + c) := by
  have hm : (0 : Int) < S.m_cvVerts := by omega
  obtain ⟨b1, b2⟩ := rowIdx_lt S.m_cuVerts S.m_cvVerts i c hi0 hi hc0 hc
  have e : c * (S.m_cvVerts : Int) + i = (((c * (S.m_cvVerts : Int) + i).toNat : Nat) : Int) := by
    omega
  obtain ⟨d1, d2⟩ := cell_div_mod c S.m_cvVerts (c * S.m_cvVerts + i) hm (by omega) (by omega)
  unfold transpose
  simp only []
  rw [e, rd_map_range _ _ _ (by omega)]
  congr 1
  push_cast
  rw [← e, d1, d2]
  ring

theorem split_index (A M t : Nat) (h : t < A * M) :
    ∃ x1 x2 : Nat, x2 < A ∧ x1 < M ∧ t = x1 * A + x2 := by
  have hA : 0 < A := by
    rcases Nat.eq_zero_or_pos A with h0 | h0
    · rw [h0] at h
      simp at h
    · exact h0
  refine ⟨t / A, t % A, Nat.mod_lt _ hA, ?_, ?_⟩
  · rw [Nat.div_lt_iff_lt_mul hA, Nat.mul_comm]
    exact h
  · have := Nat.div_add_mod t A
    rw [Nat.mul_comm] at this
    exact this.symm

theorem transpose_transpose (S : CqSurfaceNURBS)
    (hP : S.P.length = S.m_cuVerts * S.m_cvVerts) : S.transpose.transpose = S := by
  have hPP : S.transpose.transpose.P = S.P := by
    apply list_ext_rd
    · unfold transpose
      simp only [List.length_map, List.length_range]
      rw [hP]
    · intro t ht
      have hl : S.transpose.transpose.P.length = S.m_cuVerts * S.m_cvVerts := by
        unfold transpose
        simp only [List.length_map, List.length_range]
      rw [hl] at ht
      obtain ⟨x1, x2, hx2, hx1, e0⟩ := split_index S.m_cuVerts S.m_cvVerts t ht
      have e : (t : Int) = (x1 : Int) * S.m_cuVerts + (x2 : Int) := by
        rw [e0]
        push_cast
        ring
      have h1 := rd_transpose S.transpose (x1 : Int) (x2 : Int) (by omega) (by
          show (x1 : Int) < (S.m_cvVerts : Int)
          omega) (by omega) (by
          show (x2 : Int) < (S.m_cuVerts : Int)
          omega)
      have h2 := rd_transpose S (x2 : Int) (x1 : Int) (by omega) (by omega) (by omega) (by omega)
      have e1 : S.transpose.m_cvVerts = S.m_cuVerts := rfl
      have e2 : S.transpose.m_cuVerts = S.m_cvVerts := rfl
      rw [e1] at h1
      rw [e2] at h1
      rw [e, h1, h2]
  have key : S.transpose.transpose = { S with P := S.transpose.transpose.P } := rfl
  rw [key, hPP]

/-- C33: for a surface whose V knot vector is non-decreasing and has `m_cvVerts + m_vOrder`
entries (`m_vOrder ≥ 1`) and whose control net has `m_cuVerts * m_cvVerts` points, for every
value `t` and count `r`, `InsertKnotV(t, r)` returns the same count as `InsertKnotU(t, r)` on
the transposed surface (U and V knot vectors, orders and vertex counts swapped, control net
transposed) and leaves the transpose of what `InsertKnotU` leaves there. -/
theorem InsertKnotV_mirror (S : CqSurfaceNURBS) (t : ℚ) (r : Int)
    (hs : S.m_avKnots.Sorted (· ≤ ·)) (hlen : S.m_avKnots.length = S.m_cvVerts + S.m_vOrder)
    (hq : 1 ≤ S.m_vOrder) (hP : S.P.length = S.m_cuVerts * S.m_cvVerts) :
    InsertKnotV S t r
      = ((InsertKnotU S.transpose t r).1.transpose, (InsertKnotU S.transpose t r).2) := by
  have tt := transpose_transpose S hP
  have e1 : S.transpose.m_auKnots = S.m_avKnots := rfl
  have e2 : S.transpose.uDegree = S.vDegree := rfl
  have e3 : S.transpose.m_cuVerts = S.m_cvVerts := rfl
  have e4 : S.transpose.m_cvVerts = S.m_cuVerts := rfl
  have e5 : S.transpose.m_uOrder = S.m_vOrder := rfl
  unfold InsertKnotV InsertKnotU
  simp only [e1, e2, e3, e4, e5]
  by_cases h1 : t < rd S.m_avKnots S.vDegree ∨ t > rd S.m_avKnots S.m_cvVerts
  · simp only [h1, if_true, tt]
  · simp only [h1, if_false]
    by_cases h2 : adjustInsertions r
        (knotMultiplicity S.m_avKnots (lastKnotLE S.m_avKnots t) t) S.vDegree ≤ 0
    · simp only [h2, if_true, tt]
    · simp only [h2, if_false]
      obtain ⟨f1, f2, f3, f4⟩ := insert_facts S.m_avKnots hs S.m_cvVerts S.m_vOrder hlen hq t r
        h1 h2
      have hN : ((S.m_cvVerts + (adjustInsertions r
          (knotMultiplicity S.m_avKnots (lastKnotLE S.m_avKnots t) t) S.vDegree).toNat : Nat) : Int)
          = (S.m_cvVerts : Int) + adjustInsertions r
            (knotMultiplicity S.m_avKnots (lastKnotLE S.m_avKnots t) t) S.vDegree := by
        push_cast
        omega
      obtain ⟨l1, l2, l3⟩ := mirror_lines
        (loadKnots (resize S.m_avKnots (S.m_cvVerts + (adjustInsertions r
          (knotMultiplicity S.m_avKnots (lastKnotLE S.m_avKnots t) t) S.vDegree).toNat
            + S.m_vOrder)) (lastKnotLE S.m_avKnots t) (adjustInsertions r
          (knotMultiplicity S.m_avKnots (lastKnotLE S.m_avKnots t) t) S.vDegree) t)
        S.P S.transpose.P t S.m_cuVerts S.m_cvVerts
        (S.m_cvVerts + (adjustInsertions r
          (knotMultiplicity S.m_avKnots (lastKnotLE S.m_avKnots t) t) S.vDegree).toNat)
        (lastKnotLE S.m_avKnots t)
        (knotMultiplicity S.m_avKnots (lastKnotLE S.m_avKnots t) t)
        (adjustInsertions r
          (knotMultiplicity S.m_avKnots (lastKnotLE S.m_avKnots t) t) S.vDegree)
        S.vDegree hN f1 f2 f3 f4
        (fun c i hc0 hc hi0 hi => (rd_transpose S c i hc0 hc hi0 hi).symm)
        (resize S.P (S.m_cuVerts * (S.m_cvVerts + (adjustInsertions r
          (knotMultiplicity S.m_avKnots (lastKnotLE S.m_avKnots t) t) S.vDegree).toNat)))
        (resize S.transpose.P ((S.m_cvVerts + (adjustInsertions r
          (knotMultiplicity S.m_avKnots (lastKnotLE S.m_avKnots t) t) S.vDegree).toNat)
            * S.m_cuVerts))
        (List.replicate ((S.vDegree : Int) + 1).toNat 0)
        (resize_length _ _) (resize_length _ _)
      rw [Prod.mk.injEq]
      refine ⟨?_, rfl⟩
      unfold transpose
      simp only []
      congr 1
      apply list_ext_rd
      · rw [l1]
        simp only [List.length_map, List.length_range]
      · intro x hx
        rw [l1] at hx
        obtain ⟨x1, x2, hx2, hx1, e0⟩ := split_index S.m_cuVerts _ x hx
        have e : (x : Int) = (x1 : Int) * S.m_cuVerts + (x2 : Int) := by
          rw [e0]
          push_cast
          ring
        rw [rd_map_range _ _ _ hx]
        have := l3 (x2 : Int) (x1 : Int) (by omega) (by omega) (by omega) (by omega)
        rw [← e] at this
        rw [this]
        have ed : x / S.m_cuVerts = x1 := by
          rw [e0, Nat.mul_comm, Nat.mul_add_div (by omega), Nat.div_eq_of_lt hx2]
          rfl
        have em : x % S.m_cuVerts = x2 := by
          rw [e0, Nat.mul_comm, Nat.mul_add_mod, Nat.mod_eq_of_lt hx2]
        rw [ed, em]
        rfl

/-- C33 on the 4 x 3 net `unclamped` (V knots `0,1,2,3,4`, order 2) with the value `3/2`: one
knot is inserted on both sides, and the net of four rows that `InsertKnotV` leaves is the
transpose of the net of four columns that `InsertKnotU` leaves on the transposed surface. -/
theorem InsertKnotV_mirror_witness :
    InsertKnotV Examples.unclamped (3 / 2) 1
        = ((InsertKnotU Examples.unclamped.transpose (3 / 2) 1).1.transpose,
            (InsertKnotU Examples.unclamped.transpose (3 / 2) 1).2) ∧
      (InsertKnotV Examples.unclamped (3 / 2) 1).2 = 1 ∧
      (InsertKnotV Examples.unclamped (3 / 2) 1).1.m_avKnots = [0, 1, 3 / 2, 2, 3, 4] ∧
      (InsertKnotV Examples.unclamped (3 / 2) 1).1.m_cvVerts = 4 ∧
      (InsertKnotU Examples.unclamped.transpose (3 / 2) 1).1.m_cuVerts = 4 :=
  ⟨InsertKnotV_mirror Examples.unclamped (3 / 2) 1 (by with_unfolding_all decide)
    (by decide) (by decide) (by decide), by decide!, by decide!, by decide!, by decide!⟩

/-! ### Dicing the bilinear patch on `float` values -/

theorem dice32_fields (self : Patch) (nu nv : Int) (tessCtx : TessellationContext) :
    (self.dice32 nu nv tessCtx).invoked = tessCtx.invoked ∧
    (self.dice32 nu nv tessCtx).pushed = tessCtx.pushed ∧
    (self.dice32 nu nv tessCtx).options = tessCtx.options ∧
    ∃ grid : QuadGrid, (self.dice32 nu nv tessCtx).grids = tessCtx.grids ++ [grid] ∧
      grid.nu = nu ∧ grid.nv = nv ∧ grid.storage.nverts = (nu * nv).toNat ∧
      grid.storage.varSet = self.m_vars.varSet :=
  ⟨rfl, rfl, rfl, _, rfl, rfl, rfl, rfl, rfl⟩


/-- The branch of `Patch::dice` on `float` values for a variable that is not uniform: lengths are kept, and the
buffer holds the bilinear interpolation at every flat index of the `nv * nu` cells. -/
theorem diceInterpolate32_spec (self : Patch) (nu nv : Int) (du dv : ℚ) (size : Int)
    (pvar : List ℚ) (st : List ℚ × List ℚ × List ℚ) (hs : 0 < size) (hnu : 0 < nu)
    (hnv : 0 ≤ nv) (h1 : size ≤ st.2.1.length) (h2 : size ≤ st.2.2.length) :
    (self.diceInterpolate32 nu nv du dv size pvar st).1.length = st.1.length ∧
    (self.diceInterpolate32 nu nv du dv size pvar st).2.1.length = st.2.1.length ∧
    (self.diceInterpolate32 nu nv du dv size pvar st).2.2.length = st.2.2.length ∧
    ∀ t : Int, 0 ≤ t → t < nv * nu * size → t < st.1.length →
      rd (self.diceInterpolate32 nu nv du dv size pvar st).1 t =
        self.diceFlat32 nu du dv size pvar t := by
  unfold Patch.diceInterpolate32
  refine forUp_induction_idx (fun v (s : List ℚ × List ℚ × List ℚ) =>
    s.1.length = st.1.length ∧ s.2.1.length = st.2.1.length ∧ s.2.2.length = st.2.2.length ∧
    ∀ t : Int, 0 ≤ t → t < v * nu * size → t < st.1.length →
      rd s.1 t = self.diceFlat32 nu du dv size pvar t) 0 nv hnv _ st ?_ ?_
  · refine ⟨rfl, rfl, rfl, fun t ht0 ht1 _ => ?_⟩
    rw [zero_mul, zero_mul] at ht1
    omega
  · intro v s hv0 hv1 hinv
    obtain ⟨hl1, hl2, hl3, hval⟩ := hinv
    simp only []
    rw [forUp_pair 0 size
      (fun i (a : List ℚ) => wr a i (Binary32.lerp (rd pvar i) (rd pvar (2 * size + i))
        (Binary32.add self.m_vMin (Binary32.mul dv (Binary32.ofInt v)))))
      (fun i (a : List ℚ) => wr a i (Binary32.lerp (rd pvar (size + i)) (rd pvar (3 * size + i))
        (Binary32.add self.m_vMin (Binary32.mul dv (Binary32.ofInt v))))) s.2.1 s.2.2]
    obtain ⟨a1, a2⟩ := forUp_wr_fill size
      (fun i => Binary32.lerp (rd pvar i) (rd pvar (2 * size + i)) (Binary32.add self.m_vMin (Binary32.mul dv (Binary32.ofInt v)))) s.2.1
      (by omega)
    obtain ⟨b1, b2⟩ := forUp_wr_fill size
      (fun i => Binary32.lerp (rd pvar (size + i)) (rd pvar (3 * size + i))
        (Binary32.add self.m_vMin (Binary32.mul dv (Binary32.ofInt v)))) s.2.2 (by omega)
    obtain ⟨r1, r2⟩ := dice_row nu size (v * nu) hs
      (fun u i => Binary32.lerp
        (rd (forUp 0 size (fun i (a : List ℚ) => wr a i (Binary32.lerp (rd pvar i)
          (rd pvar (2 * size + i)) (Binary32.add self.m_vMin (Binary32.mul dv (Binary32.ofInt v))))) s.2.1) i)
        (rd (forUp 0 size (fun i (a : List ℚ) => wr a i (Binary32.lerp (rd pvar (size + i))
          (rd pvar (3 * size + i)) (Binary32.add self.m_vMin (Binary32.mul dv (Binary32.ofInt v))))) s.2.2) i)
        (Binary32.add self.m_uMin (Binary32.mul du (Binary32.ofInt u)))) s.1
    refine ⟨by rw [r1, hl1], by rw [a1, hl2], by rw [b1, hl3], fun t ht0 ht1 ht2 => ?_⟩
    show rd (forUp 0 nu (fun u (g : List ℚ) => forUp 0 size (fun i (out : List ℚ) =>
      wr out ((v * nu + u) * size + i) _) g) s.1) t = _
    rw [r2 t]
    have e1 : (v + 1) * nu * size = (v * nu + nu) * size := by ring
    rw [e1] at ht1
    by_cases hc : v * nu * size ≤ t
    · rw [if_pos ⟨hc, ht1, ht0, by omega⟩]
      obtain ⟨c1, c2⟩ := cell_range (v * nu) (v * nu + nu) size t hs hc ht1
      have hm0 := Int.emod_nonneg t (ne_of_gt hs)
      have hm1 := Int.emod_lt_of_pos t hs
      obtain ⟨d1, d2⟩ := cell_div_mod v nu (t / size) hnu c1 (by omega)
      rw [a2 _ hm0 hm1, b2 _ hm0 hm1]
      unfold Patch.diceFlat32
      simp only []
      rw [d1, d2]
    · rw [if_neg (by omega)]
      exact hval t ht0 (by omega) ht2

theorem diceInterpolate32_length (self : Patch) (nu nv : Int) (du dv : ℚ) (size : Int)
    (pvar : List ℚ) (st : List ℚ × List ℚ × List ℚ) :
    (self.diceInterpolate32 nu nv du dv size pvar st).1.length = st.1.length ∧
    (self.diceInterpolate32 nu nv du dv size pvar st).2.1.length = st.2.1.length ∧
    (self.diceInterpolate32 nu nv du dv size pvar st).2.2.length = st.2.2.length := by
  unfold Patch.diceInterpolate32
  refine forUp_induction (fun (s : List ℚ × List ℚ × List ℚ) =>
    s.1.length = st.1.length ∧ s.2.1.length = st.2.1.length ∧ s.2.2.length = st.2.2.length)
    0 nv _ st ⟨rfl, rfl, rfl⟩ ?_
  intro v s _ _ hinv
  obtain ⟨hl1, hl2, hl3⟩ := hinv
  simp only []
  rw [forUp_pair 0 size
    (fun i (a : List ℚ) => wr a i (Binary32.lerp (rd pvar i) (rd pvar (2 * size + i))
      (Binary32.add self.m_vMin (Binary32.mul dv (Binary32.ofInt v)))))
    (fun i (a : List ℚ) => wr a i (Binary32.lerp (rd pvar (size + i)) (rd pvar (3 * size + i))
      (Binary32.add self.m_vMin (Binary32.mul dv (Binary32.ofInt v))))) s.2.1 s.2.2]
  refine ⟨?_, ?_, ?_⟩
  · rw [← hl1]
    refine forUp_induction (fun (g : List ℚ) => g.length = s.1.length) 0 nu _ s.1 rfl ?_
    intro u g _ _ hg
    show (forUp 0 size _ g).length = s.1.length
    rw [forUp_wr_length, hg]
  · rw [← hl2]
    dsimp only
    exact forUp_wr_length _ _ _ _ _
  · rw [← hl3]
    dsimp only
    exact forUp_wr_length _ _ _ _ _


/-- The loop over the variables in `Patch::dice` on `float` values: every grid buffer ends as `diceGood32` asks. -/
theorem dice32_loop (self : Patch) (nu nv : Int) :
    (forUp 0 self.m_vars.varSet.length
      (fun ivar (st : List (List ℚ) × List ℚ × List ℚ) =>
        let pvar := self.m_vars.data.getD ivar.toNat []
        let spec := self.m_vars.varSet.getD ivar.toNat ⟨EqVariableClass.class_constant, 0⟩
        let gvar := st.1.getD ivar.toNat []
        let size : Int := spec.elSize
        if spec.uniform then
          (st.1.set ivar.toNat (forUp 0 size (fun i g => wr g i (rd pvar i)) gvar), st.2.1,
            st.2.2)
        else
          let r := self.diceInterpolate32 nu nv
            (Binary32.div (Binary32.sub self.m_uMax self.m_uMin) (Binary32.ofInt (nu - 1)))
            (Binary32.div (Binary32.sub self.m_vMax self.m_vMin) (Binary32.ofInt (nv - 1))) size pvar
            (gvar, st.2.1, st.2.2)
          (st.1.set ivar.toNat r.1, r.2.1, r.2.2))
      ((GridStorage.build self.m_vars.varSet (nu * nv)).buffers,
        List.replicate (GridStorage.build self.m_vars.varSet (nu * nv)).maxAggregateSize 0,
        List.replicate (GridStorage.build self.m_vars.varSet (nu * nv)).maxAggregateSize
          0)).1.length = self.m_vars.varSet.length ∧
    ∀ k : Nat, k < self.m_vars.varSet.length → self.diceGood32 nu nv k
      ((forUp 0 self.m_vars.varSet.length
      (fun ivar (st : List (List ℚ) × List ℚ × List ℚ) =>
        let pvar := self.m_vars.data.getD ivar.toNat []
        let spec := self.m_vars.varSet.getD ivar.toNat ⟨EqVariableClass.class_constant, 0⟩
        let gvar := st.1.getD ivar.toNat []
        let size : Int := spec.elSize
        if spec.uniform then
          (st.1.set ivar.toNat (forUp 0 size (fun i g => wr g i (rd pvar i)) gvar), st.2.1,
            st.2.2)
        else
          let r := self.diceInterpolate32 nu nv
            (Binary32.div (Binary32.sub self.m_uMax self.m_uMin) (Binary32.ofInt (nu - 1)))
            (Binary32.div (Binary32.sub self.m_vMax self.m_vMin) (Binary32.ofInt (nv - 1))) size pvar
            (gvar, st.2.1, st.2.2)
          (st.1.set ivar.toNat r.1, r.2.1, r.2.2))
      ((GridStorage.build self.m_vars.varSet (nu * nv)).buffers,
        List.replicate (GridStorage.build self.m_vars.varSet (nu * nv)).maxAggregateSize 0,
        List.replicate (GridStorage.build self.m_vars.varSet (nu * nv)).maxAggregateSize
          0)).1.getD k []) := by
  have hinit : (GridStorage.build self.m_vars.varSet (nu * nv)).buffers.length =
      self.m_vars.varSet.length := by
    simp [GridStorage.build]
  have key := forUp_induction_idx (fun n (st : List (List ℚ) × List ℚ × List ℚ) =>
    st.1.length = self.m_vars.varSet.length ∧
    st.2.1.length = (GridStorage.build self.m_vars.varSet (nu * nv)).maxAggregateSize ∧
    st.2.2.length = (GridStorage.build self.m_vars.varSet (nu * nv)).maxAggregateSize ∧
    (∀ k : Nat, (k : Int) < n → k < self.m_vars.varSet.length →
      self.diceGood32 nu nv k (st.1.getD k [])) ∧
    (∀ k : Nat, n ≤ (k : Int) → k < self.m_vars.varSet.length →
      st.1.getD k [] = (GridStorage.build self.m_vars.varSet (nu * nv)).buffers.getD k []))
    0 self.m_vars.varSet.length (by omega)
    (fun ivar (st : List (List ℚ) × List ℚ × List ℚ) =>
        let pvar := self.m_vars.data.getD ivar.toNat []
        let spec := self.m_vars.varSet.getD ivar.toNat ⟨EqVariableClass.class_constant, 0⟩
        let gvar := st.1.getD ivar.toNat []
        let size : Int := spec.elSize
        if spec.uniform then
          (st.1.set ivar.toNat (forUp 0 size (fun i g => wr g i (rd pvar i)) gvar), st.2.1,
            st.2.2)
        else
          let r := self.diceInterpolate32 nu nv
            (Binary32.div (Binary32.sub self.m_uMax self.m_uMin) (Binary32.ofInt (nu - 1)))
            (Binary32.div (Binary32.sub self.m_vMax self.m_vMin) (Binary32.ofInt (nv - 1))) size pvar
            (gvar, st.2.1, st.2.2)
          (st.1.set ivar.toNat r.1, r.2.1, r.2.2))
    ((GridStorage.build self.m_vars.varSet (nu * nv)).buffers,
        List.replicate (GridStorage.build self.m_vars.varSet (nu * nv)).maxAggregateSize 0,
        List.replicate (GridStorage.build self.m_vars.varSet (nu * nv)).maxAggregateSize 0)
    ⟨hinit, List.length_replicate _ _, List.length_replicate _ _,
      fun k hk _ => absurd hk (by omega), fun k _ _ => rfl⟩ ?_
  · exact ⟨key.1, fun k hk => key.2.2.2.1 k (by omega) hk⟩
  · intro n st hn0 hn1 hinv
    obtain ⟨hl, hA, hB, hdone, hrest⟩ := hinv
    have hnN : n.toNat < self.m_vars.varSet.length := by omega
    have hg : st.1.getD n.toNat [] = List.replicate
        ((if (self.m_vars.varSet.getD n.toNat ⟨EqVariableClass.class_constant, 0⟩).uniform then 1
          else (nu * nv).toNat) *
          (self.m_vars.varSet.getD n.toNat ⟨EqVariableClass.class_constant, 0⟩).elSize)
        (0 : ℚ) := by
      rw [hrest n.toNat (by omega) hnN]
      exact build_buffer _ _ _ hnN
    have hmax := elSize_le_maxAggregateSize self.m_vars.varSet (nu * nv) n.toNat hnN
    simp only []
    by_cases hu : (self.m_vars.varSet.getD n.toNat ⟨EqVariableClass.class_constant, 0⟩).uniform
        = true
    · rw [if_pos hu]
      refine ⟨by rw [List.length_set]; exact hl, hA, hB, ?_, ?_⟩
      · intro k hk1 hk2
        by_cases hkn : k = n.toNat
        · subst hkn
          rw [getD_set_self _ _ _ (by omega)]
          have hlen : (st.1.getD n.toNat []).length =
              (self.m_vars.varSet.getD n.toNat ⟨EqVariableClass.class_constant, 0⟩).elSize := by
            rw [hg, hu, List.length_replicate]
            simp
          obtain ⟨f1, f2⟩ := forUp_wr_fill
            ((self.m_vars.varSet.getD n.toNat ⟨EqVariableClass.class_constant, 0⟩).elSize : Int)
            (fun i => rd (self.m_vars.data.getD n.toNat []) i) (st.1.getD n.toNat [])
            (by omega)
          refine ⟨fun _ => ⟨by rw [f1, hlen], fun c hc0 hc1 => f2 c hc0 hc1⟩, fun h => ?_⟩
          rw [hu] at h
          exact absurd h (by decide)
        · rw [getD_set_ne _ _ _ _ (Ne.symm hkn)]
          exact hdone k (by omega) hk2
      · intro k hk1 hk2
        rw [getD_set_ne _ _ _ _ (by omega)]
        exact hrest k (by omega) hk2
    · have hu2 : (self.m_vars.varSet.getD n.toNat ⟨EqVariableClass.class_constant, 0⟩).uniform
          = false := by
        cases hb : (self.m_vars.varSet.getD n.toNat ⟨EqVariableClass.class_constant, 0⟩).uniform
        · rfl
        · exact absurd hb hu
      rw [if_neg hu]
      obtain ⟨g1, g2, g3⟩ := diceInterpolate32_length self nu nv
        (Binary32.div (Binary32.sub self.m_uMax self.m_uMin) (Binary32.ofInt (nu - 1)))
        (Binary32.div (Binary32.sub self.m_vMax self.m_vMin) (Binary32.ofInt (nv - 1)))
        ((self.m_vars.varSet.getD n.toNat ⟨EqVariableClass.class_constant, 0⟩).elSize : Int)
        (self.m_vars.data.getD n.toNat []) (st.1.getD n.toNat [], st.2.1, st.2.2)
      refine ⟨by rw [List.length_set]; exact hl, by rw [g2]; exact hA, by rw [g3]; exact hB,
        ?_, ?_⟩
      · intro k hk1 hk2
        by_cases hkn : k = n.toNat
        · subst hkn
          rw [getD_set_self _ _ _ (by omega)]
          have hlen : (st.1.getD n.toNat []).length = (nu * nv).toNat *
              (self.m_vars.varSet.getD n.toNat ⟨EqVariableClass.class_constant, 0⟩).elSize := by
            rw [hg, hu2, List.length_replicate]
            simp
          refine ⟨fun h => ?_, fun _ => ⟨by rw [g1]; exact hlen, fun hnu hnv t ht0 ht1 => ?_⟩⟩
          · rw [hu2] at h
            exact absurd h (by decide)
          · have hsz : 0 < ((self.m_vars.varSet.getD n.toNat
                ⟨EqVariableClass.class_constant, 0⟩).elSize : Int) := by
              rcases Nat.eq_zero_or_pos (self.m_vars.varSet.getD n.toNat
                ⟨EqVariableClass.class_constant, 0⟩).elSize with h0 | h0
              · rw [h0] at ht1
                simp at ht1
                omega
              · omega
            have hprod : 0 ≤ nu * nv := mul_nonneg (le_of_lt hnu) hnv
            have hcast : (((nu * nv).toNat * (self.m_vars.varSet.getD n.toNat
                ⟨EqVariableClass.class_constant, 0⟩).elSize : Nat) : Int) = nv * nu *
                ((self.m_vars.varSet.getD n.toNat
                  ⟨EqVariableClass.class_constant, 0⟩).elSize : Int) := by
              push_cast
              rw [Int.toNat_of_nonneg hprod]
              ring
            exact (diceInterpolate32_spec self nu nv _ _ _ _
              (st.1.getD n.toNat [], st.2.1, st.2.2) hsz hnu hnv (by
                show _ ≤ (st.2.1.length : Int)
                rw [hA]
                omega) (by
                show _ ≤ (st.2.2.length : Int)
                rw [hB]
                omega)).2.2.2 t ht0 ht1 (by
                show t < ((st.1.getD n.toNat []).length : Int)
                rw [hlen, hcast]
                exact ht1)
        · rw [getD_set_ne _ _ _ _ (Ne.symm hkn)]
          exact hdone k (by omega) hk2
      · intro k hk1 hk2
        rw [getD_set_ne _ _ _ _ (by omega)]
        exact hrest k (by omega) hk2

/-- The grid that `Patch::dice` on `float` values pushes. -/
theorem dice32_grid (self : Patch) (nu nv : Int) (tessCtx : TessellationContext) :
    ∃ grid : QuadGrid, (self.dice32 nu nv tessCtx).grids = tessCtx.grids ++ [grid] ∧
      grid.nu = nu ∧ grid.nv = nv ∧ grid.storage.varSet = self.m_vars.varSet ∧
      grid.storage.nverts = (nu * nv).toNat ∧
      grid.storage.buffers.length = self.m_vars.varSet.length ∧
      ∀ k : Nat, k < self.m_vars.varSet.length →
        self.diceGood32 nu nv k (grid.storage.buffers.getD k []) :=
  ⟨_, rfl, rfl, rfl, rfl, rfl, (dice32_loop self nu nv).1, (dice32_loop self nu nv).2⟩


/-- The value of a variable that is not uniform at the micro-vertex in column `i`, row `j`. -/
theorem dice32_value (self : Patch) (nu nv : Int) (hnu : 2 ≤ nu) (hnv : 2 ≤ nv) (ivar : Nat)
    (hnon : (self.m_vars.varSet.getD ivar ⟨EqVariableClass.class_constant, 0⟩).uniform = false)
    (grid : QuadGrid) (hvs : grid.storage.varSet = self.m_vars.varSet)
    (hgood : self.diceGood32 nu nv ivar (grid.storage.buffers.getD ivar []))
    (i j c : Int) (hi0 : 0 ≤ i) (hi : i < nu) (hj0 : 0 ≤ j) (hj : j < nv) (hc0 : 0 ≤ c)
    (hc : c < ((self.m_vars.varSet.getD ivar ⟨EqVariableClass.class_constant, 0⟩).elSize : Int)) :
    grid.storage.value ivar (j * nu + i) c =
      Binary32.lerp
        (Binary32.lerp (rd (self.m_vars.data.getD ivar []) c)
          (rd (self.m_vars.data.getD ivar [])
            (2 * ((self.m_vars.varSet.getD ivar ⟨EqVariableClass.class_constant, 0⟩).elSize : Int)
              + c))
          (Patch.param32 self.m_vMin self.m_vMax nv j))
        (Binary32.lerp
          (rd (self.m_vars.data.getD ivar [])
            (((self.m_vars.varSet.getD ivar ⟨EqVariableClass.class_constant, 0⟩).elSize : Int)
              + c))
          (rd (self.m_vars.data.getD ivar [])
            (3 * ((self.m_vars.varSet.getD ivar ⟨EqVariableClass.class_constant, 0⟩).elSize : Int)
              + c))
          (Patch.param32 self.m_vMin self.m_vMax nv j))
        (Patch.param32 self.m_uMin self.m_uMax nu i) := by
  obtain ⟨c1, c2⟩ := cell_lt nu nv i j hi0 hi hj0 hj
  have hs : 0 < ((self.m_vars.varSet.getD ivar ⟨EqVariableClass.class_constant, 0⟩).elSize : Int) :=
    by omega
  have hb : (j * nu + i) * ((self.m_vars.varSet.getD ivar
      ⟨EqVariableClass.class_constant, 0⟩).elSize : Int) + c < nv * nu *
      ((self.m_vars.varSet.getD ivar ⟨EqVariableClass.class_constant, 0⟩).elSize : Int) := by
    have := mul_le_mul_of_nonneg_right c2 (le_of_lt hs)
    have e : (j * nu + i + 1) * ((self.m_vars.varSet.getD ivar
      ⟨EqVariableClass.class_constant, 0⟩).elSize : Int) = (j * nu + i) *
      ((self.m_vars.varSet.getD ivar ⟨EqVariableClass.class_constant, 0⟩).elSize : Int) +
      ((self.m_vars.varSet.getD ivar ⟨EqVariableClass.class_constant, 0⟩).elSize : Int) := by
      ring
    omega
  have hb0 : 0 ≤ (j * nu + i) * ((self.m_vars.varSet.getD ivar
      ⟨EqVariableClass.class_constant, 0⟩).elSize : Int) + c := by
    have := mul_nonneg c1 (le_of_lt hs)
    omega
  have hv := (hgood.2 hnon).2 (by omega) (by omega) _ hb0 hb
  unfold GridStorage.value
  simp only []
  rw [hvs, hnon]
  simp only [Bool.false_eq_true, if_false]
  rw [hv]
  unfold Patch.diceFlat32
  simp only []
  obtain ⟨d1, d2⟩ := cell_div_mod (j * nu + i)
    ((self.m_vars.varSet.getD ivar ⟨EqVariableClass.class_constant, 0⟩).elSize : Int)
    ((j * nu + i) * ((self.m_vars.varSet.getD ivar
      ⟨EqVariableClass.class_constant, 0⟩).elSize : Int) + c) hs (by omega) (by omega)
  obtain ⟨e1, e2⟩ := cell_div_mod j nu (j * nu + i) (by omega) (by omega) (by omega)
  rw [d1, d2, e1, e2]
  have f1 : (j * nu + i) * ((self.m_vars.varSet.getD ivar
      ⟨EqVariableClass.class_constant, 0⟩).elSize : Int) + c - (j * nu + i) *
      ((self.m_vars.varSet.getD ivar ⟨EqVariableClass.class_constant, 0⟩).elSize : Int) = c := by
    omega
  have f2 : j * nu + i - j * nu = i := by omega
  rw [f1, f2]
  rfl

theorem Binary32_round_zero : Binary32.round 0 = 0 := by
  unfold Binary32.round
  rw [if_pos rfl]

theorem Binary32_round_one : Binary32.round 1 = 1 := by
  decide!

/-- In binary32 `lerp(a, b, 0)` is `a` when `a` is a binary32 number. -/
theorem Binary32_lerp_zero (a b : ℚ) (ha : Binary32.round a = a) : Binary32.lerp a b 0 = a := by
  unfold Binary32.lerp Binary32.add Binary32.mul Binary32.sub
  rw [sub_zero, Binary32_round_one, one_mul, ha, zero_mul, Binary32_round_zero, add_zero, ha]

/-- In binary32 `lerp(a, b, 1)` is `b` when `b` is a binary32 number. -/
theorem Binary32_lerp_one (a b : ℚ) (hb : Binary32.round b = b) : Binary32.lerp a b 1 = b := by
  unfold Binary32.lerp Binary32.add Binary32.mul Binary32.sub
  rw [sub_self, Binary32_round_zero, zero_mul, Binary32_round_zero, one_mul, hb, zero_add, hb]

/-- The parameter of the first column (or row) of a range that starts at 0 is 0. -/
theorem param32_first (max : ℚ) (n : Int) : Patch.param32 0 max n 0 = 0 := by
  unfold Patch.param32 Binary32.add Binary32.mul Binary32.ofInt
  rw [Int.cast_zero, Binary32_round_zero, mul_zero, Binary32_round_zero, add_zero,
    Binary32_round_zero]

/-- The parameter that `Patch::dice` computes on `float` values for the last column of `n`
columns over the range `[0, 1]` is exactly 1 for every `n` from 2 to 41; `n = 42` is the first
for which it is not. -/
theorem param32_last_small :
    (∀ n ∈ List.range 42, 2 ≤ n → Patch.param32 0 1 (n : Int) ((n : Int) - 1) = 1) ∧
    Patch.param32 0 1 42 (42 - 1) ≠ 1 := by
  decide!

/-- C15, as amended: the corner law on `float` values.  For a patch built by the public
constructor (range `[0,1] x [0,1]`) and diced with `nu, nv >= 2`, take a varying variable
`ivar` and a float `c` of it at which the four input elements `pvar[0]`, ..., `pvar[3]` are
finite binary32 numbers.  The grid corner `0` holds `pvar[0]`.  The corner `nu - 1` holds
`pvar[1]` when the parameter that the code computes for the last column, `0 + du*(nu - 1)` with
`du = (1 - 0)/(nu - 1)` in binary32, is exactly 1; the corner `(nv - 1) * nu` holds `pvar[2]`
when the parameter computed for the last row is exactly 1; and the corner `nv * nu - 1` holds
`pvar[3]` when both are. -/
theorem Patch_dice_corners_binary32 (vars : PrimvarStorage) (nu nv : Int)
    (tessCtx : TessellationContext) (hnu : 2 ≤ nu) (hnv : 2 ≤ nv) (ivar : Nat)
    (hiv : ivar < vars.varSet.length)
    (hvar : (vars.varSet.getD ivar ⟨EqVariableClass.class_constant, 0⟩).iclass =
      EqVariableClass.class_varying)
    (c : Int) (hc0 : 0 ≤ c)
    (hc : c < ((vars.varSet.getD ivar ⟨EqVariableClass.class_constant, 0⟩).elSize : Int))
    (h1 : Binary32.IsFloat (rd (vars.data.getD ivar []) c))
    (h2 : Binary32.IsFloat (rd (vars.data.getD ivar [])
      (((vars.varSet.getD ivar ⟨EqVariableClass.class_constant, 0⟩).elSize : Int) + c)))
    (h3 : Binary32.IsFloat (rd (vars.data.getD ivar [])
      (2 * ((vars.varSet.getD ivar ⟨EqVariableClass.class_constant, 0⟩).elSize : Int) + c)))
    (h4 : Binary32.IsFloat (rd (vars.data.getD ivar [])
      (3 * ((vars.varSet.getD ivar ⟨EqVariableClass.class_constant, 0⟩).elSize : Int) + c))) :
    ∃ grid : QuadGrid,
      ((Patch.ofVars vars).dice32 nu nv tessCtx).grids = tessCtx.grids ++ [grid] ∧
      grid.storage.value ivar 0 c = rd (vars.data.getD ivar []) c ∧
      (Patch.param32 0 1 nu (nu - 1) = 1 →
        grid.storage.value ivar (nu - 1) c = rd (vars.data.getD ivar [])
          (((vars.varSet.getD ivar ⟨EqVariableClass.class_constant, 0⟩).elSize : Int) + c)) ∧
      (Patch.param32 0 1 nv (nv - 1) = 1 →
        grid.storage.value ivar ((nv - 1) * nu) c = rd (vars.data.getD ivar [])
          (2 * ((vars.varSet.getD ivar ⟨EqVariableClass.class_constant, 0⟩).elSize : Int) + c)) ∧
      (Patch.param32 0 1 nu (nu - 1) = 1 → Patch.param32 0 1 nv (nv - 1) = 1 →
        grid.storage.value ivar (nv * nu - 1) c = rd (vars.data.getD ivar [])
          (3 * ((vars.varSet.getD ivar ⟨EqVariableClass.class_constant, 0⟩).elSize : Int)
            + c)) := by
  have hnon : ((Patch.ofVars vars).m_vars.varSet.getD ivar
      ⟨EqVariableClass.class_constant, 0⟩).uniform = false := by
    show (vars.varSet.getD ivar ⟨EqVariableClass.class_constant, 0⟩).uniform = false
    unfold VariableSpec.uniform
    rw [hvar]
    decide
  obtain ⟨grid, g1, -, -, g4, -, -, g7⟩ := dice32_grid (Patch.ofVars vars) nu nv tessCtx
  have hval := dice32_value (Patch.ofVars vars) nu nv hnu hnv ivar hnon grid g4 (g7 ivar hiv)
  simp only [Patch.ofVars] at hval
  refine ⟨grid, g1, ?_, ?_, ?_, ?_⟩
  · have := hval 0 0 c (le_refl _) (by omega) (le_refl _) (by omega) hc0 hc
    rw [zero_mul, zero_add] at this
    rw [this, param32_first, param32_first, Binary32_lerp_zero _ _ h1.1,
      Binary32_lerp_zero _ _ h2.1, Binary32_lerp_zero _ _ h1.1]
  · intro hu
    have := hval (nu - 1) 0 c (by omega) (by omega) (le_refl _) (by omega) hc0 hc
    rw [zero_mul, zero_add] at this
    rw [this, hu, param32_first, Binary32_lerp_zero _ _ h1.1, Binary32_lerp_zero _ _ h2.1,
      Binary32_lerp_one _ _ h2.1]
  · intro hv
    have := hval 0 (nv - 1) c (le_refl _) (by omega) (by omega) (by omega) hc0 hc
    rw [add_zero] at this
    rw [this, hv, param32_first, Binary32_lerp_one _ _ h3.1, Binary32_lerp_one _ _ h4.1,
      Binary32_lerp_zero _ _ h3.1]
  · intro hu hv
    have := hval (nu - 1) (nv - 1) c (by omega) (by omega) (by omega) (by omega) hc0 hc
    have e : (nv - 1) * nu + (nu - 1) = nv * nu - 1 := by ring
    rw [e] at this
    rw [this, hu, hv, Binary32_lerp_one _ _ h3.1, Binary32_lerp_one _ _ h4.1,
      Binary32_lerp_one _ _ h4.1]

/-- Witness for C15 as amended: the varying float of `Examples.shadedSquare` (corner values 10,
20, 30, 40) on a 3 x 2 grid: the parameters of the last column and of the last row are
exactly 1, and the four corners hold 10, 20, 30 and 40. -/
theorem Patch_dice_corners_binary32_witness :
    Patch.param32 0 1 3 (3 - 1) = 1 ∧ Patch.param32 0 1 2 (2 - 1) = 1 ∧
    ∃ grid : QuadGrid,
      ((Patch.ofVars Examples.shadedSquare.m_vars).dice32 3 2 { pushed := [] }).grids =
        ({ pushed := [] } : TessellationContext).grids ++ [grid] ∧
      grid.storage.value 0 0 0 = rd (Examples.shadedSquare.m_vars.data.getD 0 []) 0 ∧
      (Patch.param32 0 1 3 (3 - 1) = 1 →
        grid.storage.value 0 (3 - 1) 0 = rd (Examples.shadedSquare.m_vars.data.getD 0 [])
          (((Examples.shadedSquare.m_vars.varSet.getD 0
            ⟨EqVariableClass.class_constant, 0⟩).elSize : Int) + 0)) ∧
      (Patch.param32 0 1 2 (2 - 1) = 1 →
        grid.storage.value 0 ((2 - 1) * 3) 0 = rd (Examples.shadedSquare.m_vars.data.getD 0 [])
          (2 * ((Examples.shadedSquare.m_vars.varSet.getD 0
            ⟨EqVariableClass.class_constant, 0⟩).elSize : Int) + 0)) ∧
      (Patch.param32 0 1 3 (3 - 1) = 1 → Patch.param32 0 1 2 (2 - 1) = 1 →
        grid.storage.value 0 (2 * 3 - 1) 0 = rd (Examples.shadedSquare.m_vars.data.getD 0 [])
          (3 * ((Examples.shadedSquare.m_vars.varSet.getD 0
            ⟨EqVariableClass.class_constant, 0⟩).elSize : Int) + 0)) :=
  ⟨by decide!, by decide!,
    Patch_dice_corners_binary32 Examples.shadedSquare.m_vars 3 2 { pushed := [] } (by decide)
      (by decide) 0 (by decide) (by decide) 0 (by decide) (by decide) (by decide!) (by decide!)
      (by decide!) (by decide!)⟩

/-- C15 as stated fails on `float` values.  The rectangle `[0, 41] x [0, 1]` over the full
range, under the identity as split transform, has `lu = 41` and `lv = 1`, so
`Patch::tessellate` dices it with `nu = 42`, `nv = 2`.  In binary32 `du = 1/41` rounds to
`13094412 / 2^29`, the parameter of the last column is `du * 41 = 1 - 2^-24` and not 1, and the
grid corner `nu - 1 = 41` of the varying float with the corner values 10, 20, 30, 40 holds
`20 - 2^-19`, not the input value 20 (and the corner `nv * nu - 1 = 83` holds `40 - 2^-18`,
not 40). -/
theorem Patch_dice_corner_inexact :
    ((Patch.ofVars (Examples.rampVars 41)).tessellate32 Examples.sqrtDyadic (fun v _ => v) ⟨[]⟩
        { pushed := [] }).invoked = [Tessellator.SurfaceDicer 42 2] ∧
    Patch.param32 0 1 42 (42 - 1) = 1 - 1 / 16777216 ∧
    (∃ grid : QuadGrid,
      ((Patch.ofVars (Examples.rampVars 41)).dice32 42 2 { pushed := [] }).grids = [grid] ∧
      grid.storage.value 0 (42 - 1) 0 = 20 - 1 / 524288 ∧
      grid.storage.value 0 (2 * 42 - 1) 0 = 40 - 1 / 262144) ∧
    rd ((Examples.rampVars 41).data.getD 0 []) 1 = 20 ∧
    rd ((Examples.rampVars 41).data.getD 0 []) 3 = 40 ∧
    Binary32.IsFloat 20 ∧ Binary32.IsFloat 40 ∧
    (20 - 1 / 524288 : ℚ) ≠ 20 ∧ (40 - 1 / 262144 : ℚ) ≠ 40 := by
  refine ⟨by decide!, by decide!, ?_, by decide!, by decide!, by decide!, by decide!,
    by decide!, by decide!⟩
  obtain ⟨grid, g1, -, -, g4, -, -, g7⟩ :=
    dice32_grid (Patch.ofVars (Examples.rampVars 41)) 42 2 { pushed := [] }
  have hval := dice32_value (Patch.ofVars (Examples.rampVars 41)) 42 2 (by decide) (by decide)
    0 (by decide) grid g4 (g7 0 (by decide))
  refine ⟨grid, g1, ?_, ?_⟩
  · exact (hval 41 0 0 (by decide) (by decide) (by decide) (by decide) (by decide)
      (by decide)).trans (by decide!)
  · exact (hval 41 1 0 (by decide) (by decide) (by decide) (by decide) (by decide)
      (by decide)).trans (by decide!)

/-! ### The work loop on `float` values -/

theorem split32_pushed (self : Patch) (b : Bool) (tessCtx : TessellationContext) :
    (self.split32 b tessCtx).pushed =
      tessCtx.pushed ++ (self.split32 b { pushed := [], options := tessCtx.options }).pushed ∧
    (self.split32 b tessCtx).options = tessCtx.options := by
  unfold Patch.split32
  cases b
  · simp only [TessellationContext.push, Bool.false_eq_true, if_false, List.append_assoc,
      List.nil_append, and_self]
  · simp only [TessellationContext.push, if_true, List.append_assoc, List.nil_append, and_self]

/-- `Patch::tessellate` appends the pieces it pushes to the queue, and they depend on the
patch and the options only. -/
theorem tessellate32_pushed (sqrt : ℚ → ℚ) (xform : Vec3 → Mat4 → Vec3) (self : Patch)
    (M : Mat4) (tessCtx : TessellationContext) :
    (self.tessellate32 sqrt xform M tessCtx).pushed =
      tessCtx.pushed ++
        (self.tessellate32 sqrt xform M { pushed := [], options := tessCtx.options }).pushed ∧
    (self.tessellate32 sqrt xform M tessCtx).options = tessCtx.options := by
  unfold Patch.tessellate32
  simp only []
  by_cases h : Binary32.mul (self.lu32 sqrt xform M) (self.lv32 sqrt xform M) ≤
      Binary32.ofInt (tessCtx.options.gridSize * tessCtx.options.gridSize)
  · rw [if_pos h, if_pos h]
    unfold TessellationContext.invokeTessellator32
    simp only []
    rw [(dice32_fields _ _ _ _).2.1, (dice32_fields _ _ _ _).2.1, (dice32_fields _ _ _ _).2.2.1]
    exact ⟨(List.append_nil _).symm, rfl⟩
  · rw [if_neg h, if_neg h]
    unfold TessellationContext.invokeTessellator32
    simp only []
    obtain ⟨h1, h2⟩ := split32_pushed self
      (decide (self.lu32 sqrt xform M > self.lv32 sqrt xform M))
      { tessCtx with invoked := tessCtx.invoked ++
        [Tessellator.SurfaceSplitter (decide (self.lu32 sqrt xform M > self.lv32 sqrt xform M))] }
    obtain ⟨h3, -⟩ := split32_pushed self
      (decide (self.lu32 sqrt xform M > self.lv32 sqrt xform M))
      { pushed := [], invoked := ([] : List Tessellator) ++
        [Tessellator.SurfaceSplitter (decide (self.lu32 sqrt xform M > self.lv32 sqrt xform M))],
        options := tessCtx.options }
    refine ⟨?_, h2⟩
    rw [h1, h3]
    rfl

theorem run32_pop (sqrt : ℚ → ℚ) (xform : Vec3 → Mat4 → Vec3) (M : Mat4) (fuel : Nat)
    (tessCtx : TessellationContext) (rest : List Patch) (g : Patch)
    (h : tessCtx.pushed = rest ++ [g]) :
    TessellationContext.run32 sqrt xform M (fuel + 1) tessCtx
      = TessellationContext.run32 sqrt xform M fuel
          (g.tessellate32 sqrt xform M { tessCtx with pushed := rest }) := by
  rw [TessellationContext.run32]
  simp only [h, List.getLast?_concat, List.dropLast_concat]

theorem Binary32_round_two : Binary32.round 2 = 2 := by
  decide!

theorem Binary32_round_wide : Binary32.round 2199023255552 = 2199023255552 := by
  decide!

theorem Binary32_ofInt_grid : Binary32.ofInt (256 * 256) = 65536 := by
  decide!

theorem sqrtDyadic_zero : Examples.sqrtDyadic 0 = 0 := by
  decide!

theorem sqrtDyadic_one : Examples.sqrtDyadic 1 = 1 := by
  decide!

/-- The pieces of `Examples.widePatch` over a `u` range `[u0, 1]` and the full `v` range: when
the float operations on `u0` listed in the hypotheses are exact, the side lengths are
`lu = L = 2^41 - u0 * 2^41` and `lv = 1`, and for `L` above `256^2` the piece is split in `u`
at the middle that binary32 gives. -/
theorem widePiece_split (u0 L : ℚ) (hu : Binary32.round u0 = u0)
    (ht : Binary32.round (1 - u0) = 1 - u0)
    (hx : Binary32.round (u0 * 2199023255552) = u0 * 2199023255552)
    (hL : Binary32.round (2199023255552 - u0 * 2199023255552) = L)
    (hLL : Binary32.round (L * L) = L * L) (hs : Examples.sqrtDyadic (L * L) = L)
    (hLr : Binary32.round L = L) (h2L : Binary32.round (L + L) = L + L)
    (hbig : ¬ (L ≤ 65536)) (hgt : L > 1) :
    ((⟨Examples.widePatch.m_vars, u0, 1, 0, 1⟩ : Patch).tessellate32 Examples.sqrtDyadic
        (fun v _ => v) ⟨[]⟩ { pushed := [], options := {} }).pushed =
      [⟨Examples.widePatch.m_vars, u0,
          Binary32.round ((1 / 2 : ℚ) * Binary32.add u0 1), 0, 1⟩,
        ⟨Examples.widePatch.m_vars, Binary32.round ((1 / 2 : ℚ) * Binary32.add u0 1), 1, 0,
          1⟩] := by
  have hhalf : (1 / 2 : ℚ) * (L + L) = L := by ring
  have h11 : (1 : ℚ) + 1 = 2 := by norm_num
  have h12 : (1 / 2 : ℚ) * 2 = 1 := by norm_num
  have p0 : rd Examples.widePatch.m_vars.P 0 = ⟨0, 0, 0⟩ := by decide
  have p1 : rd Examples.widePatch.m_vars.P 1 = ⟨2199023255552, 0, 0⟩ := by decide
  have p2 : rd Examples.widePatch.m_vars.P 2 = ⟨0, 1, 0⟩ := by decide
  have p3 : rd Examples.widePatch.m_vars.P 3 = ⟨2199023255552, 1, 0⟩ := by decide
  have hlu : (⟨Examples.widePatch.m_vars, u0, 1, 0, 1⟩ : Patch).lu32 Examples.sqrtDyadic
      (fun v _ => v) ⟨[]⟩ = L := by
    simp only [Patch.lu32, Patch.getCorners32, p0, p1, p2, p3, Binary32.bilerp,
      Binary32.bilerp1, Binary32.length, Binary32.vsub, Binary32.add, Binary32.sub, Binary32.mul,
      sub_zero, sub_self, mul_zero, zero_mul, one_mul, mul_one, add_zero, zero_add,
      sub_add_cancel, Binary32_round_zero, Binary32_round_one, Binary32_round_wide, hu, ht, hx,
      hL, hLL, hs, hLr, h2L, hhalf]
  have hlv : (⟨Examples.widePatch.m_vars, u0, 1, 0, 1⟩ : Patch).lv32 Examples.sqrtDyadic
      (fun v _ => v) ⟨[]⟩ = 1 := by
    simp only [Patch.lv32, Patch.getCorners32, p0, p1, p2, p3, Binary32.bilerp,
      Binary32.bilerp1, Binary32.length, Binary32.vsub, Binary32.add, Binary32.sub, Binary32.mul,
      sub_zero, sub_self, mul_zero, zero_mul, one_mul, mul_one, add_zero, zero_add,
      sub_add_cancel, Binary32_round_zero, Binary32_round_one, Binary32_round_two,
      Binary32_round_wide, sqrtDyadic_one, hu, ht, hx, h11, h12]
  have key : ∀ lu lv : ℚ, lu = L → lv = 1 →
      (if Binary32.mul lu lv ≤ Binary32.ofInt (256 * 256) then
        ({ pushed := [], options := {} } : TessellationContext).invokeTessellator32
          (Tessellator.SurfaceDicer (1 + ifloor lu) (1 + ifloor lv))
          ⟨Examples.widePatch.m_vars, u0, 1, 0, 1⟩
      else
        ({ pushed := [], options := {} } : TessellationContext).invokeTessellator32
          (Tessellator.SurfaceSplitter (decide (lu > lv)))
          ⟨Examples.widePatch.m_vars, u0, 1, 0, 1⟩).pushed =
      [⟨Examples.widePatch.m_vars, u0,
          Binary32.round ((1 / 2 : ℚ) * Binary32.add u0 1), 0, 1⟩,
        ⟨Examples.widePatch.m_vars, Binary32.round ((1 / 2 : ℚ) * Binary32.add u0 1), 1, 0,
          1⟩] := by
    intro lu lv e1 e2
    subst e1 e2
    have hm : Binary32.mul lu 1 = lu := by
      unfold Binary32.mul
      rw [mul_one, hLr]
    rw [hm, Binary32_ofInt_grid, if_neg hbig, decide_eq_true hgt]
    rfl
  exact key _ _ hlu hlv

/-- The float operations of `Patch::tessellate` on the piece of `Examples.widePatch` over
`[1 - 2^-k, 1]`, for `k <= 24`: they are exact, and the length `2^(41 - k)` is above `256^2`. -/
theorem widePiece_exact :
    ∀ k ∈ List.range 25,
      Binary32.round (Examples.widePiece k).m_uMin = (Examples.widePiece k).m_uMin ∧
      Binary32.round (1 - (Examples.widePiece k).m_uMin) = 1 - (Examples.widePiece k).m_uMin ∧
      Binary32.round ((Examples.widePiece k).m_uMin * 2199023255552) =
        (Examples.widePiece k).m_uMin * 2199023255552 ∧
      Binary32.round (2199023255552 - (Examples.widePiece k).m_uMin * 2199023255552) =
        Examples.wideLength k ∧
      Binary32.round (Examples.wideLength k * Examples.wideLength k) =
        Examples.wideLength k * Examples.wideLength k ∧
      Examples.sqrtDyadic (Examples.wideLength k * Examples.wideLength k) =
        Examples.wideLength k ∧
      Binary32.round (Examples.wideLength k) = Examples.wideLength k ∧
      Binary32.round (Examples.wideLength k + Examples.wideLength k) =
        Examples.wideLength k + Examples.wideLength k ∧
      ¬ (Examples.wideLength k ≤ 65536) ∧ Examples.wideLength k > 1 := by
  decide!

/-- The middle `0.5*(m_uMin + m_uMax)` of the range `[1 - 2^-k, 1]` in binary32: for `k < 24`
it is `1 - 2^-(k+1)`. -/
theorem widePiece_middle :
    ∀ k ∈ List.range 24,
      Binary32.round ((1 / 2 : ℚ) * Binary32.add (Examples.widePiece k).m_uMin 1) =
        (Examples.widePiece (k + 1)).m_uMin := by
  decide!

/-- The middle of the range `[1 - 2^-24, 1]` in binary32 is 1: the sum `(1 - 2^-24) + 1`
rounds to 2. -/
theorem widePiece_middle_last :
    Binary32.add (Examples.widePiece 24).m_uMin 1 = 2 ∧
    Binary32.round ((1 / 2 : ℚ) * Binary32.add (Examples.widePiece 24).m_uMin 1) = 1 := by
  decide!

/-- The pieces of `Examples.widePatch` over the `u` ranges `[1 - 2^-k, 1]` for `k < 24` are
split in `u`, into the pieces over `[1 - 2^-k, 1 - 2^-(k+1)]` and `[1 - 2^-(k+1), 1]`. -/
theorem widePiece_children :
    ∀ k ∈ List.range 24,
      ((Examples.widePiece k).tessellate32 Examples.sqrtDyadic (fun v _ => v) ⟨[]⟩
        { pushed := [], options := {} }).pushed =
        [Examples.wideLeft k, Examples.widePiece (k + 1)] := by
  intro k hk
  have hk2 : k ∈ List.range 25 := List.mem_range.mpr (by
    have := List.mem_range.mp hk
    omega)
  obtain ⟨h1, h2, h3, h4, h5, h6, h7, h8, h9, h10⟩ := widePiece_exact k hk2
  have hsplit := widePiece_split (Examples.widePiece k).m_uMin (Examples.wideLength k)
    h1 h2 h3 h4 h5 h6 h7 h8 h9 h10
  rw [widePiece_middle k hk] at hsplit
  exact hsplit

/-- The piece over `[1 - 2^-24, 1]` is split in `u` at the middle 1 that binary32 gives: its
first child is the piece itself, the second one is the piece over `[1, 1]`. -/
theorem widePiece_fixed :
    ((Examples.widePiece 24).tessellate32 Examples.sqrtDyadic (fun v _ => v) ⟨[]⟩
      { pushed := [], options := {} }).pushed = [Examples.widePiece 24, Examples.wideEnd] := by
  obtain ⟨h1, h2, h3, h4, h5, h6, h7, h8, h9, h10⟩ :=
    widePiece_exact 24 (List.mem_range.mpr (by omega))
  have hsplit := widePiece_split (Examples.widePiece 24).m_uMin (Examples.wideLength 24)
    h1 h2 h3 h4 h5 h6 h7 h8 h9 h10
  rw [widePiece_middle_last.2] at hsplit
  exact hsplit

/-- The piece over `[1, 1]` has `lu = 0` and is diced. -/
theorem wideEnd_diced :
    (Examples.wideEnd.tessellate32 Examples.sqrtDyadic (fun v _ => v) ⟨[]⟩
      { pushed := [], options := {} }).pushed = [] := by
  decide!

/-- While the piece on top of the queue is one of the pieces of `Examples.widePatch` over
`[1 - 2^-k, 1]`, `k <= 24`, or the piece over `[1, 1]` lying on the piece over
`[1 - 2^-24, 1]`, the work loop does not return, whatever the fuel. -/
theorem run32_busy (fuel : Nat) :
    ∀ tessCtx : TessellationContext, tessCtx.options = {} →
      ((∃ (q : List Patch) (k : Nat), k ≤ 24 ∧ tessCtx.pushed = q ++ [Examples.widePiece k]) ∨
        (∃ q : List Patch, tessCtx.pushed = q ++ [Examples.widePiece 24, Examples.wideEnd])) →
      TessellationContext.run32 Examples.sqrtDyadic (fun v _ => v) ⟨[]⟩ fuel tessCtx = none := by
  induction fuel with
  | zero =>
    intro tessCtx _ h
    rw [TessellationContext.run32]
    rcases h with ⟨q, k, _, h⟩ | ⟨q, h⟩
    · rw [if_neg]
      rw [h]
      simp
    · rw [if_neg]
      rw [h]
      simp
  | succ fuel ih =>
    intro tessCtx ho h
    obtain ⟨pushed, grids, invoked, options⟩ := tessCtx
    simp only at ho h
    subst ho
    rcases h with ⟨q, k, hk, h⟩ | ⟨q, h⟩
    · subst h
      rw [run32_pop _ _ _ _ _ q _ rfl]
      obtain ⟨p1, p2⟩ := tessellate32_pushed Examples.sqrtDyadic (fun v _ => v)
        (Examples.widePiece k) ⟨[]⟩ { pushed := q, grids := grids, invoked := invoked }
      apply ih _ p2
      rcases Nat.lt_or_ge k 24 with hlt | hge
      · left
        refine ⟨q ++ [Examples.wideLeft k], k + 1, by omega, ?_⟩
        rw [p1, widePiece_children k (List.mem_range.mpr hlt)]
        simp
      · right
        have e : k = 24 := by omega
        subst e
        exact ⟨q, by rw [p1, widePiece_fixed]⟩
    · subst h
      have h2 : q ++ [Examples.widePiece 24, Examples.wideEnd] =
          (q ++ [Examples.widePiece 24]) ++ [Examples.wideEnd] := by
        simp
      rw [run32_pop _ _ _ _ _ _ _ h2]
      obtain ⟨p1, p2⟩ := tessellate32_pushed Examples.sqrtDyadic (fun v _ => v)
        Examples.wideEnd ⟨[]⟩
        { pushed := q ++ [Examples.widePiece 24], grids := grids, invoked := invoked }
      apply ih _ p2
      left
      refine ⟨q, 24, le_refl _, ?_⟩
      rw [p1, wideEnd_diced]
      simp

/-- C26 fails on the code: the work loop does not return on `Examples.wideQueue`, whatever the
fuel.  The queue holds the rectangle `[0, 2^41] x [0, 1]` over the full range, the split
transform is the identity and the grid size is the default 256.  The piece over the `u` range
`[1 - 2^-k, 1]` has `lu = 2^(41 - k)` and `lv = 1`: for `k <= 24` it is not diceable
(`lu * lv > 256^2`) and it is split in `u`.  At `k = 24` the middle `0.5*(m_uMin + m_uMax)` is 1
in binary32, as `(1 - 2^-24) + 1` rounds to 2: the first child is the piece itself, the second
one, over `[1, 1]`, is diced, and the loop pops the same piece again, without end.  Every float
operation on the way is exact except that sum. -/
theorem run32_never_returns :
    (∀ fuel : Nat, TessellationContext.run32 Examples.sqrtDyadic (fun v _ => v) ⟨[]⟩ fuel
      Examples.wideQueue = none) ∧
    Binary32.add (1 - 1 / 16777216) 1 = 2 ∧
    ((Examples.widePiece 24).tessellate32 Examples.sqrtDyadic (fun v _ => v) ⟨[]⟩
      { pushed := [] }).pushed = [Examples.widePiece 24, Examples.wideEnd] ∧
    (Examples.wideEnd.tessellate32 Examples.sqrtDyadic (fun v _ => v) ⟨[]⟩
      { pushed := [] }).pushed = [] :=
  ⟨fun fuel => run32_busy fuel Examples.wideQueue rfl (Or.inl ⟨[], 0, by omega, by decide!⟩),
    widePiece_middle_last.1, widePiece_fixed, wideEnd_diced⟩

end Aqsis
